import Mathlib

/-!
# railroad: a shallow embedding of `railroad.go`

The Go package builds railroad diagrams as a tree of `RailItem`s, computes
their metrics at construction time, and places them (method `format`) when the
diagram is serialised (`WriteTo`).

Modelling conventions, used throughout:

* `float64` is modelled by exact rational arithmetic (`ℚ`).  Under the default
  configuration, and under every configuration whose distances are integers,
  every number that arises is an integer, on which `float64` arithmetic is
  exact.  Where a property depends on the rounding of `float64`, the rounding
  is made explicit (`roundFloat64`) and the property is stated for the
  configurations on which it does not occur (`Config.exact64`).  The conversion
  `int(v)` truncates toward zero and Go's integer division truncates toward
  zero as well.
* A Go panic (an out-of-range index, or one of the `panic("virtual")` methods)
  is modelled by the result `none`.
* The package-level `Config...` variables are the fields of an explicit `Config`
  value.  `fmt.Sprint` / the verb `%v` applied to a `float64` is library code; it
  is the field `Sprint` of the configuration.
* Go elements are pointers, and `addChild(item.format(..))` stores in `children`
  the same pointer that `items` holds.  The embedding has value semantics: a
  placed element is stored both in `items` and in `children`.  The two views
  agree as long as no element object occurs twice in a tree and every element
  is placed once, as `WriteTo` does; when an element is placed a second time,
  `items` holds its state after both placements, and the copy that the first
  placement stored in `children` keeps the state after the first.
-/

namespace Railroad

/-! ## Escaping -/

/-- The table of `strings.NewReplacer` in `replacer`, in source order.  Every old
string is a single ASCII byte, so the replacer works byte by byte; no byte of a
multi-byte UTF-8 sequence is an ASCII byte, so it is modelled character by
character. -/
def replacer : List (Char × String) :=
  [ ('*', "&#42;"),
    ('_', "&#95;"),
    (Char.ofNat 96, "&#96;"),
    ('[', "&#91;"),
    (']', "&#93;"),
    ('<', "&#60;"),
    ('&', "&#38;") ]

/-- The characters written by the replacer for one character of the input: its
new string if the character is an old string of the table, else the character. -/
def replacerImage (c : Char) : List Char :=
  match replacer.lookup c with
  | some new => new.data
  | none => [c]

/-- `replacer.Replace`: the images of the characters, in order. -/
def replacerReplace (x : String) : String :=
  String.mk (x.data.flatMap replacerImage)

/-- `func e(x string) string { return replacer.Replace(x) }` -/
def e (x : String) : String := replacerReplace x

/-- The seven reserved characters named by the specification. -/
def reservedChars : List Char :=
  ['*', '_', Char.ofNat 96, '[', ']', '<', '&']

/-- The escaping of one character as the specification words it: a reserved
character becomes its numeric entity `&#<code>;`, any other character is
copied. -/
def specEscapeChar (c : Char) : String :=
  if c ∈ reservedChars then "&#" ++ toString c.toNat ++ ";" else String.singleton c

/-- The seven entities. -/
def entities : List String := replacer.map Prod.snd

/-! ## Configuration -/

/-- The package-level configuration variables, and `fmt.Sprint` on `float64`. -/
structure Config where
  ConfigVerticalSeparation : ℚ
  ConfigArcRadius : ℚ
  ConfigDiagramClass : String
  ConfigTranslateHalfPixel : Bool
  ConfigInternalAlignment : String
  ConfigDebug : Bool
  ConfigCharacterAdvance : ℚ
  ConfigDefaultStyle : String
  Sprint : ℚ → String

/-- The decimal rendering of an integer value, which is what `%v` prints for an
integer-valued `float64` of magnitude below `1e21`.  Non-integer values do not
arise under the default configuration; they are rendered as a fraction here. -/
def sprintInt (v : ℚ) : String :=
  if v.den = 1 then toString v.num else toString v.num ++ "/" ++ toString v.den

/-- The initial values of the configuration variables. -/
def defaultConfig : Config where
  ConfigVerticalSeparation := 8
  ConfigArcRadius := 10
  ConfigDiagramClass := "railroad-diagram"
  ConfigTranslateHalfPixel := true
  ConfigInternalAlignment := "center"
  ConfigDebug := false
  ConfigCharacterAdvance := 8
  ConfigDefaultStyle :=
    "    svg.railroad-diagram \x7b\n        background-color:hsl(30,20%,95%);\n    \x7d\n" ++
    "    svg.railroad-diagram path \x7b\n        stroke-width:3;\n        stroke:black;\n" ++
    "        fill:rgba(0,0,0,0);\n    \x7d\n" ++
    "    svg.railroad-diagram text \x7b\n        font:bold 14px monospace;\n" ++
    "        text-anchor:middle;\n    \x7d\n" ++
    "    svg.railroad-diagram text.label\x7b\n        text-anchor:start;\n    \x7d\n" ++
    "    svg.railroad-diagram text.comment\x7b\n        font:italic 12px monospace;\n    \x7d\n" ++
    "    svg.railroad-diagram rect\x7b\n        stroke-width:3;\n        stroke:black;\n" ++
    "        fill:hsl(120,100%,90%);\n    \x7d\n"
  Sprint := sprintInt

/-! ## Gaps -/

/-- The conversion `int(v)` of a `float64`: truncation toward zero. -/
def toInt (v : ℚ) : Int := v.num.tdiv (v.den : Int)

/-- `determineGaps(outer, inner)`.  In the last branch `int(diff) / 2` is Go's
integer division, converted back with `float64(..)`. -/
def determineGaps (cfg : Config) (outer inner : ℚ) : ℚ × ℚ :=
  let diff := outer - inner
  if cfg.ConfigInternalAlignment = "left" then
    (0, diff)
  else if cfg.ConfigInternalAlignment = "right" then
    (diff, 0)
  else
    ((((toInt diff).tdiv 2 : Int) : ℚ), (((toInt diff).tdiv 2 : Int) : ℚ))

/-! ## Data model -/

/-- `type a map[string]string`: the pairs of a map, with distinct keys. -/
abbrev a := List (String × String)

/-- The read `m[key]`: the zero value `""` for a missing key. -/
def a.get : a → String → String
  | [], _ => ""
  | (k, v) :: rest, key => if k = key then v else a.get rest key

/-- The assignment `m[key] = val`: the value of an existing key is replaced, a
new key is added. -/
def a.set : a → String → String → a
  | [], key, val => [(key, val)]
  | (k, v) :: rest, key, val =>
    if k = key then (key, val) :: rest else (k, v) :: a.set rest key val

/-- The struct `diagramItem`, without its `children` slice: the children are a
field of every `RailItem` constructor that embeds a `*diagramItem`. -/
structure diagramItem where
  name : String
  width : ℚ := 0
  height : ℚ := 0
  up : ℚ := 0
  down : ℚ := 0
  attrs : a := []
  needsSpace : Bool := false

/-- The dynamic types that implement the interface `RailItem`.  `textItem` is
the string type; every other constructor is a struct embedding `*diagramItem`
(constructor `diagramItem` is the bare `*diagramItem`), given with its children
and its own fields. -/
inductive RailItem where
  | textItem (t : String)
  | diagramItem (di : diagramItem) (children : List RailItem)
  | path (di : diagramItem) (children : List RailItem) (x y : ℚ)
  | style (di : diagramItem) (children : List RailItem) (css : String)
  | sequence (di : diagramItem) (children : List RailItem) (items : List RailItem)
  | stack (di : diagramItem) (children : List RailItem) (items : List RailItem)
  | optionalSequence (di : diagramItem) (children : List RailItem) (items : List RailItem)
  | choice (di : diagramItem) (children : List RailItem) (def_ : Int) (items : List RailItem)
  | multipleChoice (di : diagramItem) (children : List RailItem) (def_ : Int) (type_ : String)
      (items : List RailItem) (innerWidth : ℚ)
  | oneOrMore (di : diagramItem) (children : List RailItem) (item rep : RailItem)
  | start (di : diagramItem) (children : List RailItem)
  | end_ (di : diagramItem) (children : List RailItem)
  | terminal (di : diagramItem) (children : List RailItem) (text : String)
  | nonTerminal (di : diagramItem) (children : List RailItem) (text : String)
  | comment (di : diagramItem) (children : List RailItem) (text : String)
  | skip (di : diagramItem) (children : List RailItem)

namespace RailItem

/-- The embedded `*diagramItem` of an element; a `textItem` has none. -/
def base : RailItem → Option Railroad.diagramItem
  | textItem _ => none
  | diagramItem di _ => some di
  | path di _ _ _ => some di
  | style di _ _ => some di
  | sequence di _ _ => some di
  | stack di _ _ => some di
  | optionalSequence di _ _ => some di
  | choice di _ _ _ => some di
  | multipleChoice di _ _ _ _ _ => some di
  | oneOrMore di _ _ _ => some di
  | start di _ => some di
  | end_ di _ => some di
  | terminal di _ _ => some di
  | nonTerminal di _ _ => some di
  | comment di _ _ => some di
  | skip di _ => some di

/-- The `children` slice of the embedded `*diagramItem`. -/
def children : RailItem → List RailItem
  | textItem _ => []
  | diagramItem _ ch => ch
  | path _ ch _ _ => ch
  | style _ ch _ => ch
  | sequence _ ch _ => ch
  | stack _ ch _ => ch
  | optionalSequence _ ch _ => ch
  | choice _ ch _ _ => ch
  | multipleChoice _ ch _ _ _ _ => ch
  | oneOrMore _ ch _ _ => ch
  | start _ ch => ch
  | end_ _ ch => ch
  | terminal _ ch _ => ch
  | nonTerminal _ ch _ => ch
  | comment _ ch _ => ch
  | skip _ ch => ch

/-- The type switch `item.(*style)`. -/
def isStyle : RailItem → Bool
  | style _ _ _ => true
  | _ => false

/-- Whether the dynamic type is `textItem`, whose metrics methods are virtual. -/
def isText : RailItem → Bool
  | textItem _ => true
  | _ => false

/-- `getWidth()`: `textItem` panics, `*style` returns 0, every other type
returns the field of its `*diagramItem`. -/
def getWidth : RailItem → Option ℚ
  | textItem _ => none
  | style _ _ _ => some 0
  | r => r.base.map (fun di => di.width)

/-- `getHeight()`, dispatched like `getWidth`. -/
def getHeight : RailItem → Option ℚ
  | textItem _ => none
  | style _ _ _ => some 0
  | r => r.base.map (fun di => di.height)

/-- `getUp()`: `*style` returns its own field as well. -/
def getUp (r : RailItem) : Option ℚ := r.base.map (fun di => di.up)

/-- `getDown()`, as `getUp`. -/
def getDown (r : RailItem) : Option ℚ := r.base.map (fun di => di.down)

/-- `getNeedsSpace()`: `textItem` panics, `*style` returns false. -/
def getNeedsSpace : RailItem → Option Bool
  | textItem _ => none
  | style _ _ _ => some false
  | r => r.base.map (fun di => di.needsSpace)

/-- The width of an element that has one (0 stands in for a `textItem`). -/
def width (r : RailItem) : ℚ := r.getWidth.getD 0

/-- The height of an element that has one. -/
def height (r : RailItem) : ℚ := r.getHeight.getD 0

/-- The up extent of an element that has one. -/
def up (r : RailItem) : ℚ := r.getUp.getD 0

/-- The down extent of an element that has one. -/
def down (r : RailItem) : ℚ := r.getDown.getD 0

/-- The needs-space flag of an element that has one. -/
def needsSpace (r : RailItem) : Bool := r.getNeedsSpace.getD false

end RailItem

/-- `newDiagramItem(name, attrs)`; a nil map and an empty one both give an empty
map.  The metrics are zero and `needsSpace` is false. -/
def newDiagramItem (name : String) (attrs : a) : diagramItem :=
  { name := name, attrs := attrs }

/-- `newDiagramText(name, text, attrs)`: a `*diagramItem` whose only child is the
`textItem`. -/
def newDiagramText (name : String) (text : String) (attrs : a) : RailItem :=
  .diagramItem { name := name, attrs := attrs } [.textItem text]

/-! ## Path builder -/

/-- The struct `path`.  A path never has children. -/
structure path where
  di : diagramItem
  x : ℚ
  y : ℚ

namespace path

/-- A finished path as the `RailItem` handed to `addChild`. -/
def toItem (self : path) : RailItem := .path self.di [] self.x self.y

/-- The update `self.attrs["d"] += s`. -/
def appendD (self : path) (s : String) : path :=
  { self with di := { self.di with attrs := a.set self.di.attrs "d" (a.get self.di.attrs "d" ++ s) } }

/-- `m(x, y)` -/
def m (cfg : Config) (self : path) (x y : ℚ) : path :=
  self.appendD ("m" ++ cfg.Sprint x ++ " " ++ cfg.Sprint y)

/-- `h(val)`; the assignment `val = 0` under `val == 0` replaces a negative zero,
which the rationals do not have. -/
def h (cfg : Config) (self : path) (val : ℚ) : path :=
  let val := if val = 0 then 0 else val
  self.appendD ("h" ++ cfg.Sprint val)

/-- `right(val)` -/
def right (cfg : Config) (self : path) (val : ℚ) : path := self.h cfg (max 0 val)

/-- `left(val)` -/
def left (cfg : Config) (self : path) (val : ℚ) : path := self.h cfg (-(max 0 val))

/-- `v(val)` -/
def v (cfg : Config) (self : path) (val : ℚ) : path :=
  let val := if val = 0 then 0 else val
  self.appendD ("v" ++ cfg.Sprint val)

/-- `down(val)` -/
def down (cfg : Config) (self : path) (val : ℚ) : path := self.v cfg (max 0 val)

/-- `up(val)` -/
def up (cfg : Config) (self : path) (val : ℚ) : path := self.v cfg (-(max 0 val))

/-- The values `x`, `y` and `cw` computed by `arc(sweep)`.  The indexings
`sweep[0]` and `sweep[1]` panic when out of range; `||` evaluates its right
operand only when the left one is false.  The callers pass two-letter ASCII
codes, for which bytes and characters coincide. -/
def arcParams (cfg : Config) (sweep : String) : Option (ℚ × ℚ × Nat) := do
  let x := cfg.ConfigArcRadius
  let y := cfg.ConfigArcRadius
  let s0 ← sweep.data[0]?
  let c ← if s0 = 'e' then some true else (sweep.data[1]?).map (fun s1 => decide (s1 = 'w'))
  let x := if c then x * (-1) else x
  let s0 ← sweep.data[0]?
  let c ← if s0 = 's' then some true else (sweep.data[1]?).map (fun s1 => decide (s1 = 'n'))
  let y := if c then y * (-1) else y
  let cw := if sweep = "ne" ∨ sweep = "es" ∨ sweep = "sw" ∨ sweep = "wn" then 1 else 0
  pure (x, y, cw)

/-- The last statement of `arc`: appends `a<R> <R> 0 0 <cw> <x> <y>` to the
path data. -/
def arcTo (cfg : Config) (self : path) (x y : ℚ) (cw : Nat) : path :=
  self.appendD ("a" ++ cfg.Sprint cfg.ConfigArcRadius ++ " " ++ cfg.Sprint cfg.ConfigArcRadius ++
    " 0 0 " ++ toString cw ++ " " ++ cfg.Sprint x ++ " " ++ cfg.Sprint y)

/-- `arc(sweep)` -/
def arc (cfg : Config) (self : path) (sweep : String) : Option path := do
  let (x, y, cw) ← arcParams cfg sweep
  pure (self.arcTo cfg x y cw)

end path

/-- `newPath(x, y)` -/
def newPath (cfg : Config) (x y : ℚ) : path :=
  { di := newDiagramItem "path" [("d", "M" ++ cfg.Sprint x ++ " " ++ cfg.Sprint y)], x := x, y := y }

/-- The indexing `items[i]` with a Go `int` index: out of range is a panic. -/
def idx {α : Type} (items : List α) (i : Int) : Option α :=
  if i < 0 then none else items[i.toNat]?

/-! ## Constructors: leaves -/

/-- `Style(css)` -/
def Style (css : String) : RailItem :=
  .style (newDiagramItem "style" []) [] css

/-- `newStart()` -/
def newStart : RailItem :=
  .start { newDiagramItem "path" [] with width := 20, up := 10, down := 10 } []

/-- `newEnd()` -/
def newEnd : RailItem :=
  .end_ { newDiagramItem "path" [] with width := 20, up := 10, down := 10 } []

/-- `Terminal(text)`; `len(text)` is the length in bytes. -/
def Terminal (cfg : Config) (text : String) : RailItem :=
  .terminal
    { newDiagramItem "g" [("class", "terminal")] with
      width := (text.utf8ByteSize : ℚ) * cfg.ConfigCharacterAdvance + 20
      up := 11
      down := 11
      needsSpace := true } [] text

/-- `Text(text)` -/
def Text (cfg : Config) (text : String) : RailItem := Terminal cfg text

/-- `NonTerminal(text)` -/
def NonTerminal (cfg : Config) (text : String) : RailItem :=
  .nonTerminal
    { newDiagramItem "g" [("class", "non-terminal")] with
      width := (text.utf8ByteSize : ℚ) * cfg.ConfigCharacterAdvance + 20
      up := 11
      down := 11
      needsSpace := true } [] text

/-- `Comment(text)` -/
def Comment (text : String) : RailItem :=
  .comment
    { newDiagramItem "g" [] with
      width := (text.utf8ByteSize : ℚ) * 7 + 10
      up := 11
      down := 11
      needsSpace := true } [] text

/-- `Skip()` -/
def Skip : RailItem :=
  .skip { newDiagramItem "g" [] with width := 0, up := 0, down := 0 } []

/-! ## Constructors: composites -/

/-- The loop `for _, item := range items` of `Sequence`. -/
def Sequence.loop : List RailItem → diagramItem → Option diagramItem
  | [], di => some di
  | item :: rest, di => do
    let di := { di with width := di.width + (← item.getWidth) }
    let di := if (← item.getNeedsSpace) then { di with width := di.width + 20 } else di
    let di := { di with up := max di.up ((← item.getUp) - di.height) }
    let di := { di with height := di.height + (← item.getHeight) }
    let di := { di with down := max (di.down - (← item.getHeight)) (← item.getDown) }
    Sequence.loop rest di

/-- `Sequence(items...)` -/
def Sequence (items : List RailItem) : Option RailItem := do
  let di := newDiagramItem "g" []
  let di := { di with needsSpace := true, up := 0, down := 0, height := 0, width := 0 }
  let di ← Sequence.loop items di
  let di := if (← (← idx items 0).getNeedsSpace) then { di with width := di.width - 10 } else di
  let di :=
    if (← (← idx items ((items.length : Int) - 1)).getNeedsSpace) then
      { di with width := di.width - 10 }
    else di
  pure (.sequence di [] items)

/-- The first loop of `Stack`. -/
def Stack.widthLoop : List RailItem → diagramItem → Option diagramItem
  | [], di => some di
  | item :: rest, di => do
    let w ← item.getWidth
    let w := if (← item.getNeedsSpace) then w + 20 else w
    let di := { di with width := max di.width w }
    Stack.widthLoop rest di

/-- The second loop of `Stack`, `for i, item := range items`, from index `i`. -/
def Stack.heightLoop (cfg : Config) (last : Int) : List RailItem → Nat → diagramItem → Option diagramItem
  | [], _, di => some di
  | item :: rest, i, di => do
    let di := { di with height := di.height + (← item.getHeight) }
    let di ←
      if i > 0 then do
        let t := max (cfg.ConfigArcRadius * 2) ((← item.getUp) + cfg.ConfigVerticalSeparation)
        pure { di with height := di.height + t }
      else pure di
    let di ←
      if (i : Int) < last then do
        let t := max (cfg.ConfigArcRadius * 2) ((← item.getDown) + cfg.ConfigVerticalSeparation)
        pure { di with height := di.height + t }
      else pure di
    Stack.heightLoop cfg last rest (i + 1) di

/-- `Stack(items...)` -/
def Stack (cfg : Config) (items : List RailItem) : Option RailItem := do
  let di := newDiagramItem "g" []
  let di := { di with needsSpace := true }
  let di ← Stack.widthLoop items di
  let di := if items.length > 1 then { di with width := di.width + cfg.ConfigArcRadius * 2 } else di
  let di := { di with up := (← (← idx items 0).getUp) }
  let di := { di with down := (← (← idx items ((items.length : Int) - 1)).getDown) }
  let di := { di with height := 0 }
  let last : Int := (items.length : Int) - 1
  let di ← Stack.heightLoop cfg last items 0 di
  pure (.stack di [] items)

/-- The first loop of `OptionalSequence`. -/
def OptionalSequence.heightLoop : List RailItem → diagramItem → Option diagramItem
  | [], di => some di
  | item :: rest, di => do
    let di := { di with height := di.height + (← item.getHeight) }
    OptionalSequence.heightLoop rest di

/-- The second loop of `OptionalSequence`, from index `i`, with `heightSoFar`. -/
def OptionalSequence.loop (cfg : Config) :
    List RailItem → Nat → diagramItem → ℚ → Option diagramItem
  | [], _, di, _ => some di
  | item :: rest, i, di, heightSoFar => do
    let t := max (cfg.ConfigArcRadius * 2) ((← item.getUp) + cfg.ConfigVerticalSeparation)
    let di := { di with up := max di.up (t - heightSoFar) }
    let heightSoFar := heightSoFar + (← item.getHeight)
    let di ←
      if i > 0 then do
        let t := max (cfg.ConfigArcRadius * 2) ((← item.getDown) + cfg.ConfigVerticalSeparation)
        pure { di with down := max (di.height + di.down) (heightSoFar + t) - di.height }
      else pure di
    let itemWidth ← item.getWidth
    let itemWidth := if (← item.getNeedsSpace) then itemWidth + 20 else itemWidth
    let di :=
      if i = 0 then
        { di with width := di.width + (cfg.ConfigArcRadius + max itemWidth cfg.ConfigArcRadius) }
      else
        let t := cfg.ConfigArcRadius * 2 + max itemWidth cfg.ConfigArcRadius + cfg.ConfigArcRadius
        { di with width := di.width + t }
    OptionalSequence.loop cfg rest (i + 1) di heightSoFar

/-- `OptionalSequence(items...)` -/
def OptionalSequence (cfg : Config) (items : List RailItem) : Option RailItem :=
  if items.length ≤ 1 then
    Sequence items
  else do
    let di := newDiagramItem "g" []
    let di := { di with needsSpace := false, width := 0, up := 0, height := 0 }
    let di ← OptionalSequence.heightLoop items di
    let di := { di with down := (← (← idx items 0).getDown) }
    let di ← OptionalSequence.loop cfg items 0 di 0
    pure (.optionalSequence di [] items)

/-- The first loop of `Choice` and of `MultipleChoice`: the maximum width. -/
def maxWidthLoop : List RailItem → ℚ → Option ℚ
  | [], w => some w
  | item :: rest, w => do
    let w := max w (← item.getWidth)
    maxWidthLoop rest w

/-- The loop `for i, item := range items` over the branches, from index `i`,
common to `Choice` (`adjacent` is `ConfigArcRadius * 2`) and `MultipleChoice`
(`adjacent` is `10 + ConfigArcRadius`); `items` is the whole slice. -/
def branchLoop (cfg : Config) (adjacent : ℚ) (default_ : Int) (items : List RailItem) :
    List RailItem → Nat → diagramItem → Option diagramItem
  | [], _, di => some di
  | item :: rest, i, di => do
    let arcs := cfg.ConfigArcRadius
    let arcs := if (i : Int) = default_ - 1 ∨ (i : Int) = default_ + 1 then adjacent else arcs
    let di ←
      if (i : Int) < default_ then do
        let t := (← item.getHeight) + (← item.getDown) + cfg.ConfigVerticalSeparation +
          (← (← idx items ((i : Int) + 1)).getUp)
        pure { di with up := di.up + max arcs t }
      else if (i : Int) = default_ then
        pure di
      else do
        let t := (← item.getUp) + cfg.ConfigVerticalSeparation +
          (← (← idx items ((i : Int) - 1)).getDown) + (← (← idx items ((i : Int) - 1)).getHeight)
        pure { di with down := di.down + max arcs t }
    branchLoop cfg adjacent default_ items rest (i + 1) di

/-- `Choice(default_, items...)` -/
def Choice (cfg : Config) (default_ : Int) (items : List RailItem) : Option RailItem := do
  let di := newDiagramItem "g" []
  let di := { di with width := (← maxWidthLoop items di.width) }
  let di := { di with width := di.width + cfg.ConfigArcRadius * 4 }
  let di := { di with up := (← (← idx items 0).getUp) }
  let di := { di with down := (← (← idx items ((items.length : Int) - 1)).getDown) }
  let di := { di with height := (← (← idx items default_).getHeight) }
  let di ← branchLoop cfg (cfg.ConfigArcRadius * 2) default_ items items 0 di
  let di := { di with down := di.down - (← (← idx items default_).getHeight) }
  pure (.choice di [] default_ items)

/-- `type MultipleChoiceType string` -/
abbrev MultipleChoiceType := String

/-- `MultipleChoiceAny` -/
def MultipleChoiceAny : MultipleChoiceType := "any"

/-- `MultipleChoiceAll` -/
def MultipleChoiceAll : MultipleChoiceType := "all"

/-- `MultipleChoice(default_, type_, items...)` -/
def MultipleChoice (cfg : Config) (default_ : Int) (type_ : MultipleChoiceType)
    (items : List RailItem) : Option RailItem := do
  let di := newDiagramItem "g" []
  let di := { di with needsSpace := true }
  let innerWidth ← maxWidthLoop items 0
  let di := { di with width := 30 + cfg.ConfigArcRadius + innerWidth + cfg.ConfigArcRadius + 20 }
  let di := { di with up := (← (← idx items 0).getUp) }
  let di := { di with down := (← (← idx items ((items.length : Int) - 1)).getDown) }
  let di := { di with height := (← (← idx items default_).getHeight) }
  let di ← branchLoop cfg (10 + cfg.ConfigArcRadius) default_ items items 0 di
  let di := { di with down := di.down - (← (← idx items default_).getHeight) }
  pure (.multipleChoice di [] default_ type_ items innerWidth)

/-- The loop `for _, opt := range options { if opt.f != nil { v = *opt.f } }`
of the constructors that take options: the last value that is set, or the
initial value if none is. -/
def lastSet {α β : Type} (f : α → Option β) (options : List α) (init : β) : β :=
  options.foldl (fun v opt =>
    match f opt with
    | some p => p
    | none => v) init

/-- `type OptionalOption struct { skip *bool }` -/
structure OptionalOption where
  skip : Option Bool

/-- `OptionalSkip(skip)` -/
def OptionalSkip (skip : Bool) : OptionalOption := { skip := some skip }

/-- `Optional(item, options...)` -/
def Optional (cfg : Config) (item : RailItem) (options : List OptionalOption) : Option RailItem :=
  let skip := lastSet OptionalOption.skip options false
  let which : Int := 1
  let which := if skip then 0 else which
  Choice cfg which [Skip, item]

/-- `type OneOrMoreOption struct { repeat *RailItem }`: the pointer may be nil
and the interface value it points to may be nil. -/
structure OneOrMoreOption where
  repeat_ : Option (Option RailItem)

/-- `OneOrMoreRepeat(repeat)`; the argument may be the nil interface. -/
def OneOrMoreRepeat (repeat_ : Option RailItem) : OneOrMoreOption := { repeat_ := some repeat_ }

/-- `OneOrMore(item, options...)` -/
def OneOrMore (cfg : Config) (item : RailItem) (options : List OneOrMoreOption) : Option RailItem := do
  let repeat_ : Option RailItem := lastSet OneOrMoreOption.repeat_ options none
  let di := newDiagramItem "g" []
  let repeat_ : RailItem :=
    match repeat_ with
    | none => Skip
    | some r => r
  let di := { di with width := max (← item.getWidth) (← repeat_.getWidth) + cfg.ConfigArcRadius * 2 }
  let di := { di with height := (← item.getHeight) }
  let di := { di with up := (← item.getUp) }
  let t := (← item.getDown) + cfg.ConfigVerticalSeparation + (← repeat_.getUp) +
    (← repeat_.getHeight) + (← repeat_.getDown)
  let di := { di with down := max (cfg.ConfigArcRadius * 2) t }
  let di := { di with needsSpace := true }
  pure (.oneOrMore di [] item repeat_)

/-- `type ZeroOrMoreOption struct { repeat *RailItem; skip *bool }` -/
structure ZeroOrMoreOption where
  repeat_ : Option (Option RailItem)
  skip : Option Bool

/-- `ZeroOrMoreSkip(skip)` -/
def ZeroOrMoreSkip (skip : Bool) : ZeroOrMoreOption := { repeat_ := none, skip := some skip }

/-- `ZeroOrMoreRepeat(repeat)` -/
def ZeroOrMoreRepeat (repeat_ : Option RailItem) : ZeroOrMoreOption :=
  { repeat_ := some repeat_, skip := none }

/-- `ZeroOrMore(item, options...)` -/
def ZeroOrMore (cfg : Config) (item : RailItem) (options : List ZeroOrMoreOption) : Option RailItem := do
  let repeat_ : Option RailItem := lastSet ZeroOrMoreOption.repeat_ options none
  let skip : Bool := lastSet ZeroOrMoreOption.skip options false
  Optional cfg (← OneOrMore cfg item [OneOrMoreRepeat repeat_]) [OptionalSkip skip]

/-- The struct `diagram`, with the children of its `*diagramItem`.  `Diagram`
returns it as an `io.WriterTo`, so it is never handed to a constructor as an
item. -/
structure diagram where
  di : diagramItem
  children : List RailItem
  type_ : String
  css : String
  items : List RailItem
  formatted : Bool

/-- The loop of `Diagram` over `items_`, which skips every `*style`. -/
def Diagram.loop : List RailItem → diagramItem → Option diagramItem
  | [], di => some di
  | item :: rest, di =>
    if item.isStyle then
      Diagram.loop rest di
    else do
      let di := { di with width := di.width + (← item.getWidth) }
      let di := if (← item.getNeedsSpace) then { di with width := di.width + 20 } else di
      let di := { di with up := max di.up ((← item.getUp) - di.height) }
      let di := { di with height := di.height + (← item.getHeight) }
      let di := { di with down := max (di.down - (← item.getHeight)) (← item.getDown) }
      Diagram.loop rest di

/-- The slice `items_` built by `Diagram`. -/
def Diagram.items_ (cfg : Config) (items : List RailItem) : List RailItem :=
  let css := cfg.ConfigDefaultStyle
  let items_ : List RailItem := []
  let items_ := if css ≠ "" then items_ ++ [Style css] else items_
  let items_ := items_ ++ [newStart]
  let items_ := items_ ++ items
  let items_ := items_ ++ [newEnd]
  items_

/-- `Diagram(items...)` -/
def Diagram (cfg : Config) (items : List RailItem) : Option diagram := do
  let di := newDiagramItem "svg" [("class", cfg.ConfigDiagramClass)]
  let css := cfg.ConfigDefaultStyle
  let items_ := Diagram.items_ cfg items
  let di ← Diagram.loop items_ di
  let di := if (← (← idx items_ 0).getNeedsSpace) then { di with width := di.width - 10 } else di
  let di :=
    if (← (← idx items_ ((items_.length : Int) - 1)).getNeedsSpace) then
      { di with width := di.width - 10 }
    else di
  pure { di := di, children := [], type_ := "", css := css, items := items_, formatted := false }

/-! ## Placement

Every `format` method of a composite is a sequence of `self.addChild(..)` calls.
The methods are translated in two layers.  The functions `*.steps` translate the
method bodies and their loops, reading only the metrics of the items, and
produce the list of `addChild` calls in order: `Step.add c` for a primitive `c`
built on the spot, `Step.place i x y w` for `self.addChild(items[i].format(x, y,
w))`.  The function `format` then performs the recorded `format` call of every
item and appends the children. -/

/-- One call `self.addChild(..)` made by a `format` method. -/
inductive Step where
  | add (child : RailItem)
  | place (i : Nat) (x y width : ℚ)

/-- The arguments of the `format` call recorded for `items[i]`. -/
def placeArgs : List Step → Nat → Option (ℚ × ℚ × ℚ)
  | [], _ => none
  | Step.add _ :: rest, i => placeArgs rest i
  | Step.place j x y w :: rest, i => if j = i then some (x, y, w) else placeArgs rest i

/-- The children appended by a list of steps, given the placed items. -/
def assemble (items : List RailItem) : List Step → Option (List RailItem)
  | [] => some []
  | Step.add c :: rest => do
    let tail ← assemble items rest
    pure (c :: tail)
  | Step.place i _ _ _ :: rest => do
    let c ← items[i]?
    let tail ← assemble items rest
    pure (c :: tail)

/-- The loop `for i, item := range items { body }`, from index `i`, for a body
that adds children and updates the variables `s` that the loop carries (the
cursor, or `distanceFromY`). -/
def forRange {σ : Type} (body : RailItem → Nat → σ → Option (List Step × σ)) :
    List RailItem → Nat → σ → Option (List Step × σ)
  | [], _, s => some ([], s)
  | item :: rest, i, s => do
    let (steps, s) ← body item i s
    let (tail, s) ← forRange body rest (i + 1) s
    pure (steps ++ tail, s)

/-- The body of the loop of `sequence.format` at index `i`, on the cursor
`(x, y)`; `n` is `len(self.items)`. -/
def sequence.formatBody (cfg : Config) (n : Nat) (item : RailItem) (i : Nat) (cursor : ℚ × ℚ) :
    Option (List Step × (ℚ × ℚ)) := do
  let (x, y) := cursor
  let (pre, x) :=
    if (← item.getNeedsSpace) && decide (i > 0) then
      ([Step.add ((newPath cfg x y).h cfg 10).toItem], x + 10)
    else ([], x)
  let s := Step.place i x y (← item.getWidth)
  let x := x + (← item.getWidth)
  let y := y + (← item.getHeight)
  let (post, x) :=
    if (← item.getNeedsSpace) && decide ((i : Int) < (n : Int) - 1) then
      ([Step.add ((newPath cfg x y).h cfg 10).toItem], x + 10)
    else ([], x)
  pure (pre ++ s :: post, (x, y))

/-- The body of `sequence.format`: the steps and the final cursor. -/
def sequence.steps (cfg : Config) (self : diagramItem) (items : List RailItem) (x y width : ℚ) :
    Option (List Step × ℚ × ℚ) := do
  let (leftGap, rightGap) := determineGaps cfg width self.width
  let s1 := Step.add ((newPath cfg x y).h cfg leftGap).toItem
  let s2 := Step.add ((newPath cfg (x + leftGap + self.width) (y + self.height)).h cfg rightGap).toItem
  let x := x + leftGap
  let (tail, x, y) ← forRange (sequence.formatBody cfg items.length) items 0 (x, y)
  pure (s1 :: s2 :: tail, x, y)

/-- The connector drawn by `stack.format` after row `i`:
`newPath(x, y).arc("ne").down(..).arc("es").left(innerWidth).arc("nw").down(..).arc("ws")`. -/
def stack.connector (cfg : Config) (items : List RailItem) (innerWidth : ℚ) (item : RailItem)
    (i : Nat) (x y : ℚ) : Option path := do
  let p ← (newPath cfg x y).arc cfg "ne"
  let p := p.down cfg (max 0 ((← item.getDown) + cfg.ConfigVerticalSeparation -
    2 * cfg.ConfigArcRadius))
  let p ← p.arc cfg "es"
  let p := p.left cfg innerWidth
  let p ← p.arc cfg "nw"
  let p := p.down cfg (max 0 ((← (← idx items ((i : Int) + 1)).getUp) +
    cfg.ConfigVerticalSeparation - cfg.ConfigArcRadius * 2))
  p.arc cfg "ws"

/-- The body of the loop of `stack.format` at index `i`, on the cursor `(x, y)`;
`items` is the whole slice. -/
def stack.formatBody (cfg : Config) (items : List RailItem) (xInitial innerWidth : ℚ)
    (item : RailItem) (i : Nat) (cursor : ℚ × ℚ) : Option (List Step × (ℚ × ℚ)) := do
  let (x, y) := cursor
  let s := Step.place i x y innerWidth
  let x := x + innerWidth
  let y := y + (← item.getHeight)
  if (i : Int) ≠ (items.length : Int) - 1 then do
    let p ← stack.connector cfg items innerWidth item i x y
    let y := y + (max ((← item.getDown) + cfg.ConfigVerticalSeparation) (cfg.ConfigArcRadius * 2) +
      max ((← (← idx items ((i : Int) + 1)).getUp) + cfg.ConfigVerticalSeparation)
        (cfg.ConfigArcRadius * 2))
    let x := xInitial + cfg.ConfigArcRadius
    pure ([s, Step.add p.toItem], (x, y))
  else
    pure ([s], (x, y))

/-- The body of `stack.format`: the steps and the final cursor. -/
def stack.steps (cfg : Config) (self : diagramItem) (items : List RailItem) (x y width : ℚ) :
    Option (List Step × ℚ × ℚ) := do
  let (leftGap, rightGap) := determineGaps cfg width self.width
  let s0 := [Step.add ((newPath cfg x y).h cfg leftGap).toItem]
  let x := x + leftGap
  let xInitial := x
  let (s1, x, innerWidth) :=
    if items.length > 1 then
      ([Step.add ((newPath cfg x y).h cfg cfg.ConfigArcRadius).toItem], x + cfg.ConfigArcRadius,
        self.width - cfg.ConfigArcRadius * 2)
    else ([], x, self.width)
  let (s2, x, y) ← forRange (stack.formatBody cfg items xInitial innerWidth) items 0 (x, y)
  let (s3, x) :=
    if items.length > 1 then
      ([Step.add ((newPath cfg x y).h cfg cfg.ConfigArcRadius).toItem], x + cfg.ConfigArcRadius)
    else ([], x)
  let s4 := [Step.add ((newPath cfg x y).h cfg rightGap).toItem]
  pure (s0 ++ s1 ++ s2 ++ s3 ++ s4, x, y)

/-- The bypass path over the first item of an `optionalSequence`:
`newPath(x, y).arc("se").up(..).arc("wn").right(..).arc("ne").down(..).arc("ws")`. -/
def optionalSequence.firstPath (cfg : Config) (upperLineY : ℚ) (item : RailItem)
    (x y itemWidth : ℚ) : Option path := do
  let p ← (newPath cfg x y).arc cfg "se"
  let p := p.up cfg (y - upperLineY - cfg.ConfigArcRadius * 2)
  let p ← p.arc cfg "wn"
  let p := p.right cfg (itemWidth - cfg.ConfigArcRadius)
  let p ← p.arc cfg "ne"
  let p := p.down cfg (y + (← item.getHeight) - upperLineY - cfg.ConfigArcRadius * 2)
  p.arc cfg "ws"

/-- The upper rail over a middle item of an `optionalSequence`:
`newPath(x, upperLineY).right(..).arc("ne").down(..).arc("ws")`. -/
def optionalSequence.upperPath (cfg : Config) (upperLineY : ℚ) (item : RailItem)
    (x y itemWidth : ℚ) : Option path := do
  let p := (newPath cfg x upperLineY).right cfg
    (cfg.ConfigArcRadius * 2 + max itemWidth cfg.ConfigArcRadius + cfg.ConfigArcRadius)
  let p ← p.arc cfg "ne"
  let p := p.down cfg (y - upperLineY + (← item.getHeight) - cfg.ConfigArcRadius * 2)
  p.arc cfg "ws"

/-- The path drawn below an item of an `optionalSequence` that is not the first
one (the same expression in both branches of the source):
`newPath(x, y).arc("ne").down(..).arc("ws").right(..).arc("se").up(..).arc("wn")`. -/
def optionalSequence.lowerPath (cfg : Config) (item : RailItem) (x y itemWidth : ℚ) : Option path := do
  let p ← (newPath cfg x y).arc cfg "ne"
  let p := p.down cfg ((← item.getHeight) +
    max ((← item.getDown) + cfg.ConfigVerticalSeparation) (cfg.ConfigArcRadius * 2) -
    cfg.ConfigArcRadius * 2)
  let p ← p.arc cfg "ws"
  let p := p.right cfg (itemWidth - cfg.ConfigArcRadius)
  let p ← p.arc cfg "se"
  let p := p.up cfg ((← item.getDown) + cfg.ConfigVerticalSeparation - cfg.ConfigArcRadius * 2)
  p.arc cfg "wn"

/-- The body of the loop of `optionalSequence.format` at index `i`, on the
cursor `(x, y)`; `last` is `len(self.items) - 1`. -/
def optionalSequence.formatBody (cfg : Config) (upperLineY : ℚ) (last : Int) (item : RailItem)
    (i : Nat) (cursor : ℚ × ℚ) : Option (List Step × (ℚ × ℚ)) := do
  let (x, y) := cursor
  let itemSpace : ℚ := 0
  let itemSpace := if (← item.getNeedsSpace) then 10 else itemSpace
  let itemWidth := (← item.getWidth) + itemSpace
  if i = 0 then do
    let p ← optionalSequence.firstPath cfg upperLineY item x y itemWidth
    let q := (newPath cfg x y).right cfg (itemSpace + cfg.ConfigArcRadius)
    let s := Step.place i (x + itemSpace + cfg.ConfigArcRadius) y (← item.getWidth)
    let x := x + (itemWidth + cfg.ConfigArcRadius)
    let y := y + (← item.getHeight)
    pure ([Step.add p.toItem, Step.add q.toItem, s], (x, y))
  else if (i : Int) < last then do
    let p ← optionalSequence.upperPath cfg upperLineY item x y itemWidth
    let q := (newPath cfg x y).right cfg (cfg.ConfigArcRadius * 2)
    let s := Step.place i (x + cfg.ConfigArcRadius * 2) y (← item.getWidth)
    let r := (newPath cfg (x + (← item.getWidth) + cfg.ConfigArcRadius * 2)
      (y + (← item.getHeight))).right cfg (itemSpace + cfg.ConfigArcRadius)
    let t ← optionalSequence.lowerPath cfg item x y itemWidth
    let x := x + (cfg.ConfigArcRadius * 2 + max itemWidth cfg.ConfigArcRadius + cfg.ConfigArcRadius)
    let y := y + (← item.getHeight)
    pure ([Step.add p.toItem, Step.add q.toItem, s, Step.add r.toItem, Step.add t.toItem], (x, y))
  else do
    let q := (newPath cfg x y).right cfg (cfg.ConfigArcRadius * 2)
    let s := Step.place i (x + cfg.ConfigArcRadius * 2) y (← item.getWidth)
    let r := (newPath cfg (x + cfg.ConfigArcRadius * 2 + (← item.getWidth))
      (y + (← item.getHeight))).right cfg (itemSpace + cfg.ConfigArcRadius)
    let t ← optionalSequence.lowerPath cfg item x y itemWidth
    pure ([Step.add q.toItem, s, Step.add r.toItem, Step.add t.toItem], (x, y))

/-- The body of `optionalSequence.format`: the steps and the final cursor. -/
def optionalSequence.steps (cfg : Config) (self : diagramItem) (items : List RailItem)
    (x y width : ℚ) : Option (List Step × ℚ × ℚ) := do
  let (leftGap, rightGap) := determineGaps cfg width self.width
  let s1 := Step.add ((newPath cfg x y).right cfg leftGap).toItem
  let s2 := Step.add
    ((newPath cfg (x + leftGap + self.width) (y + self.height)).right cfg rightGap).toItem
  let x := x + leftGap
  let upperLineY := y - self.up
  let last : Int := (items.length : Int) - 1
  let (tail, x, y) ← forRange (optionalSequence.formatBody cfg upperLineY last) items 0 (x, y)
  pure (s1 :: s2 :: tail, x, y)

/-- `newPath(x, y).arc("se").up(distanceFromY - ConfigArcRadius*2).arc("wn")` -/
def choice.aboveEntry (cfg : Config) (x y distanceFromY : ℚ) : Option path := do
  let p ← (newPath cfg x y).arc cfg "se"
  let p := p.up cfg (distanceFromY - cfg.ConfigArcRadius * 2)
  p.arc cfg "wn"

/-- The path that leads a branch above the default back to the main line. -/
def choice.aboveExit (cfg : Config) (dflt item : RailItem) (x y innerWidth distanceFromY : ℚ) :
    Option path := do
  let p ← (newPath cfg (x + cfg.ConfigArcRadius * 2 + innerWidth)
    (y - distanceFromY + (← item.getHeight))).arc cfg "ne"
  let p := p.down cfg (distanceFromY - (← item.getHeight) + (← dflt.getHeight) -
    cfg.ConfigArcRadius * 2)
  p.arc cfg "ws"

/-- `newPath(x, y).arc("ne").down(distanceFromY - ConfigArcRadius*2).arc("ws")` -/
def choice.belowEntry (cfg : Config) (x y distanceFromY : ℚ) : Option path := do
  let p ← (newPath cfg x y).arc cfg "ne"
  let p := p.down cfg (distanceFromY - cfg.ConfigArcRadius * 2)
  p.arc cfg "ws"

/-- The path that leads a branch below the default back to the main line. -/
def choice.belowExit (cfg : Config) (dflt item : RailItem) (x y innerWidth distanceFromY : ℚ) :
    Option path := do
  let p ← (newPath cfg (x + cfg.ConfigArcRadius * 2 + innerWidth)
    (y + distanceFromY + (← item.getHeight))).arc cfg "se"
  let p := p.up cfg (distanceFromY - cfg.ConfigArcRadius * 2 + (← item.getHeight) -
    (← dflt.getHeight))
  p.arc cfg "wn"

/-- The body of the loop `for i, item := range above` of `choice.format` at
index `i`, on `distanceFromY`; `above` is the reversed slice, whose entry `i` is
`self.items[i]` after the reversal. -/
def choice.aboveBody (cfg : Config) (x y innerWidth : ℚ) (dflt : RailItem) (above : List RailItem)
    (item : RailItem) (i : Nat) (distanceFromY : ℚ) : Option (List Step × ℚ) := do
  let ni : Int := (i : Int) - (above.length : Int)
  let p ← choice.aboveEntry cfg x y distanceFromY
  let s := Step.place i (x + cfg.ConfigArcRadius * 2) (y - distanceFromY) innerWidth
  let q ← choice.aboveExit cfg dflt item x y innerWidth distanceFromY
  let distanceFromY ←
    if ni < -1 then do
      let next ← idx above ((i : Int) + 1)
      pure (distanceFromY + max cfg.ConfigArcRadius
        ((← item.getUp) + cfg.ConfigVerticalSeparation + (← next.getDown) + (← next.getHeight)))
    else pure distanceFromY
  pure ([Step.add p.toItem, s, Step.add q.toItem], distanceFromY)

/-- The body of the loop `for i, item := range below` of `choice.format` at
index `i`, on `distanceFromY`; entry `i` of `below` is `self.items[first + i]`. -/
def choice.belowBody (cfg : Config) (x y innerWidth : ℚ) (dflt : RailItem) (below : List RailItem)
    (first : Nat) (item : RailItem) (i : Nat) (distanceFromY : ℚ) : Option (List Step × ℚ) := do
  let p ← choice.belowEntry cfg x y distanceFromY
  let s := Step.place (first + i) (x + cfg.ConfigArcRadius * 2) (y + distanceFromY) innerWidth
  let q ← choice.belowExit cfg dflt item x y innerWidth distanceFromY
  let belowAmount : ℚ := 0
  let belowAmount ←
    if i + 1 < below.length then do
      pure (← (← idx below ((i : Int) + 1)).getUp)
    else pure belowAmount
  let distanceFromY := distanceFromY + max cfg.ConfigArcRadius
    ((← item.getHeight) + (← item.getDown) + cfg.ConfigVerticalSeparation + belowAmount)
  pure ([Step.add p.toItem, s, Step.add q.toItem], distanceFromY)

/-- The statement `if len(above) > 0 { distanceFromY = max(minimum, ..) }` of
`choice.format` (where `minimum` is `ConfigArcRadius*2`) and of
`multipleChoice.format` (where it is `10+ConfigArcRadius`). -/
def startAbove (cfg : Config) (minimum : ℚ) (dflt : RailItem) (above : List RailItem)
    (distanceFromY : ℚ) : Option ℚ :=
  if above.length > 0 then do
    let first ← idx above 0
    pure (max minimum
      ((← dflt.getUp) + cfg.ConfigVerticalSeparation + (← first.getDown) + (← first.getHeight)))
  else pure distanceFromY

/-- The statement `if len(below) > 0 { distanceFromY = max(minimum, ..) }` of
`choice.format` and of `multipleChoice.format`. -/
def startBelow (cfg : Config) (minimum : ℚ) (dflt : RailItem) (below : List RailItem)
    (distanceFromY : ℚ) : Option ℚ :=
  if below.length > 0 then do
    let first ← idx below 0
    pure (max minimum
      ((← dflt.getHeight) + (← dflt.getDown) + cfg.ConfigVerticalSeparation + (← first.getUp)))
  else pure distanceFromY

/-- The slice `self.items` after `above := self.items[:self.def]` has been
reversed in place. -/
def reverseAbove (d : Nat) (items : List RailItem) : List RailItem :=
  (items.take d).reverse ++ items.drop d

/-- The body of `choice.format`.  The indices of the steps refer to
`self.items` after the in-place reversal of `above`. -/
def choice.steps (cfg : Config) (self : diagramItem) (def_ : Int) (items : List RailItem)
    (x y width : ℚ) : Option (List Step) := do
  let (leftGap, rightGap) := determineGaps cfg width self.width
  let s1 := Step.add ((newPath cfg x y).h cfg leftGap).toItem
  let s2 := Step.add ((newPath cfg (x + leftGap + self.width) (y + self.height)).h cfg rightGap).toItem
  let x := x + leftGap
  let innerWidth := self.width - cfg.ConfigArcRadius * 4
  let dflt ← idx items def_
  let above := (items.take def_.toNat).reverse
  let distanceFromY : ℚ := 0
  let distanceFromY ← startAbove cfg (cfg.ConfigArcRadius * 2) dflt above distanceFromY
  let (sa, distanceFromY) ←
    forRange (choice.aboveBody cfg x y innerWidth dflt above) above 0 distanceFromY
  let m1 := Step.add ((newPath cfg x y).right cfg (cfg.ConfigArcRadius * 2)).toItem
  let m2 := Step.place def_.toNat (x + cfg.ConfigArcRadius * 2) y innerWidth
  let m3 := Step.add ((newPath cfg (x + cfg.ConfigArcRadius * 2 + innerWidth)
    (y + self.height)).right cfg (cfg.ConfigArcRadius * 2)).toItem
  let below := items.drop (def_.toNat + 1)
  let distanceFromY ← startBelow cfg (cfg.ConfigArcRadius * 2) dflt below distanceFromY
  let (sb, _) ←
    forRange (choice.belowBody cfg x y innerWidth dflt below (def_.toNat + 1)) below 0 distanceFromY
  pure (s1 :: s2 :: sa ++ [m1, m2, m3] ++ sb)

/-- `newPath(x+30, y).up(distanceFromY - ConfigArcRadius).arc("wn")` -/
def multipleChoice.aboveEntry (cfg : Config) (x y distanceFromY : ℚ) : Option path :=
  ((newPath cfg (x + 30) y).up cfg (distanceFromY - cfg.ConfigArcRadius)).arc cfg "wn"

/-- The path after a branch above the default of a `multipleChoice`. -/
def multipleChoice.aboveExit (cfg : Config) (dflt item : RailItem) (x y innerWidth distanceFromY : ℚ) :
    Option path := do
  let p ← (newPath cfg (x + 30 + cfg.ConfigArcRadius + innerWidth)
    (y - distanceFromY + (← item.getHeight))).arc cfg "ne"
  pure (p.down cfg (distanceFromY - (← item.getHeight) + (← dflt.getHeight) -
    cfg.ConfigArcRadius - 10))

/-- `newPath(x+30, y).down(distanceFromY - ConfigArcRadius).arc("ws")` -/
def multipleChoice.belowEntry (cfg : Config) (x y distanceFromY : ℚ) : Option path :=
  ((newPath cfg (x + 30) y).down cfg (distanceFromY - cfg.ConfigArcRadius)).arc cfg "ws"

/-- The path after a branch below the default of a `multipleChoice`. -/
def multipleChoice.belowExit (cfg : Config) (dflt item : RailItem) (x y innerWidth distanceFromY : ℚ) :
    Option path := do
  let p ← (newPath cfg (x + 30 + cfg.ConfigArcRadius + innerWidth)
    (y + distanceFromY + (← item.getHeight))).arc cfg "se"
  pure (p.up cfg (distanceFromY - cfg.ConfigArcRadius + (← item.getHeight) -
    (← dflt.getHeight) - 10))

/-- The body of the loop `for i, item := range above` of
`multipleChoice.format` at index `i`; here `ni := len(above) - i`. -/
def multipleChoice.aboveBody (cfg : Config) (x y innerWidth : ℚ) (dflt : RailItem)
    (above : List RailItem) (item : RailItem) (i : Nat) (distanceFromY : ℚ) :
    Option (List Step × ℚ) := do
  let ni : Int := (above.length : Int) - (i : Int)
  let p ← multipleChoice.aboveEntry cfg x y distanceFromY
  let s := Step.place i (x + 30 + cfg.ConfigArcRadius) (y - distanceFromY) innerWidth
  let q ← multipleChoice.aboveExit cfg dflt item x y innerWidth distanceFromY
  let distanceFromY ←
    if ni < -1 then do
      let next ← idx above ((i : Int) + 1)
      pure (distanceFromY + max cfg.ConfigArcRadius
        ((← item.getUp) + cfg.ConfigVerticalSeparation + (← next.getDown) + (← next.getHeight)))
    else pure distanceFromY
  pure ([Step.add p.toItem, s, Step.add q.toItem], distanceFromY)

/-- The body of the loop `for i, item := range below` of
`multipleChoice.format` at index `i`. -/
def multipleChoice.belowBody (cfg : Config) (x y innerWidth : ℚ) (dflt : RailItem)
    (below : List RailItem) (first : Nat) (item : RailItem) (i : Nat) (distanceFromY : ℚ) :
    Option (List Step × ℚ) := do
  let p ← multipleChoice.belowEntry cfg x y distanceFromY
  let s := Step.place (first + i) (x + 30 + cfg.ConfigArcRadius) (y + distanceFromY) innerWidth
  let q ← multipleChoice.belowExit cfg dflt item x y innerWidth distanceFromY
  let belowAmount : ℚ := 0
  let belowAmount ←
    if i + 1 < below.length then do
      pure (← (← idx below ((i : Int) + 1)).getUp)
    else pure belowAmount
  let distanceFromY := distanceFromY + max cfg.ConfigArcRadius
    ((← item.getHeight) + (← item.getDown) + cfg.ConfigVerticalSeparation + belowAmount)
  pure ([Step.add p.toItem, s, Step.add q.toItem], distanceFromY)

/-- The group `text` built at the end of `multipleChoice.format`. -/
def multipleChoice.text (cfg : Config) (self : diagramItem) (type_ : String) (x y : ℚ) : RailItem :=
  let branches := "take one or more branches, once each, in any order"
  let amount := "1+"
  let (branches, amount) :=
    if type_ ≠ "any" then ("take all branches, once each, in any order", "all")
    else (branches, amount)
  .diagramItem (newDiagramItem "g" [("class", "diagram-text")])
    [ newDiagramText "title" branches [],
      .diagramItem (newDiagramItem "path"
        [("d", "M " ++ cfg.Sprint (x + 30) ++ " " ++ cfg.Sprint (y - 10) ++
            " h -26 a 4 4 0 0 0 -4 4 v 12 a 4 4 0 0 0 4 4 h 26 z"),
         ("class", "diagram-text")]) [],
      newDiagramText "text" amount
        [("x", cfg.Sprint (x + 15)), ("y", cfg.Sprint (y + 4)), ("class", "diagram-text")],
      .diagramItem (newDiagramItem "path"
        [("d", "M " ++ cfg.Sprint (x + self.width - 20) ++ " " ++ cfg.Sprint (y - 10) ++
            " h 16 a 4 4 0 0 1 4 4 v 12 a 4 4 0 0 1 -4 4 h -16 z"),
         ("class", "diagram-text")]) [],
      newDiagramText "text" "↺"
        [("x", cfg.Sprint (x + self.width - 10)), ("y", cfg.Sprint (y + 4)),
         ("class", "diagram-arrow")] ]

/-- The body of `multipleChoice.format`.  The indices of the steps refer to
`self.items` after the in-place reversal of `above`. -/
def multipleChoice.steps (cfg : Config) (self : diagramItem) (def_ : Int) (type_ : String)
    (items : List RailItem) (innerWidth : ℚ) (x y width : ℚ) : Option (List Step) := do
  let (leftGap, rightGap) := determineGaps cfg width self.width
  let s1 := Step.add ((newPath cfg x y).h cfg leftGap).toItem
  let s2 := Step.add ((newPath cfg (x + leftGap + self.width) (y + self.height)).h cfg rightGap).toItem
  let x := x + leftGap
  let dflt ← idx items def_
  let above := (items.take def_.toNat).reverse
  let distanceFromY : ℚ := 0
  let distanceFromY ← startAbove cfg (10 + cfg.ConfigArcRadius) dflt above distanceFromY
  let (sa, distanceFromY) ←
    forRange (multipleChoice.aboveBody cfg x y innerWidth dflt above) above 0 distanceFromY
  let m1 := Step.add ((newPath cfg (x + 30) y).right cfg cfg.ConfigArcRadius).toItem
  let m2 := Step.place def_.toNat (x + 30 + cfg.ConfigArcRadius) y innerWidth
  let m3 := Step.add ((newPath cfg (x + 30 + cfg.ConfigArcRadius + innerWidth)
    (y + self.height)).right cfg cfg.ConfigArcRadius).toItem
  let below := items.drop (def_.toNat + 1)
  let distanceFromY ← startBelow cfg (10 + cfg.ConfigArcRadius) dflt below distanceFromY
  let (sb, _) ←
    forRange (multipleChoice.belowBody cfg x y innerWidth dflt below (def_.toNat + 1)) below 0
      distanceFromY
  pure (s1 :: s2 :: sa ++ [m1, m2, m3] ++ sb ++ [Step.add (multipleChoice.text cfg self type_ x y)])

/-- `newPath(x+ConfigArcRadius, y).arc("nw").down(distanceFromY - ConfigArcRadius*2).arc("ws")` -/
def oneOrMore.entry (cfg : Config) (x y distanceFromY : ℚ) : Option path := do
  let p ← (newPath cfg (x + cfg.ConfigArcRadius) y).arc cfg "nw"
  let p := p.down cfg (distanceFromY - cfg.ConfigArcRadius * 2)
  p.arc cfg "ws"

/-- The path that leads the repeat lane of a `oneOrMore` back up. -/
def oneOrMore.exit (cfg : Config) (self : diagramItem) (item rep : RailItem) (x y distanceFromY : ℚ) :
    Option path := do
  let p ← (newPath cfg (x + self.width - cfg.ConfigArcRadius)
    (y + distanceFromY + (← rep.getHeight))).arc cfg "se"
  let p := p.up cfg (distanceFromY - cfg.ConfigArcRadius * 2 + (← rep.getHeight) -
    (← item.getHeight))
  p.arc cfg "en"

/-- The body of `oneOrMore.format`; index 0 is `self.item`, index 1 is
`self.rep`. -/
def oneOrMore.steps (cfg : Config) (self : diagramItem) (item rep : RailItem) (x y width : ℚ) :
    Option (List Step) := do
  let (leftGap, rightGap) := determineGaps cfg width self.width
  let s1 := Step.add ((newPath cfg x y).h cfg leftGap).toItem
  let s2 := Step.add ((newPath cfg (x + leftGap + self.width) (y + self.height)).h cfg rightGap).toItem
  let x := x + leftGap
  let s3 := Step.add ((newPath cfg x y).right cfg cfg.ConfigArcRadius).toItem
  let s4 := Step.place 0 (x + cfg.ConfigArcRadius) y (self.width - cfg.ConfigArcRadius * 2)
  let s5 := Step.add ((newPath cfg (x + self.width - cfg.ConfigArcRadius) (y + self.height)).right cfg
    cfg.ConfigArcRadius).toItem
  let distanceFromY := max (cfg.ConfigArcRadius * 2)
    ((← item.getHeight) + (← item.getDown) + cfg.ConfigVerticalSeparation + (← rep.getUp))
  let p ← oneOrMore.entry cfg x y distanceFromY
  let s7 := Step.place 1 (x + cfg.ConfigArcRadius) (y + distanceFromY)
    (self.width - cfg.ConfigArcRadius * 2)
  let q ← oneOrMore.exit cfg self item rep x y distanceFromY
  pure [s1, s2, s3, s4, s5, Step.add p.toItem, s7, Step.add q.toItem]

/-- The children appended by the `format` method of a `terminal`. -/
def terminal.added (cfg : Config) (self : diagramItem) (text : String) (x y width : ℚ) :
    List RailItem :=
  let (leftGap, rightGap) := determineGaps cfg width self.width
  [ ((newPath cfg x y).h cfg leftGap).toItem,
    ((newPath cfg (x + leftGap + self.width) y).h cfg rightGap).toItem,
    .diagramItem (newDiagramItem "rect"
      [("x", cfg.Sprint (x + leftGap)), ("y", cfg.Sprint (y - 11)),
       ("width", cfg.Sprint self.width), ("height", cfg.Sprint (self.up + self.down)),
       ("rx", "10"), ("ry", "10")]) [],
    newDiagramText "text" text
      [("x", cfg.Sprint (x + (((toInt width).tdiv 2 : Int) : ℚ))), ("y", cfg.Sprint (y + 4))] ]

/-- The children appended by the `format` method of a `nonTerminal`; the text
is centred with `float64(int(width/2))`. -/
def nonTerminal.added (cfg : Config) (self : diagramItem) (text : String) (x y width : ℚ) :
    List RailItem :=
  let (leftGap, rightGap) := determineGaps cfg width self.width
  [ ((newPath cfg x y).h cfg leftGap).toItem,
    ((newPath cfg (x + leftGap + self.width) y).h cfg rightGap).toItem,
    .diagramItem (newDiagramItem "rect"
      [("x", cfg.Sprint (x + leftGap)), ("y", cfg.Sprint (y - 11)),
       ("width", cfg.Sprint self.width), ("height", cfg.Sprint (self.up + self.down))]) [],
    newDiagramText "text" text
      [("x", cfg.Sprint (x + ((toInt (width / 2) : Int) : ℚ))), ("y", cfg.Sprint (y + 4))] ]

/-- The children appended by the `format` method of a `comment`. -/
def comment.added (cfg : Config) (self : diagramItem) (text : String) (x y width : ℚ) :
    List RailItem :=
  let (leftGap, rightGap) := determineGaps cfg width self.width
  [ ((newPath cfg x y).h cfg leftGap).toItem,
    ((newPath cfg (x + leftGap + self.width) y).h cfg rightGap).toItem,
    newDiagramText "text" text
      [("x", cfg.Sprint (x + (((toInt width).tdiv 2 : Int) : ℚ))), ("y", cfg.Sprint (y + 5)),
       ("class", "comment")] ]

/-- The index, before the in-place reversal of `self.items[:d]`, of the item
that stands at index `j` after it (and conversely). -/
def reversedIndex (d : Nat) (j : Nat) : Nat := if j < d then d - 1 - j else j

mutual
/-- The method `format(x, y, width)` of every dynamic type.  `textItem` and the
bare `*diagramItem` panic.  A composite runs its steps: every item receives the
`format` call recorded for it, and the children are appended in order. -/
def format (cfg : Config) : RailItem → ℚ → ℚ → ℚ → Option RailItem
  | .textItem _, _, _, _ => none
  | .diagramItem _ _, _, _, _ => none
  | .path di ch px py, _, _, _ =>
    some (.path { di with attrs := a.set di.attrs "d" (a.get di.attrs "d" ++ "h.5") } ch px py)
  | .style di ch css, _, _, _ => some (.style di ch css)
  | .sequence di ch items, x, y, width => do
    let (steps, _, _) ← sequence.steps cfg di items x y width
    let items ← formatItems cfg (placeArgs steps) items 0
    pure (.sequence di (ch ++ (← assemble items steps)) items)
  | .stack di ch items, x, y, width => do
    let (steps, _, _) ← stack.steps cfg di items x y width
    let items ← formatItems cfg (placeArgs steps) items 0
    pure (.stack di (ch ++ (← assemble items steps)) items)
  | .optionalSequence di ch items, x, y, width => do
    let (steps, _, _) ← optionalSequence.steps cfg di items x y width
    let items ← formatItems cfg (placeArgs steps) items 0
    pure (.optionalSequence di (ch ++ (← assemble items steps)) items)
  | .choice di ch def_ items, x, y, width => do
    let steps ← choice.steps cfg di def_ items x y width
    let placed ← formatItems cfg (fun j => placeArgs steps (reversedIndex def_.toNat j)) items 0
    let items := reverseAbove def_.toNat placed
    pure (.choice di (ch ++ (← assemble items steps)) def_ items)
  | .multipleChoice di ch def_ type_ items innerWidth, x, y, width => do
    let steps ← multipleChoice.steps cfg di def_ type_ items innerWidth x y width
    let placed ← formatItems cfg (fun j => placeArgs steps (reversedIndex def_.toNat j)) items 0
    let items := reverseAbove def_.toNat placed
    pure (.multipleChoice di (ch ++ (← assemble items steps)) def_ type_ items innerWidth)
  | .oneOrMore di ch item rep, x, y, width => do
    let steps ← oneOrMore.steps cfg di item rep x y width
    let item ←
      match placeArgs steps 0 with
      | some (x, y, w) => format cfg item x y w
      | none => some item
    let rep ←
      match placeArgs steps 1 with
      | some (x, y, w) => format cfg rep x y w
      | none => some rep
    pure (.oneOrMore di (ch ++ (← assemble [item, rep] steps)) item rep)
  | .start di ch, x, y, _ =>
    let d := "M " ++ cfg.Sprint x ++ " " ++ cfg.Sprint (y - 10) ++ " v 20 m 10 -20 v 20 m -10 -10 h 20.5"
    some (.start { di with attrs := a.set di.attrs "d" d } ch)
  | .end_ di ch, x, y, _ =>
    let d := "M " ++ cfg.Sprint x ++ " " ++ cfg.Sprint y ++ " h 20 m -10 -10 v 20 m 10 -20 v 20"
    some (.end_ { di with attrs := a.set di.attrs "d" d } ch)
  | .terminal di ch text, x, y, width =>
    some (.terminal di (ch ++ terminal.added cfg di text x y width) text)
  | .nonTerminal di ch text, x, y, width =>
    some (.nonTerminal di (ch ++ nonTerminal.added cfg di text x y width) text)
  | .comment di ch text, x, y, width =>
    some (.comment di (ch ++ comment.added cfg di text x y width) text)
  | .skip di ch, x, y, width =>
    some (.skip di (ch ++ [((newPath cfg x y).right cfg width).toItem]))
/-- The `format` calls on the items of a slice, from index `i`: the item at
index `j` is placed with the arguments `args j`, if any. -/
def formatItems (cfg : Config) (args : Nat → Option (ℚ × ℚ × ℚ)) :
    List RailItem → Nat → Option (List RailItem)
  | [], _ => some []
  | item :: rest, i => do
    let item ←
      match args i with
      | some (x, y, w) => format cfg item x y w
      | none => some item
    let rest ← formatItems cfg args rest (i + 1)
    pure (item :: rest)
end

/-! ## Serialisation -/

/-- The loop `for _, key := range keys` of `diagramItem.writeSvg`. -/
def writeAttrs (attrs : a) : List String → String
  | [] => ""
  | key :: keys => " " ++ key ++ "=\"" ++ e (a.get attrs key) ++ "\"" ++ writeAttrs attrs keys

/-- `diagramItem.writeSvg`, given what the children write; `sort.Strings`
orders the keys bytewise, which on UTF-8 is the order of `String`. -/
def diagramItem.writeSvg (self : diagramItem) (children : String) : String :=
  let keys := (self.attrs.map Prod.fst).insertionSort (fun k1 k2 => k1 ≤ k2)
  "<" ++ self.name ++ writeAttrs self.attrs keys ++ ">" ++
    (if self.name = "g" ∨ self.name = "svg" then "\n" else "") ++
    children ++ "</" ++ self.name ++ ">"

mutual
/-- The method `writeSvg` of every dynamic type, as the text it writes:
`textItem` and `*style` have their own, every other type inherits the method of
its `*diagramItem`. -/
def writeSvg : RailItem → String
  | .textItem t => e t
  | .style _ _ css => "<style>" ++ ("/* <![CDATA[ */\n" ++ css ++ "\n/* ]]> */\n") ++ "</style>"
  | .diagramItem di ch => di.writeSvg (writeSvgList ch)
  | .path di ch _ _ => di.writeSvg (writeSvgList ch)
  | .sequence di ch _ => di.writeSvg (writeSvgList ch)
  | .stack di ch _ => di.writeSvg (writeSvgList ch)
  | .optionalSequence di ch _ => di.writeSvg (writeSvgList ch)
  | .choice di ch _ _ => di.writeSvg (writeSvgList ch)
  | .multipleChoice di ch _ _ _ _ => di.writeSvg (writeSvgList ch)
  | .oneOrMore di ch _ _ => di.writeSvg (writeSvgList ch)
  | .start di ch => di.writeSvg (writeSvgList ch)
  | .end_ di ch => di.writeSvg (writeSvgList ch)
  | .terminal di ch _ => di.writeSvg (writeSvgList ch)
  | .nonTerminal di ch _ => di.writeSvg (writeSvgList ch)
  | .comment di ch _ => di.writeSvg (writeSvgList ch)
  | .skip di ch => di.writeSvg (writeSvgList ch)
/-- The loop `for _, child := range self.children` of `diagramItem.writeSvg`. -/
def writeSvgList : List RailItem → String
  | [] => ""
  | child :: rest => writeSvg child ++ writeSvgList rest
end

/-! ## The diagram -/

/-- The body of the loop of `diagram.format` at index `i`, on the cursor
`(x, y)`: the children added to the group `g`. -/
def diagram.formatBody (cfg : Config) (item : RailItem) (i : Nat) (cursor : ℚ × ℚ) :
    Option (List Step × (ℚ × ℚ)) := do
  let (x, y) := cursor
  let (pre, x) :=
    if (← item.getNeedsSpace) then
      ([Step.add ((newPath cfg x y).h cfg 10).toItem], x + 10)
    else ([], x)
  let s := Step.place i x y (← item.getWidth)
  let x := x + (← item.getWidth)
  let y := y + (← item.getHeight)
  let (post, x) :=
    if (← item.getNeedsSpace) then
      ([Step.add ((newPath cfg x y).h cfg 10).toItem], x + 10)
    else ([], x)
  pure (pre ++ s :: post, (x, y))

/-- `diagram.format(x, y, width)`.  The method does not read `self.formatted`. -/
def diagram.format (cfg : Config) (self : diagram) (_x _y _width : ℚ) : Option diagram := do
  let paddingTop : ℚ := 20
  let paddingRight := paddingTop
  let paddingBottom := paddingTop
  let paddingLeft := paddingRight
  let x := paddingLeft
  let y := paddingTop + self.di.up
  let g := newDiagramItem "g" []
  let g :=
    if cfg.ConfigTranslateHalfPixel then
      { g with attrs := a.set g.attrs "transform" "translate(.5 .5)" }
    else g
  let (steps, _, _) ← forRange (diagram.formatBody cfg) self.items 0 (x, y)
  let items ← formatItems cfg (placeArgs steps) self.items 0
  let gChildren ← assemble items steps
  let attrs := a.set self.di.attrs "width" (cfg.Sprint (self.di.width + paddingLeft + paddingRight))
  let attrs := a.set attrs "height"
    (cfg.Sprint (self.di.up + self.di.height + self.di.down + paddingTop + paddingBottom))
  let attrs := a.set attrs "viewBox" ("0 0 " ++ a.get attrs "width" ++ " " ++ a.get attrs "height")
  pure { self with
    di := { self.di with attrs := attrs }
    children := self.children ++ [RailItem.diagramItem g gChildren]
    items := items
    formatted := true }

/-- `diagram.writeSvg`: places the diagram unless it is formatted already, then
writes it with the method of its `*diagramItem`.  Returns the diagram after the
call and the text written. -/
def diagram.writeSvg (cfg : Config) (self : diagram) : Option (diagram × String) := do
  let self ← if ¬ self.formatted then self.format cfg 0 0 0 else pure self
  pure (self, self.di.writeSvg (writeSvgList self.children))

/-- `diagram.WriteTo(w)`: the diagram after the call and the text written to
`w`. -/
def diagram.WriteTo (cfg : Config) (d : diagram) : Option (diagram × String) :=
  d.writeSvg cfg

/-! ## Definitions used to state the properties -/

/-- The width of an item with the 20 units of its two spacers, when it needs
them. -/
def spacedWidth (item : RailItem) : ℚ := item.width + if item.needsSpace then 20 else 0

/-- The up extent accumulated by the loop of `Sequence` from `up`, with
`height` so far. -/
def Sequence.upAfter : List RailItem → ℚ → ℚ → ℚ
  | [], up, _ => up
  | item :: rest, up, height => Sequence.upAfter rest (max up (item.up - height)) (height + item.height)

/-- The down extent accumulated by the loop of `Sequence` from `down`. -/
def Sequence.downAfter : List RailItem → ℚ → ℚ
  | [], down => down
  | item :: rest, down => Sequence.downAfter rest (max (down - item.height) item.down)

/-- The width of `Sequence(children)` as the specification words it: the sum of
the children's widths, plus 20 for each internal gap whose two adjacent children
both need spacing, minus 10 if the first child needs spacing and minus 10 if
the last child needs spacing. -/
def specSequenceWidth (children : List RailItem) : ℚ :=
  (children.map RailItem.width).sum +
    20 * (((children.zip children.tail).filter
      fun p => p.1.needsSpace && p.2.needsSpace).length : ℚ) -
    (if children.head?.map RailItem.needsSpace = some true then 10 else 0) -
    (if children.getLast?.map RailItem.needsSpace = some true then 10 else 0)

/-- The maximum accumulated by the first loop of `Stack` from `w`. -/
def Stack.maxSpaced : List RailItem → ℚ → ℚ
  | [], w => w
  | item :: rest, w => Stack.maxSpaced rest (max w (spacedWidth item))

/-- The room between two consecutive rows of a `Stack` as the specification
words it: `max(2R, exitRow.down + V) + max(2R, nextRow.up + V)`. -/
def Stack.between (cfg : Config) (p : RailItem × RailItem) : ℚ :=
  max (2 * cfg.ConfigArcRadius) (p.1.down + cfg.ConfigVerticalSeparation) +
    max (2 * cfg.ConfigArcRadius) (p.2.up + cfg.ConfigVerticalSeparation)

mutual
/-- The structure that the `format` methods rely on: no `textItem` and no bare
`*diagramItem` among the items, at any depth, and the default index of every
choice within its branches. -/
def valid : RailItem → Bool
  | .textItem _ => false
  | .diagramItem _ _ => false
  | .path _ _ _ _ => true
  | .style _ _ _ => true
  | .sequence _ _ items => validList items
  | .stack _ _ items => validList items
  | .optionalSequence _ _ items => validList items
  | .choice _ _ def_ items => decide (0 ≤ def_) && decide (def_ < items.length) && validList items
  | .multipleChoice _ _ def_ _ items _ =>
    decide (0 ≤ def_) && decide (def_ < items.length) && validList items
  | .oneOrMore _ _ item rep => valid item && valid rep
  | .start _ _ => true
  | .end_ _ _ => true
  | .terminal _ _ _ => true
  | .nonTerminal _ _ _ => true
  | .comment _ _ _ => true
  | .skip _ _ => true
/-- `valid` for every item of a slice. -/
def validList : List RailItem → Bool
  | [] => true
  | item :: rest => valid item && validList rest
end

/-- The elements that a caller can build with the public constructors
`Terminal`, `NonTerminal`, `Text`, `Comment`, `Skip`, `Style`, `Sequence`,
`Stack`, `OptionalSequence`, `Choice`, `MultipleChoice`, `Optional`,
`OneOrMore` and `ZeroOrMore`, without a panic. -/
inductive Built (cfg : Config) : RailItem → Prop
  | terminal (text : String) : Built cfg (Terminal cfg text)
  | nonTerminal (text : String) : Built cfg (NonTerminal cfg text)
  | text (text : String) : Built cfg (Text cfg text)
  | comment (text : String) : Built cfg (Comment text)
  | skip : Built cfg Skip
  | style (css : String) : Built cfg (Style css)
  | sequence (items : List RailItem) (r : RailItem) :
    (∀ i ∈ items, Built cfg i) → Sequence items = some r → Built cfg r
  | stack (items : List RailItem) (r : RailItem) :
    (∀ i ∈ items, Built cfg i) → Stack cfg items = some r → Built cfg r
  | optionalSequence (items : List RailItem) (r : RailItem) :
    (∀ i ∈ items, Built cfg i) → OptionalSequence cfg items = some r → Built cfg r
  | choice (default_ : Int) (items : List RailItem) (r : RailItem) :
    (∀ i ∈ items, Built cfg i) → Choice cfg default_ items = some r → Built cfg r
  | multipleChoice (default_ : Int) (type_ : MultipleChoiceType) (items : List RailItem)
    (r : RailItem) :
    (∀ i ∈ items, Built cfg i) → MultipleChoice cfg default_ type_ items = some r → Built cfg r
  | optional (item : RailItem) (options : List OptionalOption) (r : RailItem) :
    Built cfg item → Optional cfg item options = some r → Built cfg r
  | oneOrMore (item : RailItem) (options : List OneOrMoreOption) (r : RailItem) :
    Built cfg item → (∀ o ∈ options, ∀ rep, o.repeat_ = some (some rep) → Built cfg rep) →
    OneOrMore cfg item options = some r → Built cfg r
  | zeroOrMore (item : RailItem) (options : List ZeroOrMoreOption) (r : RailItem) :
    Built cfg item → (∀ o ∈ options, ∀ rep, o.repeat_ = some (some rep) → Built cfg rep) →
    ZeroOrMore cfg item options = some r → Built cfg r

/-- The index of a `place` step is below `n`. -/
def Step.inRange (n : Nat) : Step → Bool
  | Step.add _ => true
  | Step.place i _ _ _ => decide (i < n)

/-- The item at index `i` of a slice.  `Skip()` stands for an index out of
range, which no statement reads. -/
def itemAt (items : List RailItem) (i : Nat) : RailItem := items.getD i Skip

/-- The maximum accumulated from 0 by the first loop of `Choice` and of
`MultipleChoice`. -/
def maxWidth (items : List RailItem) : ℚ := items.foldl (fun w i => max w i.width) 0

/-- The variable `arcs` (`minimum` in `MultipleChoice`) of the loop over the
branches at index `i`: `adjacent` for the two branches next to the default `d`,
`ConfigArcRadius` for every other branch. -/
def branchAllowance (cfg : Config) (adjacent : ℚ) (d i : Nat) : ℚ :=
  if i + 1 = d ∨ i = d + 1 then adjacent else cfg.ConfigArcRadius

/-- The amount that the loop over the branches adds to `up` at an index `i`
above the default. -/
def branchUpTerm (cfg : Config) (adjacent : ℚ) (d : Nat) (items : List RailItem) (i : Nat) : ℚ :=
  max (branchAllowance cfg adjacent d i)
    ((itemAt items i).height + (itemAt items i).down + cfg.ConfigVerticalSeparation +
      (itemAt items (i + 1)).up)

/-- The amount that the loop over the branches adds to `down` at an index `i`
below the default. -/
def branchDownTerm (cfg : Config) (adjacent : ℚ) (d : Nat) (items : List RailItem) (i : Nat) : ℚ :=
  max (branchAllowance cfg adjacent d i)
    ((itemAt items i).up + cfg.ConfigVerticalSeparation + (itemAt items (i - 1)).down +
      (itemAt items (i - 1)).height)

/-- The sum of the amounts added to `up`, over the branches above the default. -/
def branchUp (cfg : Config) (adjacent : ℚ) (d : Nat) (items : List RailItem) : ℚ :=
  ((List.range d).map (branchUpTerm cfg adjacent d items)).sum

/-- The sum of the amounts added to `down`, over the branches below the
default. -/
def branchDown (cfg : Config) (adjacent : ℚ) (d : Nat) (items : List RailItem) : ℚ :=
  ((List.range' (d + 1) (items.length - (d + 1))).map (branchDownTerm cfg adjacent d items)).sum

/-- The up extent of `Choice(d, items)` as the specification words it: the arc
allowance is `4R` for the branch adjacent to the default and `2R` for every
other branch. -/
def specChoiceUp (cfg : Config) (d : Nat) (items : List RailItem) : ℚ :=
  (itemAt items 0).up +
    ((List.range d).map fun i =>
      max (if i + 1 = d then 4 * cfg.ConfigArcRadius else 2 * cfg.ConfigArcRadius)
        ((itemAt items i).height + (itemAt items i).down + cfg.ConfigVerticalSeparation +
          (itemAt items (i + 1)).up)).sum

/-- The vertical offset from the main line at which the branch of source index
`j` lies, when the distances between consecutive branches are the amounts of
the loop over the branches: negative above the default `d`, zero for the
default, positive below. -/
def branchOffset (cfg : Config) (adjacent : ℚ) (d : Nat) (items : List RailItem) (j : Nat) : ℚ :=
  if j ≤ d then -((List.range' j (d - j)).map (branchUpTerm cfg adjacent d items)).sum
  else ((List.range' (d + 1) (j - d)).map (branchDownTerm cfg adjacent d items)).sum

/-- The index of the item that a step places. -/
def Step.placed : Step → Option Nat
  | Step.add _ => none
  | Step.place i _ _ _ => some i

/-- The arguments `(x, y, width)` of the `format` call that `choice.format`
makes on the branch given at source index `j`, which stands at index
`reversedIndex d j` once `above` has been reversed. -/
def choice.placement (cfg : Config) (self : diagramItem) (def_ : Int) (items : List RailItem)
    (x y width : ℚ) (j : Nat) : Option (ℚ × ℚ × ℚ) :=
  (choice.steps cfg self def_ items x y width).bind fun steps =>
    placeArgs steps (reversedIndex def_.toNat j)

/-- The source indices of the branches in the order in which `choice.format`
places them. -/
def choice.order (cfg : Config) (self : diagramItem) (def_ : Int) (items : List RailItem)
    (x y width : ℚ) : Option (List Nat) :=
  (choice.steps cfg self def_ items x y width).map fun steps =>
    (steps.filterMap Step.placed).map (reversedIndex def_.toNat)

/-- The arguments `(x, y, width)` of the `format` call that
`multipleChoice.format` makes on the branch given at source index `j`. -/
def multipleChoice.placement (cfg : Config) (self : diagramItem) (def_ : Int) (type_ : String)
    (items : List RailItem) (innerWidth : ℚ) (x y width : ℚ) (j : Nat) : Option (ℚ × ℚ × ℚ) :=
  (multipleChoice.steps cfg self def_ type_ items innerWidth x y width).bind fun steps =>
    placeArgs steps (reversedIndex def_.toNat j)

/-- One attribute as `diagramItem.writeSvg` writes it: a blank, the name, and
the escaped value between double quotes. -/
def attrText (p : String × String) : String := " " ++ p.1 ++ "=\"" ++ e p.2 ++ "\""

/-! ## Definitions used to state the properties of the path builder and of placement -/

/-- A `float64` as far as the sign of zero matters: a rational number (`ofRat 0`
is the positive zero) or the negative zero. -/
inductive F64 where
  | ofRat (q : ℚ)
  | negZero

namespace F64

/-- The number that a value denotes. -/
def toRat : F64 → ℚ
  | ofRat q => q
  | negZero => 0

/-- The comparison `val == 0`, which holds of both zeros. -/
def isZero (v : F64) : Bool := decide (v.toRat = 0)

/-- Unary minus, which changes the sign of a zero as well. -/
def neg : F64 → F64
  | ofRat q => if q = 0 then negZero else ofRat (-q)
  | negZero => ofRat 0

/-- `max(0, v)`, that is `math.Max(0, v)`: the positive zero for a negative
number and for both zeros. -/
def max0 (v : F64) : F64 := if v.toRat ≤ 0 then ofRat 0 else v

/-- `fmt.Sprint` and the verb `%v`: the negative zero is printed `-0`. -/
def sprint (cfg : Config) : F64 → String
  | ofRat q => cfg.Sprint q
  | negZero => "-0"

end F64

/-- `h(val)` on a `float64` with a signed zero. -/
def path.h64 (cfg : Config) (self : path) (val : F64) : path :=
  let val := if val.isZero then F64.ofRat 0 else val
  self.appendD ("h" ++ val.sprint cfg)

/-- `right(val)` on a `float64` with a signed zero. -/
def path.right64 (cfg : Config) (self : path) (val : F64) : path := self.h64 cfg (F64.max0 val)

/-- `left(val)` on a `float64` with a signed zero. -/
def path.left64 (cfg : Config) (self : path) (val : F64) : path :=
  self.h64 cfg (F64.neg (F64.max0 val))

/-- `v(val)` on a `float64` with a signed zero. -/
def path.v64 (cfg : Config) (self : path) (val : F64) : path :=
  let val := if val.isZero then F64.ofRat 0 else val
  self.appendD ("v" ++ val.sprint cfg)

/-- `down(val)` on a `float64` with a signed zero. -/
def path.down64 (cfg : Config) (self : path) (val : F64) : path := self.v64 cfg (F64.max0 val)

/-- `up(val)` on a `float64` with a signed zero. -/
def path.up64 (cfg : Config) (self : path) (val : F64) : path :=
  self.v64 cfg (F64.neg (F64.max0 val))

/-- The eight sweep codes. -/
def sweepCodes : List String := ["ne", "en", "nw", "wn", "se", "es", "sw", "ws"]

/-- A sweep code with its two letters swapped. -/
def swapCode (sweep : String) : String := String.mk sweep.data.reverse

/-- The field `items` of a composite: its sub-elements in the order in which
the slice holds them. -/
def RailItem.items : RailItem → List RailItem
  | .sequence _ _ items => items
  | .stack _ _ items => items
  | .optionalSequence _ _ items => items
  | .choice _ _ _ items => items
  | .multipleChoice _ _ _ _ items _ => items
  | .oneOrMore _ _ item rep => [item, rep]
  | _ => []

/-- The text of a terminal, a non-terminal or a comment. -/
def RailItem.label : RailItem → String
  | .terminal _ _ text => text
  | .nonTerminal _ _ text => text
  | .comment _ _ text => text
  | _ => ""

/-- The attribute `d` of every child of an element that is a path, in the
order of the children. -/
def RailItem.pathData (r : RailItem) : List String :=
  r.children.filterMap fun c =>
    match c with
    | .path di _ _ _ => some (a.get di.attrs "d")
    | _ => none

mutual
/-- The check that `format(x, y, width)` on an element hands a sufficient width
down: every `format` call that it makes on an item, and every call made in
turn while that item is placed, receives a width that is at least the width of
the item.  The recursion is the one of `format`; a leaf makes no call. -/
def fits (cfg : Config) : RailItem → ℚ → ℚ → ℚ → Bool
  | .sequence di _ items, x, y, width =>
    match sequence.steps cfg di items x y width with
    | some (steps, _, _) => fitsItems cfg (placeArgs steps) items 0
    | none => true
  | .stack di _ items, x, y, width =>
    match stack.steps cfg di items x y width with
    | some (steps, _, _) => fitsItems cfg (placeArgs steps) items 0
    | none => true
  | .optionalSequence di _ items, x, y, width =>
    match optionalSequence.steps cfg di items x y width with
    | some (steps, _, _) => fitsItems cfg (placeArgs steps) items 0
    | none => true
  | .choice di _ def_ items, x, y, width =>
    match choice.steps cfg di def_ items x y width with
    | some steps => fitsItems cfg (fun j => placeArgs steps (reversedIndex def_.toNat j)) items 0
    | none => true
  | .multipleChoice di _ def_ type_ items innerWidth, x, y, width =>
    match multipleChoice.steps cfg di def_ type_ items innerWidth x y width with
    | some steps => fitsItems cfg (fun j => placeArgs steps (reversedIndex def_.toNat j)) items 0
    | none => true
  | .oneOrMore di _ item rep, x, y, width =>
    match oneOrMore.steps cfg di item rep x y width with
    | some steps =>
      (match placeArgs steps 0 with
        | some (x, y, w) => decide (item.width ≤ w) && fits cfg item x y w
        | none => true) &&
      (match placeArgs steps 1 with
        | some (x, y, w) => decide (rep.width ≤ w) && fits cfg rep x y w
        | none => true)
    | none => true
  | _, _, _, _ => true
/-- The check of `fits` for the `format` calls on the items of a slice, from
index `i`: the item at index `j` is placed with the arguments `args j`, if
any. -/
def fitsItems (cfg : Config) (args : Nat → Option (ℚ × ℚ × ℚ)) : List RailItem → Nat → Bool
  | [], _ => true
  | item :: rest, i =>
    (match args i with
      | some (x, y, w) => decide (item.width ≤ w) && fits cfg item x y w
      | none => true) && fitsItems cfg args rest (i + 1)
end

/-- The check of `fits` for the `format` calls that `diagram.format` makes on
the items of a diagram. -/
def diagram.fits (cfg : Config) (self : diagram) : Bool :=
  match forRange (diagram.formatBody cfg) self.items 0 (20, 20 + self.di.up) with
  | some (steps, _, _) => fitsItems cfg (placeArgs steps) self.items 0
  | none => true

/-- A path under construction together with the displacement `(dx, dy)` of its
pen from the start point `M x y`.  Every command that the builder writes is
relative: `h d` moves the pen by `(d, 0)`, `v d` by `(0, d)` and
`a rx ry 0 0 cw x y` by `(x, y)`. -/
structure penPath where
  p : path
  dx : ℚ
  dy : ℚ

/-- `newPath(x, y)`, with the pen on the start point. -/
def newPenPath (cfg : Config) (x y : ℚ) : penPath := { p := newPath cfg x y, dx := 0, dy := 0 }

namespace penPath

/-- `h(val)` and the move of the pen. -/
def h (cfg : Config) (self : penPath) (val : ℚ) : penPath :=
  { p := self.p.h cfg val, dx := self.dx + val, dy := self.dy }

/-- `left(val)` and the move of the pen. -/
def left (cfg : Config) (self : penPath) (val : ℚ) : penPath := self.h cfg (-(max 0 val))

/-- `v(val)` and the move of the pen. -/
def v (cfg : Config) (self : penPath) (val : ℚ) : penPath :=
  { p := self.p.v cfg val, dx := self.dx, dy := self.dy + val }

/-- `down(val)` and the move of the pen. -/
def down (cfg : Config) (self : penPath) (val : ℚ) : penPath := self.v cfg (max 0 val)

/-- `arc(sweep)` and the move of the pen. -/
def arc (cfg : Config) (self : penPath) (sweep : String) : Option penPath := do
  let (x, y, cw) ← path.arcParams cfg sweep
  pure { p := self.p.arcTo cfg x y cw, dx := self.dx + x, dy := self.dy + y }

end penPath

/-- The connector of `stack.connector`, built with the moves of its pen. -/
def stack.connectorPen (cfg : Config) (items : List RailItem) (innerWidth : ℚ) (item : RailItem)
    (i : Nat) (x y : ℚ) : Option penPath := do
  let p ← (newPenPath cfg x y).arc cfg "ne"
  let p := p.down cfg (max 0 ((← item.getDown) + cfg.ConfigVerticalSeparation -
    2 * cfg.ConfigArcRadius))
  let p ← p.arc cfg "es"
  let p := p.left cfg innerWidth
  let p ← p.arc cfg "nw"
  let p := p.down cfg (max 0 ((← (← idx items ((i : Int) + 1)).getUp) +
    cfg.ConfigVerticalSeparation - cfg.ConfigArcRadius * 2))
  p.arc cfg "ws"

/-! ## The rounding of `float64` -/

/-- The position of the leading bit of `n`, that is `⌊log₂ n⌋` for `n > 0`, by
halving `n` at most `fuel` times; the fuel `n` is enough. -/
def leadingBit : Nat → Nat → Nat
  | 0, _ => 0
  | fuel + 1, n => if n < 2 then 0 else leadingBit fuel (n / 2) + 1

/-- The `float64` nearest to a rational number: IEEE 754 binary64
round-to-nearest, ties to even, on the normal range (53 significant bits; no
overflow to infinity and no subnormal numbers, which the distances of a
diagram do not reach).  This is the rounding of every `float64` constant,
sum, difference and product of the package. -/
def roundFloat64 (q : ℚ) : ℚ :=
  if q = 0 then 0
  else
    let n := q.num.natAbs
    let d := q.den
    let a := leadingBit n n
    let b := leadingBit d d
    let k : Int := if d * 2 ^ (a - b) ≤ n * 2 ^ (b - a) then (a : Int) - b else (a : Int) - b - 1
    let e : Int := k - 52
    let num := n * 2 ^ (-e).toNat
    let den := d * 2 ^ e.toNat
    let m0 := num / den
    let r := num % den
    let m := if 2 * r < den then m0 else if den < 2 * r then m0 + 1
      else if m0 % 2 = 0 then m0 else m0 + 1
    (if q < 0 then -1 else 1) * (m : ℚ) * (2 : ℚ) ^ e

/-- The integers of magnitude below `2 ^ 52`.  `float64` holds each of them, and
the sum and the difference of two of them, without rounding. -/
def exact64 (q : ℚ) : Bool := decide (q.den = 1) && decide (q.num.natAbs < 2 ^ 52)

/-- The configurations on which the `float64` arithmetic of the metrics is
exact: the character advance, the arc radius, four times the arc radius and the
vertical separation are integers of magnitude below `2 ^ 52`.  Every metric is
built from these distances and from integer constants. -/
def Config.exact64 (cfg : Config) : Bool :=
  Railroad.exact64 cfg.ConfigCharacterAdvance && Railroad.exact64 cfg.ConfigArcRadius &&
    Railroad.exact64 (cfg.ConfigArcRadius * 4) && Railroad.exact64 cfg.ConfigVerticalSeparation

/-- The default configuration with `ConfigArcRadius = 7.7` and
`ConfigInternalAlignment = "left"`. -/
def configArcRadius77 : Config :=
  { defaultConfig with
    ConfigArcRadius := roundFloat64 (77 / 10)
    ConfigInternalAlignment := "left" }

/-- The default configuration with `ConfigCharacterAdvance = 6.3` and
`ConfigInternalAlignment = "left"`. -/
def configAdvance63 : Config :=
  { defaultConfig with
    ConfigCharacterAdvance := roundFloat64 (63 / 10)
    ConfigInternalAlignment := "left" }

/-- The width `float64(len(text))*ConfigCharacterAdvance + 20` of `Terminal(text)`
and of `NonTerminal(text)` in `float64`: the product and the sum round. -/
def Terminal.width64 (cfg : Config) (text : String) : ℚ :=
  roundFloat64 (roundFloat64 ((text.utf8ByteSize : ℚ) * cfg.ConfigCharacterAdvance) + 20)

/-- The statement `di.width += ConfigArcRadius * k` in `float64`, on the width
`w` accumulated before it: the product and the sum round.  The factor `k` is 4
in `Choice`, and 2 in `Stack` (of two rows or more) and in `OneOrMore`. -/
def widthWithArcs64 (cfg : Config) (k w : ℚ) : ℚ :=
  roundFloat64 (w + roundFloat64 (cfg.ConfigArcRadius * k))

/-- The inner width `self.width - ConfigArcRadius*k` in `float64`, which
`choice.format` (with `k = 4`), `stack.format` and `oneOrMore.format` (with
`k = 2`) hand to the `format` calls on their items. -/
def innerWidth64 (cfg : Config) (k selfWidth : ℚ) : ℚ :=
  roundFloat64 (selfWidth - roundFloat64 (cfg.ConfigArcRadius * k))

/-- `determineGaps(outer, inner)` in `float64`: the difference rounds. -/
def determineGaps64 (cfg : Config) (outer inner : ℚ) : ℚ × ℚ :=
  let diff := roundFloat64 (outer - inner)
  if cfg.ConfigInternalAlignment = "left" then
    (0, diff)
  else if cfg.ConfigInternalAlignment = "right" then
    (diff, 0)
  else
    ((((toInt diff).tdiv 2 : Int) : ℚ), (((toInt diff).tdiv 2 : Int) : ℚ))

/-- The width that `Sequence` computes in `float64`, from the widths and the
needs-space flags of its items: the loop adds the width of every item, and 20
more when the item needs space; then 10 is taken off when the first item
needs space, and 10 when the last one does.  Every sum and difference
rounds. -/
def Sequence.width64 (items : List (ℚ × Bool)) : ℚ :=
  let w := items.foldl (fun w item =>
    let w := roundFloat64 (w + item.1)
    if item.2 then roundFloat64 (w + 20) else w) 0
  let w := if items.head?.map Prod.snd = some true then roundFloat64 (w - 10) else w
  if items.getLast?.map Prod.snd = some true then roundFloat64 (w - 10) else w

/-- The horizontal cursor after the loop of `sequence.format` in `float64`, run
from index `i` on the widths and the needs-space flags of the rest of the
items; `n` is `len(self.items)`.  Every sum rounds. -/
def sequence.cursor64 (n : Nat) : List (ℚ × Bool) → Nat → ℚ → ℚ
  | [], _, x => x
  | item :: rest, i, x =>
    let x := if item.2 && decide (i > 0) then roundFloat64 (x + 10) else x
    let x := roundFloat64 (x + item.1)
    let x := if item.2 && decide ((i : Int) < (n : Int) - 1) then roundFloat64 (x + 10) else x
    sequence.cursor64 n rest (i + 1) x

/-- The horizontal origin `xInitial + ConfigArcRadius` of the rows of a stack of
two rows or more, in `float64`. -/
def stack.rowOrigin64 (cfg : Config) (xInitial : ℚ) : ℚ :=
  roundFloat64 (xInitial + cfg.ConfigArcRadius)

/-- The horizontal start of the connector after a row of a stack, in `float64`:
the cursor of the row after `x += innerWidth`. -/
def stack.connectorStart64 (cfg : Config) (xInitial innerWidth : ℚ) : ℚ :=
  roundFloat64 (stack.rowOrigin64 cfg xInitial + innerWidth)

/-! # Theorems -/

/-! ## The rounding of `float64`: proofs -/

theorem leadingBit_eq (fuel n : Nat) (h : n ≤ fuel) : leadingBit fuel n = Nat.log2 n := by
  induction fuel generalizing n with
  | zero =>
    have h0 : n = 0 := by omega
    subst h0
    rw [leadingBit, Nat.log2]
    simp
  | succ f ih =>
    rw [leadingBit, Nat.log2]
    by_cases h2 : n < 2
    · rw [if_pos h2, if_neg (by omega)]
    · rw [if_neg h2, if_pos (by omega), ih _ (by omega)]

/-- Rounding to `float64` leaves an integer of magnitude below `2 ^ 53` as it
is. -/
theorem roundFloat64_int (n : ℤ) (h : n.natAbs < 2 ^ 53) : roundFloat64 (n : ℚ) = n := by
  by_cases h0 : n = 0
  · subst h0; simp [roundFloat64]
  have hq : (n : ℚ) ≠ 0 := by exact_mod_cast h0
  have hN : n.natAbs ≠ 0 := by simpa using h0
  have ha : Nat.log2 n.natAbs < 53 := (Nat.log2_lt hN).mpr h
  have hle : 2 ^ Nat.log2 n.natAbs ≤ n.natAbs := Nat.log2_self_le hN
  have hb : Nat.log2 1 = 0 := by decide!
  unfold roundFloat64
  rw [if_neg hq]
  simp only [leadingBit_eq _ _ (le_refl _)]
  simp only [Rat.num_intCast, Rat.den_intCast, hb, Nat.sub_zero, Nat.zero_sub, pow_zero, one_mul,
    mul_one, if_pos hle, Nat.cast_zero, sub_zero]
  have he1 : (-((Nat.log2 n.natAbs : ℤ) - 52)).toNat = 52 - Nat.log2 n.natAbs := by omega
  have he2 : ((Nat.log2 n.natAbs : ℤ) - 52).toNat = 0 := by omega
  rw [he1, he2]
  simp only [pow_zero, Nat.div_one, Nat.mod_one, mul_zero, Nat.lt_one_iff, if_true, zero_lt_one]
  have hz : ((Nat.log2 n.natAbs : ℤ) - 52) = -((52 - Nat.log2 n.natAbs : ℕ) : ℤ) := by omega
  rw [hz, zpow_neg, zpow_natCast]
  have hp : ((2 : ℚ) ^ (52 - Nat.log2 n.natAbs)) ≠ 0 := pow_ne_zero _ (by norm_num)
  push_cast
  rw [mul_assoc, mul_assoc, mul_inv_cancel₀ hp, mul_one]
  by_cases hn : n < 0
  · have hq' : (n : ℚ) < 0 := by exact_mod_cast hn
    rw [if_pos hq']
    have : ((n.natAbs : ℤ) : ℚ) = -(n : ℚ) := by
      rw [← Int.cast_neg]
      congr 1
      omega
    rw [Int.cast_natCast] at this
    rw [this]
    ring
  · have hq' : ¬ (n : ℚ) < 0 := by exact_mod_cast hn
    rw [if_neg hq']
    have : ((n.natAbs : ℤ) : ℚ) = (n : ℚ) := by
      congr 1
      omega
    rw [Int.cast_natCast] at this
    rw [this]
    ring

theorem exact64_spec (q : ℚ) (h : exact64 q = true) :
    ∃ n : ℤ, q = n ∧ n.natAbs < 2 ^ 52 := by
  simp only [exact64, Bool.and_eq_true, decide_eq_true_eq] at h
  exact ⟨q.num, ((Rat.den_eq_one_iff q).mp h.1).symm, h.2⟩

theorem exact64_intCast (n : ℤ) (h : n.natAbs < 2 ^ 52) : exact64 (n : ℚ) = true := by
  simp only [exact64, Bool.and_eq_true, decide_eq_true_eq, Rat.den_intCast, Rat.num_intCast,
    true_and]
  exact h

theorem roundFloat64_exact (q : ℚ) (h : exact64 q = true) : roundFloat64 q = q := by
  obtain ⟨n, rfl, hn⟩ := exact64_spec q h
  exact roundFloat64_int n (by omega)

theorem roundFloat64_add (a b : ℚ) (ha : exact64 a = true) (hb : exact64 b = true) :
    roundFloat64 (a + b) = a + b := by
  obtain ⟨n, rfl, hn⟩ := exact64_spec a ha
  obtain ⟨m, rfl, hm⟩ := exact64_spec b hb
  rw [← Int.cast_add]
  exact roundFloat64_int (n + m) (by omega)

theorem roundFloat64_sub (a b : ℚ) (ha : exact64 a = true) (hb : exact64 b = true) :
    roundFloat64 (a - b) = a - b := by
  obtain ⟨n, rfl, hn⟩ := exact64_spec a ha
  obtain ⟨m, rfl, hm⟩ := exact64_spec b hb
  rw [← Int.cast_sub]
  exact roundFloat64_int (n - m) (by omega)

theorem exact64_arcs (cfg : Config) (h : cfg.exact64 = true) :
    exact64 cfg.ConfigArcRadius = true ∧ exact64 (cfg.ConfigArcRadius * 2) = true ∧
      exact64 (cfg.ConfigArcRadius * 4) = true := by
  simp only [Config.exact64, Bool.and_eq_true] at h
  refine ⟨h.1.1.2, ?_, h.1.2⟩
  obtain ⟨n, hn, hb⟩ := exact64_spec _ h.1.1.2
  obtain ⟨m, hm, hmb⟩ := exact64_spec _ h.1.2
  have e : m = n * 4 := by
    rw [hn] at hm
    exact_mod_cast hm.symm
  have h2 : cfg.ConfigArcRadius * 2 = ((n * 2 : ℤ) : ℚ) := by
    rw [hn]; push_cast; ring
  rw [h2]
  exact exact64_intCast _ (by omega)

/-- On exact numbers the margin of arcs is added without loss. -/
theorem widthWithArcs64_exact (cfg : Config) (k w : ℚ)
    (hk : exact64 (cfg.ConfigArcRadius * k) = true) (hw : exact64 w = true) :
    widthWithArcs64 cfg k w = w + cfg.ConfigArcRadius * k := by
  unfold widthWithArcs64
  rw [roundFloat64_exact _ hk, roundFloat64_add _ _ hw hk]

/-- On exact numbers the margin of arcs that a constructor adds is taken off
again without loss. -/
theorem innerWidth64_exact (cfg : Config) (k w : ℚ) (hk : exact64 (cfg.ConfigArcRadius * k) = true)
    (hw : exact64 w = true) : innerWidth64 cfg k (widthWithArcs64 cfg k w) = w := by
  unfold innerWidth64 widthWithArcs64
  rw [roundFloat64_exact _ hk, roundFloat64_add _ _ hw hk, add_sub_cancel_right,
    roundFloat64_exact _ hw]

theorem determineGaps64_exact (cfg : Config) (outer inner : ℚ) (ho : exact64 outer = true)
    (hi : exact64 inner = true) : determineGaps64 cfg outer inner = determineGaps cfg outer inner := by
  unfold determineGaps64 determineGaps
  rw [roundFloat64_sub _ _ ho hi]

/-- The width of a sequence of one item that needs space is the width of the
item, when that width is exact. -/
theorem Sequence_width64_single (w : ℚ) (hw : exact64 w = true) :
    Sequence.width64 [(w, true)] = w := by
  obtain ⟨n, rfl, hn⟩ := exact64_spec w hw
  have e1 : roundFloat64 ((0 : ℚ) + (n : ℚ)) = n := by
    rw [zero_add]; exact roundFloat64_int n (by omega)
  have e2 : roundFloat64 ((n : ℚ) + 20) = ((n + 20 : ℤ) : ℚ) := by
    have : (n : ℚ) + 20 = ((n + 20 : ℤ) : ℚ) := by push_cast; ring
    rw [this]; exact roundFloat64_int _ (by omega)
  have e3 : roundFloat64 (((n + 20 : ℤ) : ℚ) - 10) = ((n + 10 : ℤ) : ℚ) := by
    have : ((n + 20 : ℤ) : ℚ) - 10 = ((n + 10 : ℤ) : ℚ) := by push_cast; ring
    rw [this]; exact roundFloat64_int _ (by omega)
  have e4 : roundFloat64 (((n + 10 : ℤ) : ℚ) - 10) = (n : ℚ) := by
    have : ((n + 10 : ℤ) : ℚ) - 10 = ((n : ℤ) : ℚ) := by push_cast; ring
    rw [this]; exact roundFloat64_int _ (by omega)
  simp only [Sequence.width64, List.foldl_cons, List.foldl_nil, List.head?_cons,
    List.getLast?_singleton, Option.map_some', if_true, e1, e2, e3, e4]

/-- On an exact configuration the width of a terminal is computed without
rounding, when it is exact. -/
theorem Terminal_width64_exact (cfg : Config) (hx : cfg.exact64 = true) (text : String)
    (hw : exact64 (Terminal cfg text).width = true) :
    Terminal.width64 cfg text = (Terminal cfg text).width := by
  have hwid : (Terminal cfg text).width =
      (text.utf8ByteSize : ℚ) * cfg.ConfigCharacterAdvance + 20 := rfl
  rw [hwid] at hw ⊢
  unfold Terminal.width64
  simp only [Config.exact64, Bool.and_eq_true] at hx
  obtain ⟨a, ha, hab⟩ := exact64_spec _ hx.1.1.1
  obtain ⟨m, hm, hmb⟩ := exact64_spec _ hw
  rw [ha] at hm ⊢
  have e : ((text.utf8ByteSize : ℤ) * a + 20 : ℤ) = m := by exact_mod_cast hm
  have e1 : (text.utf8ByteSize : ℚ) * (a : ℚ) = (((text.utf8ByteSize : ℤ) * a : ℤ) : ℚ) := by
    push_cast; ring
  rw [e1, roundFloat64_int _ (by omega)]
  have e2 : (((text.utf8ByteSize : ℤ) * a : ℤ) : ℚ) + 20 =
      (((text.utf8ByteSize : ℤ) * a + 20 : ℤ) : ℚ) := by push_cast; ring
  rw [e2, roundFloat64_int _ (by omega)]

/-- On exact numbers the connector after a row of a stack, whose pen moves by
`-innerWidth`, ends on the origin of the rows. -/
theorem stack_connectorStart64_exact (cfg : Config) (hx : cfg.exact64 = true) (x0 iw : ℚ)
    (h0 : exact64 x0 = true) (h1 : exact64 (x0 + cfg.ConfigArcRadius) = true)
    (h2 : exact64 iw = true) :
    stack.connectorStart64 cfg x0 iw - iw = stack.rowOrigin64 cfg x0 := by
  unfold stack.connectorStart64 stack.rowOrigin64
  rw [roundFloat64_add _ _ h0 (exact64_arcs cfg hx).1, roundFloat64_add _ _ h1 h2]
  ring


/-! ## Escaping: proofs -/

/-- The table entry of a character: none for a character that is not reserved,
the numeric entity of a reserved one. -/
theorem replacer_lookup_cases (c : Char) :
    (replacer.lookup c = none ∧ c ∉ reservedChars) ∨
    (∃ ent, replacer.lookup c = some ent ∧ ent ∈ entities ∧ c ∈ reservedChars ∧
      ent = "&#" ++ toString c.toNat ++ ";") := by
  by_cases h1 : c = '*'
  · subst h1; right; exact ⟨_, rfl, by decide, by decide, by decide⟩
  by_cases h2 : c = '_'
  · subst h2; right; exact ⟨_, rfl, by decide, by decide, by decide⟩
  by_cases h3 : c = Char.ofNat 96
  · subst h3; right; exact ⟨_, rfl, by decide, by decide, by decide⟩
  by_cases h4 : c = '['
  · subst h4; right; exact ⟨_, rfl, by decide, by decide, by decide⟩
  by_cases h5 : c = ']'
  · subst h5; right; exact ⟨_, rfl, by decide, by decide, by decide⟩
  by_cases h6 : c = '<'
  · subst h6; right; exact ⟨_, rfl, by decide, by decide, by decide⟩
  by_cases h7 : c = '&'
  · subst h7; right; exact ⟨_, rfl, by decide, by decide, by decide⟩
  left
  constructor
  · have e1 : (c == '*') = false := by simpa using h1
    have e2 : (c == '_') = false := by simpa using h2
    have e3 : (c == Char.ofNat 96) = false := by simpa using h3
    have e4 : (c == '[') = false := by simpa using h4
    have e5 : (c == ']') = false := by simpa using h5
    have e6 : (c == '<') = false := by simpa using h6
    have e7 : (c == '&') = false := by simpa using h7
    simp [replacer, List.lookup, e1, e2, e3, e4, e5, e6, e7]
  · simp [reservedChars, h1, h2, h3, h4, h5, h6, h7]

/-- The replacerImage of a character is what the specification says, and it is either
the character itself (not reserved) or one of the entities. -/
theorem image_cases (c : Char) :
    replacerImage c = (specEscapeChar c).data ∧
    ((replacerImage c = [c] ∧ c ∉ reservedChars) ∨ ∃ ent ∈ entities, replacerImage c = ent.data) := by
  rcases replacer_lookup_cases c with ⟨h, hc⟩ | ⟨ent, h, hent, hc, he⟩
  · simp [replacerImage, h, specEscapeChar, hc, String.singleton]
  · simp only [replacerImage, h, specEscapeChar, hc, if_true, he, true_and]
    right
    exact ⟨ent, hent, by rw [he]⟩

/-- An ampersand occurs in an entity at its first position only. -/
theorem entity_amp (ent : String) (h : ent ∈ entities) (i : Nat)
    (hi : ent.data[i]? = some '&') : i = 0 := by
  simp only [entities, replacer, List.map, List.mem_cons, List.mem_singleton,
    List.not_mem_nil, or_false] at h
  rcases h with h | h | h | h | h | h | h <;> subst h <;>
    (match i, hi with
     | 0, _ => rfl
     | 1, hi => exact absurd hi (by decide)
     | 2, hi => exact absurd hi (by decide)
     | 3, hi => exact absurd hi (by decide)
     | 4, hi => exact absurd hi (by decide)
     | n + 5, hi => exact absurd hi (by simp))

/-- No entity contains one of the six other reserved characters. -/
theorem entity_chars (ent : String) (h : ent ∈ entities) :
    ∀ c ∈ ent.data, c ∉ ['*', '_', Char.ofNat 96, '[', ']', '<'] := by
  simp only [entities, replacer, List.map, List.mem_cons, List.mem_singleton,
    List.not_mem_nil, or_false] at h
  rcases h with h | h | h | h | h | h | h <;> subst h <;> decide

theorem e_data (s : String) : (e s).data = s.data.flatMap replacerImage := rfl

/-- Every ampersand of an escaped text begins an entity. -/
theorem amp_begins_entity (l : List Char) (i : Nat)
    (hi : (l.flatMap replacerImage)[i]? = some '&') :
    ∃ ent ∈ entities, ent.data <+: (l.flatMap replacerImage).drop i := by
  induction l generalizing i with
  | nil => simp at hi
  | cons c t ih =>
    rw [List.flatMap_cons] at hi ⊢
    by_cases hlt : i < (replacerImage c).length
    · rw [List.getElem?_append_left hlt] at hi
      rcases (image_cases c).2 with ⟨hc, hres⟩ | ⟨ent, hent, hc⟩
      · rw [hc] at hi hlt
        have : i = 0 := by simpa using hlt
        subst this
        have : c = '&' := by simpa using hi
        subst this
        exact absurd (by decide) hres
      · rw [hc] at hi
        have h0 := entity_amp ent hent i hi
        subst h0
        exact ⟨ent, hent, by rw [hc]; simp⟩
    · have hge : (replacerImage c).length ≤ i := Nat.le_of_not_lt hlt
      rw [List.getElem?_append_right hge] at hi
      obtain ⟨ent, hent, hp⟩ := ih _ hi
      refine ⟨ent, hent, ?_⟩
      rw [List.drop_append_eq_append_drop, List.drop_eq_nil_of_le hge]
      simpa using hp

/-- C1: for every string `s`, `e s` is the character-by-character replacerImage of `s`
in which each of the seven reserved characters is replaced by its numeric
entity and every other character is copied; so `e s` contains none of
`* _ [ ] <` or the backquote, every `&` in `e s` begins one of the seven
entities, and `e "a*b" = "a&#42;b"`. -/
theorem e_escapes_reserved (s : String) :
    e s = String.mk (s.data.flatMap fun c => (specEscapeChar c).data) ∧
    (∀ c ∈ (e s).data, c ∉ ['*', '_', Char.ofNat 96, '[', ']', '<']) ∧
    (∀ i : Nat, (e s).data[i]? = some '&' →
      ∃ ent ∈ entities, ent.data <+: (e s).data.drop i) ∧
    e "a*b" = "a&#42;b" := by
  refine ⟨?_, ?_, ?_, by decide⟩
  · have : (fun c => (specEscapeChar c).data) = replacerImage := by
      funext c; exact ((image_cases c).1).symm
    rw [this]; rfl
  · intro c hc
    rw [e_data, List.mem_flatMap] at hc
    obtain ⟨c0, _, hc0⟩ := hc
    rcases (image_cases c0).2 with ⟨h, hres⟩ | ⟨ent, hent, h⟩
    · rw [h] at hc0
      have : c = c0 := by simpa using hc0
      subst this
      intro hmem
      apply hres
      simp only [reservedChars, List.mem_cons] at hmem ⊢
      tauto
    · rw [h] at hc0
      exact entity_chars ent hent c hc0
  · intro i hi
    rw [e_data] at hi ⊢
    exact amp_begins_entity s.data i hi

/-! ## Metrics: proofs -/

theorem getWidth_eq {r : RailItem} (h : r.isText = false) : r.getWidth = some r.width := by
  cases r <;> simp_all [RailItem.isText, RailItem.getWidth, RailItem.width, RailItem.base]

theorem getHeight_eq {r : RailItem} (h : r.isText = false) : r.getHeight = some r.height := by
  cases r <;> simp_all [RailItem.isText, RailItem.getHeight, RailItem.height, RailItem.base]

theorem getUp_eq {r : RailItem} (h : r.isText = false) : r.getUp = some r.up := by
  cases r <;> simp_all [RailItem.isText, RailItem.getUp, RailItem.up, RailItem.base]

theorem getDown_eq {r : RailItem} (h : r.isText = false) : r.getDown = some r.down := by
  cases r <;> simp_all [RailItem.isText, RailItem.getDown, RailItem.down, RailItem.base]

theorem getNeedsSpace_eq {r : RailItem} (h : r.isText = false) :
    r.getNeedsSpace = some r.needsSpace := by
  cases r <;> simp_all [RailItem.isText, RailItem.getNeedsSpace, RailItem.needsSpace, RailItem.base]

theorem Sequence_loop_eq (items : List RailItem) (h : ∀ i ∈ items, i.isText = false)
    (di : diagramItem) :
    Sequence.loop items di = some
      { di with
        width := di.width + (items.map spacedWidth).sum
        height := di.height + (items.map RailItem.height).sum
        up := Sequence.upAfter items di.up di.height
        down := Sequence.downAfter items di.down } := by
  induction items generalizing di with
  | nil => simp [Sequence.loop, Sequence.upAfter, Sequence.downAfter]
  | cons item rest ih =>
    have hi : item.isText = false := h item (List.mem_cons_self _ _)
    have hr : ∀ i ∈ rest, i.isText = false := fun i hi => h i (List.mem_cons_of_mem _ hi)
    simp only [Sequence.loop, getWidth_eq hi, getHeight_eq hi, getUp_eq hi, getDown_eq hi,
      getNeedsSpace_eq hi, Option.bind_eq_bind, Option.some_bind, Option.pure_def]
    by_cases hn : item.needsSpace = true
    · simp [hn, ih hr, Sequence.upAfter, Sequence.downAfter, spacedWidth]
      exact ⟨by ring, by ring⟩
    · simp [hn, ih hr, Sequence.upAfter, Sequence.downAfter, spacedWidth]
      exact ⟨by ring, by ring⟩

theorem idx_natCast {α : Type} (items : List α) (n : Nat) : idx items (n : Int) = items[n]? := by
  simp [idx]

theorem idx_zero {α : Type} (items : List α) : idx items 0 = items.head? := by
  cases items <;> simp [idx]

theorem idx_last {α : Type} (items : List α) :
    idx items ((items.length : Int) - 1) = items.getLast? := by
  cases items with
  | nil => simp [idx]
  | cons x xs =>
    have : ((x :: xs).length : Int) - 1 = ((xs.length : Nat) : Int) := by simp
    rw [this, idx_natCast, List.getLast?_eq_getElem?]
    simp

theorem idx_isSome {α : Type} (items : List α) (i : Int) :
    (idx items i).isSome ↔ 0 ≤ i ∧ i < items.length := by
  unfold idx
  split
  · simp; omega
  · by_cases hlt : i.toNat < items.length
    · simp only [List.getElem?_eq_getElem hlt, Option.isSome_some, true_iff]
      omega
    · rw [List.getElem?_eq_none (Nat.le_of_not_lt hlt)]
      simp only [Option.isSome_none, Bool.false_eq_true, false_iff]
      omega

theorem Sequence_inv (items : List RailItem) (r : RailItem) (h : Sequence items = some r) :
    items ≠ [] ∧ ∃ di, r = .sequence di [] items := by
  constructor
  · rintro rfl
    simp [Sequence, Sequence.loop, idx] at h
  · simp only [Sequence, Option.bind_eq_bind, Option.bind_eq_some, Option.pure_def] at h
    obtain ⟨di, -, f, -, nf, -, l, -, nl, -, h⟩ := h
    exact ⟨_, (Option.some.inj h).symm⟩

theorem idx_mem {α : Type} (items : List α) (i : Int) (h0 : 0 ≤ i) (h1 : i < items.length) :
    ∃ x, idx items i = some x ∧ x ∈ items := by
  have hlt : i.toNat < items.length := by omega
  refine ⟨items[i.toNat], ?_, List.getElem_mem _⟩
  unfold idx
  rw [if_neg (by omega), List.getElem?_eq_getElem hlt]

theorem sum_spacedWidth (items : List RailItem) :
    (items.map spacedWidth).sum =
      (items.map RailItem.width).sum + 20 * ((items.filter RailItem.needsSpace).length : ℚ) := by
  induction items with
  | nil => simp
  | cons item rest ih =>
    by_cases hn : item.needsSpace = true
    · simp [spacedWidth, hn, ih]; ring
    · simp [spacedWidth, hn, ih]; ring

theorem Sequence_eq (items : List RailItem) (hne : items ≠ [])
    (h : ∀ i ∈ items, i.isText = false) :
    Sequence items = some (.sequence
      { name := "g"
        width := (items.map spacedWidth).sum - (if (items.head hne).needsSpace then 10 else 0) -
          (if (items.getLast hne).needsSpace then 10 else 0)
        height := (items.map RailItem.height).sum
        up := Sequence.upAfter items 0 0
        down := Sequence.downAfter items 0
        attrs := []
        needsSpace := true } [] items) := by
  have hf := getNeedsSpace_eq (h _ (List.head_mem hne))
  have hl := getNeedsSpace_eq (h _ (List.getLast_mem hne))
  simp only [Sequence, Sequence_loop_eq items h, idx_zero, idx_last, List.head?_eq_head hne,
    List.getLast?_eq_getLast _ hne, hf, hl, Option.bind_eq_bind, Option.some_bind,
    Option.pure_def, newDiagramItem]
  by_cases h1 : (items.head hne).needsSpace = true <;>
    by_cases h2 : (items.getLast hne).needsSpace = true <;> simp [h1, h2]

theorem Stack_widthLoop_eq (items : List RailItem) (h : ∀ i ∈ items, i.isText = false)
    (di : diagramItem) :
    Stack.widthLoop items di = some { di with width := Stack.maxSpaced items di.width } := by
  induction items generalizing di with
  | nil => simp [Stack.widthLoop, Stack.maxSpaced]
  | cons item rest ih =>
    have hi : item.isText = false := h item (List.mem_cons_self _ _)
    have hr : ∀ i ∈ rest, i.isText = false := fun i hi => h i (List.mem_cons_of_mem _ hi)
    simp only [Stack.widthLoop, getWidth_eq hi, getNeedsSpace_eq hi, Option.bind_eq_bind,
      Option.some_bind, Option.pure_def, ih hr, Stack.maxSpaced, spacedWidth]
    by_cases hn : item.needsSpace = true <;> simp [hn]

theorem Stack_maxSpaced_spec (items : List RailItem) (w : ℚ) :
    w ≤ Stack.maxSpaced items w ∧ (∀ r ∈ items, spacedWidth r ≤ Stack.maxSpaced items w) ∧
    (Stack.maxSpaced items w = w ∨ ∃ r ∈ items, spacedWidth r = Stack.maxSpaced items w) := by
  induction items generalizing w with
  | nil => simp [Stack.maxSpaced]
  | cons item rest ih =>
    obtain ⟨h1, h2, h3⟩ := ih (max w (spacedWidth item))
    simp only [Stack.maxSpaced]
    refine ⟨le_trans (le_max_left _ _) h1, ?_, ?_⟩
    · intro r hr
      rcases List.mem_cons.mp hr with rfl | hr
      · exact le_trans (le_max_right _ _) h1
      · exact h2 r hr
    · rcases h3 with h3 | ⟨r, hr, h3⟩
      · rcases max_choice w (spacedWidth item) with hm | hm
        · left; rw [h3, hm]
        · right; exact ⟨item, List.mem_cons_self _ _, by rw [h3, hm]⟩
      · right; exact ⟨r, List.mem_cons_of_mem _ hr, h3⟩

theorem Stack_heightLoop_eq (cfg : Config) (n : Nat) (rest : List RailItem)
    (h : ∀ i ∈ rest, i.isText = false) (i : Nat) (hlen : i + rest.length = n) (di : diagramItem) :
    Stack.heightLoop cfg ((n : Int) - 1) rest i di = some
      { di with height := di.height + (rest.map RailItem.height).sum +
          (if 0 < i then (rest.head?.map fun r =>
            max (2 * cfg.ConfigArcRadius) (r.up + cfg.ConfigVerticalSeparation)).getD 0 else 0) +
          ((rest.zip rest.tail).map (Stack.between cfg)).sum } := by
  induction rest generalizing i di with
  | nil => simp [Stack.heightLoop]
  | cons item rest ih =>
    have hi : item.isText = false := h item (List.mem_cons_self _ _)
    have hr : ∀ i ∈ rest, i.isText = false := fun i hi => h i (List.mem_cons_of_mem _ hi)
    have hlen2 : (i + 1) + rest.length = n := by simp at hlen; omega
    simp only [Stack.heightLoop, getHeight_eq hi, getUp_eq hi, getDown_eq hi,
      Option.bind_eq_bind, Option.some_bind, Option.pure_def]
    have hlt : ((i : Int) < (n : Int) - 1) ↔ rest ≠ [] := by
      rw [← List.length_pos]; omega
    cases rest with
    | nil =>
      have : ¬ ((i : Int) < (n : Int) - 1) := by rw [hlt]; simp
      by_cases hi0 : i > 0
      · simp [this, hi0, Stack.heightLoop, mul_comm]
      · simp [this, hi0, Stack.heightLoop]
    | cons b t =>
      have : ((i : Int) < (n : Int) - 1) := by rw [hlt]; simp
      by_cases hi0 : i > 0
      · simp [this, hi0, ih hr (i + 1) hlen2, Stack.between, mul_comm]; ring
      · simp [this, hi0, ih hr (i + 1) hlen2, Stack.between, mul_comm]; ring

theorem Stack_eq (cfg : Config) (items : List RailItem) (hne : items ≠ [])
    (h : ∀ i ∈ items, i.isText = false) :
    Stack cfg items = some (.stack
      { name := "g"
        width := Stack.maxSpaced items 0 +
          (if 1 < items.length then cfg.ConfigArcRadius * 2 else 0)
        height := (items.map RailItem.height).sum + ((items.zip items.tail).map (Stack.between cfg)).sum
        up := (items.head hne).up
        down := (items.getLast hne).down
        attrs := []
        needsSpace := true } [] items) := by
  have hf := getUp_eq (h _ (List.head_mem hne))
  have hl := getDown_eq (h _ (List.getLast_mem hne))
  simp only [Stack, Stack_widthLoop_eq items h, idx_zero, idx_last, List.head?_eq_head hne,
    List.getLast?_eq_getLast _ hne, hf, hl, Option.bind_eq_bind, Option.some_bind,
    Option.pure_def, newDiagramItem, Stack_heightLoop_eq cfg items.length items h 0 (by simp)]
  by_cases h1 : 1 < items.length <;> simp [h1]

theorem Stack_inv (cfg : Config) (items : List RailItem) (r : RailItem)
    (h : Stack cfg items = some r) : items ≠ [] ∧ ∃ di, r = .stack di [] items := by
  constructor
  · rintro rfl
    simp [Stack, Stack.widthLoop, idx] at h
  · simp only [Stack, Option.bind_eq_bind, Option.bind_eq_some, Option.pure_def] at h
    obtain ⟨di, -, f, -, nf, -, l, -, nl, -, di2, -, h⟩ := h
    exact ⟨_, (Option.some.inj h).symm⟩

theorem maxWidthLoop_eq (items : List RailItem) (h : ∀ i ∈ items, i.isText = false) (w : ℚ) :
    maxWidthLoop items w = some (items.foldl (fun w i => max w i.width) w) := by
  induction items generalizing w with
  | nil => simp [maxWidthLoop]
  | cons item rest ih =>
    have hi : item.isText = false := h item (List.mem_cons_self _ _)
    have hr : ∀ i ∈ rest, i.isText = false := fun i hi => h i (List.mem_cons_of_mem _ hi)
    simp [maxWidthLoop, getWidth_eq hi, ih hr]

/-- The loop over the branches succeeds and changes `up` and `down` only. -/
theorem branchLoop_some (cfg : Config) (adjacent : ℚ) (d : Int) (items : List RailItem)
    (h : ∀ i ∈ items, i.isText = false) (hd0 : 0 ≤ d) (hd : d < items.length)
    (rest : List RailItem) (i : Nat)
    (hrest : ∀ r ∈ rest, r.isText = false) (hlen : i + rest.length = items.length)
    (di : diagramItem) :
    ∃ up down, branchLoop cfg adjacent d items rest i di = some { di with up := up, down := down } := by
  induction rest generalizing i di with
  | nil => exact ⟨di.up, di.down, by simp [branchLoop]⟩
  | cons item rest ih =>
    have hi : item.isText = false := hrest item (List.mem_cons_self _ _)
    have hr : ∀ i ∈ rest, i.isText = false := fun i hi => hrest i (List.mem_cons_of_mem _ hi)
    have hlen2 : (i + 1) + rest.length = items.length := by simp at hlen; omega
    simp only [branchLoop, getHeight_eq hi, getUp_eq hi, getDown_eq hi,
      Option.bind_eq_bind, Option.some_bind, Option.pure_def]
    by_cases h1 : (i : Int) < d
    · obtain ⟨nx, hnx, hmem⟩ := idx_mem items ((i : Int) + 1) (by omega) (by omega)
      simp only [if_pos h1, hnx, getUp_eq (h _ hmem), Option.some_bind]
      obtain ⟨u, dn, hu⟩ := ih (i + 1) hr hlen2 _
      exact ⟨u, dn, by rw [hu]⟩
    · by_cases h2 : (i : Int) = d
      · simp only [if_neg h1, if_pos h2, Option.some_bind]
        obtain ⟨u, dn, hu⟩ := ih (i + 1) hr hlen2 di
        exact ⟨u, dn, by rw [hu]⟩
      · obtain ⟨pv, hpv, hmem⟩ := idx_mem items ((i : Int) - 1) (by omega) (by omega)
        simp only [if_neg h1, if_neg h2, hpv, getDown_eq (h _ hmem), getHeight_eq (h _ hmem),
          Option.some_bind]
        obtain ⟨u, dn, hu⟩ := ih (i + 1) hr hlen2 _
        exact ⟨u, dn, by rw [hu]⟩

theorem Choice_some (cfg : Config) (d : Int) (items : List RailItem)
    (h : ∀ i ∈ items, i.isText = false) (hd0 : 0 ≤ d) (hd : d < items.length) :
    ∃ di, Choice cfg d items = some (.choice di [] d items) := by
  obtain ⟨f, hf, hfm⟩ := idx_mem items 0 (le_refl _) (by omega)
  obtain ⟨l, hl, hlm⟩ := idx_mem items ((items.length : Int) - 1) (by omega) (by omega)
  obtain ⟨dx, hdx, hdm⟩ := idx_mem items d hd0 hd
  simp only [Choice, maxWidthLoop_eq items h, hf, hl, hdx, getUp_eq (h _ hfm),
    getDown_eq (h _ hlm), getHeight_eq (h _ hdm), Option.bind_eq_bind, Option.some_bind,
    Option.pure_def]
  obtain ⟨u, dn, hu⟩ := branchLoop_some cfg (cfg.ConfigArcRadius * 2) d items h hd0 hd items 0 h
    (by simp) _
  rw [hu]
  exact ⟨_, rfl⟩

theorem Choice_inv (cfg : Config) (d : Int) (items : List RailItem) (r : RailItem)
    (h : Choice cfg d items = some r) :
    0 ≤ d ∧ d < items.length ∧ ∃ di, r = .choice di [] d items := by
  have hd : (idx items d).isSome := by
    cases hx : idx items d with
    | some x => rfl
    | none => simp [Choice, hx] at h
  refine ⟨((idx_isSome items d).mp hd).1, ((idx_isSome items d).mp hd).2, ?_⟩
  simp only [Choice, Option.bind_eq_bind, Option.bind_eq_some, Option.pure_def] at h
  obtain ⟨_, -, _, -, _, -, _, -, _, -, _, -, _, -, _, -, _, -, _, -, h⟩ := h
  exact ⟨_, (Option.some.inj h).symm⟩

theorem MultipleChoice_some (cfg : Config) (d : Int) (t : MultipleChoiceType)
    (items : List RailItem)
    (h : ∀ i ∈ items, i.isText = false) (hd0 : 0 ≤ d) (hd : d < items.length) :
    ∃ di w, MultipleChoice cfg d t items = some (.multipleChoice di [] d t items w) := by
  obtain ⟨f, hf, hfm⟩ := idx_mem items 0 (le_refl _) (by omega)
  obtain ⟨l, hl, hlm⟩ := idx_mem items ((items.length : Int) - 1) (by omega) (by omega)
  obtain ⟨dx, hdx, hdm⟩ := idx_mem items d hd0 hd
  simp only [MultipleChoice, maxWidthLoop_eq items h, hf, hl, hdx, getUp_eq (h _ hfm),
    getDown_eq (h _ hlm), getHeight_eq (h _ hdm), Option.bind_eq_bind, Option.some_bind,
    Option.pure_def]
  obtain ⟨u, dn, hu⟩ := branchLoop_some cfg (10 + cfg.ConfigArcRadius) d items h hd0 hd items 0 h
    (by simp) _
  rw [hu]
  exact ⟨_, _, rfl⟩

theorem MultipleChoice_inv (cfg : Config) (d : Int) (t : MultipleChoiceType)
    (items : List RailItem) (r : RailItem)
    (h : MultipleChoice cfg d t items = some r) :
    0 ≤ d ∧ d < items.length ∧ ∃ di w, r = .multipleChoice di [] d t items w := by
  have hd : (idx items d).isSome := by
    cases hx : idx items d with
    | some x => rfl
    | none => simp [MultipleChoice, hx] at h
  refine ⟨((idx_isSome items d).mp hd).1, ((idx_isSome items d).mp hd).2, ?_⟩
  simp only [MultipleChoice, Option.bind_eq_bind, Option.bind_eq_some, Option.pure_def] at h
  obtain ⟨_, -, _, -, _, -, _, -, _, -, _, -, _, -, _, -, _, -, _, -, h⟩ := h
  exact ⟨_, _, (Option.some.inj h).symm⟩

theorem Diagram_loop_eq (items : List RailItem) (di : diagramItem) :
    Diagram.loop items di = Sequence.loop (items.filter fun i => !i.isStyle) di := by
  induction items generalizing di with
  | nil => simp [Diagram.loop, Sequence.loop]
  | cons item rest ih =>
    by_cases hs : item.isStyle = true
    · simp [Diagram.loop, hs, ih]
    · simp [Diagram.loop, hs, ih, Sequence.loop]

theorem Diagram_items_eq (cfg : Config) (items : List RailItem) :
    Diagram.items_ cfg items =
      ((if cfg.ConfigDefaultStyle ≠ "" then [Style cfg.ConfigDefaultStyle] else []) ++
        newStart :: items) ++ [newEnd] := by
  simp only [Diagram.items_]
  split <;> simp

theorem Diagram_items_notText (cfg : Config) (items : List RailItem)
    (h : ∀ i ∈ items, i.isText = false) : ∀ i ∈ Diagram.items_ cfg items, i.isText = false := by
  intro i hi
  rw [Diagram_items_eq] at hi
  simp only [List.mem_append, List.mem_cons, List.mem_singleton, List.not_mem_nil, or_false] at hi
  rcases hi with (hi | hi | hi) | hi
  · split at hi
    · rw [List.mem_singleton.mp hi]; rfl
    · simp at hi
  · rw [hi]; rfl
  · exact h i hi
  · rw [hi]; rfl

theorem Diagram_items_first (cfg : Config) (items : List RailItem) :
    ∃ x, idx (Diagram.items_ cfg items) 0 = some x ∧ x.getNeedsSpace = some false := by
  rw [Diagram_items_eq, idx_zero]
  split
  · exact ⟨Style cfg.ConfigDefaultStyle, by simp, rfl⟩
  · exact ⟨newStart, by simp, rfl⟩

theorem Diagram_items_last (cfg : Config) (items : List RailItem) :
    ∃ x, idx (Diagram.items_ cfg items) (((Diagram.items_ cfg items).length : Int) - 1) = some x ∧
      x.getNeedsSpace = some false := by
  rw [idx_last, Diagram_items_eq, List.getLast?_concat]
  exact ⟨newEnd, rfl, rfl⟩

theorem Diagram_items_filter (cfg : Config) (items : List RailItem)
    (hs : ∀ i ∈ items, i.isStyle = false) :
    (Diagram.items_ cfg items).filter (fun i => !i.isStyle) = newStart :: items ++ [newEnd] := by
  have hf : items.filter (fun i => !i.isStyle) = items := by
    rw [List.filter_eq_self]
    intro i hi
    simp [hs i hi]
  rw [Diagram_items_eq]
  have h1 : newStart.isStyle = false := rfl
  have h2 : newEnd.isStyle = false := rfl
  have h3 : (Style cfg.ConfigDefaultStyle).isStyle = true := rfl
  split <;> simp [List.filter_cons, hf, h1, h2, h3]

theorem Diagram_eq (cfg : Config) (items : List RailItem) (h : ∀ i ∈ items, i.isText = false) :
    Diagram cfg items = some
      { di :=
          { name := "svg"
            width := (((Diagram.items_ cfg items).filter fun i => !i.isStyle).map spacedWidth).sum
            height := (((Diagram.items_ cfg items).filter fun i => !i.isStyle).map RailItem.height).sum
            up := Sequence.upAfter ((Diagram.items_ cfg items).filter fun i => !i.isStyle) 0 0
            down := Sequence.downAfter ((Diagram.items_ cfg items).filter fun i => !i.isStyle) 0
            attrs := [("class", cfg.ConfigDiagramClass)]
            needsSpace := false }
        children := []
        type_ := ""
        css := cfg.ConfigDefaultStyle
        items := Diagram.items_ cfg items
        formatted := false } := by
  obtain ⟨f, hf, hfn⟩ := Diagram_items_first cfg items
  obtain ⟨l, hl, hln⟩ := Diagram_items_last cfg items
  have hnt : ∀ i ∈ (Diagram.items_ cfg items).filter (fun i => !i.isStyle), i.isText = false :=
    fun i hi => Diagram_items_notText cfg items h i (List.mem_of_mem_filter hi)
  simp [Diagram, Diagram_loop_eq, Sequence_loop_eq _ hnt, hf, hl, hfn, hln, newDiagramItem]

/-- C2, the defect: with the default `center` alignment, `determineGaps(92, 73)`
(the repeat comment `1-6 times` placed in the lane of `hex digit`, from the
test) returns `(9, 9)`: the two gaps add up to 18, one unit less than the
surplus 19, where the specified right gap is `19 - 9 = 10`. -/
theorem determineGaps_center_odd_surplus :
    determineGaps defaultConfig 92 73 = (9, 9) ∧
    (determineGaps defaultConfig 92 73).1 + (determineGaps defaultConfig 92 73).2 = 18 ∧
    (92 : ℚ) - 73 = 19 ∧ (92 : ℚ) - 73 - 9 = 10 ∧
    (NonTerminal defaultConfig "hex digit").width = 92 ∧ (Comment "1-6 times").width = 73 := by
  decide!

/-- C4: construction of a composite fails exactly on structurally invalid
input.  `Sequence(items)` and `Stack(items)` fail if and only if `items` is
empty; `Choice(d, items)` and `MultipleChoice(d, t, items)` fail if and only if
`items` is empty or `d < 0` or `d >= len(items)`; otherwise an element is
returned.  (The items are elements, not `textItem`s.) -/
theorem constructors_fail_iff (cfg : Config) (d : Int) (t : MultipleChoiceType)
    (items : List RailItem) (h : ∀ i ∈ items, i.isText = false) :
    (Sequence items = none ↔ items = []) ∧
    (Stack cfg items = none ↔ items = []) ∧
    (Choice cfg d items = none ↔ items = [] ∨ d < 0 ∨ d ≥ items.length) ∧
    (MultipleChoice cfg d t items = none ↔ items = [] ∨ d < 0 ∨ d ≥ items.length) ∧
    ((Sequence items).isSome ↔ items ≠ []) ∧
    ((Stack cfg items).isSome ↔ items ≠ []) ∧
    ((Choice cfg d items).isSome ↔ items ≠ [] ∧ 0 ≤ d ∧ d < items.length) ∧
    ((MultipleChoice cfg d t items).isSome ↔ items ≠ [] ∧ 0 ≤ d ∧ d < items.length) := by
  have hlen : items = [] ↔ items.length = 0 := List.length_eq_zero.symm
  have s1 : (Sequence items).isSome ↔ items ≠ [] := by
    constructor
    · intro hs
      obtain ⟨r, hr⟩ := Option.isSome_iff_exists.mp hs
      exact (Sequence_inv items r hr).1
    · intro hne
      rw [Sequence_eq items hne h]; rfl
  have s2 : (Stack cfg items).isSome ↔ items ≠ [] := by
    constructor
    · intro hs
      obtain ⟨r, hr⟩ := Option.isSome_iff_exists.mp hs
      exact (Stack_inv cfg items r hr).1
    · intro hne
      rw [Stack_eq cfg items hne h]; rfl
  have s3 : (Choice cfg d items).isSome ↔ items ≠ [] ∧ 0 ≤ d ∧ d < items.length := by
    constructor
    · intro hs
      obtain ⟨r, hr⟩ := Option.isSome_iff_exists.mp hs
      obtain ⟨h0, h1, -⟩ := Choice_inv cfg d items r hr
      refine ⟨?_, h0, h1⟩
      rintro rfl
      simp at h1
      omega
    · rintro ⟨-, h0, h1⟩
      obtain ⟨di, hdi⟩ := Choice_some cfg d items h h0 h1
      rw [hdi]; rfl
  have s4 : (MultipleChoice cfg d t items).isSome ↔ items ≠ [] ∧ 0 ≤ d ∧ d < items.length := by
    constructor
    · intro hs
      obtain ⟨r, hr⟩ := Option.isSome_iff_exists.mp hs
      obtain ⟨h0, h1, -⟩ := MultipleChoice_inv cfg d t items r hr
      refine ⟨?_, h0, h1⟩
      rintro rfl
      simp at h1
      omega
    · rintro ⟨-, h0, h1⟩
      obtain ⟨di, w, hdi⟩ := MultipleChoice_some cfg d t items h h0 h1
      rw [hdi]; rfl
  refine ⟨?_, ?_, ?_, ?_, s1, s2, s3, s4⟩
  · rw [← Option.not_isSome_iff_eq_none, s1]; simp
  · rw [← Option.not_isSome_iff_eq_none, s2]; simp
  · rw [← Option.not_isSome_iff_eq_none, s3]
    constructor
    · intro hn
      by_cases he : items = []
      · exact Or.inl he
      · right
        by_contra hc
        exact hn ⟨he, by omega, by omega⟩
    · rintro (he | hd | hd) ⟨hne, h0, h1⟩
      · exact hne he
      · omega
      · omega
  · rw [← Option.not_isSome_iff_eq_none, s4]
    constructor
    · intro hn
      by_cases he : items = []
      · exact Or.inl he
      · right
        by_contra hc
        exact hn ⟨he, by omega, by omega⟩
    · rintro (he | hd | hd) ⟨hne, h0, h1⟩
      · exact hne he
      · omega
      · omega

/-- Witness of C4: one branch `Skip()` and default index 0. -/
theorem constructors_fail_iff_witness :
    (∀ i ∈ [Skip], i.isText = false) ∧
    ((Choice defaultConfig 0 [Skip]).isSome ↔ [Skip] ≠ [] ∧ (0 : Int) ≤ 0 ∧ (0 : Int) < [Skip].length) :=
  ⟨by decide, (constructors_fail_iff defaultConfig 0 MultipleChoiceAny [Skip] (by decide)).2.2.2.2.2.2.1⟩

theorem width_sequence (di : diagramItem) (ch items : List RailItem) :
    (RailItem.sequence di ch items).width = di.width ∧
    (RailItem.sequence di ch items).height = di.height ∧
    (RailItem.sequence di ch items).up = di.up ∧
    (RailItem.sequence di ch items).down = di.down := by
  simp [RailItem.width, RailItem.height, RailItem.up, RailItem.down, RailItem.getWidth,
    RailItem.getHeight, RailItem.getUp, RailItem.getDown, RailItem.base]

theorem width_stack (di : diagramItem) (ch items : List RailItem) :
    (RailItem.stack di ch items).width = di.width ∧
    (RailItem.stack di ch items).height = di.height ∧
    (RailItem.stack di ch items).up = di.up ∧
    (RailItem.stack di ch items).down = di.down := by
  simp [RailItem.width, RailItem.height, RailItem.up, RailItem.down, RailItem.getWidth,
    RailItem.getHeight, RailItem.getUp, RailItem.getDown, RailItem.base]

/-- C7: for every list of elements `items` none of which is a style, the metrics
computed by `Diagram(items...)` are those of `Sequence` applied to the wrapped
list `[Start, items..., End]`: the same width, height, up and down, whether or
not the configuration prepends a style block. -/
theorem Diagram_metrics_eq_Sequence (cfg : Config) (items : List RailItem)
    (hs : ∀ i ∈ items, i.isStyle = false) (ht : ∀ i ∈ items, i.isText = false) :
    ∃ d s, Diagram cfg items = some d ∧ Sequence (newStart :: items ++ [newEnd]) = some s ∧
      d.di.width = s.width ∧ d.di.height = s.height ∧ d.di.up = s.up ∧ d.di.down = s.down := by
  have hne : newStart :: items ++ [newEnd] ≠ [] := by simp
  have hnt : ∀ i ∈ newStart :: items ++ [newEnd], i.isText = false := by
    intro i hi
    simp only [List.cons_append, List.mem_cons, List.mem_append, List.mem_singleton,
      List.not_mem_nil, or_false] at hi
    rcases hi with hi | hi | hi
    · rw [hi]; rfl
    · exact ht i hi
    · rw [hi]; rfl
  refine ⟨_, _, Diagram_eq cfg items ht, Sequence_eq _ hne hnt, ?_⟩
  have hl : (newStart :: items ++ [newEnd]).getLast hne = newEnd := by
    have : (newStart :: items ++ [newEnd]).getLast? = some newEnd :=
      List.getLast?_concat (newStart :: items)
    rw [List.getLast?_eq_getLast _ (by simp)] at this
    exact Option.some.inj this
  have h1 : newStart.needsSpace = false := rfl
  have h2 : newEnd.needsSpace = false := rfl
  simp only [width_sequence, Diagram_items_filter cfg items hs, hl, h2, List.head_cons,
    List.cons_append, h1]
  simp [h2]

/-- Witness of C7: `Diagram(Terminal("a"))` under the default configuration. -/
theorem Diagram_metrics_eq_Sequence_witness :
    ∃ d s, Diagram defaultConfig [Terminal defaultConfig "a"] = some d ∧
      Sequence (newStart :: [Terminal defaultConfig "a"] ++ [newEnd]) = some s ∧
      d.di.width = s.width ∧ d.di.height = s.height ∧ d.di.up = s.up ∧ d.di.down = s.down :=
  Diagram_metrics_eq_Sequence defaultConfig [Terminal defaultConfig "a"] (by decide) (by decide)

/-- C9 as stated fails: for `Sequence(Terminal("a"), Terminal("b"))` under the
default configuration the width is 76, while the sum of the widths plus 20 for
the one internal gap, minus 10 for the first and minus 10 for the last child, is
56. -/
theorem Sequence_width_counterexample :
    (Sequence [Terminal defaultConfig "a", Terminal defaultConfig "b"]).map RailItem.width
      = some 76 ∧
    specSequenceWidth [Terminal defaultConfig "a", Terminal defaultConfig "b"] = 56 := by
  decide!

/-- C9, amended: for every non-empty list of children, the width of
`Sequence(children)` is the sum of the children's widths, plus 20 for each
child that needs spacing, minus 10 if the first child needs spacing and minus 10
if the last child needs spacing. -/
theorem Sequence_width (items : List RailItem) (hne : items ≠ [])
    (h : ∀ i ∈ items, i.isText = false) :
    ∃ s, Sequence items = some s ∧
      s.width = (items.map RailItem.width).sum +
        20 * ((items.filter RailItem.needsSpace).length : ℚ) -
        (if (items.head hne).needsSpace then 10 else 0) -
        (if (items.getLast hne).needsSpace then 10 else 0) := by
  refine ⟨_, Sequence_eq items hne h, ?_⟩
  rw [(width_sequence _ _ _).1, sum_spacedWidth]

/-- Witness of C9: two terminals. -/
theorem Sequence_width_witness :
    ∃ s, Sequence [Terminal defaultConfig "a", Terminal defaultConfig "b"] = some s ∧
      s.width = ([Terminal defaultConfig "a", Terminal defaultConfig "b"].map RailItem.width).sum +
        20 * (([Terminal defaultConfig "a", Terminal defaultConfig "b"].filter
          RailItem.needsSpace).length : ℚ) -
        (if ([Terminal defaultConfig "a", Terminal defaultConfig "b"].head
          (by simp)).needsSpace then 10 else 0) -
        (if ([Terminal defaultConfig "a", Terminal defaultConfig "b"].getLast
          (by simp)).needsSpace then 10 else 0) :=
  Sequence_width [Terminal defaultConfig "a", Terminal defaultConfig "b"] (by simp) (by decide)

/-- C10: for every non-empty list of rows (of non-negative width),
`Stack(rows)` has width the maximum over the rows of the row width (+20 if the
row needs spacing), plus `2R` when there is more than one row; up is the first
row's up; down is the last row's down; and height is the sum of the row heights
plus, for each pair of consecutive rows,
`max(2R, exitRow.down + V) + max(2R, nextRow.up + V)`. -/
theorem Stack_metrics (cfg : Config) (rows : List RailItem) (hne : rows ≠ [])
    (h : ∀ r ∈ rows, r.isText = false) (hw : ∀ r ∈ rows, 0 ≤ r.width) :
    ∃ s, Stack cfg rows = some s ∧
      (∃ m, (∀ r ∈ rows, spacedWidth r ≤ m) ∧ (∃ r ∈ rows, spacedWidth r = m) ∧
        s.width = m + (if 1 < rows.length then 2 * cfg.ConfigArcRadius else 0)) ∧
      s.up = (rows.head hne).up ∧
      s.down = (rows.getLast hne).down ∧
      s.height = (rows.map RailItem.height).sum +
        ((rows.zip rows.tail).map fun p =>
          max (2 * cfg.ConfigArcRadius) (p.1.down + cfg.ConfigVerticalSeparation) +
          max (2 * cfg.ConfigArcRadius) (p.2.up + cfg.ConfigVerticalSeparation)).sum := by
  refine ⟨_, Stack_eq cfg rows hne h, ?_, (width_stack _ _ _).2.2.1, (width_stack _ _ _).2.2.2, ?_⟩
  · obtain ⟨h1, h2, h3⟩ := Stack_maxSpaced_spec rows 0
    have hsw : ∀ r ∈ rows, 0 ≤ spacedWidth r := by
      intro r hr
      have := hw r hr
      unfold spacedWidth
      split <;> linarith
    refine ⟨Stack.maxSpaced rows 0, h2, ?_, ?_⟩
    · rcases h3 with h3 | h3
      · obtain ⟨r, hr⟩ := List.exists_mem_of_ne_nil rows hne
        refine ⟨r, hr, ?_⟩
        have := h2 r hr
        have := hsw r hr
        linarith
      · exact h3
    · rw [(width_stack _ _ _).1, mul_comm]
  · rw [(width_stack _ _ _).2.1]
    rfl

/-- Witness of C10: `Stack(Terminal("a"), Terminal("b"))`. -/
theorem Stack_metrics_witness :
    ∃ s, Stack defaultConfig [Terminal defaultConfig "a", Terminal defaultConfig "b"] = some s ∧
      s.height = 40 :=
  have hne : [Terminal defaultConfig "a", Terminal defaultConfig "b"] ≠ [] := by simp
  have h := Stack_metrics defaultConfig [Terminal defaultConfig "a", Terminal defaultConfig "b"]
    hne (by decide) (by decide!)
  h.imp fun s hs => ⟨hs.1, by rw [hs.2.2.2.2]; decide!⟩

/-! ## Placement: proofs -/

@[simp]
theorem arc_ne (cfg : Config) (p : path) :
    p.arc cfg "ne" = some (p.arcTo cfg cfg.ConfigArcRadius cfg.ConfigArcRadius 1) := rfl

@[simp]
theorem arc_es (cfg : Config) (p : path) :
    p.arc cfg "es" = some (p.arcTo cfg (cfg.ConfigArcRadius * (-1)) cfg.ConfigArcRadius 1) := rfl

@[simp]
theorem arc_sw (cfg : Config) (p : path) :
    p.arc cfg "sw" =
      some (p.arcTo cfg (cfg.ConfigArcRadius * (-1)) (cfg.ConfigArcRadius * (-1)) 1) := rfl

@[simp]
theorem arc_wn (cfg : Config) (p : path) :
    p.arc cfg "wn" = some (p.arcTo cfg cfg.ConfigArcRadius (cfg.ConfigArcRadius * (-1)) 1) := rfl

@[simp]
theorem arc_en (cfg : Config) (p : path) :
    p.arc cfg "en" =
      some (p.arcTo cfg (cfg.ConfigArcRadius * (-1)) (cfg.ConfigArcRadius * (-1)) 0) := rfl

@[simp]
theorem arc_nw (cfg : Config) (p : path) :
    p.arc cfg "nw" = some (p.arcTo cfg (cfg.ConfigArcRadius * (-1)) cfg.ConfigArcRadius 0) := rfl

@[simp]
theorem arc_se (cfg : Config) (p : path) :
    p.arc cfg "se" = some (p.arcTo cfg cfg.ConfigArcRadius (cfg.ConfigArcRadius * (-1)) 0) := rfl

@[simp]
theorem arc_ws (cfg : Config) (p : path) :
    p.arc cfg "ws" = some (p.arcTo cfg cfg.ConfigArcRadius cfg.ConfigArcRadius 0) := rfl

theorem assemble_some (items : List RailItem) (steps : List Step)
    (h : ∀ s ∈ steps, s.inRange items.length = true) : ∃ l, assemble items steps = some l := by
  induction steps with
  | nil => exact ⟨[], rfl⟩
  | cons s rest ih =>
    obtain ⟨l, hl⟩ := ih (fun s hs => h s (List.mem_cons_of_mem _ hs))
    cases s with
    | add c => exact ⟨c :: l, by simp [assemble, hl]⟩
    | place i x y w =>
      have hi : i < items.length := by
        have := h _ (List.mem_cons_self _ _)
        simpa [Step.inRange] using this
      exact ⟨items[i] :: l, by simp [assemble, hl, List.getElem?_eq_getElem hi]⟩

theorem inRange_mono {n m : Nat} (hnm : n ≤ m) (s : Step) (h : s.inRange n = true) :
    s.inRange m = true := by
  cases s with
  | add c => rfl
  | place i x y w =>
    simp only [Step.inRange, decide_eq_true_eq] at h ⊢
    omega

theorem forRange_some {σ : Type} (body : RailItem → Nat → σ → Option (List Step × σ))
    (n m : Nat) (P : RailItem → Prop)
    (hbody : ∀ item j s, P item → j < m →
      ∃ res, body item j s = some res ∧ ∀ st ∈ res.1, st.inRange n = true)
    (rest : List RailItem) (hP : ∀ r ∈ rest, P r) (i : Nat) (hlen : i + rest.length ≤ m) (s : σ) :
    ∃ res, forRange body rest i s = some res ∧ ∀ st ∈ res.1, st.inRange n = true := by
  induction rest generalizing i s with
  | nil => exact ⟨([], s), rfl, by simp⟩
  | cons item rest ih =>
    have hl : i + 1 + rest.length ≤ m := by simp at hlen; omega
    obtain ⟨⟨steps, s1⟩, h1, hb1⟩ :=
      hbody item i s (hP item (List.mem_cons_self _ _)) (by simp at hlen; omega)
    obtain ⟨⟨tail, s2⟩, h2, hb2⟩ :=
      ih (fun r hr => hP r (List.mem_cons_of_mem _ hr)) (i + 1) hl s1
    refine ⟨(steps ++ tail, s2), by simp [forRange, h1, h2], ?_⟩
    intro st hst
    rcases List.mem_append.mp hst with hst | hst
    · exact hb1 st hst
    · exact hb2 st hst

theorem sequence_formatBody_some (cfg : Config) (n m : Nat) (item : RailItem) (i : Nat)
    (c : ℚ × ℚ) (hi : item.isText = false) (hlt : i < m) :
    ∃ res, sequence.formatBody cfg n item i c = some res ∧ ∀ st ∈ res.1, st.inRange m = true := by
  obtain ⟨x, y⟩ := c
  simp only [sequence.formatBody, getHeight_eq hi, getWidth_eq hi, getNeedsSpace_eq hi,
    Option.bind_eq_bind, Option.some_bind, Option.pure_def]
  by_cases hn : item.needsSpace = true <;> by_cases h0 : i > 0 <;>
    by_cases hl : (i : Int) < (n : Int) - 1 <;> simp [hn, h0, hl, Step.inRange, hlt]

theorem sequence_steps_some (cfg : Config) (self : diagramItem) (items : List RailItem)
    (h : ∀ r ∈ items, r.isText = false) (x y width : ℚ) :
    ∃ res, sequence.steps cfg self items x y width = some res ∧
      ∀ st ∈ res.1, st.inRange items.length = true := by
  obtain ⟨⟨tail, x', y'⟩, ht, hb⟩ := forRange_some (sequence.formatBody cfg items.length)
    items.length items.length (fun r => r.isText = false)
    (fun item j s hi hj => sequence_formatBody_some cfg _ _ item j s hi hj) items h 0 (by simp)
    (x + (determineGaps cfg width self.width).1, y)
  simp only [sequence.steps, ht, Option.bind_eq_bind, Option.some_bind, Option.pure_def]
  refine ⟨_, rfl, ?_⟩
  intro st hst
  simp only [List.mem_cons] at hst
  rcases hst with rfl | rfl | hst
  · rfl
  · rfl
  · exact hb st hst

theorem stack_connector_some (cfg : Config) (items : List RailItem)
    (h : ∀ r ∈ items, r.isText = false) (innerWidth : ℚ) (item : RailItem)
    (hi : item.isText = false) (i : Nat) (hlt : i + 1 < items.length) (x y : ℚ) :
    ∃ p, stack.connector cfg items innerWidth item i x y = some p := by
  obtain ⟨nx, hnx, hmem⟩ := idx_mem items ((i : Int) + 1) (by omega) (by omega)
  simp [stack.connector, getDown_eq hi, hnx, getUp_eq (h _ hmem)]

theorem stack_formatBody_some (cfg : Config) (items : List RailItem)
    (h : ∀ r ∈ items, r.isText = false) (xInitial innerWidth : ℚ) (item : RailItem) (i : Nat)
    (c : ℚ × ℚ) (hi : item.isText = false) (hlt : i < items.length) :
    ∃ res, stack.formatBody cfg items xInitial innerWidth item i c = some res ∧
      ∀ st ∈ res.1, st.inRange items.length = true := by
  obtain ⟨x, y⟩ := c
  by_cases hl : (i : Int) ≠ (items.length : Int) - 1
  · obtain ⟨nx, hnx, hmem⟩ := idx_mem items ((i : Int) + 1) (by omega) (by omega)
    obtain ⟨p, hp⟩ := stack_connector_some cfg items h innerWidth item hi i (by omega)
      (x + innerWidth) (y + item.height)
    simp [stack.formatBody, getHeight_eq hi, getDown_eq hi, hnx, getUp_eq (h _ hmem), hl, hp,
      Step.inRange, hlt]
  · simp [stack.formatBody, getHeight_eq hi, hl, Step.inRange, hlt]

theorem stack_steps_some (cfg : Config) (self : diagramItem) (items : List RailItem)
    (h : ∀ r ∈ items, r.isText = false) (x y width : ℚ) :
    ∃ res, stack.steps cfg self items x y width = some res ∧
      ∀ st ∈ res.1, st.inRange items.length = true := by
  simp only [stack.steps, Option.bind_eq_bind, Option.pure_def]
  by_cases h1 : items.length > 1
  · simp only [h1, if_true]
    obtain ⟨⟨tail, x', y'⟩, ht, hb⟩ := forRange_some (stack.formatBody cfg items
        (x + (determineGaps cfg width self.width).1) (self.width - cfg.ConfigArcRadius * 2))
      items.length items.length (fun r => r.isText = false)
      (fun item j s hi hj => stack_formatBody_some cfg items h _ _ item j s hi hj) items h 0
      (by simp) (x + (determineGaps cfg width self.width).1 + cfg.ConfigArcRadius, y)
    refine ⟨_, by rw [ht]; rfl, ?_⟩
    intro st hst
    simp only [List.mem_append, List.mem_cons, List.mem_singleton, List.not_mem_nil,
      or_false] at hst
    rcases hst with (((rfl | rfl) | hst) | rfl) | rfl
    · rfl
    · rfl
    · exact hb st hst
    · rfl
    · rfl
  · simp only [h1, if_false]
    obtain ⟨⟨tail, x', y'⟩, ht, hb⟩ := forRange_some (stack.formatBody cfg items
        (x + (determineGaps cfg width self.width).1) self.width)
      items.length items.length (fun r => r.isText = false)
      (fun item j s hi hj => stack_formatBody_some cfg items h _ _ item j s hi hj) items h 0
      (by simp) (x + (determineGaps cfg width self.width).1, y)
    refine ⟨_, by rw [ht]; rfl, ?_⟩
    intro st hst
    simp only [List.mem_append, List.mem_cons, List.mem_singleton, List.not_mem_nil,
      or_false, List.append_nil] at hst
    rcases hst with (rfl | hst) | rfl
    · rfl
    · exact hb st hst
    · rfl

theorem optionalSequence_formatBody_some (cfg : Config) (upperLineY : ℚ) (last : Int) (m : Nat)
    (item : RailItem) (i : Nat) (c : ℚ × ℚ) (hi : item.isText = false) (hlt : i < m) :
    ∃ res, optionalSequence.formatBody cfg upperLineY last item i c = some res ∧
      ∀ st ∈ res.1, st.inRange m = true := by
  obtain ⟨x, y⟩ := c
  by_cases h0 : i = 0
  · by_cases hn : item.needsSpace = true <;>
      simp [optionalSequence.formatBody, optionalSequence.firstPath, getHeight_eq hi,
        getWidth_eq hi, getNeedsSpace_eq hi, h0, hn, Step.inRange, hlt] <;> omega
  · by_cases hl : (i : Int) < last
    · by_cases hn : item.needsSpace = true <;>
        simp [optionalSequence.formatBody, optionalSequence.upperPath,
          optionalSequence.lowerPath, getHeight_eq hi, getDown_eq hi,
          getWidth_eq hi, getNeedsSpace_eq hi, h0, hl, hn, Step.inRange, hlt]
    · by_cases hn : item.needsSpace = true <;>
        simp [optionalSequence.formatBody, optionalSequence.lowerPath, getHeight_eq hi,
          getDown_eq hi, getWidth_eq hi, getNeedsSpace_eq hi, h0, hl, hn, Step.inRange, hlt]

theorem optionalSequence_steps_some (cfg : Config) (self : diagramItem) (items : List RailItem)
    (h : ∀ r ∈ items, r.isText = false) (x y width : ℚ) :
    ∃ res, optionalSequence.steps cfg self items x y width = some res ∧
      ∀ st ∈ res.1, st.inRange items.length = true := by
  obtain ⟨⟨tail, x', y'⟩, ht, hb⟩ := forRange_some
    (optionalSequence.formatBody cfg (y - self.up) ((items.length : Int) - 1))
    items.length items.length (fun r => r.isText = false)
    (fun item j s hi hj => optionalSequence_formatBody_some cfg _ _ _ item j s hi hj) items h 0
    (by simp) (x + (determineGaps cfg width self.width).1, y)
  simp only [optionalSequence.steps, ht, Option.bind_eq_bind, Option.some_bind, Option.pure_def]
  refine ⟨_, rfl, ?_⟩
  intro st hst
  simp only [List.mem_cons] at hst
  rcases hst with rfl | rfl | hst
  · rfl
  · rfl
  · exact hb st hst

theorem diagram_formatBody_some (cfg : Config) (m : Nat) (item : RailItem) (i : Nat)
    (c : ℚ × ℚ) (hi : item.isText = false) (hlt : i < m) :
    ∃ res, diagram.formatBody cfg item i c = some res ∧ ∀ st ∈ res.1, st.inRange m = true := by
  obtain ⟨x, y⟩ := c
  simp only [diagram.formatBody, getHeight_eq hi, getWidth_eq hi, getNeedsSpace_eq hi,
    Option.bind_eq_bind, Option.some_bind, Option.pure_def]
  by_cases hn : item.needsSpace = true <;> simp [hn, Step.inRange, hlt]

theorem choice_aboveBody_some (cfg : Config) (x y innerWidth : ℚ) (dflt : RailItem)
    (hd : dflt.isText = false) (above : List RailItem) (ha : ∀ r ∈ above, r.isText = false)
    (n : Nat) (hn : above.length ≤ n) (item : RailItem) (i : Nat) (s : ℚ)
    (hi : item.isText = false) (hlt : i < above.length) :
    ∃ res, choice.aboveBody cfg x y innerWidth dflt above item i s = some res ∧
      ∀ st ∈ res.1, st.inRange n = true := by
  have hin : i < n := by omega
  by_cases hni : (i : Int) - (above.length : Int) < -1
  · obtain ⟨nx, hnx, hmem⟩ := idx_mem above ((i : Int) + 1) (by omega) (by omega)
    simp [choice.aboveBody, choice.aboveEntry, choice.aboveExit, getHeight_eq hi, getUp_eq hi,
      getHeight_eq hd, hni, hnx, getDown_eq (ha _ hmem), getHeight_eq (ha _ hmem),
      Step.inRange, hin]
  · simp [choice.aboveBody, choice.aboveEntry, choice.aboveExit, getHeight_eq hi, getUp_eq hi,
      getHeight_eq hd, hni, Step.inRange, hin]

theorem choice_belowBody_some (cfg : Config) (x y innerWidth : ℚ) (dflt : RailItem)
    (hd : dflt.isText = false) (below : List RailItem) (ha : ∀ r ∈ below, r.isText = false)
    (first n : Nat) (hn : first + below.length ≤ n) (item : RailItem) (i : Nat) (s : ℚ)
    (hi : item.isText = false) (hlt : i < below.length) :
    ∃ res, choice.belowBody cfg x y innerWidth dflt below first item i s = some res ∧
      ∀ st ∈ res.1, st.inRange n = true := by
  have hin : first + i < n := by omega
  by_cases hni : i + 1 < below.length
  · obtain ⟨nx, hnx, hmem⟩ := idx_mem below ((i : Int) + 1) (by omega) (by omega)
    simp [choice.belowBody, choice.belowEntry, choice.belowExit, getHeight_eq hi, getDown_eq hi,
      getHeight_eq hd, hni, hnx, getUp_eq (ha _ hmem), Step.inRange, hin]
  · simp [choice.belowBody, choice.belowEntry, choice.belowExit, getHeight_eq hi, getDown_eq hi,
      getHeight_eq hd, hni, Step.inRange, hin]

theorem multipleChoice_aboveBody_some (cfg : Config) (x y innerWidth : ℚ) (dflt : RailItem)
    (hd : dflt.isText = false) (above : List RailItem)
    (n : Nat) (hn : above.length ≤ n) (item : RailItem) (i : Nat) (s : ℚ)
    (hi : item.isText = false) (hlt : i < above.length) :
    ∃ res, multipleChoice.aboveBody cfg x y innerWidth dflt above item i s = some res ∧
      ∀ st ∈ res.1, st.inRange n = true := by
  have hin : i < n := by omega
  have hni : ¬ ((above.length : Int) - (i : Int) < -1) := by omega
  simp [multipleChoice.aboveBody, multipleChoice.aboveEntry, multipleChoice.aboveExit,
    getHeight_eq hi, getUp_eq hi, getHeight_eq hd, hni, Step.inRange, hin]

theorem multipleChoice_belowBody_some (cfg : Config) (x y innerWidth : ℚ) (dflt : RailItem)
    (hd : dflt.isText = false) (below : List RailItem) (ha : ∀ r ∈ below, r.isText = false)
    (first n : Nat) (hn : first + below.length ≤ n) (item : RailItem) (i : Nat) (s : ℚ)
    (hi : item.isText = false) (hlt : i < below.length) :
    ∃ res, multipleChoice.belowBody cfg x y innerWidth dflt below first item i s = some res ∧
      ∀ st ∈ res.1, st.inRange n = true := by
  have hin : first + i < n := by omega
  by_cases hni : i + 1 < below.length
  · obtain ⟨nx, hnx, hmem⟩ := idx_mem below ((i : Int) + 1) (by omega) (by omega)
    simp [multipleChoice.belowBody, multipleChoice.belowEntry, multipleChoice.belowExit,
      getHeight_eq hi, getDown_eq hi, getHeight_eq hd, hni, hnx, getUp_eq (ha _ hmem),
      Step.inRange, hin]
  · simp [multipleChoice.belowBody, multipleChoice.belowEntry, multipleChoice.belowExit,
      getHeight_eq hi, getDown_eq hi, getHeight_eq hd, hni, Step.inRange, hin]

theorem oneOrMore_steps_some (cfg : Config) (self : diagramItem) (item rep : RailItem)
    (hi : item.isText = false) (hr : rep.isText = false) (x y width : ℚ) :
    ∃ steps, oneOrMore.steps cfg self item rep x y width = some steps ∧
      ∀ st ∈ steps, st.inRange 2 = true := by
  simp [oneOrMore.steps, oneOrMore.entry, oneOrMore.exit, getHeight_eq hi, getDown_eq hi,
    getUp_eq hr, getHeight_eq hr, Step.inRange]

theorem bind_some_of_eq {α β : Type} {o : Option α} {f : α → Option β} {P : β → Prop} (v : α)
    (ho : o = some v) (hf : ∃ b, f v = some b ∧ P b) : ∃ b, o.bind f = some b ∧ P b := by
  subst ho
  exact hf

theorem bind_some_of_exists {α β : Type} {o : Option α} {f : α → Option β} {Q : α → Prop}
    {P : β → Prop} (ho : ∃ v, o = some v ∧ Q v) (hf : ∀ v, Q v → ∃ b, f v = some b ∧ P b) :
    ∃ b, o.bind f = some b ∧ P b := by
  obtain ⟨v, rfl, hq⟩ := ho
  exact hf v hq

theorem take_reverse_notText (items : List RailItem) (h : ∀ r ∈ items, r.isText = false)
    (d : Nat) : ∀ r ∈ (items.take d).reverse, r.isText = false :=
  fun r hr => h r (List.mem_of_mem_take (List.mem_reverse.mp hr))

theorem drop_notText (items : List RailItem) (h : ∀ r ∈ items, r.isText = false)
    (d : Nat) : ∀ r ∈ items.drop d, r.isText = false :=
  fun r hr => h r (List.mem_of_mem_drop hr)

theorem startAbove_some (cfg : Config) (minimum : ℚ) (dflt : RailItem)
    (hd : dflt.isText = false) (above : List RailItem) (ha : ∀ r ∈ above, r.isText = false)
    (s : ℚ) : ∃ v, startAbove cfg minimum dflt above s = some v ∧ True := by
  by_cases hl : above.length > 0
  · obtain ⟨f, hf, hfm⟩ := idx_mem above 0 (le_refl _) (by omega)
    simp [startAbove, hl, hf, getUp_eq hd, getDown_eq (ha _ hfm), getHeight_eq (ha _ hfm)]
  · simp [startAbove, hl]

theorem startBelow_some (cfg : Config) (minimum : ℚ) (dflt : RailItem)
    (hd : dflt.isText = false) (below : List RailItem) (ha : ∀ r ∈ below, r.isText = false)
    (s : ℚ) : ∃ v, startBelow cfg minimum dflt below s = some v ∧ True := by
  by_cases hl : below.length > 0
  · obtain ⟨f, hf, hfm⟩ := idx_mem below 0 (le_refl _) (by omega)
    simp [startBelow, hl, hf, getHeight_eq hd, getDown_eq hd, getUp_eq (ha _ hfm)]
  · simp [startBelow, hl]

theorem choice_steps_some (cfg : Config) (self : diagramItem) (d : Int) (items : List RailItem)
    (h : ∀ r ∈ items, r.isText = false) (hd0 : 0 ≤ d) (hd : d < items.length) (x y width : ℚ) :
    ∃ steps, choice.steps cfg self d items x y width = some steps ∧
      ∀ st ∈ steps, st.inRange items.length = true := by
  obtain ⟨dflt, hdx, hdm⟩ := idx_mem items d hd0 hd
  have hdt := h _ hdm
  have ha := take_reverse_notText items h d.toNat
  have hb := drop_notText items h (d.toNat + 1)
  have hal : ((items.take d.toNat).reverse).length ≤ items.length := by simp
  have hbl : d.toNat + 1 + (items.drop (d.toNat + 1)).length ≤ items.length := by
    simp; omega
  have hA := fun x y w s => forRange_some (choice.aboveBody cfg x y w dflt (items.take d.toNat).reverse)
    items.length _ (fun r => r.isText = false)
    (fun item j s hi hj => choice_aboveBody_some cfg x y w dflt hdt _ ha _ hal item j s hi hj)
    (items.take d.toNat).reverse ha 0 (by simp) s
  have hB := fun x y w s => forRange_some
    (choice.belowBody cfg x y w dflt (items.drop (d.toNat + 1)) (d.toNat + 1))
    items.length _ (fun r => r.isText = false)
    (fun item j s hi hj => choice_belowBody_some cfg x y w dflt hdt _ hb _ _ hbl item j s hi hj)
    (items.drop (d.toNat + 1)) hb 0 (by simp) s
  simp only [choice.steps, Option.bind_eq_bind, Option.pure_def]
  refine bind_some_of_eq dflt hdx ?_
  refine bind_some_of_exists (startAbove_some cfg _ dflt hdt _ ha _) ?_
  intro dA _
  refine bind_some_of_exists (hA _ _ _ _) ?_
  rintro ⟨sa, dA2⟩ hsa
  refine bind_some_of_exists (startBelow_some cfg _ dflt hdt _ hb _) ?_
  intro dB _
  refine bind_some_of_exists (hB _ _ _ _) ?_
  rintro ⟨sb, dB2⟩ hsb
  refine ⟨_, rfl, ?_⟩
  intro st hst
  simp only [List.mem_append, List.mem_cons, List.mem_singleton, List.not_mem_nil,
    or_false, List.cons_append] at hst
  have hdn : d.toNat < items.length := by omega
  rcases hst with rfl | rfl | (hst | rfl | rfl | rfl) | hst
  · rfl
  · rfl
  · exact hsa st hst
  · rfl
  · simp [Step.inRange, hdn]
  · rfl
  · exact hsb st hst

theorem multipleChoice_steps_some (cfg : Config) (self : diagramItem) (d : Int) (t : String)
    (items : List RailItem) (iw : ℚ)
    (h : ∀ r ∈ items, r.isText = false) (hd0 : 0 ≤ d) (hd : d < items.length) (x y width : ℚ) :
    ∃ steps, multipleChoice.steps cfg self d t items iw x y width = some steps ∧
      ∀ st ∈ steps, st.inRange items.length = true := by
  obtain ⟨dflt, hdx, hdm⟩ := idx_mem items d hd0 hd
  have hdt := h _ hdm
  have ha := take_reverse_notText items h d.toNat
  have hb := drop_notText items h (d.toNat + 1)
  have hal : ((items.take d.toNat).reverse).length ≤ items.length := by simp
  have hbl : d.toNat + 1 + (items.drop (d.toNat + 1)).length ≤ items.length := by
    simp; omega
  have hA := fun x y w s => forRange_some
    (multipleChoice.aboveBody cfg x y w dflt (items.take d.toNat).reverse)
    items.length _ (fun r => r.isText = false)
    (fun item j s hi hj => multipleChoice_aboveBody_some cfg x y w dflt hdt _ _ hal item j s hi hj)
    (items.take d.toNat).reverse ha 0 (by simp) s
  have hB := fun x y w s => forRange_some
    (multipleChoice.belowBody cfg x y w dflt (items.drop (d.toNat + 1)) (d.toNat + 1))
    items.length _ (fun r => r.isText = false)
    (fun item j s hi hj =>
      multipleChoice_belowBody_some cfg x y w dflt hdt _ hb _ _ hbl item j s hi hj)
    (items.drop (d.toNat + 1)) hb 0 (by simp) s
  simp only [multipleChoice.steps, Option.bind_eq_bind, Option.pure_def]
  refine bind_some_of_eq dflt hdx ?_
  refine bind_some_of_exists (startAbove_some cfg _ dflt hdt _ ha _) ?_
  intro dA _
  refine bind_some_of_exists (hA _ _ _ _) ?_
  rintro ⟨sa, dA2⟩ hsa
  refine bind_some_of_exists (startBelow_some cfg _ dflt hdt _ hb _) ?_
  intro dB _
  refine bind_some_of_exists (hB _ _ _ _) ?_
  rintro ⟨sb, dB2⟩ hsb
  refine ⟨_, rfl, ?_⟩
  intro st hst
  simp only [List.mem_append, List.mem_cons, List.mem_singleton, List.not_mem_nil,
    or_false, List.cons_append] at hst
  have hdn : d.toNat < items.length := by omega
  rcases hst with rfl | rfl | ((hst | rfl | rfl | rfl) | hst) | rfl
  · rfl
  · rfl
  · exact hsa st hst
  · rfl
  · simp [Step.inRange, hdn]
  · rfl
  · exact hsb st hst
  · rfl

theorem valid_notText (r : RailItem) (h : valid r = true) : r.isText = false := by
  cases r <;> simp_all [valid, RailItem.isText]

theorem validList_iff (l : List RailItem) : validList l = true ↔ ∀ r ∈ l, valid r = true := by
  induction l with
  | nil => simp [validList]
  | cons a t ih => simp [validList, ih]

theorem validList_notText (l : List RailItem) (h : validList l = true) :
    ∀ r ∈ l, r.isText = false :=
  fun r hr => valid_notText r ((validList_iff l).mp h r hr)

theorem reverseAbove_length (d : Nat) (l : List RailItem) : (reverseAbove d l).length = l.length := by
  simp [reverseAbove]
  omega

mutual
theorem format_total (cfg : Config) : ∀ (r : RailItem), valid r = true → ∀ (x y w : ℚ),
    ∃ r', format cfg r x y w = some r'
  | .textItem _, h, _, _, _ => by simp [valid] at h
  | .diagramItem _ _, h, _, _, _ => by simp [valid] at h
  | .path di ch px py, _, _, _, _ => ⟨_, rfl⟩
  | .style di ch css, _, _, _, _ => ⟨_, rfl⟩
  | .sequence di ch items, h, x, y, w => by
    simp only [valid] at h
    obtain ⟨⟨steps, x', y'⟩, hs, hb⟩ := sequence_steps_some cfg di items (validList_notText _ h) x y w
    obtain ⟨items', hi, hlen⟩ := formatItems_some cfg (placeArgs steps) items h 0
    obtain ⟨added, hadd⟩ := assemble_some items' steps (by rw [hlen]; exact hb)
    simp [format, hs, hi, hadd]
  | .stack di ch items, h, x, y, w => by
    simp only [valid] at h
    obtain ⟨⟨steps, x', y'⟩, hs, hb⟩ := stack_steps_some cfg di items (validList_notText _ h) x y w
    obtain ⟨items', hi, hlen⟩ := formatItems_some cfg (placeArgs steps) items h 0
    obtain ⟨added, hadd⟩ := assemble_some items' steps (by rw [hlen]; exact hb)
    simp [format, hs, hi, hadd]
  | .optionalSequence di ch items, h, x, y, w => by
    simp only [valid] at h
    obtain ⟨⟨steps, x', y'⟩, hs, hb⟩ :=
      optionalSequence_steps_some cfg di items (validList_notText _ h) x y w
    obtain ⟨items', hi, hlen⟩ := formatItems_some cfg (placeArgs steps) items h 0
    obtain ⟨added, hadd⟩ := assemble_some items' steps (by rw [hlen]; exact hb)
    simp [format, hs, hi, hadd]
  | .choice di ch d items, h, x, y, w => by
    simp only [valid, Bool.and_eq_true, decide_eq_true_eq] at h
    obtain ⟨⟨h0, h1⟩, hv⟩ := h
    obtain ⟨steps, hs, hb⟩ := choice_steps_some cfg di d items (validList_notText _ hv) h0 h1 x y w
    obtain ⟨placed, hi, hlen⟩ :=
      formatItems_some cfg (fun j => placeArgs steps (reversedIndex d.toNat j)) items hv 0
    obtain ⟨added, hadd⟩ := assemble_some (reverseAbove d.toNat placed) steps
      (by rw [reverseAbove_length, hlen]; exact hb)
    simp [format, hs, hi, hadd]
  | .multipleChoice di ch d t items iw, h, x, y, w => by
    simp only [valid, Bool.and_eq_true, decide_eq_true_eq] at h
    obtain ⟨⟨h0, h1⟩, hv⟩ := h
    obtain ⟨steps, hs, hb⟩ :=
      multipleChoice_steps_some cfg di d t items iw (validList_notText _ hv) h0 h1 x y w
    obtain ⟨placed, hi, hlen⟩ :=
      formatItems_some cfg (fun j => placeArgs steps (reversedIndex d.toNat j)) items hv 0
    obtain ⟨added, hadd⟩ := assemble_some (reverseAbove d.toNat placed) steps
      (by rw [reverseAbove_length, hlen]; exact hb)
    simp [format, hs, hi, hadd]
  | .oneOrMore di ch item rep, h, x, y, w => by
    simp only [valid, Bool.and_eq_true] at h
    obtain ⟨steps, hs, hb⟩ := oneOrMore_steps_some cfg di item rep (valid_notText _ h.1)
      (valid_notText _ h.2) x y w
    cases h0 : placeArgs steps 0 with
    | none =>
      cases h1 : placeArgs steps 1 with
      | none =>
        obtain ⟨added, hadd⟩ := assemble_some [item, rep] steps hb
        simp [format, hs, h0, h1, hadd]
      | some b =>
        obtain ⟨rep', hr⟩ := format_total cfg rep h.2 b.1 b.2.1 b.2.2
        obtain ⟨added, hadd⟩ := assemble_some [item, rep'] steps hb
        simp [format, hs, h0, h1, hr, hadd]
    | some a =>
      obtain ⟨item', hi⟩ := format_total cfg item h.1 a.1 a.2.1 a.2.2
      cases h1 : placeArgs steps 1 with
      | none =>
        obtain ⟨added, hadd⟩ := assemble_some [item', rep] steps hb
        simp [format, hs, h0, h1, hi, hadd]
      | some b =>
        obtain ⟨rep', hr⟩ := format_total cfg rep h.2 b.1 b.2.1 b.2.2
        obtain ⟨added, hadd⟩ := assemble_some [item', rep'] steps hb
        simp [format, hs, h0, h1, hi, hr, hadd]
  | .start di ch, _, _, _, _ => ⟨_, rfl⟩
  | .end_ di ch, _, _, _, _ => ⟨_, rfl⟩
  | .terminal di ch text, _, _, _, _ => ⟨_, rfl⟩
  | .nonTerminal di ch text, _, _, _, _ => ⟨_, rfl⟩
  | .comment di ch text, _, _, _, _ => ⟨_, rfl⟩
  | .skip di ch, _, _, _, _ => ⟨_, rfl⟩
theorem formatItems_some (cfg : Config) (args : Nat → Option (ℚ × ℚ × ℚ)) :
    ∀ (l : List RailItem), validList l = true → ∀ (i : Nat),
    ∃ l', formatItems cfg args l i = some l' ∧ l'.length = l.length
  | [], _, _ => ⟨[], rfl, rfl⟩
  | item :: rest, h, i => by
    simp only [validList, Bool.and_eq_true] at h
    obtain ⟨rest', hr, hlen⟩ := formatItems_some cfg args rest h.2 (i + 1)
    cases ha : args i with
    | none => exact ⟨item :: rest', by simp [formatItems, ha, hr], by simp [hlen]⟩
    | some a =>
      obtain ⟨item', hi⟩ := format_total cfg item h.1 a.1 a.2.1 a.2.2
      exact ⟨item' :: rest', by simp [formatItems, ha, hi, hr], by simp [hlen]⟩
end

theorem OptionalSequence_inv (cfg : Config) (items : List RailItem) (r : RailItem)
    (h : OptionalSequence cfg items = some r) :
    (∃ di, r = .sequence di [] items) ∨ (∃ di, r = .optionalSequence di [] items) := by
  unfold OptionalSequence at h
  split at h
  · exact Or.inl (Sequence_inv items r h).2
  · simp only [Option.bind_eq_bind, Option.bind_eq_some, Option.pure_def] at h
    obtain ⟨_, -, _, -, _, -, _, -, h⟩ := h
    exact Or.inr ⟨_, (Option.some.inj h).symm⟩

theorem Optional_inv (cfg : Config) (item : RailItem) (options : List OptionalOption)
    (r : RailItem) (h : Optional cfg item options = some r) :
    ∃ di which, r = .choice di [] which [Skip, item] ∧ 0 ≤ which ∧ which < 2 := by
  unfold Optional at h
  obtain ⟨h0, h1, di, hr⟩ := Choice_inv cfg _ _ r h
  exact ⟨di, _, hr, h0, by simpa using h1⟩

theorem lastSet_spec {α β : Type} (f : α → Option β) (options : List α) (init : β) :
    lastSet f options init = init ∨ ∃ o ∈ options, f o = some (lastSet f options init) := by
  induction options generalizing init with
  | nil => exact Or.inl rfl
  | cons o t ih =>
    simp only [lastSet, List.foldl_cons, List.mem_cons] at ih ⊢
    cases ho : f o with
    | none =>
      rcases ih init with h | ⟨o', ho', h⟩
      · exact Or.inl h
      · exact Or.inr ⟨o', Or.inr ho', h⟩
    | some p =>
      rcases ih p with h | ⟨o', ho', h⟩
      · exact Or.inr ⟨o, Or.inl rfl, by rw [ho, h]⟩
      · exact Or.inr ⟨o', Or.inr ho', h⟩

theorem OneOrMore_inv (cfg : Config) (item : RailItem) (options : List OneOrMoreOption)
    (r : RailItem) (h : OneOrMore cfg item options = some r) :
    ∃ di rep, r = .oneOrMore di [] item rep ∧
      (rep = Skip ∨ ∃ o ∈ options, o.repeat_ = some (some rep)) := by
  simp only [OneOrMore, Option.bind_eq_bind, Option.bind_eq_some, Option.pure_def] at h
  obtain ⟨_, -, _, -, _, -, _, -, _, -, _, -, _, -, _, -, h⟩ := h
  refine ⟨_, _, (Option.some.inj h).symm, ?_⟩
  rcases lastSet_spec OneOrMoreOption.repeat_ options none with hn | ⟨o, ho, hoe⟩
  · left; rw [hn]
  · cases hres : lastSet OneOrMoreOption.repeat_ options none with
    | none => left; rfl
    | some rep =>
      right
      rw [hres] at hoe
      exact ⟨o, ho, hoe⟩

theorem ZeroOrMore_inv (cfg : Config) (item : RailItem) (options : List ZeroOrMoreOption)
    (r : RailItem) (h : ZeroOrMore cfg item options = some r) :
    ∃ di which di' rep, r = .choice di [] which [Skip, .oneOrMore di' [] item rep] ∧
      0 ≤ which ∧ which < 2 ∧
      (rep = Skip ∨ ∃ o ∈ options, o.repeat_ = some (some rep)) := by
  simp only [ZeroOrMore, Option.bind_eq_bind, Option.bind_eq_some] at h
  obtain ⟨o, ho, h⟩ := h
  obtain ⟨di', rep, rfl, hrep⟩ := OneOrMore_inv cfg item _ o ho
  obtain ⟨di, which, hr, h0, h1⟩ := Optional_inv cfg _ _ r h
  refine ⟨di, which, di', rep, hr, h0, h1, ?_⟩
  rcases hrep with hs | ⟨o', ho', hoe⟩
  · exact Or.inl hs
  · simp only [List.mem_singleton] at ho'
    subst ho'
    simp only [OneOrMoreRepeat, Option.some.injEq] at hoe
    rcases lastSet_spec ZeroOrMoreOption.repeat_ options none with hn | ⟨o2, ho2, hoe2⟩
    · rw [hn] at hoe; exact absurd hoe (by simp)
    · right
      rw [hoe] at hoe2
      exact ⟨o2, ho2, hoe2⟩

/-- Every element built with the public constructors has the structure that
placement relies on. -/
theorem Built_valid {cfg : Config} {r : RailItem} (h : Built cfg r) : valid r = true := by
  induction h with
  | terminal text => rfl
  | nonTerminal text => rfl
  | text text => rfl
  | comment text => rfl
  | skip => rfl
  | style css => rfl
  | sequence items r _ hr ih =>
    obtain ⟨-, di, rfl⟩ := Sequence_inv items r hr
    simp only [valid]
    exact (validList_iff items).mpr ih
  | stack items r _ hr ih =>
    obtain ⟨-, di, rfl⟩ := Stack_inv cfg items r hr
    simp only [valid]
    exact (validList_iff items).mpr ih
  | optionalSequence items r _ hr ih =>
    rcases OptionalSequence_inv cfg items r hr with ⟨di, rfl⟩ | ⟨di, rfl⟩ <;>
      simp only [valid] <;> exact (validList_iff items).mpr ih
  | choice d items r _ hr ih =>
    obtain ⟨h0, h1, di, rfl⟩ := Choice_inv cfg d items r hr
    simp only [valid, Bool.and_eq_true, decide_eq_true_eq]
    exact ⟨⟨h0, h1⟩, (validList_iff items).mpr ih⟩
  | multipleChoice d t items r _ hr ih =>
    obtain ⟨h0, h1, di, w, rfl⟩ := MultipleChoice_inv cfg d t items r hr
    simp only [valid, Bool.and_eq_true, decide_eq_true_eq]
    exact ⟨⟨h0, h1⟩, (validList_iff items).mpr ih⟩
  | optional item options r _ hr ih =>
    obtain ⟨di, which, rfl, h0, h1⟩ := Optional_inv cfg item options r hr
    simp only [valid, validList, Bool.and_eq_true, decide_eq_true_eq, ih, Bool.and_true]
    exact ⟨h0, by simpa using h1⟩
  | oneOrMore item options r _ _ hr ih ihr =>
    obtain ⟨di, rep, rfl, hrep⟩ := OneOrMore_inv cfg item options r hr
    simp only [valid, Bool.and_eq_true, ih, true_and]
    rcases hrep with rfl | ⟨o, ho, hoe⟩
    · rfl
    · exact ihr o ho rep hoe
  | zeroOrMore item options r _ _ hr ih ihr =>
    obtain ⟨di, which, di', rep, rfl, h0, h1, hrep⟩ := ZeroOrMore_inv cfg item options r hr
    have hv : valid rep = true := by
      rcases hrep with rfl | ⟨o, ho, hoe⟩
      · rfl
      · exact ihr o ho rep hoe
    simp only [valid, validList, Bool.and_eq_true, decide_eq_true_eq, ih, hv,
      Bool.and_true]
    exact ⟨h0, by simpa using h1⟩

/-! ## The diagram: proofs -/

theorem a_get_set_same (m : a) (key val : String) : a.get (a.set m key val) key = val := by
  induction m with
  | nil => simp [a.set, a.get]
  | cons kv rest ih =>
    obtain ⟨k, v⟩ := kv
    by_cases hk : k = key
    · simp [a.set, a.get, hk]
    · simp [a.set, a.get, hk, ih]

theorem a_get_set_other (m : a) (key val key' : String) (h : key ≠ key') :
    a.get (a.set m key val) key' = a.get m key' := by
  induction m with
  | nil => simp [a.set, a.get, h]
  | cons kv rest ih =>
    obtain ⟨k, v⟩ := kv
    by_cases hk : k = key
    · subst hk
      simp [a.set, a.get, h]
    · by_cases hk' : k = key'
      · subst hk'
        simp [a.set, a.get, hk]
      · simp [a.set, a.get, hk, hk', ih]

/-- What `diagram.format` leaves behind, whenever it returns. -/
theorem diagram_format_spec (cfg : Config) (d d' : diagram) (x y w : ℚ)
    (h : d.format cfg x y w = some d') :
    d'.formatted = true ∧
    d'.children.length = d.children.length + 1 ∧
    d'.di.width = d.di.width ∧ d'.di.height = d.di.height ∧
    d'.di.up = d.di.up ∧ d'.di.down = d.di.down ∧
    a.get d'.di.attrs "width" = cfg.Sprint (d.di.width + 20 + 20) ∧
    a.get d'.di.attrs "height" = cfg.Sprint (d.di.up + d.di.height + d.di.down + 20 + 20) ∧
    a.get d'.di.attrs "viewBox" =
      "0 0 " ++ cfg.Sprint (d.di.width + 20 + 20) ++ " " ++
        cfg.Sprint (d.di.up + d.di.height + d.di.down + 20 + 20) := by
  simp only [diagram.format, Option.bind_eq_bind, Option.bind_eq_some, Option.pure_def] at h
  obtain ⟨_, -, _, -, _, -, h⟩ := h
  have h := (Option.some.inj h).symm
  subst h
  have n1 : "viewBox" ≠ "width" := by decide
  have n2 : "height" ≠ "width" := by decide
  have n3 : "viewBox" ≠ "height" := by decide
  simp only [a_get_set_same, a_get_set_other _ _ _ _ n1, a_get_set_other _ _ _ _ n2,
    a_get_set_other _ _ _ _ n3, List.length_append, List.length_singleton, and_self]

theorem diagram_format_some (cfg : Config) (d : diagram) (hv : validList d.items = true)
    (x y w : ℚ) : ∃ d', d.format cfg x y w = some d' := by
  obtain ⟨⟨steps, x', y'⟩, hs, hb⟩ := forRange_some (diagram.formatBody cfg)
    d.items.length d.items.length (fun r => r.isText = false)
    (fun item j s hi hj => diagram_formatBody_some cfg _ item j s hi hj) d.items
    (validList_notText _ hv) 0 (by simp) (20, 20 + d.di.up)
  obtain ⟨items', hi, hlen⟩ := formatItems_some cfg (placeArgs steps) d.items hv 0
  obtain ⟨added, hadd⟩ := assemble_some items' steps (by rw [hlen]; exact hb)
  simp [diagram.format, hs, hi, hadd]

theorem Diagram_items_valid (cfg : Config) (items : List RailItem)
    (h : ∀ i ∈ items, valid i = true) : validList (Diagram.items_ cfg items) = true := by
  rw [validList_iff, Diagram_items_eq]
  intro r hr
  simp only [List.mem_append, List.mem_cons, List.mem_singleton, List.not_mem_nil, or_false] at hr
  rcases hr with (hr | hr | hr) | hr
  · split at hr
    · rw [List.mem_singleton.mp hr]; rfl
    · simp at hr
  · rw [hr]; rfl
  · exact h r hr
  · rw [hr]; rfl

/-- Serialisation of a diagram of valid items returns. -/
theorem Diagram_WriteTo_some (cfg cfg' : Config) (items : List RailItem)
    (h : ∀ i ∈ items, valid i = true) :
    ∃ d r, Diagram cfg items = some d ∧ d.formatted = false ∧ d.items = Diagram.items_ cfg items ∧
      d.WriteTo cfg' = some r := by
  obtain ⟨d, hd, hfm, hit⟩ : ∃ d, Diagram cfg items = some d ∧ d.formatted = false ∧
      d.items = Diagram.items_ cfg items :=
    ⟨_, Diagram_eq cfg items (fun i hi => valid_notText i (h i hi)), rfl, rfl⟩
  obtain ⟨d', hf⟩ := diagram_format_some cfg' d (by rw [hit]; exact Diagram_items_valid cfg items h)
    0 0 0
  refine ⟨d, (d', d'.di.writeSvg (writeSvgList d'.children)), hd, hfm, hit, ?_⟩
  simp only [diagram.WriteTo, diagram.writeSvg, hfm, Bool.false_eq_true, not_false_eq_true,
    if_true, hf, Option.bind_eq_bind, Option.some_bind, Option.pure_def]

/-- C3: for every diagram built from the public constructors (`Terminal`,
`NonTerminal`, `Text`, `Comment`, `Skip`, `Sequence`, `Stack`,
`OptionalSequence`, `Choice`, `MultipleChoice`, `Optional`, `OneOrMore`,
`ZeroOrMore`, `Diagram`; the constructors return only when every composite has
a child and every default index is in range), placement and serialisation
(`WriteTo`) run to completion: no `panic("virtual")` method and no out-of-range
index is reached, at any nesting depth, whatever the configuration at the time
of the call.  Every such element can also be placed at any position. -/
theorem WriteTo_total (cfg cfg' : Config) (items : List RailItem)
    (h : ∀ i ∈ items, Built cfg i) :
    (∃ d r, Diagram cfg items = some d ∧ d.WriteTo cfg' = some r) ∧
    (∀ i ∈ items, ∀ x y w : ℚ, ∃ i', format cfg' i x y w = some i') := by
  constructor
  · obtain ⟨d, r, hd, -, -, hw⟩ :=
      Diagram_WriteTo_some cfg cfg' items (fun i hi => Built_valid (h i hi))
    exact ⟨d, r, hd, hw⟩
  · intro i hi x y w
    exact format_total cfg' i (Built_valid (h i hi)) x y w

/-- Witness of C3: `Diagram(Terminal("a"), Choice(0, Terminal("x"), Skip()))`. -/
theorem WriteTo_total_witness :
    ∃ c, Choice defaultConfig 0 [Terminal defaultConfig "x", Skip] = some c ∧
      ∃ d r, Diagram defaultConfig [Terminal defaultConfig "a", c] = some d ∧
        d.WriteTo defaultConfig = some r := by
  have hc : (Choice defaultConfig 0 [Terminal defaultConfig "x", Skip]).isSome = true := by
    decide!
  obtain ⟨c, hc⟩ := Option.isSome_iff_exists.mp hc
  refine ⟨c, hc,
    (WriteTo_total defaultConfig defaultConfig [Terminal defaultConfig "a", c] ?_).1⟩
  intro i hi
  simp only [List.mem_cons, List.mem_singleton, List.not_mem_nil, or_false] at hi
  rcases hi with rfl | rfl
  · exact Built.terminal _
  · refine Built.choice 0 _ _ ?_ hc
    intro j hj
    simp only [List.mem_cons, List.mem_singleton, List.not_mem_nil, or_false] at hj
    rcases hj with rfl | rfl
    · exact Built.terminal _
    · exact Built.skip

/-- C5: after a diagram is formatted, its root attributes are width =
(aggregated width) + 40, height = (aggregated up + height + down) + 40, and
viewBox = `0 0 W H` with the same `W` and `H`.  For `Diagram(Terminal("a"))`
the height is `20*2 + 11 + 11 = 62`: the up and down extents are 11, those of
the terminal, which exceed the 10 of the start and end stubs. -/
theorem Diagram_format_attrs (cfg : Config) (items : List RailItem)
    (h : ∀ i ∈ items, Built cfg i) (x y w : ℚ) :
    (∃ d d', Diagram cfg items = some d ∧ d.format cfg x y w = some d' ∧
      a.get d'.di.attrs "width" = cfg.Sprint (d.di.width + 40) ∧
      a.get d'.di.attrs "height" = cfg.Sprint (d.di.up + d.di.height + d.di.down + 40) ∧
      a.get d'.di.attrs "viewBox" =
        "0 0 " ++ a.get d'.di.attrs "width" ++ " " ++ a.get d'.di.attrs "height") ∧
    ((Diagram defaultConfig [Terminal defaultConfig "a"]).bind
        fun d => d.format defaultConfig 0 0 0).map
      (fun d' => (d'.di.up, d'.di.height, d'.di.down, a.get d'.di.attrs "height")) =
      some (11, 0, 11, "62") ∧
    sprintInt (20 * 2 + 11 + 11) = "62" ∧ newStart.up = 10 ∧ newEnd.down = 10 := by
  refine ⟨?_, by decide!, by decide!, by decide!, by decide!⟩
  obtain ⟨d, r, hd, -, hit, -⟩ := Diagram_WriteTo_some cfg cfg items (fun i hi => Built_valid (h i hi))
  obtain ⟨d', hf⟩ := diagram_format_some cfg d
    (by rw [hit]; exact Diagram_items_valid cfg items (fun i hi => Built_valid (h i hi))) x y w
  obtain ⟨-, -, -, -, -, -, h1, h2, h3⟩ := diagram_format_spec cfg d d' x y w hf
  have e1 : d.di.width + 20 + 20 = d.di.width + 40 := by ring
  have e2 : d.di.up + d.di.height + d.di.down + 20 + 20 =
      d.di.up + d.di.height + d.di.down + 40 := by ring
  refine ⟨d, d', hd, hf, ?_, ?_, ?_⟩
  · rw [h1, e1]
  · rw [h2, e2]
  · rw [h3, h1, h2]

/-- Witness of C5: `Diagram(Terminal("a"))`. -/
theorem Diagram_format_attrs_witness :
    ∃ d d', Diagram defaultConfig [Terminal defaultConfig "a"] = some d ∧
      d.format defaultConfig 0 0 0 = some d' ∧
      a.get d'.di.attrs "width" = defaultConfig.Sprint (d.di.width + 40) ∧
      a.get d'.di.attrs "height" =
        defaultConfig.Sprint (d.di.up + d.di.height + d.di.down + 40) ∧
      a.get d'.di.attrs "viewBox" =
        "0 0 " ++ a.get d'.di.attrs "width" ++ " " ++ a.get d'.di.attrs "height" :=
  (Diagram_format_attrs defaultConfig [Terminal defaultConfig "a"]
    (fun i hi => by
      rw [List.mem_singleton.mp hi]
      exact Built.terminal _) 0 0 0).1

/-- C6 as stated fails: for `Diagram(Terminal("a"))` under the default
configuration the width attribute is 128, not
`20*2 + 20 + (1*8 + 20) + 20 = 108`. -/
theorem Diagram_width_counterexample :
    ((Diagram defaultConfig [Terminal defaultConfig "a"]).bind
        fun d => d.format defaultConfig 0 0 0).map (fun d' => a.get d'.di.attrs "width") =
      some "128" ∧
    sprintInt (20 * 2 + 20 + (1 * defaultConfig.ConfigCharacterAdvance + 20) + 20) = "108" := by
  decide!

/-- C6, amended: for `Diagram(Terminal("a"))` the canvas width attribute equals
`padding(20)*2 + startStub(20) + aWidth + 20 + endStub(20)`, where
`aWidth = 1*charAdvance + 20` and the further 20 are the two 10-unit spacers
drawn before and after the terminal (128 with the default character advance of
8). -/
theorem Diagram_width_terminal (cfg : Config) :
    (∃ d d', Diagram cfg [Terminal cfg "a"] = some d ∧ d.format cfg 0 0 0 = some d' ∧
      a.get d'.di.attrs "width" =
        cfg.Sprint (20 * 2 + 20 + (1 * cfg.ConfigCharacterAdvance + 20) + 20 + 20)) ∧
    sprintInt (20 * 2 + 20 + (1 * defaultConfig.ConfigCharacterAdvance + 20) + 20 + 20) = "128" := by
  refine ⟨?_, by decide!⟩
  have hv : ∀ i ∈ [Terminal cfg "a"], valid i = true := by
    intro i hi
    rw [List.mem_singleton.mp hi]; rfl
  have hs : ∀ i ∈ [Terminal cfg "a"], i.isStyle = false := by
    intro i hi
    rw [List.mem_singleton.mp hi]; rfl
  obtain ⟨d, r, hd, -, hit, -⟩ := Diagram_WriteTo_some cfg cfg [Terminal cfg "a"] hv
  have hd2 := Diagram_eq cfg [Terminal cfg "a"] (fun i hi => valid_notText i (hv i hi))
  rw [hd] at hd2
  have hd3 := Option.some.inj hd2
  obtain ⟨d', hf⟩ := diagram_format_some cfg d
    (by rw [hit]; exact Diagram_items_valid cfg _ hv) 0 0 0
  obtain ⟨-, -, -, -, -, -, h1, -, -⟩ := diagram_format_spec cfg d d' 0 0 0 hf
  refine ⟨d, d', hd, hf, ?_⟩
  rw [h1]
  congr 1
  rw [hd3]
  simp only [Diagram_items_filter cfg _ hs]
  have hb : ("a" : String).utf8ByteSize = 1 := by decide
  simp [spacedWidth, newStart, newEnd, Terminal, RailItem.width, RailItem.needsSpace,
    RailItem.getWidth, RailItem.getNeedsSpace, RailItem.base, newDiagramItem, hb]
  ring

/-- C8 as stated fails for the method `format`, which does not read the flag
`formatted`: called on `Diagram(Terminal("a"))` a second time it appends a
second group to the diagram (2 children instead of 1) and places the terminal
again (8 primitive children instead of 4). -/
theorem diagram_format_twice_counterexample :
    ((Diagram defaultConfig [Terminal defaultConfig "a"]).bind
        fun d => d.format defaultConfig 0 0 0).map
      (fun d => (d.formatted, d.children.length, d.items.map fun i => i.children.length)) =
      some (true, 1, [0, 0, 4, 0]) ∧
    (((Diagram defaultConfig [Terminal defaultConfig "a"]).bind
        fun d => d.format defaultConfig 0 0 0).bind fun d => d.format defaultConfig 0 0 0).map
      (fun d => (d.formatted, d.children.length, d.items.map fun i => i.children.length)) =
      some (true, 2, [0, 0, 8, 0]) := by
  decide!

/-- C8, amended: serialising (`writeSvg`, `WriteTo`) a diagram leaves it
formatted, and serialising it again is a no-op on the diagram: `format` is not
invoked again, the diagram after the second call is the diagram before it (no
additional child on the diagram or on any element below it, the same width and
height attributes), and the same text is written. -/
theorem WriteTo_again_noop (cfg : Config) (d : diagram) (r : diagram × String)
    (h : d.WriteTo cfg = some r) :
    r.1.formatted = true ∧ r.1.WriteTo cfg = some r := by
  by_cases hfm : d.formatted = true
  · simp only [diagram.WriteTo, diagram.writeSvg, hfm, not_true_eq_false, if_false,
      Option.bind_eq_bind, Option.pure_def, Option.some_bind, Option.some.injEq] at h
    subst h
    refine ⟨hfm, ?_⟩
    simp [diagram.WriteTo, diagram.writeSvg, hfm]
  · have h' : (d.format cfg 0 0 0).bind
        (fun y => some (y, y.di.writeSvg (writeSvgList y.children))) = some r := by
      simpa [diagram.WriteTo, diagram.writeSvg, hfm] using h
    cases hfo : d.format cfg 0 0 0 with
    | none => rw [hfo] at h'; simp at h'
    | some d2 =>
      rw [hfo] at h'
      simp only [Option.some_bind, Option.some.injEq] at h'
      subst h'
      have hf : d2.formatted = true := (diagram_format_spec cfg d d2 0 0 0 hfo).1
      refine ⟨hf, ?_⟩
      simp [diagram.WriteTo, diagram.writeSvg, hf]

/-- Witness of C8: `Diagram(Terminal("a"))`, serialised and serialised again. -/
theorem WriteTo_again_noop_witness :
    ∃ d r, Diagram defaultConfig [Terminal defaultConfig "a"] = some d ∧
      d.WriteTo defaultConfig = some r ∧
      r.1.formatted = true ∧ r.1.WriteTo defaultConfig = some r := by
  obtain ⟨d, r, hd, -, -, hw⟩ := Diagram_WriteTo_some defaultConfig defaultConfig
    [Terminal defaultConfig "a"] (fun i hi => by rw [List.mem_singleton.mp hi]; rfl)
  exact ⟨d, r, hd, hw, WriteTo_again_noop defaultConfig d r hw⟩

/-! ## The branches of a choice: metrics -/

theorem itemAt_idx (items : List RailItem) (k : Nat) (hk : k < items.length) :
    idx items (k : Int) = some (itemAt items k) := by
  rw [idx_natCast, itemAt, List.getD_eq_getElem?_getD, List.getElem?_eq_getElem hk]
  rfl

theorem itemAt_mem (items : List RailItem) (k : Nat) (hk : k < items.length) :
    itemAt items k ∈ items := by
  rw [itemAt, List.getD_eq_getElem?_getD, List.getElem?_eq_getElem hk]
  exact List.getElem_mem _

theorem itemAt_drop (items : List RailItem) (i : Nat) (item : RailItem) (rest : List RailItem)
    (h : items.drop i = item :: rest) :
    i < items.length ∧ item = itemAt items i ∧ items.drop (i + 1) = rest := by
  have hlt : i < items.length := by
    by_contra hc
    rw [List.drop_eq_nil_of_le (Nat.le_of_not_lt hc)] at h
    cases h
  refine ⟨hlt, ?_, ?_⟩
  · rw [List.drop_eq_getElem_cons hlt] at h
    rw [itemAt, List.getD_eq_getElem?_getD, List.getElem?_eq_getElem hlt]
    exact ((List.cons.inj h).1).symm
  · rw [List.drop_eq_getElem_cons hlt] at h
    exact (List.cons.inj h).2

/-- The closed form of the loop over the branches. -/
theorem branchLoop_eq (cfg : Config) (adjacent : ℚ) (d : Nat) (items : List RailItem)
    (h : ∀ i ∈ items, i.isText = false) (hd : d < items.length)
    (rest : List RailItem) (i : Nat) (hrest : items.drop i = rest) (di : diagramItem) :
    branchLoop cfg adjacent (d : Int) items rest i di = some
      { di with
        up := di.up + ((List.range' i rest.length).map fun j =>
          if j < d then branchUpTerm cfg adjacent d items j else 0).sum
        down := di.down + ((List.range' i rest.length).map fun j =>
          if d < j then branchDownTerm cfg adjacent d items j else 0).sum } := by
  induction rest generalizing i di with
  | nil => simp [branchLoop]
  | cons item rest ih =>
    obtain ⟨hlt, hitem, hdrop⟩ := itemAt_drop items i item rest hrest
    have hi : item.isText = false := by rw [hitem]; exact h _ (itemAt_mem items i hlt)
    simp only [branchLoop, getHeight_eq hi, getUp_eq hi, getDown_eq hi,
      Option.bind_eq_bind, Option.some_bind, Option.pure_def]
    have hallow : (if (i : Int) = (d : Int) - 1 ∨ (i : Int) = (d : Int) + 1 then adjacent
        else cfg.ConfigArcRadius) = branchAllowance cfg adjacent d i := by
      unfold branchAllowance
      by_cases hc : i + 1 = d ∨ i = d + 1
      · rw [if_pos hc, if_pos (by omega)]
      · rw [if_neg hc, if_neg (by omega)]
    rw [hallow]
    by_cases h1 : i < d
    · have h1' : (i : Int) < (d : Int) := by omega
      have hn := itemAt_idx items (i + 1) (by omega)
      have hnm := h _ (itemAt_mem items (i + 1) (by omega))
      have hn' : idx items ((i : Int) + 1) = some (itemAt items (i + 1)) := by
        rw [← hn]; congr 1
      simp only [if_pos h1', hn', getUp_eq hnm, Option.some_bind]
      rw [ih (i + 1) hdrop]
      have hnd : ¬ d < i := by omega
      simp [List.range', h1, hnd, branchUpTerm, ← hitem]
      ring
    · by_cases h2 : i = d
      · have h1' : ¬ (i : Int) < (d : Int) := by omega
        have h2' : (i : Int) = (d : Int) := by omega
        simp only [if_neg h1', if_pos h2', Option.some_bind]
        rw [ih (i + 1) hdrop]
        have hnd : ¬ d < i := by omega
        simp [List.range', h1, hnd]
      · have h1' : ¬ (i : Int) < (d : Int) := by omega
        have h2' : ¬ (i : Int) = (d : Int) := by omega
        have hp := itemAt_idx items (i - 1) (by omega)
        have hpm := h _ (itemAt_mem items (i - 1) (by omega))
        have hp' : idx items ((i : Int) - 1) = some (itemAt items (i - 1)) := by
          rw [← hp]; congr 1; omega
        simp only [if_neg h1', if_neg h2', hp', getDown_eq hpm, getHeight_eq hpm,
          Option.some_bind]
        rw [ih (i + 1) hdrop]
        have hnd : d < i := by omega
        simp [List.range', h1, hnd, branchDownTerm, ← hitem]
        ring

theorem sum_range'_lt (f : Nat → ℚ) (d n : Nat) (hd : d ≤ n) :
    ((List.range' 0 n).map fun j => if j < d then f j else 0).sum = ((List.range d).map f).sum := by
  obtain ⟨m, rfl⟩ := Nat.exists_eq_add_of_le hd
  have hs : List.range' 0 (d + m) = List.range' 0 d ++ List.range' d m := by
    have := List.range'_append_1 0 d m
    rw [Nat.zero_add] at this
    rw [this, Nat.add_comm]
  rw [hs, List.map_append, List.sum_append, List.range_eq_range']
  have h1 : ((List.range' 0 d).map fun j => if j < d then f j else 0) = (List.range' 0 d).map f := by
    apply List.map_congr_left
    intro j hj
    rw [List.mem_range'_1] at hj
    rw [if_pos (by omega)]
  have h2 : ((List.range' d m).map fun j => if j < d then f j else 0) =
      (List.range' d m).map fun _ => (0 : ℚ) := by
    apply List.map_congr_left
    intro j hj
    rw [List.mem_range'_1] at hj
    rw [if_neg (by omega)]
  rw [h1, h2]
  simp

theorem sum_range'_gt (f : Nat → ℚ) (d n : Nat) (hd : d < n) :
    ((List.range' 0 n).map fun j => if d < j then f j else 0).sum =
      ((List.range' (d + 1) (n - (d + 1))).map f).sum := by
  have hs : List.range' 0 n = List.range' 0 (d + 1) ++ List.range' (d + 1) (n - (d + 1)) := by
    have := List.range'_append_1 0 (d + 1) (n - (d + 1))
    rw [Nat.zero_add] at this
    rw [this]; congr 1; omega
  rw [hs, List.map_append, List.sum_append]
  have h1 : ((List.range' 0 (d + 1)).map fun j => if d < j then f j else 0) =
      (List.range' 0 (d + 1)).map fun _ => (0 : ℚ) := by
    apply List.map_congr_left
    intro j hj
    rw [List.mem_range'_1] at hj
    rw [if_neg (by omega)]
  have h2 : ((List.range' (d + 1) (n - (d + 1))).map fun j => if d < j then f j else 0) =
      (List.range' (d + 1) (n - (d + 1))).map f := by
    apply List.map_congr_left
    intro j hj
    rw [List.mem_range'_1] at hj
    rw [if_pos (by omega)]
  rw [h1, h2]
  simp

theorem Choice_eq (cfg : Config) (d : Nat) (items : List RailItem)
    (h : ∀ i ∈ items, i.isText = false) (hd : d < items.length) :
    Choice cfg (d : Int) items = some (.choice
      { name := "g"
        width := maxWidth items + cfg.ConfigArcRadius * 4
        height := (itemAt items d).height
        up := (itemAt items 0).up + branchUp cfg (cfg.ConfigArcRadius * 2) d items
        down := (itemAt items (items.length - 1)).down +
          branchDown cfg (cfg.ConfigArcRadius * 2) d items - (itemAt items d).height
        attrs := []
        needsSpace := false } [] (d : Int) items) := by
  have h0 : idx items 0 = some (itemAt items 0) := itemAt_idx items 0 (by omega)
  have hl := itemAt_idx items (items.length - 1) (by omega)
  have hl' : idx items ((items.length : Int) - 1) = some (itemAt items (items.length - 1)) := by
    rw [← hl]; congr 1; omega
  have hdx := itemAt_idx items d hd
  simp only [Choice, maxWidthLoop_eq items h, h0, hl', hdx,
    getUp_eq (h _ (itemAt_mem items 0 (by omega))),
    getDown_eq (h _ (itemAt_mem items (items.length - 1) (by omega))),
    getHeight_eq (h _ (itemAt_mem items d hd)), Option.bind_eq_bind, Option.some_bind,
    Option.pure_def, Nat.cast_zero,
    branchLoop_eq cfg (cfg.ConfigArcRadius * 2) d items h hd items 0 rfl,
    sum_range'_lt _ d items.length (by omega), sum_range'_gt _ d items.length hd]
  simp [newDiagramItem, maxWidth, branchUp, branchDown]

theorem MultipleChoice_eq (cfg : Config) (d : Nat) (t : MultipleChoiceType)
    (items : List RailItem)
    (h : ∀ i ∈ items, i.isText = false) (hd : d < items.length) :
    MultipleChoice cfg (d : Int) t items = some (.multipleChoice
      { name := "g"
        width := 30 + cfg.ConfigArcRadius + maxWidth items + cfg.ConfigArcRadius + 20
        height := (itemAt items d).height
        up := (itemAt items 0).up + branchUp cfg (10 + cfg.ConfigArcRadius) d items
        down := (itemAt items (items.length - 1)).down +
          branchDown cfg (10 + cfg.ConfigArcRadius) d items - (itemAt items d).height
        attrs := []
        needsSpace := true } [] (d : Int) t items (maxWidth items)) := by
  have h0 : idx items 0 = some (itemAt items 0) := itemAt_idx items 0 (by omega)
  have hl := itemAt_idx items (items.length - 1) (by omega)
  have hl' : idx items ((items.length : Int) - 1) = some (itemAt items (items.length - 1)) := by
    rw [← hl]; congr 1; omega
  have hdx := itemAt_idx items d hd
  simp only [MultipleChoice, maxWidthLoop_eq items h, h0, hl', hdx,
    getUp_eq (h _ (itemAt_mem items 0 (by omega))),
    getDown_eq (h _ (itemAt_mem items (items.length - 1) (by omega))),
    getHeight_eq (h _ (itemAt_mem items d hd)), Option.bind_eq_bind, Option.some_bind,
    Option.pure_def, Nat.cast_zero,
    branchLoop_eq cfg (10 + cfg.ConfigArcRadius) d items h hd items 0 rfl,
    sum_range'_lt _ d items.length (by omega), sum_range'_gt _ d items.length hd]
  simp [newDiagramItem, maxWidth, branchUp, branchDown]

/-- The maximum accumulated from 0 bounds 0 and every width, and is attained. -/
theorem maxWidth_spec (items : List RailItem) :
    0 ≤ maxWidth items ∧ (∀ r ∈ items, r.width ≤ maxWidth items) ∧
    (maxWidth items = 0 ∨ ∃ r ∈ items, r.width = maxWidth items) := by
  have key : ∀ (l : List RailItem) (w : ℚ),
      w ≤ l.foldl (fun w i => max w i.width) w ∧
      (∀ r ∈ l, r.width ≤ l.foldl (fun w i => max w i.width) w) ∧
      (l.foldl (fun w i => max w i.width) w = w ∨
        ∃ r ∈ l, r.width = l.foldl (fun w i => max w i.width) w) := by
    intro l
    induction l with
    | nil => intro w; simp
    | cons item rest ih =>
      intro w
      obtain ⟨h1, h2, h3⟩ := ih (max w item.width)
      simp only [List.foldl_cons]
      refine ⟨le_trans (le_max_left _ _) h1, ?_, ?_⟩
      · intro r hr
        rcases List.mem_cons.mp hr with rfl | hr
        · exact le_trans (le_max_right _ _) h1
        · exact h2 r hr
      · rcases h3 with h3 | ⟨r, hr, h3⟩
        · rcases max_choice w item.width with hm | hm
          · left; rw [h3, hm]
          · right; exact ⟨item, List.mem_cons_self _ _, by rw [h3, hm]⟩
        · right; exact ⟨r, List.mem_cons_of_mem _ hr, h3⟩
  exact key items 0

theorem metrics_choice (di : diagramItem) (ch : List RailItem) (d : Int) (items : List RailItem) :
    (RailItem.choice di ch d items).width = di.width ∧
    (RailItem.choice di ch d items).height = di.height ∧
    (RailItem.choice di ch d items).up = di.up ∧
    (RailItem.choice di ch d items).down = di.down :=
  ⟨rfl, rfl, rfl, rfl⟩

theorem metrics_multipleChoice (di : diagramItem) (ch : List RailItem) (d : Int) (t : String)
    (items : List RailItem) (w : ℚ) :
    (RailItem.multipleChoice di ch d t items w).width = di.width ∧
    (RailItem.multipleChoice di ch d t items w).height = di.height ∧
    (RailItem.multipleChoice di ch d t items w).up = di.up ∧
    (RailItem.multipleChoice di ch d t items w).down = di.down :=
  ⟨rfl, rfl, rfl, rfl⟩

/-- Above the default, the allowance is `adjacent` at index `d - 1` only. -/
theorem branchUp_eq (cfg : Config) (adjacent : ℚ) (d : Nat) (items : List RailItem) :
    branchUp cfg adjacent d items = ((List.range d).map fun i =>
      max (if i + 1 = d then adjacent else cfg.ConfigArcRadius)
        ((itemAt items i).height + (itemAt items i).down + cfg.ConfigVerticalSeparation +
          (itemAt items (i + 1)).up)).sum := by
  unfold branchUp
  congr 1
  apply List.map_congr_left
  intro i hi
  rw [List.mem_range] at hi
  have : (i + 1 = d ∨ i = d + 1) ↔ i + 1 = d := by omega
  simp only [branchUpTerm, branchAllowance, this]

/-- Below the default, the allowance is `adjacent` at index `d + 1` only. -/
theorem branchDown_eq (cfg : Config) (adjacent : ℚ) (d : Nat) (items : List RailItem) :
    branchDown cfg adjacent d items =
      ((List.range' (d + 1) (items.length - (d + 1))).map fun i =>
        max (if i = d + 1 then adjacent else cfg.ConfigArcRadius)
          ((itemAt items i).up + cfg.ConfigVerticalSeparation + (itemAt items (i - 1)).down +
            (itemAt items (i - 1)).height)).sum := by
  unfold branchDown
  congr 1
  apply List.map_congr_left
  intro i hi
  rw [List.mem_range'_1] at hi
  have : (i + 1 = d ∨ i = d + 1) ↔ i = d + 1 := by omega
  simp only [branchDownTerm, branchAllowance, this]

/-- C11 as stated fails: for `Choice(1, Terminal("x"), Terminal("y"))` under the
default configuration the up extent is `11 + max(2R, 30) = 41`, while the
specified `up(items[0]) + max(4R, 0 + 11 + 8 + 11)` is `11 + 40 = 51`. -/
theorem Choice_up_counterexample :
    (Choice defaultConfig 1 [Terminal defaultConfig "x", Terminal defaultConfig "y"]).map
      RailItem.up = some 41 ∧
    specChoiceUp defaultConfig 1 [Terminal defaultConfig "x", Terminal defaultConfig "y"] = 51 := by
  decide!

/-- C11, amended: for every valid `Choice(d, items)` of branches of
non-negative width, the width is the maximum branch width plus `4R`; the
height is the height of `items[d]`; the up extent is `up(items[0])` plus, for
every branch `i < d`,
`max(A_i, height(items[i]) + down(items[i]) + V + up(items[i+1]))`; and, when
the default is not the last branch, the down extent is `down` of the last
branch plus, for every branch `i > d`,
`max(A_i, up(items[i]) + V + down(items[i-1]) + height(items[i-1]))`, minus the
height of `items[d]`; where the arc allowance `A_i` is `2R` for a branch
adjacent to the default and `R` for every other branch. -/
theorem Choice_metrics (cfg : Config) (d : Nat) (items : List RailItem)
    (h : ∀ i ∈ items, i.isText = false) (hd : d < items.length)
    (hw : ∀ i ∈ items, 0 ≤ i.width) :
    ∃ r, Choice cfg (d : Int) items = some r ∧
      ((∀ i ∈ items, i.width + 4 * cfg.ConfigArcRadius ≤ r.width) ∧
        ∃ i ∈ items, r.width = i.width + 4 * cfg.ConfigArcRadius) ∧
      r.height = (itemAt items d).height ∧
      r.up = (itemAt items 0).up + ((List.range d).map fun i =>
        max (if i + 1 = d then 2 * cfg.ConfigArcRadius else cfg.ConfigArcRadius)
          ((itemAt items i).height + (itemAt items i).down + cfg.ConfigVerticalSeparation +
            (itemAt items (i + 1)).up)).sum ∧
      (d + 1 < items.length →
        r.down = (itemAt items (items.length - 1)).down +
          ((List.range' (d + 1) (items.length - (d + 1))).map fun i =>
            max (if i = d + 1 then 2 * cfg.ConfigArcRadius else cfg.ConfigArcRadius)
              ((itemAt items i).up + cfg.ConfigVerticalSeparation + (itemAt items (i - 1)).down +
                (itemAt items (i - 1)).height)).sum - (itemAt items d).height) := by
  refine ⟨_, Choice_eq cfg d items h hd, ?_, (metrics_choice _ _ _ _).2.1, ?_, ?_⟩
  · obtain ⟨h1, h2, h3⟩ := maxWidth_spec items
    rw [(metrics_choice _ _ _ _).1, mul_comm]
    dsimp only
    refine ⟨fun i hi => by linarith [h2 i hi], ?_⟩
    rcases h3 with h0 | ⟨i, hi, he⟩
    · have hm := itemAt_mem items d hd
      refine ⟨itemAt items d, hm, ?_⟩
      have := h2 _ hm
      have := hw _ hm
      have e : (itemAt items d).width = maxWidth items := by linarith
      rw [e]
    · exact ⟨i, hi, by rw [he]⟩
  · rw [(metrics_choice _ _ _ _).2.2.1]
    simp only [branchUp_eq, mul_comm]
  · intro _
    rw [(metrics_choice _ _ _ _).2.2.2]
    simp only [branchDown_eq, mul_comm]

/-- Witness of C11: `Choice(1, Terminal("x"), Terminal("y"), Terminal("z"))` has
width 68, up extent 41 and down extent 41. -/
theorem Choice_metrics_witness :
    ∃ r, Choice defaultConfig 1
        [Terminal defaultConfig "x", Terminal defaultConfig "y", Terminal defaultConfig "z"] =
          some r ∧
      r.width = 68 ∧ r.up = 41 ∧ r.down = 41 :=
  have h := Choice_metrics defaultConfig 1
    [Terminal defaultConfig "x", Terminal defaultConfig "y", Terminal defaultConfig "z"]
    (by decide) (by decide) (by decide!)
  h.imp fun r hr => ⟨hr.1, by
    obtain ⟨i, hi, he⟩ := hr.2.1.2
    rw [he]
    simp only [List.mem_cons, List.mem_singleton, List.not_mem_nil, or_false] at hi
    rcases hi with rfl | rfl | rfl <;> decide!, by rw [hr.2.2.2.1]; decide!,
    by rw [hr.2.2.2.2 (by decide)]; decide!⟩

/-- C12: for every two branches `a` and `b`, `Choice(0, a, b)` has
`down = down(b) + max(2R, up(b) + V + down(a) + height(a)) - height(a)`; for
`Choice(0, Terminal("x"), Terminal("y"))` under the default configuration the
maximum is 30 and the down extent is `11 + 30 = 41`. -/
theorem Choice_two_down (cfg : Config) (a b : RailItem)
    (ha : a.isText = false) (hb : b.isText = false) :
    (∃ r, Choice cfg 0 [a, b] = some r ∧
      r.down = b.down + max (2 * cfg.ConfigArcRadius)
        (b.up + cfg.ConfigVerticalSeparation + a.down + a.height) - a.height) ∧
    (Choice defaultConfig 0 [Terminal defaultConfig "x", Terminal defaultConfig "y"]).map
      RailItem.down = some 41 ∧
    (Terminal defaultConfig "y").down = 11 ∧
    max (2 * defaultConfig.ConfigArcRadius)
      ((Terminal defaultConfig "y").up + defaultConfig.ConfigVerticalSeparation +
        (Terminal defaultConfig "x").down + (Terminal defaultConfig "x").height) = 30 := by
  refine ⟨?_, by decide!, by decide!, by decide!⟩
  have hall : ∀ i ∈ [a, b], i.isText = false := by
    intro i hi
    simp only [List.mem_cons, List.mem_singleton, List.not_mem_nil, or_false] at hi
    rcases hi with rfl | rfl <;> assumption
  have h := Choice_eq cfg 0 [a, b] hall (by simp)
  refine ⟨_, h, ?_⟩
  rw [(metrics_choice _ _ _ _).2.2.2]
  simp [branchDown, branchDownTerm, branchAllowance, itemAt, List.range', mul_comm]

/-- Witness of C12: two terminals. -/
theorem Choice_two_down_witness :
    ∃ r, Choice defaultConfig 0 [Terminal defaultConfig "x", Terminal defaultConfig "y"] = some r ∧
      r.down = (Terminal defaultConfig "y").down + max (2 * defaultConfig.ConfigArcRadius)
        ((Terminal defaultConfig "y").up + defaultConfig.ConfigVerticalSeparation +
          (Terminal defaultConfig "x").down + (Terminal defaultConfig "x").height) -
        (Terminal defaultConfig "x").height :=
  (Choice_two_down defaultConfig (Terminal defaultConfig "x") (Terminal defaultConfig "y")
    (by decide) (by decide)).1

/-- C20: under the arc radius `R = 10`, for every valid `(d, items)` and every
type, `MultipleChoice(d, type, items)` has the same up, down and height as
`Choice(d, items)`, and its width is the maximum branch width plus `2R + 50`,
which is the width of the `Choice` plus 30. -/
theorem MultipleChoice_metrics_eq_Choice (cfg : Config) (hR : cfg.ConfigArcRadius = 10)
    (d : Nat) (t : MultipleChoiceType) (items : List RailItem)
    (h : ∀ i ∈ items, i.isText = false) (hd : d < items.length) :
    ∃ c m, Choice cfg (d : Int) items = some c ∧ MultipleChoice cfg (d : Int) t items = some m ∧
      m.up = c.up ∧ m.down = c.down ∧ m.height = c.height ∧
      (∃ w, 0 ≤ w ∧ (∀ i ∈ items, i.width ≤ w) ∧ (w = 0 ∨ ∃ i ∈ items, i.width = w) ∧
        m.width = w + 2 * cfg.ConfigArcRadius + 50) ∧
      m.width = c.width + 30 := by
  refine ⟨_, _, Choice_eq cfg d items h hd, MultipleChoice_eq cfg d t items h hd, ?_, ?_, ?_, ?_, ?_⟩
  · rw [(metrics_multipleChoice _ _ _ _ _ _).2.2.1, (metrics_choice _ _ _ _).2.2.1, hR]
    norm_num
  · rw [(metrics_multipleChoice _ _ _ _ _ _).2.2.2, (metrics_choice _ _ _ _).2.2.2, hR]
    norm_num
  · rw [(metrics_multipleChoice _ _ _ _ _ _).2.1, (metrics_choice _ _ _ _).2.1]
  · obtain ⟨h1, h2, h3⟩ := maxWidth_spec items
    refine ⟨maxWidth items, h1, h2, h3, ?_⟩
    rw [(metrics_multipleChoice _ _ _ _ _ _).1]
    ring
  · rw [(metrics_multipleChoice _ _ _ _ _ _).1, (metrics_choice _ _ _ _).1, hR]
    ring

/-- Witness of C20: three terminals with the default in the middle, type `all`. -/
theorem MultipleChoice_metrics_eq_Choice_witness :
    ∃ c m, Choice defaultConfig 1 [Terminal defaultConfig "a", Terminal defaultConfig "b",
        Terminal defaultConfig "c"] = some c ∧
      MultipleChoice defaultConfig 1 MultipleChoiceAll [Terminal defaultConfig "a",
        Terminal defaultConfig "b", Terminal defaultConfig "c"] = some m ∧
      m.up = c.up ∧ m.down = c.down ∧ m.height = c.height ∧ m.width = c.width + 30 :=
  have h := MultipleChoice_metrics_eq_Choice defaultConfig (by decide!) 1 MultipleChoiceAll
    [Terminal defaultConfig "a", Terminal defaultConfig "b", Terminal defaultConfig "c"]
    (by decide) (by decide)
  h.imp fun c hc => hc.imp fun m hm => ⟨hm.1, hm.2.1, hm.2.2.1, hm.2.2.2.1, hm.2.2.2.2.1,
    hm.2.2.2.2.2.2⟩

/-! ## Repetition, sugar and the leaves -/

theorem metrics_oneOrMore (di : diagramItem) (ch : List RailItem) (item rep : RailItem) :
    (RailItem.oneOrMore di ch item rep).width = di.width ∧
    (RailItem.oneOrMore di ch item rep).height = di.height ∧
    (RailItem.oneOrMore di ch item rep).up = di.up ∧
    (RailItem.oneOrMore di ch item rep).down = di.down :=
  ⟨rfl, rfl, rfl, rfl⟩

/-- The closed form of `OneOrMore` with one repeat option. -/
theorem OneOrMore_eq (cfg : Config) (body rep : RailItem)
    (hb : body.isText = false) (hr : rep.isText = false) :
    OneOrMore cfg body [OneOrMoreRepeat (some rep)] = some (.oneOrMore
      { name := "g"
        width := max body.width rep.width + cfg.ConfigArcRadius * 2
        height := body.height
        up := body.up
        down := max (cfg.ConfigArcRadius * 2)
          (body.down + cfg.ConfigVerticalSeparation + rep.up + rep.height + rep.down)
        attrs := []
        needsSpace := true } [] body rep) := by
  simp [OneOrMore, lastSet, OneOrMoreRepeat, getWidth_eq hb, getWidth_eq hr, getHeight_eq hb,
    getHeight_eq hr, getUp_eq hb, getUp_eq hr, getDown_eq hb, getDown_eq hr, newDiagramItem]

/-- C13: for every body and repeat clause, `OneOrMore(body, repeat)` has
`width = max(body.width, repeat.width) + 2R`, `height = body.height`,
`up = body.up` and
`down = max(2R, body.down + V + repeat.up + repeat.height + repeat.down)`;
without a repeat clause the result is that of the repeat clause `Skip()`, whose
metrics are all 0, so that `down = max(2R, body.down + V)`. -/
theorem OneOrMore_metrics (cfg : Config) (body rep : RailItem)
    (hb : body.isText = false) (hr : rep.isText = false) :
    (∃ r, OneOrMore cfg body [OneOrMoreRepeat (some rep)] = some r ∧
      r.width = max body.width rep.width + 2 * cfg.ConfigArcRadius ∧
      r.height = body.height ∧ r.up = body.up ∧
      r.down = max (2 * cfg.ConfigArcRadius)
        (body.down + cfg.ConfigVerticalSeparation + rep.up + rep.height + rep.down)) ∧
    OneOrMore cfg body [] = OneOrMore cfg body [OneOrMoreRepeat (some Skip)] ∧
    (Skip.width = 0 ∧ Skip.height = 0 ∧ Skip.up = 0 ∧ Skip.down = 0) ∧
    (∃ r, OneOrMore cfg body [] = some r ∧
      r.width = max body.width 0 + 2 * cfg.ConfigArcRadius ∧
      r.height = body.height ∧ r.up = body.up ∧
      r.down = max (2 * cfg.ConfigArcRadius) (body.down + cfg.ConfigVerticalSeparation)) := by
  have hs : Skip.isText = false := rfl
  have hnone : OneOrMore cfg body [] = OneOrMore cfg body [OneOrMoreRepeat (some Skip)] := rfl
  refine ⟨⟨_, OneOrMore_eq cfg body rep hb hr, ?_, rfl, rfl, ?_⟩, hnone, ⟨rfl, rfl, rfl, rfl⟩,
    ⟨_, hnone.trans (OneOrMore_eq cfg body Skip hb hs), ?_, rfl, rfl, ?_⟩⟩
  · rw [(metrics_oneOrMore _ _ _ _).1, mul_comm]
  · rw [(metrics_oneOrMore _ _ _ _).2.2.2, mul_comm]
  · rw [(metrics_oneOrMore _ _ _ _).1, mul_comm]
    rfl
  · rw [(metrics_oneOrMore _ _ _ _).2.2.2, mul_comm]
    have : Skip.up = 0 ∧ Skip.height = 0 ∧ Skip.down = 0 := ⟨rfl, rfl, rfl⟩
    simp [this.1, this.2.1, this.2.2]

/-- Witness of C13: the repetition of the test, a non-terminal with a comment
as repeat clause. -/
theorem OneOrMore_metrics_witness :
    ∃ r, OneOrMore defaultConfig (NonTerminal defaultConfig "hex digit")
        [OneOrMoreRepeat (some (Comment "1-6 times"))] = some r ∧
      r.width = 112 ∧ r.down = 41 :=
  have h := (OneOrMore_metrics defaultConfig (NonTerminal defaultConfig "hex digit")
    (Comment "1-6 times") (by decide) (by decide)).1
  h.imp fun r hr => ⟨hr.1, by rw [hr.2.1]; decide!, by rw [hr.2.2.2.2]; decide!⟩

/-- C14: the sugar is a composition of the core combinators.  `Optional(item)`
is `Choice(1, Skip(), item)`; `Optional(item, OptionalSkip(true))` is
`Choice(0, Skip(), item)`; of several skip options the last one wins;
`ZeroOrMore(item, options...)` is `Optional(OneOrMore(item, repeat), skip)` for
the last repeat and the last skip among the options (`false` if there is
none); and an absent repeat behaves as `Skip()`. -/
theorem sugar_is_composition (cfg : Config) (item : RailItem) (rep : Option RailItem) (b : Bool)
    (opts : List OptionalOption) (zopts : List ZeroOrMoreOption) :
    Optional cfg item [] = Choice cfg 1 [Skip, item] ∧
    Optional cfg item [OptionalSkip true] = Choice cfg 0 [Skip, item] ∧
    Optional cfg item [OptionalSkip false] = Choice cfg 1 [Skip, item] ∧
    Optional cfg item (opts ++ [OptionalSkip b]) = Optional cfg item [OptionalSkip b] ∧
    ZeroOrMore cfg item zopts =
      (OneOrMore cfg item [OneOrMoreRepeat (lastSet ZeroOrMoreOption.repeat_ zopts none)]).bind
        (fun o => Optional cfg o [OptionalSkip (lastSet ZeroOrMoreOption.skip zopts false)]) ∧
    ZeroOrMore cfg item [ZeroOrMoreRepeat rep, ZeroOrMoreSkip b] =
      (OneOrMore cfg item [OneOrMoreRepeat rep]).bind (fun o => Optional cfg o [OptionalSkip b]) ∧
    ZeroOrMore cfg item [ZeroOrMoreSkip b, ZeroOrMoreRepeat rep] =
      (OneOrMore cfg item [OneOrMoreRepeat rep]).bind (fun o => Optional cfg o [OptionalSkip b]) ∧
    ZeroOrMore cfg item [] =
      (OneOrMore cfg item []).bind (fun o => Optional cfg o []) ∧
    OneOrMore cfg item [OneOrMoreRepeat none] = OneOrMore cfg item [OneOrMoreRepeat (some Skip)] ∧
    OneOrMore cfg item [] = OneOrMore cfg item [OneOrMoreRepeat (some Skip)] := by
  refine ⟨rfl, rfl, rfl, ?_, rfl, rfl, rfl, rfl, rfl, rfl⟩
  simp only [Optional, lastSet, List.foldl_append, List.foldl_cons, List.foldl_nil, OptionalSkip]

theorem utf8ByteSize_ascii (l : List Char) (h : ∀ c ∈ l, c.toNat < 128) :
    String.utf8ByteSize.go l = l.length := by
  induction l with
  | nil => rfl
  | cons c t ih =>
    have hc : c.toNat < 128 := h c (List.mem_cons_self _ _)
    have ht := ih fun c hc => h c (List.mem_cons_of_mem _ hc)
    have h1 : c.utf8Size = 1 := by
      unfold Char.utf8Size
      have : c.val ≤ UInt32.ofNatCore 127 (by decide) := by
        show c.val.toNat ≤ 127
        have : c.val.toNat = c.toNat := rfl
        omega
      rw [if_pos this]
    show String.utf8ByteSize.go t + c.utf8Size = t.length + 1
    rw [ht, h1]

/-- C15, the defect: `len(text)` counts bytes.  For every label the width of
`Terminal(label)` and of `NonTerminal(label)` is the character advance times
the number of bytes of the label, plus 20, with `up = down = 11`, `height = 0`
and spacing needed, and `Text(label)` is `Terminal(label)`; the number of bytes
is the number of characters for an ASCII label; but for the label `é`, of one
character, the width is `8 * 2 + 20 = 36` and not `8 * 1 + 20 = 28`. -/
theorem Terminal_width_counts_bytes :
    (∀ (cfg : Config) (label : String),
      (Terminal cfg label).width = cfg.ConfigCharacterAdvance * (label.utf8ByteSize : ℚ) + 20 ∧
      (NonTerminal cfg label).width = cfg.ConfigCharacterAdvance * (label.utf8ByteSize : ℚ) + 20 ∧
      (Terminal cfg label).up = 11 ∧ (Terminal cfg label).down = 11 ∧
      (Terminal cfg label).height = 0 ∧ (Terminal cfg label).needsSpace = true ∧
      (NonTerminal cfg label).up = 11 ∧ (NonTerminal cfg label).down = 11 ∧
      (NonTerminal cfg label).height = 0 ∧ (NonTerminal cfg label).needsSpace = true ∧
      Text cfg label = Terminal cfg label) ∧
    (∀ label : String, (∀ c ∈ label.data, c.toNat < 128) → label.utf8ByteSize = label.length) ∧
    "é".length = 1 ∧
    (Terminal defaultConfig "é").width = 36 ∧
    (NonTerminal defaultConfig "é").width = 36 ∧
    defaultConfig.ConfigCharacterAdvance * (("é".length : Nat) : ℚ) + 20 = 28 := by
  refine ⟨?_, ?_, by decide, by decide!, by decide!, by decide!⟩
  · intro cfg label
    refine ⟨?_, ?_, rfl, rfl, rfl, rfl, rfl, rfl, rfl, rfl, rfl⟩
    · show (label.utf8ByteSize : ℚ) * cfg.ConfigCharacterAdvance + 20 = _
      rw [mul_comm]
    · show (label.utf8ByteSize : ℚ) * cfg.ConfigCharacterAdvance + 20 = _
      rw [mul_comm]
  · intro label h
    cases label with
    | mk l => exact utf8ByteSize_ascii l h

/-- Witness of C15: the ASCII label `hex digit` has as many bytes as
characters. -/
theorem Terminal_width_counts_bytes_witness :
    "hex digit".utf8ByteSize = "hex digit".length :=
  Terminal_width_counts_bytes.2.1 "hex digit" (by decide)

/-! ## Widths of the composites -/

theorem OptionalSequence_heightLoop_eq (items : List RailItem) (h : ∀ i ∈ items, i.isText = false)
    (di : diagramItem) :
    OptionalSequence.heightLoop items di = some
      { di with height := di.height + (items.map RailItem.height).sum } := by
  induction items generalizing di with
  | nil => simp [OptionalSequence.heightLoop]
  | cons item rest ih =>
    have hi : item.isText = false := h item (List.mem_cons_self _ _)
    have hr : ∀ i ∈ rest, i.isText = false := fun i hi => h i (List.mem_cons_of_mem _ hi)
    simp only [OptionalSequence.heightLoop, getHeight_eq hi, Option.bind_eq_bind,
      Option.some_bind, ih hr]
    simp [add_assoc]

/-- The second loop of `OptionalSequence` adds at least the width of every item. -/
theorem OptionalSequence_loop_width (cfg : Config) (hR : 0 ≤ cfg.ConfigArcRadius)
    (rest : List RailItem) (h : ∀ i ∈ rest, i.isText = false) (i : Nat) (di : diagramItem)
    (heightSoFar : ℚ) :
    ∃ di', OptionalSequence.loop cfg rest i di heightSoFar = some di' ∧
      di.width + (rest.map RailItem.width).sum ≤ di'.width := by
  induction rest generalizing i di heightSoFar with
  | nil => exact ⟨di, by simp [OptionalSequence.loop], by simp⟩
  | cons item rest ih =>
    have hi : item.isText = false := h item (List.mem_cons_self _ _)
    have hr : ∀ i ∈ rest, i.isText = false := fun i hi => h i (List.mem_cons_of_mem _ hi)
    simp only [OptionalSequence.loop, getHeight_eq hi, getUp_eq hi, getDown_eq hi,
      getWidth_eq hi, getNeedsSpace_eq hi, Option.bind_eq_bind, Option.some_bind, Option.pure_def]
    have hiw : item.width ≤ (if item.needsSpace = true then item.width + 20 else item.width) := by
      split <;> linarith
    have hm := le_max_left (if item.needsSpace = true then item.width + 20 else item.width)
      cfg.ConfigArcRadius
    by_cases hi0 : i > 0
    · have hne : ¬ i = 0 := by omega
      simp only [if_pos hi0, if_neg hne, Option.some_bind]
      obtain ⟨di', hdi', hle⟩ := ih hr (i + 1) _ _
      refine ⟨di', hdi', le_trans ?_ hle⟩
      simp only [List.map_cons, List.sum_cons]
      linarith
    · have he : i = 0 := by omega
      simp only [if_neg hi0, if_pos he, Option.some_bind]
      obtain ⟨di', hdi', hle⟩ := ih hr (i + 1) _ _
      refine ⟨di', hdi', le_trans ?_ hle⟩
      simp only [List.map_cons, List.sum_cons]
      linarith

theorem OptionalSequence_width (cfg : Config) (hR : 0 ≤ cfg.ConfigArcRadius)
    (items : List RailItem) (h : ∀ i ∈ items, i.isText = false) (hlen : 1 < items.length) :
    ∃ r, OptionalSequence cfg items = some r ∧ (items.map RailItem.width).sum ≤ r.width := by
  have h0 : idx items 0 = some (itemAt items 0) := itemAt_idx items 0 (by omega)
  simp only [OptionalSequence, if_neg (show ¬ items.length ≤ 1 by omega),
    OptionalSequence_heightLoop_eq items h, h0,
    getDown_eq (h _ (itemAt_mem items 0 (by omega))), Option.bind_eq_bind, Option.some_bind,
    Option.pure_def]
  obtain ⟨di', hdi', hle⟩ := OptionalSequence_loop_width cfg hR items h 0
    { name := "g", width := 0, height := 0 + (items.map RailItem.height).sum, up := 0,
      down := (itemAt items 0).down, attrs := [], needsSpace := false } 0
  refine ⟨.optionalSequence di' [] items, ?_, ?_⟩
  · simp only [newDiagramItem]
    rw [hdi']
    rfl
  · simpa using hle

/-- Twenty units for every item that needs spacing cover the ten units taken
off for the first and for the last item. -/
theorem spacers_cover (items : List RailItem) (hne : items ≠ []) :
    (if (items.head hne).needsSpace then (10 : ℚ) else 0) +
      (if (items.getLast hne).needsSpace then 10 else 0) ≤
      20 * ((items.filter RailItem.needsSpace).length : ℚ) := by
  cases items with
  | nil => exact absurd rfl hne
  | cons x rest =>
    cases rest with
    | nil =>
      by_cases hx : x.needsSpace = true <;> simp [hx]
      norm_num
    | cons y t =>
      have hl : (if ((x :: y :: t).getLast hne).needsSpace then (1 : ℚ) else 0) ≤
          (((y :: t).filter RailItem.needsSpace).length : ℚ) := by
        split
        · rename_i hns
          have hmem : (x :: y :: t).getLast hne ∈ (y :: t).filter RailItem.needsSpace := by
            rw [List.mem_filter]
            refine ⟨?_, hns⟩
            rw [List.getLast_cons (by simp)]
            exact List.getLast_mem _
          have : 0 < ((y :: t).filter RailItem.needsSpace).length := List.length_pos_of_mem hmem
          exact_mod_cast this
        · exact Nat.cast_nonneg _
      have hf : (((x :: y :: t).filter RailItem.needsSpace).length : ℚ) =
          (if x.needsSpace then 1 else 0) + (((y :: t).filter RailItem.needsSpace).length : ℚ) := by
        by_cases hx : x.needsSpace = true
        · rw [List.filter_cons_of_pos hx]; simp [hx]; ring
        · rw [List.filter_cons_of_neg hx]; simp [hx]
      rw [hf]
      simp only [List.head_cons]
      by_cases hx : x.needsSpace = true
      · by_cases hg : ((x :: y :: t).getLast hne).needsSpace = true
        · simp only [hx, hg, if_true] at hl ⊢; linarith
        · simp only [hx, hg, if_true] at hl ⊢
          simp only [Bool.false_eq_true, if_false] at hl ⊢
          linarith
      · by_cases hg : ((x :: y :: t).getLast hne).needsSpace = true
        · simp only [hx, hg, if_true] at hl ⊢
          simp only [Bool.false_eq_true, if_false] at hl ⊢
          linarith
        · simp only [hx, hg] at hl ⊢
          simp only [Bool.false_eq_true, if_false] at hl ⊢
          linarith

theorem width_le_sum (items : List RailItem) (hw : ∀ i ∈ items, 0 ≤ i.width) :
    0 ≤ (items.map RailItem.width).sum ∧ ∀ c ∈ items, c.width ≤ (items.map RailItem.width).sum := by
  have hnn : ∀ x ∈ items.map RailItem.width, 0 ≤ x := by
    intro x hx
    obtain ⟨c, hc, rfl⟩ := List.mem_map.mp hx
    exact hw c hc
  exact ⟨List.sum_nonneg hnn, fun c hc =>
    List.single_le_sum hnn _ (List.mem_map.mpr ⟨c, hc, rfl⟩)⟩

/-- C16 as stated fails in `float64`.  With `ConfigCharacterAdvance = 6.3`, the
terminal `a` is `26.3` wide, rounded; `Sequence(Terminal("a"))` adds 20 to this
width and takes 10 off twice, and its width is `2^-48` less than the width of
its only child. -/
theorem width_rounding_counterexample :
    Terminal.width64 configAdvance63 "a" = 7402791887490253 / 281474976710656 ∧
    Sequence.width64 [(Terminal.width64 configAdvance63 "a", true)] =
      Terminal.width64 configAdvance63 "a" - 1 / 2 ^ 48 ∧
    Sequence.width64 [(Terminal.width64 configAdvance63 "a", true)] <
      Terminal.width64 configAdvance63 "a" := by
  decide!

/-- C16, amended: under a configuration on which the `float64` arithmetic of
the metrics is exact (its distances are integers), with a non-negative arc
radius, for children of non-negative width: the width of `Sequence` and of
`OptionalSequence` is at least the sum of the children's widths; the width of
`Stack`, `Choice`, `MultipleChoice` and `OneOrMore` is at least the width of
every child; and each of these widths is non-negative and at least the width
of every child.  On such a configuration the `float64` computation loses
nothing on an exact width: the margin of arcs added by `Choice`, `Stack` and
`OneOrMore` leaves at least that width, and the sequence of one spaced child
is as wide as the child. -/
theorem width_monotone (cfg : Config) (hx : cfg.exact64 = true) (hR : 0 ≤ cfg.ConfigArcRadius)
    (d : Nat) (t : MultipleChoiceType) (items : List RailItem) (body rep : RailItem)
    (h : ∀ i ∈ items, i.isText = false) (hw : ∀ i ∈ items, 0 ≤ i.width)
    (hd : d < items.length)
    (hb : body.isText = false) (hr : rep.isText = false)
    (hbw : 0 ≤ body.width) :
    (∃ r, Sequence items = some r ∧ (items.map RailItem.width).sum ≤ r.width ∧
      (∀ c ∈ items, c.width ≤ r.width) ∧ 0 ≤ r.width) ∧
    (∃ r, OptionalSequence cfg items = some r ∧ (items.map RailItem.width).sum ≤ r.width ∧
      (∀ c ∈ items, c.width ≤ r.width) ∧ 0 ≤ r.width) ∧
    (∃ r, Stack cfg items = some r ∧ (∀ c ∈ items, c.width ≤ r.width) ∧ 0 ≤ r.width) ∧
    (∃ r, Choice cfg (d : Int) items = some r ∧ (∀ c ∈ items, c.width ≤ r.width) ∧
      0 ≤ r.width) ∧
    (∃ r, MultipleChoice cfg (d : Int) t items = some r ∧ (∀ c ∈ items, c.width ≤ r.width) ∧
      0 ≤ r.width) ∧
    (∃ r, OneOrMore cfg body [OneOrMoreRepeat (some rep)] = some r ∧
      body.width ≤ r.width ∧ rep.width ≤ r.width ∧ 0 ≤ r.width) ∧
    (∃ r, OneOrMore cfg body [] = some r ∧ body.width ≤ r.width ∧ 0 ≤ r.width) ∧
    (∀ w : ℚ, exact64 w = true →
      w ≤ widthWithArcs64 cfg 4 w ∧ w ≤ widthWithArcs64 cfg 2 w ∧
      Sequence.width64 [(w, true)] = w) := by
  have hne : items ≠ [] := by
    intro he; rw [he] at hd; exact absurd hd (by simp)
  obtain ⟨hs0, hsc⟩ := width_le_sum items hw
  have hseq : ∃ r, Sequence items = some r ∧ (items.map RailItem.width).sum ≤ r.width := by
    refine ⟨_, Sequence_eq items hne h, ?_⟩
    rw [(width_sequence _ _ _).1, sum_spacedWidth]
    have := spacers_cover items hne
    dsimp only
    linarith
  have hopt : ∃ r, OptionalSequence cfg items = some r ∧
      (items.map RailItem.width).sum ≤ r.width := by
    by_cases hlen : 1 < items.length
    · exact OptionalSequence_width cfg hR items h hlen
    · obtain ⟨r, hr1, hr2⟩ := hseq
      exact ⟨r, by rw [OptionalSequence, if_pos (by omega), hr1], hr2⟩
  have hmax := maxWidth_spec items
  refine ⟨?_, ?_, ?_, ?_, ?_, ?_, ?_, ?_⟩
  · obtain ⟨r, hr1, hr2⟩ := hseq
    exact ⟨r, hr1, hr2, fun c hc => le_trans (hsc c hc) hr2, le_trans hs0 hr2⟩
  · obtain ⟨r, hr1, hr2⟩ := hopt
    exact ⟨r, hr1, hr2, fun c hc => le_trans (hsc c hc) hr2, le_trans hs0 hr2⟩
  · refine ⟨_, Stack_eq cfg items hne h, ?_, ?_⟩
    · intro c hc
      rw [(width_stack _ _ _).1]
      have h1 := (Stack_maxSpaced_spec items 0).2.1 c hc
      have h2 : c.width ≤ spacedWidth c := by unfold spacedWidth; split <;> linarith
      have h3 : (0 : ℚ) ≤ if 1 < items.length then cfg.ConfigArcRadius * 2 else 0 := by
        split <;> linarith
      dsimp only
      linarith
    · rw [(width_stack _ _ _).1]
      have h1 := (Stack_maxSpaced_spec items 0).1
      have h3 : (0 : ℚ) ≤ if 1 < items.length then cfg.ConfigArcRadius * 2 else 0 := by
        split <;> linarith
      dsimp only
      linarith
  · refine ⟨_, Choice_eq cfg d items h hd, ?_, ?_⟩
    · intro c hc
      rw [(metrics_choice _ _ _ _).1]
      have := hmax.2.1 c hc
      show c.width ≤ maxWidth items + cfg.ConfigArcRadius * 4
      linarith
    · rw [(metrics_choice _ _ _ _).1]
      have := hmax.1
      show 0 ≤ maxWidth items + cfg.ConfigArcRadius * 4
      linarith
  · refine ⟨_, MultipleChoice_eq cfg d t items h hd, ?_, ?_⟩
    · intro c hc
      rw [(metrics_multipleChoice _ _ _ _ _ _).1]
      have := hmax.2.1 c hc
      show c.width ≤ 30 + cfg.ConfigArcRadius + maxWidth items + cfg.ConfigArcRadius + 20
      linarith
    · rw [(metrics_multipleChoice _ _ _ _ _ _).1]
      have := hmax.1
      show 0 ≤ 30 + cfg.ConfigArcRadius + maxWidth items + cfg.ConfigArcRadius + 20
      linarith
  · refine ⟨_, OneOrMore_eq cfg body rep hb hr, ?_, ?_, ?_⟩ <;>
      rw [(metrics_oneOrMore _ _ _ _).1] <;>
      show _ ≤ max body.width rep.width + cfg.ConfigArcRadius * 2
    · have := le_max_left body.width rep.width; linarith
    · have := le_max_right body.width rep.width; linarith
    · have := le_max_left body.width rep.width; linarith
  · have hsk : Skip.isText = false := rfl
    have he : OneOrMore cfg body [] = OneOrMore cfg body [OneOrMoreRepeat (some Skip)] := rfl
    refine ⟨_, he.trans (OneOrMore_eq cfg body Skip hb hsk), ?_, ?_⟩ <;>
      rw [(metrics_oneOrMore _ _ _ _).1] <;>
      show _ ≤ max body.width Skip.width + cfg.ConfigArcRadius * 2
    · have := le_max_left body.width Skip.width; linarith
    · have := le_max_left body.width Skip.width; linarith
  · intro w hw
    rw [widthWithArcs64_exact cfg 4 w (exact64_arcs cfg hx).2.2 hw,
      widthWithArcs64_exact cfg 2 w (exact64_arcs cfg hx).2.1 hw]
    exact ⟨by linarith, by linarith, Sequence_width64_single w hw⟩

/-- Witness of C16: the default configuration, two terminals as children, a
terminal with a comment as repeat clause. -/
theorem width_monotone_witness :
    ∃ r, Sequence [Terminal defaultConfig "a", Terminal defaultConfig "b"] = some r ∧
      ([Terminal defaultConfig "a", Terminal defaultConfig "b"].map RailItem.width).sum ≤ r.width ∧
      (∀ c ∈ [Terminal defaultConfig "a", Terminal defaultConfig "b"], c.width ≤ r.width) ∧
      0 ≤ r.width :=
  (width_monotone defaultConfig (by decide!) (by decide!) 0 MultipleChoiceAny
    [Terminal defaultConfig "a", Terminal defaultConfig "b"]
    (Terminal defaultConfig "a") (Comment "often")
    (by decide) (by decide!) (by decide) (by decide) (by decide) (by decide!)).1

/-! ## Serialisation: proofs -/

theorem a_get_of_mem (attrs : a) (hk : (attrs.map Prod.fst).Nodup) (p : String × String)
    (hp : p ∈ attrs) : a.get attrs p.1 = p.2 := by
  induction attrs with
  | nil => cases hp
  | cons q rest ih =>
    obtain ⟨k, v⟩ := q
    rw [List.map_cons, List.nodup_cons] at hk
    rcases List.mem_cons.mp hp with rfl | hp
    · simp [a.get]
    · have hne : k ≠ p.1 := by
        intro he
        have hm : p.1 ∈ rest.map Prod.fst := List.mem_map_of_mem Prod.fst hp
        rw [← he] at hm
        exact hk.1 hm
      simp only [a.get, if_neg hne]
      exact ih hk.2 hp

theorem a_get_of_not_mem (attrs : a) (key : String) (hk : key ∉ attrs.map Prod.fst) :
    a.get attrs key = "" := by
  induction attrs with
  | nil => rfl
  | cons q rest ih =>
    obtain ⟨k, v⟩ := q
    rw [List.map_cons, List.mem_cons, not_or] at hk
    simp only [a.get, if_neg (Ne.symm hk.1)]
    exact ih hk.2

/-- A map read does not depend on the order of the pairs. -/
theorem a_get_perm (attrs attrs' : a) (hk : (attrs.map Prod.fst).Nodup) (hp : attrs'.Perm attrs)
    (key : String) : a.get attrs' key = a.get attrs key := by
  have hk' : (attrs'.map Prod.fst).Nodup := (hp.map Prod.fst).nodup_iff.mpr hk
  by_cases hm : key ∈ attrs.map Prod.fst
  · obtain ⟨p, hpm, rfl⟩ := List.mem_map.mp hm
    rw [a_get_of_mem attrs hk p hpm, a_get_of_mem attrs' hk' p (hp.mem_iff.mpr hpm)]
  · have hm' : key ∉ attrs'.map Prod.fst := fun hc => hm ((hp.map Prod.fst).mem_iff.mp hc)
    rw [a_get_of_not_mem attrs key hm, a_get_of_not_mem attrs' key hm']

theorem writeAttrs_eq (attrs : a) (keys : List String) :
    writeAttrs attrs keys =
      ((keys.map fun k => attrText (k, a.get attrs k)).foldr (fun s t => s ++ t) "") := by
  induction keys with
  | nil => rfl
  | cons k rest ih => simp only [writeAttrs, ih, List.map_cons, List.foldr_cons, attrText]

theorem writeSvgList_eq (ch : List RailItem) :
    writeSvgList ch = (ch.map writeSvg).foldr (fun s t => s ++ t) "" := by
  induction ch with
  | nil => simp [writeSvgList]
  | cons c rest ih => simp only [writeSvgList, ih, List.map_cons, List.foldr_cons]

theorem sortedKeys_perm (attrs attrs' : a) (hp : attrs'.Perm attrs) :
    (attrs'.map Prod.fst).insertionSort (fun k1 k2 => k1 ≤ k2) =
      (attrs.map Prod.fst).insertionSort (fun k1 k2 => k1 ≤ k2) := by
  apply List.eq_of_perm_of_sorted (r := fun k1 k2 : String => k1 ≤ k2)
  · exact (List.perm_insertionSort _ _).trans ((hp.map Prod.fst).trans
      (List.perm_insertionSort _ _).symm)
  · exact List.sorted_insertionSort _ _
  · exact List.sorted_insertionSort _ _

/-- C17: for every primitive node whose attribute map has distinct keys,
`writeSvg` writes the opening tag, then every attribute of the node exactly
once, in strictly ascending order of the attribute names, each value passed
through `e`, then `>` (and a newline for `g` and `svg`), then the children in
their stored order, then the closing tag; the text does not depend on the
order in which the map holds its pairs. -/
theorem writeSvg_attributes_sorted (di : diagramItem) (ch : List RailItem) (px py : ℚ)
    (hk : (di.attrs.map Prod.fst).Nodup) :
    (∃ pairs : List (String × String),
      pairs.Perm di.attrs ∧ pairs.Sorted (fun p q => p.1 < q.1) ∧
      writeSvg (.diagramItem di ch) =
        "<" ++ di.name ++ (pairs.map attrText).foldr (fun s t => s ++ t) "" ++ ">" ++
          (if di.name = "g" ∨ di.name = "svg" then "\n" else "") ++
          (ch.map writeSvg).foldr (fun s t => s ++ t) "" ++ "</" ++ di.name ++ ">") ∧
    (∀ attrs' : a, attrs'.Perm di.attrs →
      writeSvg (.diagramItem { di with attrs := attrs' } ch) = writeSvg (.diagramItem di ch)) ∧
    writeSvg (.path di ch px py) = writeSvg (.diagramItem di ch) := by
  refine ⟨?_, ?_, ?_⟩
  · have hperm := List.perm_insertionSort (fun k1 k2 : String => k1 ≤ k2) (di.attrs.map Prod.fst)
    have hsorted := List.sorted_insertionSort (fun k1 k2 : String => k1 ≤ k2)
      (di.attrs.map Prod.fst)
    refine ⟨((di.attrs.map Prod.fst).insertionSort (fun k1 k2 => k1 ≤ k2)).map
      (fun k => (k, a.get di.attrs k)), ?_, ?_, ?_⟩
    · have h1 := hperm.map (fun k => (k, a.get di.attrs k))
      refine h1.trans ?_
      rw [List.map_map]
      have : di.attrs.map ((fun k => (k, a.get di.attrs k)) ∘ Prod.fst) = di.attrs.map id := by
        apply List.map_congr_left
        intro p hp
        simp only [Function.comp, id]
        rw [a_get_of_mem di.attrs hk p hp]
      rw [this, List.map_id]
    · have hnd : ((di.attrs.map Prod.fst).insertionSort (fun k1 k2 => k1 ≤ k2)).Nodup :=
        hperm.nodup_iff.mpr hk
      have hlt := List.Sorted.lt_of_le hsorted hnd
      unfold List.Sorted at hlt ⊢
      rw [List.pairwise_map]
      exact hlt
    · rw [writeSvg, diagramItem.writeSvg, writeAttrs_eq, writeSvgList_eq, List.map_map]
      rfl
  · intro attrs' hp
    rw [writeSvg, writeSvg, diagramItem.writeSvg, diagramItem.writeSvg]
    simp only [sortedKeys_perm di.attrs attrs' hp, writeAttrs_eq]
    have : (fun k => attrText (k, a.get attrs' k)) = fun k => attrText (k, a.get di.attrs k) := by
      funext k
      rw [a_get_perm di.attrs attrs' hk hp k]
    rw [this]
  · rw [writeSvg, writeSvg]

/-- Witness of C17: the rectangle of a terminal. -/
theorem writeSvg_attributes_sorted_witness :
    writeSvg (.diagramItem (newDiagramItem "rect"
        [("x", "30"), ("y", "-1"), ("width", "28"), ("height", "22"), ("rx", "10"), ("ry", "10")])
        []) =
      "<rect height=\"22\" rx=\"10\" ry=\"10\" width=\"28\" x=\"30\" y=\"-1\"></rect>" ∧
    writeSvg (.diagramItem (newDiagramItem "rect"
        [("ry", "10"), ("rx", "10"), ("height", "22"), ("width", "28"), ("y", "-1"), ("x", "30")])
        []) =
      writeSvg (.diagramItem (newDiagramItem "rect"
        [("x", "30"), ("y", "-1"), ("width", "28"), ("height", "22"), ("rx", "10"), ("ry", "10")])
        []) :=
  ⟨by decide!,
   (writeSvg_attributes_sorted (newDiagramItem "rect"
      [("x", "30"), ("y", "-1"), ("width", "28"), ("height", "22"), ("rx", "10"), ("ry", "10")])
      [] 0 0 (by decide)).2.1
      [("ry", "10"), ("rx", "10"), ("height", "22"), ("width", "28"), ("y", "-1"), ("x", "30")]
      (by decide)⟩

/-! ## The branches of a choice: placement -/

theorem itemAt_above (items : List RailItem) (d i : Nat) (hd : d ≤ items.length) (hi : i < d) :
    itemAt ((items.take d).reverse) i = itemAt items (d - 1 - i) := by
  have hl : (items.take d).length = d := by simp [hd]
  unfold itemAt
  rw [List.getD_eq_getElem?_getD, List.getD_eq_getElem?_getD,
    List.getElem?_reverse (by omega), hl, List.getElem?_take_of_lt (by omega)]

theorem itemAt_below (items : List RailItem) (d i : Nat) :
    itemAt (items.drop (d + 1)) i = itemAt items (d + 1 + i) := by
  unfold itemAt
  rw [List.getD_eq_getElem?_getD, List.getD_eq_getElem?_getD, List.getElem?_drop]

theorem branchOffset_default (cfg : Config) (adjacent : ℚ) (d : Nat) (items : List RailItem) :
    branchOffset cfg adjacent d items d = 0 := by
  simp [branchOffset]

/-- One branch further up, the offset decreases by the amount of that branch. -/
theorem branchOffset_above (cfg : Config) (adjacent : ℚ) (d : Nat) (items : List RailItem)
    (j : Nat) (hj : j < d) :
    branchOffset cfg adjacent d items j =
      branchOffset cfg adjacent d items (j + 1) - branchUpTerm cfg adjacent d items j := by
  have h1 : d - j = (d - (j + 1)) + 1 := by omega
  simp only [branchOffset, if_pos (show j ≤ d by omega), if_pos (show j + 1 ≤ d by omega)]
  rw [h1, List.range'_succ, List.map_cons, List.sum_cons]
  ring

/-- One branch further down, the offset increases by the amount of that branch. -/
theorem branchOffset_below (cfg : Config) (adjacent : ℚ) (d : Nat) (items : List RailItem)
    (j : Nat) (hj : d ≤ j) :
    branchOffset cfg adjacent d items (j + 1) =
      branchOffset cfg adjacent d items j + branchDownTerm cfg adjacent d items (j + 1) := by
  have h1 : j + 1 - d = (j - d) + 1 := by omega
  have h2 : d + 1 + (j - d) = j + 1 := by omega
  simp only [branchOffset, if_neg (show ¬ j + 1 ≤ d by omega)]
  rw [h1, List.range'_concat, List.map_append, List.sum_append]
  by_cases hjd : j = d
  · subst hjd
    simp
  · rw [if_neg (show ¬ j ≤ d by omega)]
    simp [h2]

theorem choice_aboveBody_eq (cfg : Config) (x y innerWidth : ℚ) (dflt : RailItem)
    (hd : dflt.isText = false) (above : List RailItem) (ha : ∀ r ∈ above, r.isText = false)
    (item : RailItem) (i : Nat) (s : ℚ)
    (hi : item.isText = false) (hlt : i < above.length) :
    ∃ p q, choice.aboveBody cfg x y innerWidth dflt above item i s = some
      ([Step.add p, Step.place i (x + cfg.ConfigArcRadius * 2) (y - s) innerWidth, Step.add q],
        if i + 1 < above.length then
          s + max cfg.ConfigArcRadius (item.up + cfg.ConfigVerticalSeparation +
            (itemAt above (i + 1)).down + (itemAt above (i + 1)).height)
        else s) := by
  by_cases hni : i + 1 < above.length
  · have hni' : (i : Int) - (above.length : Int) < -1 := by omega
    have hnx : idx above ((i : Int) + 1) = some (itemAt above (i + 1)) := by
      rw [← itemAt_idx above (i + 1) hni]; congr 1
    have hmem := itemAt_mem above (i + 1) hni
    simp [choice.aboveBody, choice.aboveEntry, choice.aboveExit, getHeight_eq hi, getUp_eq hi,
      getHeight_eq hd, hni, hni', hnx, getDown_eq (ha _ hmem), getHeight_eq (ha _ hmem)]
  · have hni' : ¬ (i : Int) - (above.length : Int) < -1 := by omega
    simp [choice.aboveBody, choice.aboveEntry, choice.aboveExit, getHeight_eq hi, getUp_eq hi,
      getHeight_eq hd, hni, hni']

theorem choice_belowBody_eq (cfg : Config) (x y innerWidth : ℚ) (dflt : RailItem)
    (hd : dflt.isText = false) (below : List RailItem) (ha : ∀ r ∈ below, r.isText = false)
    (first : Nat) (item : RailItem) (i : Nat) (s : ℚ)
    (hi : item.isText = false) :
    ∃ p q, choice.belowBody cfg x y innerWidth dflt below first item i s = some
      ([Step.add p, Step.place (first + i) (x + cfg.ConfigArcRadius * 2) (y + s) innerWidth,
          Step.add q],
        s + max cfg.ConfigArcRadius (item.height + item.down + cfg.ConfigVerticalSeparation +
          (if i + 1 < below.length then (itemAt below (i + 1)).up else 0))) := by
  by_cases hni : i + 1 < below.length
  · have hnx : idx below ((i : Int) + 1) = some (itemAt below (i + 1)) := by
      rw [← itemAt_idx below (i + 1) hni]; congr 1
    have hmem := itemAt_mem below (i + 1) hni
    simp [choice.belowBody, choice.belowEntry, choice.belowExit, getHeight_eq hi, getDown_eq hi,
      getHeight_eq hd, hni, hnx, getUp_eq (ha _ hmem)]
  · simp [choice.belowBody, choice.belowEntry, choice.belowExit, getHeight_eq hi, getDown_eq hi,
      getHeight_eq hd, hni]

theorem multipleChoice_aboveBody_eq (cfg : Config) (x y innerWidth : ℚ) (dflt : RailItem)
    (hd : dflt.isText = false) (above : List RailItem)
    (item : RailItem) (i : Nat) (s : ℚ)
    (hi : item.isText = false) (hlt : i < above.length) :
    ∃ p q, multipleChoice.aboveBody cfg x y innerWidth dflt above item i s = some
      ([Step.add p, Step.place i (x + 30 + cfg.ConfigArcRadius) (y - s) innerWidth, Step.add q],
        s) := by
  have hni : ¬ ((above.length : Int) - (i : Int) < -1) := by omega
  simp [multipleChoice.aboveBody, multipleChoice.aboveEntry, multipleChoice.aboveExit,
    getHeight_eq hi, getUp_eq hi, getHeight_eq hd, hni]

theorem placeArgs_not_placed (l : List Step) (k : Nat) (h : k ∉ l.filterMap Step.placed) :
    placeArgs l k = none := by
  induction l with
  | nil => rfl
  | cons s rest ih =>
    cases s with
    | add c =>
      simp only [List.filterMap_cons, Step.placed] at h
      simp only [placeArgs]
      exact ih h
    | place j x y w =>
      simp only [List.filterMap_cons, Step.placed, List.mem_cons, not_or] at h
      simp only [placeArgs, if_neg (Ne.symm h.1)]
      exact ih h.2

theorem placeArgs_append (l1 l2 : List Step) (k : Nat) :
    placeArgs (l1 ++ l2) k =
      match placeArgs l1 k with
      | some v => some v
      | none => placeArgs l2 k := by
  induction l1 with
  | nil => rfl
  | cons s rest ih =>
    cases s with
    | add c =>
      simp only [List.cons_append, placeArgs]
      exact ih
    | place j x y w =>
      simp only [List.cons_append, placeArgs]
      by_cases hj : j = k
      · simp [hj]
      · simp [hj, ih]

/-- The loop over the branches above the default in `choice.format`: the
branch at index `k` of the reversed slice is placed at the offset of the source
index `d - 1 - k`. -/
theorem choice_above_run (cfg : Config) (x y innerWidth : ℚ) (items : List RailItem) (d : Nat)
    (h : ∀ r ∈ items, r.isText = false) (hd : d < items.length)
    (rest : List RailItem) (i : Nat) (hrest : ((items.take d).reverse).drop i = rest) (dist : ℚ)
    (hdist : i < d → dist = -branchOffset cfg (cfg.ConfigArcRadius * 2) d items (d - 1 - i)) :
    ∃ res, forRange (choice.aboveBody cfg x y innerWidth (itemAt items d) (items.take d).reverse)
        rest i dist = some res ∧
      res.1.filterMap Step.placed = List.range' i rest.length ∧
      ∀ k, i ≤ k → k < d → placeArgs res.1 k = some (x + cfg.ConfigArcRadius * 2,
        y + branchOffset cfg (cfg.ConfigArcRadius * 2) d items (d - 1 - k), innerWidth) := by
  have hal : ((items.take d).reverse).length = d := by simp; omega
  have ha := take_reverse_notText items h d
  have hdt := h _ (itemAt_mem items d hd)
  induction rest generalizing i dist with
  | nil =>
    have hi : d ≤ i := by
      by_contra hc
      have := congrArg List.length hrest
      rw [List.length_drop, hal] at this
      simp at this
      omega
    exact ⟨([], dist), rfl, rfl, fun k h1 h2 => absurd h2 (by omega)⟩
  | cons item rest ih =>
    obtain ⟨hlt, hitem, hdrop⟩ := itemAt_drop _ i item rest hrest
    rw [hal] at hlt
    have hit : item.isText = false := by rw [hitem]; exact ha _ (itemAt_mem _ i (by omega))
    obtain ⟨p, q, hbody⟩ := choice_aboveBody_eq cfg x y innerWidth (itemAt items d) hdt
      (items.take d).reverse ha item i dist hit (by omega)
    have hnext : i + 1 < d → (if i + 1 < ((items.take d).reverse).length then
          dist + max cfg.ConfigArcRadius (item.up + cfg.ConfigVerticalSeparation +
            (itemAt (items.take d).reverse (i + 1)).down +
            (itemAt (items.take d).reverse (i + 1)).height)
        else dist) = -branchOffset cfg (cfg.ConfigArcRadius * 2) d items (d - 1 - (i + 1)) := by
      intro hlt2
      obtain ⟨j, hj1, hj2⟩ : ∃ j, d - 1 - (i + 1) = j ∧ d - 1 - i = j + 1 :=
        ⟨d - 1 - (i + 1), rfl, by omega⟩
      rw [hal, if_pos hlt2, hdist hlt, hitem, itemAt_above items d i (by omega) hlt,
        itemAt_above items d (i + 1) (by omega) hlt2, hj1, hj2,
        branchOffset_above cfg _ d items j (by omega)]
      have e2 : ¬ (j + 1 = d ∨ j = d + 1) := by omega
      simp only [branchUpTerm, branchAllowance, if_neg e2]
      have hc : (itemAt items (j + 1)).up + cfg.ConfigVerticalSeparation + (itemAt items j).down +
          (itemAt items j).height = (itemAt items j).height + (itemAt items j).down +
          cfg.ConfigVerticalSeparation + (itemAt items (j + 1)).up := by ring
      rw [hc]
      ring
    obtain ⟨⟨tail, dist2⟩, htail, hplaced, hargs⟩ := ih (i + 1) hdrop _ hnext
    refine ⟨([Step.add p, Step.place i (x + cfg.ConfigArcRadius * 2) (y - dist) innerWidth,
      Step.add q] ++ tail, dist2), ?_, ?_, ?_⟩
    · simp only [forRange, hbody, htail, Option.bind_eq_bind, Option.some_bind, Option.pure_def]
    · simp only [List.cons_append, List.nil_append, List.filterMap_cons, Step.placed, hplaced,
        List.length_cons, List.range'_succ]
    · intro k hk1 hk2
      simp only [List.cons_append, List.nil_append, placeArgs]
      by_cases hki : i = k
      · subst hki
        simp only [if_true]
        rw [hdist hlt]
        simp [sub_eq_add_neg]
      · rw [if_neg hki]
        exact hargs k (by omega) hk2

/-- The loop over the branches below the default in `choice.format`: the
branch at index `k` of `below` is placed at the offset of the source index
`d + 1 + k`. -/
theorem choice_below_run (cfg : Config) (x y innerWidth : ℚ) (items : List RailItem) (d : Nat)
    (h : ∀ r ∈ items, r.isText = false) (hd : d < items.length)
    (rest : List RailItem) (i : Nat) (hrest : (items.drop (d + 1)).drop i = rest) (dist : ℚ)
    (hdist : d + 1 + i < items.length →
      dist = branchOffset cfg (cfg.ConfigArcRadius * 2) d items (d + 1 + i)) :
    ∃ res, forRange (choice.belowBody cfg x y innerWidth (itemAt items d) (items.drop (d + 1))
        (d + 1)) rest i dist = some res ∧
      res.1.filterMap Step.placed = List.range' (d + 1 + i) rest.length ∧
      ∀ k, i ≤ k → d + 1 + k < items.length →
        placeArgs res.1 (d + 1 + k) = some (x + cfg.ConfigArcRadius * 2,
          y + branchOffset cfg (cfg.ConfigArcRadius * 2) d items (d + 1 + k), innerWidth) := by
  have hbl : (items.drop (d + 1)).length = items.length - (d + 1) := by simp
  have hb := drop_notText items h (d + 1)
  have hdt := h _ (itemAt_mem items d hd)
  induction rest generalizing i dist with
  | nil =>
    have hi : items.length ≤ d + 1 + i := by
      by_contra hc
      have := congrArg List.length hrest
      rw [List.length_drop, hbl] at this
      simp at this
      omega
    exact ⟨([], dist), rfl, rfl, fun k h1 h2 => absurd h2 (by omega)⟩
  | cons item rest ih =>
    obtain ⟨hlt, hitem, hdrop⟩ := itemAt_drop _ i item rest hrest
    rw [hbl] at hlt
    have hit : item.isText = false := by rw [hitem]; exact hb _ (itemAt_mem _ i (by omega))
    obtain ⟨p, q, hbody⟩ := choice_belowBody_eq cfg x y innerWidth (itemAt items d) hdt
      (items.drop (d + 1)) hb (d + 1) item i dist hit
    have hnext : d + 1 + (i + 1) < items.length →
        dist + max cfg.ConfigArcRadius (item.height + item.down + cfg.ConfigVerticalSeparation +
          (if i + 1 < (items.drop (d + 1)).length then (itemAt (items.drop (d + 1)) (i + 1)).up
            else 0)) = branchOffset cfg (cfg.ConfigArcRadius * 2) d items (d + 1 + (i + 1)) := by
      intro hlt2
      obtain ⟨j, hj1, hj2⟩ : ∃ j, d + 1 + i = j ∧ d + 1 + (i + 1) = j + 1 :=
        ⟨d + 1 + i, rfl, by omega⟩
      rw [hbl, if_pos (by omega), hdist (by omega), hitem, itemAt_below, itemAt_below, hj1, hj2,
        branchOffset_below cfg _ d items j (by omega)]
      have e2 : ¬ (j + 1 + 1 = d ∨ j + 1 = d + 1) := by omega
      simp only [branchDownTerm, branchAllowance, if_neg e2, Nat.add_sub_cancel]
      have hc : (itemAt items j).height + (itemAt items j).down + cfg.ConfigVerticalSeparation +
          (itemAt items (j + 1)).up = (itemAt items (j + 1)).up + cfg.ConfigVerticalSeparation +
          (itemAt items j).down + (itemAt items j).height := by ring
      rw [hc]
    obtain ⟨⟨tail, dist2⟩, htail, hplaced, hargs⟩ := ih (i + 1) hdrop _ hnext
    refine ⟨([Step.add p, Step.place (d + 1 + i) (x + cfg.ConfigArcRadius * 2) (y + dist) innerWidth,
      Step.add q] ++ tail, dist2), ?_, ?_, ?_⟩
    · simp only [forRange, hbody, htail, Option.bind_eq_bind, Option.some_bind, Option.pure_def]
    · simp only [List.cons_append, List.nil_append, List.filterMap_cons, Step.placed, hplaced,
        List.length_cons, List.range'_succ]
      rfl
    · intro k hk1 hk2
      simp only [List.cons_append, List.nil_append, placeArgs]
      by_cases hki : i = k
      · subst hki
        simp only [if_true]
        rw [hdist (by omega)]
      · rw [if_neg (by omega)]
        exact hargs k (by omega) hk2

/-- The loop over the branches above the default in `multipleChoice.format`:
`distanceFromY` never changes, so every branch is placed at the same height. -/
theorem multipleChoice_above_run (cfg : Config) (x y innerWidth : ℚ) (dflt : RailItem)
    (hdt : dflt.isText = false) (above : List RailItem) (ha : ∀ r ∈ above, r.isText = false)
    (rest : List RailItem) (i : Nat) (hrest : above.drop i = rest) (dist : ℚ) :
    ∃ steps, forRange (multipleChoice.aboveBody cfg x y innerWidth dflt above)
        rest i dist = some (steps, dist) ∧
      steps.filterMap Step.placed = List.range' i rest.length ∧
      ∀ k, i ≤ k → k < above.length → placeArgs steps k =
        some (x + 30 + cfg.ConfigArcRadius, y - dist, innerWidth) := by
  induction rest generalizing i with
  | nil =>
    have hi : above.length ≤ i := by
      by_contra hc
      have := congrArg List.length hrest
      rw [List.length_drop] at this
      simp at this
      omega
    exact ⟨[], rfl, rfl, fun k h1 h2 => absurd h2 (by omega)⟩
  | cons item rest ih =>
    obtain ⟨hlt, hitem, hdrop⟩ := itemAt_drop _ i item rest hrest
    have hit : item.isText = false := by rw [hitem]; exact ha _ (itemAt_mem _ i hlt)
    obtain ⟨p, q, hbody⟩ := multipleChoice_aboveBody_eq cfg x y innerWidth dflt hdt
      above item i dist hit hlt
    obtain ⟨tail, htail, hplaced, hargs⟩ := ih (i + 1) hdrop
    refine ⟨[Step.add p, Step.place i (x + 30 + cfg.ConfigArcRadius) (y - dist) innerWidth,
      Step.add q] ++ tail, ?_, ?_, ?_⟩
    · simp only [forRange, hbody, htail, Option.bind_eq_bind, Option.some_bind, Option.pure_def]
    · simp only [List.cons_append, List.nil_append, List.filterMap_cons, Step.placed, hplaced,
        List.length_cons, List.range'_succ]
    · intro k hk1 hk2
      simp only [List.cons_append, List.nil_append, placeArgs]
      by_cases hki : i = k
      · subst hki
        simp only [if_true]
      · rw [if_neg hki]
        exact hargs k (by omega) hk2

theorem startAbove_eq (cfg : Config) (items : List RailItem) (d : Nat)
    (h : ∀ r ∈ items, r.isText = false) (hd : d < items.length) (s : ℚ) :
    ∃ v, startAbove cfg (cfg.ConfigArcRadius * 2) (itemAt items d) (items.take d).reverse s = some v ∧
      (0 < d → v = -branchOffset cfg (cfg.ConfigArcRadius * 2) d items (d - 1 - 0)) := by
  have hal : ((items.take d).reverse).length = d := by simp; omega
  have ha := take_reverse_notText items h d
  have hdt := h _ (itemAt_mem items d hd)
  by_cases hl : 0 < d
  · have hf : idx (items.take d).reverse 0 = some (itemAt (items.take d).reverse 0) :=
      itemAt_idx _ 0 (by omega)
    have hfm := ha _ (itemAt_mem (items.take d).reverse 0 (by omega))
    refine ⟨max (cfg.ConfigArcRadius * 2) ((itemAt items d).up + cfg.ConfigVerticalSeparation +
      (itemAt (items.take d).reverse 0).down + (itemAt (items.take d).reverse 0).height),
      by simp only [startAbove, hal, gt_iff_lt, hl, if_true, hf, getUp_eq hdt,
        getDown_eq hfm, getHeight_eq hfm, Option.bind_eq_bind, Option.some_bind, Option.pure_def],
      fun _ => ?_⟩
    obtain ⟨j, hj2⟩ : ∃ j, d = j + 1 := ⟨d - 1, by omega⟩
    subst hj2
    have hj1 : j + 1 - 1 - 0 = j := by omega
    rw [itemAt_above items (j + 1) 0 (by omega) hl, hj1,
      branchOffset_above cfg _ (j + 1) items j (by omega), branchOffset_default]
    have e2 : j + 1 = j + 1 ∨ j = j + 1 + 1 := Or.inl rfl
    unfold branchUpTerm branchAllowance
    rw [if_pos e2]
    have hc : (itemAt items (j + 1)).up + cfg.ConfigVerticalSeparation + (itemAt items j).down +
        (itemAt items j).height = (itemAt items j).height + (itemAt items j).down +
        cfg.ConfigVerticalSeparation + (itemAt items (j + 1)).up := by ring
    rw [hc]
    ring
  · exact ⟨s, by simp [startAbove, hal, hl], fun hc => absurd hc hl⟩

theorem startBelow_eq (cfg : Config) (items : List RailItem) (d : Nat)
    (h : ∀ r ∈ items, r.isText = false) (hd : d < items.length) (s : ℚ) :
    ∃ v, startBelow cfg (cfg.ConfigArcRadius * 2) (itemAt items d) (items.drop (d + 1)) s = some v ∧
      (d + 1 + 0 < items.length →
        v = branchOffset cfg (cfg.ConfigArcRadius * 2) d items (d + 1 + 0)) := by
  have hbl : (items.drop (d + 1)).length = items.length - (d + 1) := by simp
  have hb := drop_notText items h (d + 1)
  have hdt := h _ (itemAt_mem items d hd)
  by_cases hl : d + 1 < items.length
  · have hf : idx (items.drop (d + 1)) 0 = some (itemAt (items.drop (d + 1)) 0) :=
      itemAt_idx _ 0 (by omega)
    have hfm := hb _ (itemAt_mem (items.drop (d + 1)) 0 (by omega))
    have hpos : items.length - (d + 1) > 0 := by omega
    refine ⟨max (cfg.ConfigArcRadius * 2) ((itemAt items d).height + (itemAt items d).down +
      cfg.ConfigVerticalSeparation + (itemAt (items.drop (d + 1)) 0).up),
      by simp only [startBelow, hbl, hpos, if_true, hf, getHeight_eq hdt,
        getDown_eq hdt, getUp_eq hfm, Option.bind_eq_bind, Option.some_bind, Option.pure_def],
      fun _ => ?_⟩
    rw [itemAt_below, Nat.add_zero, branchOffset_below cfg _ d items d (le_refl _),
      branchOffset_default]
    have e2 : d + 1 + 1 = d ∨ d + 1 = d + 1 := Or.inr rfl
    unfold branchDownTerm branchAllowance
    rw [if_pos e2, Nat.add_sub_cancel]
    have hc : (itemAt items d).height + (itemAt items d).down + cfg.ConfigVerticalSeparation +
        (itemAt items (d + 1)).up = (itemAt items (d + 1)).up + cfg.ConfigVerticalSeparation +
        (itemAt items d).down + (itemAt items d).height := by ring
    rw [hc]
    ring
  · have hz : ¬ items.length - (d + 1) > 0 := by omega
    exact ⟨s, by simp only [startBelow, hbl, hz, if_false, Option.pure_def],
      fun hc => absurd hc (by omega)⟩

/-- The steps of `choice.format`: the branches are placed in the order of the
slice after the reversal, and the branch of source index `j` is placed at
`x + leftGap + 2R`, at the offset of `j`, with the width `self.width - 4R`. -/
theorem choice_steps_spec (cfg : Config) (self : diagramItem) (d : Nat) (items : List RailItem)
    (h : ∀ r ∈ items, r.isText = false) (hd : d < items.length) (x y width : ℚ) :
    ∃ steps, choice.steps cfg self (d : Int) items x y width = some steps ∧
      (steps.filterMap Step.placed = List.range' 0 items.length ∧
      ∀ j, j < items.length → placeArgs steps (reversedIndex d j) =
        some (x + (determineGaps cfg width self.width).1 + cfg.ConfigArcRadius * 2,
          y + branchOffset cfg (cfg.ConfigArcRadius * 2) d items j,
          self.width - cfg.ConfigArcRadius * 4)) := by
  have hdx := itemAt_idx items d hd
  have hA := fun x y w s hs => choice_above_run cfg x y w items d h hd
    (items.take d).reverse 0 rfl s hs
  have hB := fun x y w s hs => choice_below_run cfg x y w items d h hd
    (items.drop (d + 1)) 0 rfl s hs
  simp only [choice.steps, Option.bind_eq_bind, Option.pure_def, Int.toNat_ofNat]
  refine bind_some_of_eq _ hdx ?_
  refine bind_some_of_exists (startAbove_eq cfg items d h hd _) ?_
  intro dA hdA
  refine bind_some_of_exists (hA _ _ _ _ hdA) ?_
  rintro ⟨sa, dA2⟩ ⟨hsa1, hsa2⟩
  refine bind_some_of_exists (startBelow_eq cfg items d h hd _) ?_
  intro dB hdB
  refine bind_some_of_exists (hB _ _ _ _ hdB) ?_
  rintro ⟨sb, dB2⟩ ⟨hsb1, hsb2⟩
  dsimp only at hsa1 hsa2 hsb1 hsb2
  refine ⟨_, rfl, ?_, ?_⟩
  · simp only [List.filterMap_cons, List.filterMap_append, Step.placed, hsa1, hsb1,
      List.filterMap_nil]
    have hal : ((items.take d).reverse).length = d := by simp; omega
    have hbl : (items.drop (d + 1)).length = items.length - (d + 1) := by simp
    rw [hal, hbl]
    have e1 : [d] ++ List.range' (d + 1) (items.length - (d + 1)) =
        List.range' d (items.length - (d + 1) + 1) := by
      rw [List.range'_succ]; rfl
    have e2 := List.range'_append_1 0 d (items.length - (d + 1) + 1)
    rw [Nat.zero_add] at e2
    rw [List.append_assoc, e1, e2]
    congr 1
    omega
  · intro j hj
    have hnot : ∀ k, d ≤ k → placeArgs sa k = none := by
      intro k hk
      apply placeArgs_not_placed
      rw [hsa1, List.mem_range'_1]
      have hal : ((items.take d).reverse).length = d := by simp; omega
      rw [hal]
      omega
    simp only [List.cons_append, List.append_assoc]
    simp only [placeArgs, placeArgs_append sa]
    by_cases hjd : j < d
    · have hk : reversedIndex d j = d - 1 - j := by simp [reversedIndex, hjd]
      rw [hk, hsa2 (d - 1 - j) (Nat.zero_le _) (by omega)]
      have : d - 1 - (d - 1 - j) = j := by omega
      simp only [this]
    · have hk : reversedIndex d j = j := by simp [reversedIndex, hjd]
      rw [hk, hnot j (by omega)]
      by_cases hje : j = d
      · subst hje
        simp [placeArgs, branchOffset_default]
      · have hne : ¬ d = j := fun hc => hje hc.symm
        obtain ⟨k, rfl⟩ : ∃ k, j = d + 1 + k := ⟨j - (d + 1), by omega⟩
        simp only [placeArgs, List.singleton_append, List.cons_append, List.nil_append,
          if_neg hne]
        exact hsb2 k (Nat.zero_le _) hj

theorem startAbove_val (cfg : Config) (minimum : ℚ) (items : List RailItem) (d : Nat)
    (h : ∀ r ∈ items, r.isText = false) (hd : d < items.length) (hl : 0 < d) (s : ℚ) :
    startAbove cfg minimum (itemAt items d) (items.take d).reverse s =
      some (max minimum ((itemAt items d).up + cfg.ConfigVerticalSeparation +
        (itemAt items (d - 1)).down + (itemAt items (d - 1)).height)) := by
  have hal : ((items.take d).reverse).length = d := by simp; omega
  have ha := take_reverse_notText items h d
  have hdt := h _ (itemAt_mem items d hd)
  have hf : idx (items.take d).reverse 0 = some (itemAt (items.take d).reverse 0) :=
    itemAt_idx _ 0 (by omega)
  have hfm := ha _ (itemAt_mem (items.take d).reverse 0 (by omega))
  simp only [startAbove, hal, gt_iff_lt, hl, if_true, hf, getUp_eq hdt,
    getDown_eq hfm, getHeight_eq hfm, Option.bind_eq_bind, Option.some_bind, Option.pure_def]
  rw [itemAt_above items d 0 (by omega) hl]
  rfl

/-- The steps of `multipleChoice.format`: every branch above the default is
placed at the distance computed before the loop. -/
theorem multipleChoice_steps_above (cfg : Config) (self : diagramItem) (d : Nat) (t : String)
    (items : List RailItem) (iw : ℚ)
    (h : ∀ r ∈ items, r.isText = false) (hd : d < items.length) (x y width : ℚ) :
    ∃ steps, multipleChoice.steps cfg self (d : Int) t items iw x y width = some steps ∧
      ∀ j, j < d → placeArgs steps (reversedIndex d j) =
        some (x + (determineGaps cfg width self.width).1 + 30 + cfg.ConfigArcRadius,
          y - max (10 + cfg.ConfigArcRadius) ((itemAt items d).up + cfg.ConfigVerticalSeparation +
            (itemAt items (d - 1)).down + (itemAt items (d - 1)).height), iw) := by
  have hdx := itemAt_idx items d hd
  have hdt := h _ (itemAt_mem items d hd)
  have ha := take_reverse_notText items h d
  have hb := drop_notText items h (d + 1)
  have hal : ((items.take d).reverse).length = d := by simp; omega
  have hbl : d + 1 + (items.drop (d + 1)).length ≤ items.length := by simp; omega
  have hA := fun x y w s => multipleChoice_above_run cfg x y w (itemAt items d) hdt
    (items.take d).reverse ha (items.take d).reverse 0 rfl s
  have hB := fun x y w s => forRange_some
    (multipleChoice.belowBody cfg x y w (itemAt items d) (items.drop (d + 1)) (d + 1))
    items.length _ (fun r => r.isText = false)
    (fun item j s hi hj =>
      multipleChoice_belowBody_some cfg x y w (itemAt items d) hdt _ hb _ _ hbl item j s hi hj)
    (items.drop (d + 1)) hb 0 (by simp) s
  simp only [multipleChoice.steps, Option.bind_eq_bind, Option.pure_def, Int.toNat_ofNat]
  refine bind_some_of_eq _ hdx ?_
  by_cases hl : 0 < d
  · rw [startAbove_val cfg _ items d h hd hl]
    simp only [Option.some_bind]
    obtain ⟨sa, hsa0, hsa1, hsa2⟩ := hA (x + (determineGaps cfg width self.width).1) y iw
      (max (10 + cfg.ConfigArcRadius) ((itemAt items d).up + cfg.ConfigVerticalSeparation +
        (itemAt items (d - 1)).down + (itemAt items (d - 1)).height))
    rw [hsa0]
    simp only [Option.some_bind]
    refine bind_some_of_exists (startBelow_some cfg _ (itemAt items d) hdt _ hb _) ?_
    intro dB _
    refine bind_some_of_exists (hB _ _ _ _) ?_
    rintro ⟨sb, dB2⟩ _
    refine ⟨_, rfl, ?_⟩
    intro j hj
    have hk : reversedIndex d j = d - 1 - j := by simp [reversedIndex, hj]
    simp only [List.cons_append, List.append_assoc]
    simp only [placeArgs, placeArgs_append sa]
    rw [hk, hsa2 (d - 1 - j) (Nat.zero_le _) (by omega)]
  · refine bind_some_of_exists (startAbove_some cfg _ (itemAt items d) hdt _ ha _) ?_
    intro dA _
    obtain ⟨sa, hsa0, -, -⟩ := hA (x + (determineGaps cfg width self.width).1) y iw dA
    rw [hsa0]
    simp only [Option.some_bind]
    refine bind_some_of_exists (startBelow_some cfg _ (itemAt items d) hdt _ hb _) ?_
    intro dB _
    refine bind_some_of_exists (hB _ _ _ _) ?_
    rintro ⟨sb, dB2⟩ _
    exact ⟨_, rfl, fun j hj => absurd hj (by omega)⟩

theorem map_reversedIndex_range' (d n : Nat) (hd : d ≤ n) :
    (List.range' 0 n).map (reversedIndex d) = (List.range d).reverse ++ List.range' d (n - d) := by
  have hs : List.range' 0 n = List.range' 0 d ++ List.range' d (n - d) := by
    have := List.range'_append_1 0 d (n - d)
    rw [Nat.zero_add] at this
    rw [this]; congr 1; omega
  rw [hs, List.map_append, List.range_eq_range', List.reverse_range', ← List.range_eq_range']
  congr 1
  · apply List.map_congr_left
    intro k hk
    rw [List.mem_range] at hk
    simp only [reversedIndex, if_pos hk]
    omega
  · have : (List.range' d (n - d)).map (reversedIndex d) = (List.range' d (n - d)).map id := by
      apply List.map_congr_left
      intro k hk
      rw [List.mem_range'_1] at hk
      simp only [reversedIndex, if_neg (show ¬ k < d by omega), id]
    rw [this, List.map_id]

theorem branchAllowance_pos (cfg : Config) (hR : 0 < cfg.ConfigArcRadius) (adjacent : ℚ)
    (ha : 0 < adjacent) (d i : Nat) : 0 < branchAllowance cfg adjacent d i := by
  unfold branchAllowance
  split <;> assumption

/-- With positive allowances the offsets increase strictly with the source
index. -/
theorem branchOffset_strict (cfg : Config) (hR : 0 < cfg.ConfigArcRadius) (adjacent : ℚ)
    (ha : 0 < adjacent) (d : Nat) (items : List RailItem) (j : Nat) :
    branchOffset cfg adjacent d items j < branchOffset cfg adjacent d items (j + 1) := by
  by_cases hj : j < d
  · rw [branchOffset_above cfg adjacent d items j hj]
    have : 0 < branchUpTerm cfg adjacent d items j :=
      lt_of_lt_of_le (branchAllowance_pos cfg hR adjacent ha d j) (le_max_left _ _)
    linarith
  · rw [branchOffset_below cfg adjacent d items j (by omega)]
    have : 0 < branchDownTerm cfg adjacent d items (j + 1) :=
      lt_of_lt_of_le (branchAllowance_pos cfg hR adjacent ha d (j + 1)) (le_max_left _ _)
    linarith

/-- The method `format` of a `choice` hands to the branch given at source index
`j` the arguments `choice.placement .. j`. -/
theorem format_choice_placement (cfg : Config) (di : diagramItem) (ch : List RailItem) (d : Int)
    (items : List RailItem) (x y width : ℚ) :
    format cfg (.choice di ch d items) x y width =
      (choice.steps cfg di d items x y width).bind fun steps =>
        (formatItems cfg (choice.placement cfg di d items x y width) items 0).bind fun placed =>
          (assemble (reverseAbove d.toNat placed) steps).map fun added =>
            .choice di (ch ++ added) d (reverseAbove d.toNat placed) := by
  rw [format]
  cases hs : choice.steps cfg di d items x y width with
  | none => rfl
  | some steps =>
    have : choice.placement cfg di d items x y width =
        fun j => placeArgs steps (reversedIndex d.toNat j) := by
      funext j
      simp only [choice.placement, hs, Option.some_bind]
    rw [this]
    simp only [Option.bind_eq_bind, Option.some_bind, Option.pure_def]
    cases formatItems cfg (fun j => placeArgs steps (reversedIndex d.toNat j)) items 0 with
    | none => rfl
    | some placed =>
      simp only [Option.some_bind]
      cases assemble (reverseAbove d.toNat placed) steps <;> rfl

/-- The method `format` of a `multipleChoice` hands to the branch given at
source index `j` the arguments `multipleChoice.placement .. j`. -/
theorem format_multipleChoice_placement (cfg : Config) (di : diagramItem) (ch : List RailItem)
    (d : Int) (t : String) (items : List RailItem) (iw : ℚ) (x y width : ℚ) :
    format cfg (.multipleChoice di ch d t items iw) x y width =
      (multipleChoice.steps cfg di d t items iw x y width).bind fun steps =>
        (formatItems cfg (multipleChoice.placement cfg di d t items iw x y width) items 0).bind
          fun placed =>
            (assemble (reverseAbove d.toNat placed) steps).map fun added =>
              .multipleChoice di (ch ++ added) d t (reverseAbove d.toNat placed) iw := by
  rw [format]
  cases hs : multipleChoice.steps cfg di d t items iw x y width with
  | none => rfl
  | some steps =>
    have : multipleChoice.placement cfg di d t items iw x y width =
        fun j => placeArgs steps (reversedIndex d.toNat j) := by
      funext j
      simp only [multipleChoice.placement, hs, Option.some_bind]
    rw [this]
    simp only [Option.bind_eq_bind, Option.some_bind, Option.pure_def]
    cases formatItems cfg (fun j => placeArgs steps (reversedIndex d.toNat j)) items 0 with
    | none => rfl
    | some placed =>
      simp only [Option.some_bind]
      cases assemble (reverseAbove d.toNat placed) steps <;> rfl

/-- C18: in the placement of a valid `Choice` with `R > 0` at `(x, y)`, the
method `format` places the branch of source index `j` with the arguments
`choice.placement j`; every branch is placed at `x + leftGap + 2R` with the
width `width - 4R`, the default on the main line and the branch of source index
`j` at the vertical offset `branchOffset j`; the branches are placed in the
order `d-1, ..., 0` (outward above the default), then `d`, then `d+1, ...`
(outward below it); the offsets increase strictly with the source index, so
`items[d-1]` is nearest above the main line, every further branch above is
strictly higher and every further branch below strictly lower; and the
distance between two consecutive branches is the amount that the branch adds
to the up or down extent of the `Choice`, so that `up` reaches from the top
branch and `down` from the bottom branch. -/
theorem choice_placement (cfg : Config) (hR : 0 < cfg.ConfigArcRadius) (d : Nat)
    (items : List RailItem) (h : ∀ r ∈ items, r.isText = false) (hd : d < items.length)
    (x y width : ℚ) :
    ∃ di, Choice cfg (d : Int) items = some (.choice di [] (d : Int) items) ∧
      format cfg (.choice di [] (d : Int) items) x y width =
        ((choice.steps cfg di (d : Int) items x y width).bind fun steps =>
          (formatItems cfg (choice.placement cfg di (d : Int) items x y width) items 0).bind
            fun placed => (assemble (reverseAbove (d : Int).toNat placed) steps).map fun added =>
              .choice di ([] ++ added) (d : Int) (reverseAbove (d : Int).toNat placed)) ∧
      (∀ j, j < items.length → choice.placement cfg di (d : Int) items x y width j =
        some (x + (determineGaps cfg width di.width).1 + cfg.ConfigArcRadius * 2,
          y + branchOffset cfg (cfg.ConfigArcRadius * 2) d items j,
          di.width - cfg.ConfigArcRadius * 4)) ∧
      choice.order cfg di (d : Int) items x y width =
        some ((List.range d).reverse ++ List.range' d (items.length - d)) ∧
      branchOffset cfg (cfg.ConfigArcRadius * 2) d items d = 0 ∧
      (∀ j, j + 1 < items.length → branchOffset cfg (cfg.ConfigArcRadius * 2) d items j <
        branchOffset cfg (cfg.ConfigArcRadius * 2) d items (j + 1)) ∧
      (∀ j, j < d → branchOffset cfg (cfg.ConfigArcRadius * 2) d items (j + 1) -
          branchOffset cfg (cfg.ConfigArcRadius * 2) d items j =
        max (if j + 1 = d then cfg.ConfigArcRadius * 2 else cfg.ConfigArcRadius)
          ((itemAt items j).height + (itemAt items j).down + cfg.ConfigVerticalSeparation +
            (itemAt items (j + 1)).up)) ∧
      (∀ j, d ≤ j → j + 1 < items.length →
        branchOffset cfg (cfg.ConfigArcRadius * 2) d items (j + 1) -
          branchOffset cfg (cfg.ConfigArcRadius * 2) d items j =
        max (if j = d then cfg.ConfigArcRadius * 2 else cfg.ConfigArcRadius)
          ((itemAt items (j + 1)).up + cfg.ConfigVerticalSeparation + (itemAt items j).down +
            (itemAt items j).height)) ∧
      di.up = (itemAt items 0).up - branchOffset cfg (cfg.ConfigArcRadius * 2) d items 0 ∧
      di.down = (itemAt items (items.length - 1)).down +
        branchOffset cfg (cfg.ConfigArcRadius * 2) d items (items.length - 1) -
        (itemAt items d).height := by
  have hR2 : 0 < cfg.ConfigArcRadius * 2 := by linarith
  refine ⟨_, Choice_eq cfg d items h hd, format_choice_placement cfg _ _ _ _ _ _ _, ?_, ?_,
    branchOffset_default _ _ _ _,
    fun j _ => branchOffset_strict cfg hR _ hR2 d items j, ?_, ?_, ?_, ?_⟩
  · intro j hj
    obtain ⟨steps, hs, -, hargs⟩ := choice_steps_spec cfg
      { name := "g", width := maxWidth items + cfg.ConfigArcRadius * 4,
        height := (itemAt items d).height,
        up := (itemAt items 0).up + branchUp cfg (cfg.ConfigArcRadius * 2) d items,
        down := (itemAt items (items.length - 1)).down +
          branchDown cfg (cfg.ConfigArcRadius * 2) d items - (itemAt items d).height,
        attrs := [], needsSpace := false } d items h hd x y width
    simp only [choice.placement, hs, Option.some_bind, Int.toNat_ofNat]
    exact hargs j hj
  · obtain ⟨steps, hs, hplaced, -⟩ := choice_steps_spec cfg
      { name := "g", width := maxWidth items + cfg.ConfigArcRadius * 4,
        height := (itemAt items d).height,
        up := (itemAt items 0).up + branchUp cfg (cfg.ConfigArcRadius * 2) d items,
        down := (itemAt items (items.length - 1)).down +
          branchDown cfg (cfg.ConfigArcRadius * 2) d items - (itemAt items d).height,
        attrs := [], needsSpace := false } d items h hd x y width
    simp only [choice.order, hs, Option.map_some', Int.toNat_ofNat, hplaced]
    rw [map_reversedIndex_range' d items.length (by omega)]
  · intro j hj
    rw [branchOffset_above cfg _ d items j hj]
    have : (j + 1 = d ∨ j = d + 1) ↔ j + 1 = d := by omega
    simp only [branchUpTerm, branchAllowance, this]
    ring
  · intro j hj _
    rw [branchOffset_below cfg _ d items j hj]
    have : (j + 1 + 1 = d ∨ j + 1 = d + 1) ↔ j = d := by omega
    simp only [branchDownTerm, branchAllowance, this, Nat.add_sub_cancel]
    ring
  · show (itemAt items 0).up + branchUp cfg (cfg.ConfigArcRadius * 2) d items = _
    simp only [branchOffset, branchUp, Nat.zero_le, if_true, Nat.sub_zero, List.range_eq_range']
    ring
  · show (itemAt items (items.length - 1)).down +
      branchDown cfg (cfg.ConfigArcRadius * 2) d items - (itemAt items d).height = _
    by_cases hl : items.length - 1 ≤ d
    · have e1 : items.length - (d + 1) = 0 := by omega
      have e2 : d - (items.length - 1) = 0 := by omega
      simp [branchOffset, branchDown, hl, e1, e2]
    · have e1 : items.length - (d + 1) = items.length - 1 - d := by omega
      simp only [branchOffset, branchDown, if_neg hl, e1]

/-- Witness of C18: five terminals with the default in the middle are placed in
the order 1, 0, 2, 3, 4, at the heights `-60`, `-30`, `0`, `30` and `60`. -/
theorem choice_placement_witness :
    ∃ di, Choice defaultConfig 2 [Terminal defaultConfig "a", Terminal defaultConfig "b",
        Terminal defaultConfig "c", Terminal defaultConfig "d", Terminal defaultConfig "e"] =
        some (.choice di [] 2 [Terminal defaultConfig "a", Terminal defaultConfig "b",
          Terminal defaultConfig "c", Terminal defaultConfig "d", Terminal defaultConfig "e"]) ∧
      choice.order defaultConfig di 2 [Terminal defaultConfig "a", Terminal defaultConfig "b",
        Terminal defaultConfig "c", Terminal defaultConfig "d", Terminal defaultConfig "e"]
        0 0 200 = some [1, 0, 2, 3, 4] ∧
      (∀ j, j < 5 →
        (choice.placement defaultConfig di 2 [Terminal defaultConfig "a",
          Terminal defaultConfig "b", Terminal defaultConfig "c", Terminal defaultConfig "d",
          Terminal defaultConfig "e"] 0 0 200 j).map (fun p => p.2.1) =
        some (([-60, -30, 0, 30, 60] : List ℚ).getD j 0)) :=
  have h := choice_placement defaultConfig (by decide!) 2 [Terminal defaultConfig "a",
    Terminal defaultConfig "b", Terminal defaultConfig "c", Terminal defaultConfig "d",
    Terminal defaultConfig "e"] (by decide) (by decide) 0 0 200
  h.imp fun _ hd => ⟨hd.1, hd.2.2.2.1, fun j hj =>
    (congrArg (Option.map fun p => p.2.1) (hd.2.2.1 j hj)).trans (by
      simp only [Option.map_some']
      match j, hj with
      | 0, _ => decide!
      | 1, _ => decide!
      | 2, _ => decide!
      | 3, _ => decide!
      | 4, _ => decide!)⟩

/-- C19, the defect: in `multipleChoice.format` the variable `ni` is
`len(above) - i`, which is never below `-1`, so `distanceFromY` does not grow
in the loop over the branches above the default: for every valid
`MultipleChoice`, the method `format` places the branch of source index `j`
with the arguments `multipleChoice.placement j`, and every branch above the
default is placed at the same height
`y - max(10 + R, up(items[d]) + V + down(items[d-1]) + height(items[d-1]))`,
so that with two or more branches above the default they lie on top of each
other. -/
theorem multipleChoice_above_same_height (cfg : Config) (d : Nat) (t : MultipleChoiceType)
    (items : List RailItem) (h : ∀ r ∈ items, r.isText = false) (hd : d < items.length)
    (x y width : ℚ) :
    ∃ di iw, MultipleChoice cfg (d : Int) t items =
        some (.multipleChoice di [] (d : Int) t items iw) ∧
      format cfg (.multipleChoice di [] (d : Int) t items iw) x y width =
        ((multipleChoice.steps cfg di (d : Int) t items iw x y width).bind fun steps =>
          (formatItems cfg (multipleChoice.placement cfg di (d : Int) t items iw x y width)
            items 0).bind fun placed =>
              (assemble (reverseAbove (d : Int).toNat placed) steps).map fun added =>
                .multipleChoice di ([] ++ added) (d : Int) t
                  (reverseAbove (d : Int).toNat placed) iw) ∧
      (∀ j, j < d → multipleChoice.placement cfg di (d : Int) t items iw x y width j =
        some (x + (determineGaps cfg width di.width).1 + 30 + cfg.ConfigArcRadius,
          y - max (10 + cfg.ConfigArcRadius) ((itemAt items d).up + cfg.ConfigVerticalSeparation +
            (itemAt items (d - 1)).down + (itemAt items (d - 1)).height), iw)) ∧
      (∀ j k, j < d → k < d →
        multipleChoice.placement cfg di (d : Int) t items iw x y width j =
          multipleChoice.placement cfg di (d : Int) t items iw x y width k) := by
  refine ⟨_, _, MultipleChoice_eq cfg d t items h hd,
    format_multipleChoice_placement cfg _ _ _ _ _ _ _ _ _, ?_⟩
  obtain ⟨steps, hs, hargs⟩ := multipleChoice_steps_above cfg
    { name := "g", width := 30 + cfg.ConfigArcRadius + maxWidth items + cfg.ConfigArcRadius + 20,
      height := (itemAt items d).height,
      up := (itemAt items 0).up + branchUp cfg (10 + cfg.ConfigArcRadius) d items,
      down := (itemAt items (items.length - 1)).down +
        branchDown cfg (10 + cfg.ConfigArcRadius) d items - (itemAt items d).height,
      attrs := [], needsSpace := true } d t items (maxWidth items) h hd x y width
  have key : ∀ j, j < d → multipleChoice.placement cfg
      { name := "g", width := 30 + cfg.ConfigArcRadius + maxWidth items + cfg.ConfigArcRadius + 20,
        height := (itemAt items d).height,
        up := (itemAt items 0).up + branchUp cfg (10 + cfg.ConfigArcRadius) d items,
        down := (itemAt items (items.length - 1)).down +
          branchDown cfg (10 + cfg.ConfigArcRadius) d items - (itemAt items d).height,
        attrs := [], needsSpace := true } (d : Int) t items (maxWidth items) x y width j =
      some (x + (determineGaps cfg width (30 + cfg.ConfigArcRadius + maxWidth items +
          cfg.ConfigArcRadius + 20)).1 + 30 + cfg.ConfigArcRadius,
        y - max (10 + cfg.ConfigArcRadius) ((itemAt items d).up + cfg.ConfigVerticalSeparation +
          (itemAt items (d - 1)).down + (itemAt items (d - 1)).height), maxWidth items) := by
    intro j hj
    simp only [multipleChoice.placement, hs, Option.some_bind, Int.toNat_ofNat]
    exact hargs j hj
  exact ⟨key, fun j k hj hk => by rw [key j hj, key k hk]⟩

/-- Witness of C19, the failing input: in
`MultipleChoice(2, "any", Terminal("a"), Terminal("b"), Terminal("c"))`, placed
at `(0, 0)`, the branches `a` and `b` are both placed at `y = -30`, although
the up extent of the element, 71, leaves room for the two of them; in
`Choice(2, Terminal("a"), Terminal("b"), Terminal("c"))` the branch `a` is
placed at `y = -60` and the branch `b` at `y = -30`. -/
theorem multipleChoice_above_same_height_witness :
    (∃ di iw, MultipleChoice defaultConfig 2 MultipleChoiceAny [Terminal defaultConfig "a",
        Terminal defaultConfig "b", Terminal defaultConfig "c"] =
        some (.multipleChoice di [] 2 MultipleChoiceAny [Terminal defaultConfig "a",
          Terminal defaultConfig "b", Terminal defaultConfig "c"] iw) ∧
      (multipleChoice.placement defaultConfig di 2 MultipleChoiceAny [Terminal defaultConfig "a",
        Terminal defaultConfig "b", Terminal defaultConfig "c"] iw 0 0 98 0).map
          (fun p => p.2.1) = some (-30) ∧
      (multipleChoice.placement defaultConfig di 2 MultipleChoiceAny [Terminal defaultConfig "a",
        Terminal defaultConfig "b", Terminal defaultConfig "c"] iw 0 0 98 1).map
          (fun p => p.2.1) = some (-30)) ∧
    (MultipleChoice defaultConfig 2 MultipleChoiceAny [Terminal defaultConfig "a",
      Terminal defaultConfig "b", Terminal defaultConfig "c"]).map RailItem.up = some 71 ∧
    ((Choice defaultConfig 2 [Terminal defaultConfig "a", Terminal defaultConfig "b",
      Terminal defaultConfig "c"]).bind fun r => r.base.bind fun di =>
        (choice.placement defaultConfig di 2 [Terminal defaultConfig "a",
          Terminal defaultConfig "b", Terminal defaultConfig "c"] 0 0 68 0).map
            fun p => p.2.1) = some (-60) ∧
    ((Choice defaultConfig 2 [Terminal defaultConfig "a", Terminal defaultConfig "b",
      Terminal defaultConfig "c"]).bind fun r => r.base.bind fun di =>
        (choice.placement defaultConfig di 2 [Terminal defaultConfig "a",
          Terminal defaultConfig "b", Terminal defaultConfig "c"] 0 0 68 1).map
            fun p => p.2.1) = some (-30) :=
  have h := multipleChoice_above_same_height defaultConfig 2 MultipleChoiceAny
    [Terminal defaultConfig "a", Terminal defaultConfig "b", Terminal defaultConfig "c"]
    (by decide) (by decide) 0 0 98
  ⟨h.imp fun di hdi => hdi.imp fun iw hiw =>
    ⟨hiw.1,
     (congrArg (Option.map fun p => p.2.1) (hiw.2.2.1 0 (by decide))).trans
       (by simp only [Option.map_some']; decide!),
     (congrArg (Option.map fun p => p.2.1) (hiw.2.2.1 1 (by decide))).trans
       (by simp only [Option.map_some']; decide!)⟩,
   by decide!, by decide!, by decide!⟩

/-! ## The path builder: proofs -/

/-- The guard `if val == 0 { val = 0 }` of `h` makes the signed zero
irrelevant: `h` writes what it writes on the number denoted. -/
theorem h64_eq (cfg : Config) (p : path) (v : F64) : p.h64 cfg v = p.h cfg v.toRat := by
  cases v with
  | ofRat q =>
    by_cases hq : q = 0
    · simp [path.h64, path.h, F64.isZero, F64.toRat, hq, F64.sprint]
    · simp [path.h64, path.h, F64.isZero, F64.toRat, hq, F64.sprint]
  | negZero => simp [path.h64, path.h, F64.isZero, F64.toRat, F64.sprint]

theorem v64_eq (cfg : Config) (p : path) (v : F64) : p.v64 cfg v = p.v cfg v.toRat := by
  cases v with
  | ofRat q =>
    by_cases hq : q = 0
    · simp [path.v64, path.v, F64.isZero, F64.toRat, hq, F64.sprint]
    · simp [path.v64, path.v, F64.isZero, F64.toRat, hq, F64.sprint]
  | negZero => simp [path.v64, path.v, F64.isZero, F64.toRat, F64.sprint]

theorem max0_toRat (v : F64) : (F64.max0 v).toRat = max 0 v.toRat := by
  unfold F64.max0
  by_cases h : v.toRat ≤ 0
  · rw [if_pos h, max_eq_left h]; rfl
  · rw [if_neg h, max_eq_right (le_of_lt (not_le.mp h))]

theorem neg_toRat (v : F64) : (F64.neg v).toRat = -v.toRat := by
  cases v with
  | ofRat q =>
    by_cases hq : q = 0
    · simp [F64.neg, F64.toRat, hq]
    · simp [F64.neg, F64.toRat, hq]
  | negZero => simp [F64.neg, F64.toRat]

theorem h_eq (cfg : Config) (p : path) (n : ℚ) : p.h cfg n = p.appendD ("h" ++ cfg.Sprint n) := by
  by_cases hn : n = 0 <;> simp [path.h, hn]

theorem v_eq (cfg : Config) (p : path) (n : ℚ) : p.v cfg n = p.appendD ("v" ++ cfg.Sprint n) := by
  by_cases hn : n = 0 <;> simp [path.v, hn]

/-- C23: for every distance `n`, `right(n)` appends the horizontal segment
`h max(0, n)`, `left(n)` appends `h -max(0, n)`, `down(n)` appends
`v max(0, n)` and `up(n)` appends `v -max(0, n)`; for `n <= 0` each of the four
appends the segment of `n = 0`, which under the default configuration is
written `h0` or `v0`; and on a `float64` with a signed zero (where
`-max(0, n)` is the negative zero for `n <= 0`) the four operations write the
same text, so a negative zero is never written. -/
theorem path_directions_clamped (cfg : Config) (p : path) :
    (∀ n : ℚ,
      p.right cfg n = p.appendD ("h" ++ cfg.Sprint (max 0 n)) ∧
      p.left cfg n = p.appendD ("h" ++ cfg.Sprint (-(max 0 n))) ∧
      p.down cfg n = p.appendD ("v" ++ cfg.Sprint (max 0 n)) ∧
      p.up cfg n = p.appendD ("v" ++ cfg.Sprint (-(max 0 n)))) ∧
    (∀ n : ℚ, n ≤ 0 →
      p.right cfg n = p.appendD ("h" ++ cfg.Sprint 0) ∧
      p.left cfg n = p.appendD ("h" ++ cfg.Sprint 0) ∧
      p.down cfg n = p.appendD ("v" ++ cfg.Sprint 0) ∧
      p.up cfg n = p.appendD ("v" ++ cfg.Sprint 0)) ∧
    (∀ v : F64,
      p.right64 cfg v = p.right cfg v.toRat ∧ p.left64 cfg v = p.left cfg v.toRat ∧
      p.down64 cfg v = p.down cfg v.toRat ∧ p.up64 cfg v = p.up cfg v.toRat) ∧
    F64.neg (F64.max0 (F64.ofRat (-5))) = F64.negZero ∧
    a.get ((newPath defaultConfig 3 4).left64 defaultConfig (F64.ofRat (-5))).di.attrs "d" =
      "M3 4h0" ∧
    a.get ((newPath defaultConfig 3 4).up64 defaultConfig F64.negZero).di.attrs "d" = "M3 4v0" ∧
    a.get ((newPath defaultConfig 3 4).right defaultConfig (-5)).di.attrs "d" = "M3 4h0" ∧
    a.get ((newPath defaultConfig 3 4).down defaultConfig (-5)).di.attrs "d" = "M3 4v0" ∧
    a.get ((newPath defaultConfig 3 4).left defaultConfig 5).di.attrs "d" = "M3 4h-5" := by
  refine ⟨fun n => ⟨h_eq _ _ _, h_eq _ _ _, v_eq _ _ _, v_eq _ _ _⟩, ?_, ?_,
    by norm_num [F64.neg, F64.max0, F64.toRat], by decide!, by decide!, by decide!, by decide!,
    by decide!⟩
  · intro n hn
    have hm : max 0 n = 0 := max_eq_left hn
    refine ⟨?_, ?_, ?_, ?_⟩
    · rw [path.right, h_eq, hm]
    · rw [path.left, h_eq, hm, neg_zero]
    · rw [path.down, v_eq, hm]
    · rw [path.up, v_eq, hm, neg_zero]
  · intro v
    refine ⟨?_, ?_, ?_, ?_⟩
    · rw [path.right64, h64_eq, max0_toRat, path.right]
    · rw [path.left64, h64_eq, neg_toRat, max0_toRat, path.left]
    · rw [path.down64, v64_eq, max0_toRat, path.down]
    · rw [path.up64, v64_eq, neg_toRat, max0_toRat, path.up]

/-- Witness of C23: a negative distance. -/
theorem path_directions_clamped_witness :
    (newPath defaultConfig 3 4).left defaultConfig (-5) =
      (newPath defaultConfig 3 4).appendD ("h" ++ defaultConfig.Sprint 0) :=
  ((path_directions_clamped defaultConfig (newPath defaultConfig 3 4)).2.1 (-5) (by decide!)).2.1

/-- C24: for each of the eight sweep codes, `arc(code)` appends the arc
`a R R 0 0 cw dx dy` of radius `R`, where `(dx, dy, cw)` is `(R, R, 1)` for
`ne`, `(-R, -R, 0)` for `en`, `(-R, R, 0)` for `nw`, `(R, -R, 1)` for `wn`,
`(R, -R, 0)` for `se`, `(-R, R, 1)` for `es`, `(-R, -R, 1)` for `sw` and
`(R, R, 0)` for `ws`; the clockwise codes are exactly `ne`, `wn`, `es` and
`sw`; and the code with its two letters swapped has the negated displacement
and the opposite flag. -/
theorem arc_table (cfg : Config) :
    path.arcParams cfg "ne" = some (cfg.ConfigArcRadius, cfg.ConfigArcRadius, 1) ∧
    path.arcParams cfg "en" = some (-cfg.ConfigArcRadius, -cfg.ConfigArcRadius, 0) ∧
    path.arcParams cfg "nw" = some (-cfg.ConfigArcRadius, cfg.ConfigArcRadius, 0) ∧
    path.arcParams cfg "wn" = some (cfg.ConfigArcRadius, -cfg.ConfigArcRadius, 1) ∧
    path.arcParams cfg "se" = some (cfg.ConfigArcRadius, -cfg.ConfigArcRadius, 0) ∧
    path.arcParams cfg "es" = some (-cfg.ConfigArcRadius, cfg.ConfigArcRadius, 1) ∧
    path.arcParams cfg "sw" = some (-cfg.ConfigArcRadius, -cfg.ConfigArcRadius, 1) ∧
    path.arcParams cfg "ws" = some (cfg.ConfigArcRadius, cfg.ConfigArcRadius, 0) ∧
    (∀ (p : path) (sweep : String),
      p.arc cfg sweep = (path.arcParams cfg sweep).map fun t =>
        p.appendD ("a" ++ cfg.Sprint cfg.ConfigArcRadius ++ " " ++
          cfg.Sprint cfg.ConfigArcRadius ++ " 0 0 " ++ toString t.2.2 ++ " " ++
          cfg.Sprint t.1 ++ " " ++ cfg.Sprint t.2.1)) ∧
    (sweepCodes.filter fun c => (path.arcParams cfg c).map (fun t => t.2.2) = some 1) =
      ["ne", "wn", "es", "sw"] ∧
    (∀ c ∈ sweepCodes, ∃ dx dy cw, path.arcParams cfg c = some (dx, dy, cw) ∧ cw ≤ 1 ∧
      swapCode c ∈ sweepCodes ∧ path.arcParams cfg (swapCode c) = some (-dx, -dy, 1 - cw)) := by
  have e1 : path.arcParams cfg "ne" = some (cfg.ConfigArcRadius, cfg.ConfigArcRadius, 1) := rfl
  have e2 : path.arcParams cfg "en" = some (-cfg.ConfigArcRadius, -cfg.ConfigArcRadius, 0) := by
    show some (cfg.ConfigArcRadius * (-1), cfg.ConfigArcRadius * (-1), 0) = _
    simp
  have e3 : path.arcParams cfg "nw" = some (-cfg.ConfigArcRadius, cfg.ConfigArcRadius, 0) := by
    show some (cfg.ConfigArcRadius * (-1), cfg.ConfigArcRadius, 0) = _
    simp
  have e4 : path.arcParams cfg "wn" = some (cfg.ConfigArcRadius, -cfg.ConfigArcRadius, 1) := by
    show some (cfg.ConfigArcRadius, cfg.ConfigArcRadius * (-1), 1) = _
    simp
  have e5 : path.arcParams cfg "se" = some (cfg.ConfigArcRadius, -cfg.ConfigArcRadius, 0) := by
    show some (cfg.ConfigArcRadius, cfg.ConfigArcRadius * (-1), 0) = _
    simp
  have e6 : path.arcParams cfg "es" = some (-cfg.ConfigArcRadius, cfg.ConfigArcRadius, 1) := by
    show some (cfg.ConfigArcRadius * (-1), cfg.ConfigArcRadius, 1) = _
    simp
  have e7 : path.arcParams cfg "sw" = some (-cfg.ConfigArcRadius, -cfg.ConfigArcRadius, 1) := by
    show some (cfg.ConfigArcRadius * (-1), cfg.ConfigArcRadius * (-1), 1) = _
    simp
  have e8 : path.arcParams cfg "ws" = some (cfg.ConfigArcRadius, cfg.ConfigArcRadius, 0) := rfl
  have s1 : swapCode "ne" = "en" := by decide
  have s2 : swapCode "en" = "ne" := by decide
  have s3 : swapCode "nw" = "wn" := by decide
  have s4 : swapCode "wn" = "nw" := by decide
  have s5 : swapCode "se" = "es" := by decide
  have s6 : swapCode "es" = "se" := by decide
  have s7 : swapCode "sw" = "ws" := by decide
  have s8 : swapCode "ws" = "sw" := by decide
  refine ⟨e1, e2, e3, e4, e5, e6, e7, e8, ?_, ?_, ?_⟩
  · intro p sweep
    unfold path.arc
    cases path.arcParams cfg sweep with
    | none => rfl
    | some t => rfl
  · simp only [sweepCodes, List.filter, e1, e2, e3, e4, e5, e6, e7, e8, Option.map_some']
    simp
  · intro c hc
    simp only [sweepCodes, List.mem_cons, List.mem_singleton, List.not_mem_nil, or_false] at hc
    rcases hc with rfl | rfl | rfl | rfl | rfl | rfl | rfl | rfl
    · exact ⟨_, _, _, e1, by decide, by rw [s1]; decide, by rw [s1, e2]⟩
    · exact ⟨_, _, _, e2, by decide, by rw [s2]; decide, by rw [s2, e1]; simp⟩
    · exact ⟨_, _, _, e3, by decide, by rw [s3]; decide, by rw [s3, e4]; simp⟩
    · exact ⟨_, _, _, e4, by decide, by rw [s4]; decide, by rw [s4, e3]; simp⟩
    · exact ⟨_, _, _, e5, by decide, by rw [s5]; decide, by rw [s5, e6]; simp⟩
    · exact ⟨_, _, _, e6, by decide, by rw [s6]; decide, by rw [s6, e5]; simp⟩
    · exact ⟨_, _, _, e7, by decide, by rw [s7]; decide, by rw [s7, e8]; simp⟩
    · exact ⟨_, _, _, e8, by decide, by rw [s8]; decide, by rw [s8, e7]⟩

/-! ## Sequences: nesting and the cursor -/

theorem upAfter_append (l1 l2 : List RailItem) (u h : ℚ) :
    Sequence.upAfter (l1 ++ l2) u h =
      Sequence.upAfter l2 (Sequence.upAfter l1 u h) (h + (l1.map RailItem.height).sum) := by
  induction l1 generalizing u h with
  | nil => simp [Sequence.upAfter]
  | cons a t ih => simp [Sequence.upAfter, ih, add_assoc]

theorem downAfter_append (l1 l2 : List RailItem) (d : ℚ) :
    Sequence.downAfter (l1 ++ l2) d = Sequence.downAfter l2 (Sequence.downAfter l1 d) := by
  induction l1 generalizing d with
  | nil => simp [Sequence.downAfter]
  | cons a t ih => simp [Sequence.downAfter, ih]

theorem upAfter_ge (l : List RailItem) (u h : ℚ) : u ≤ Sequence.upAfter l u h := by
  induction l generalizing u h with
  | nil => simp [Sequence.upAfter]
  | cons a t ih => exact le_trans (le_max_left _ _) (ih _ _)

/-- The up extent accumulated from `u` is the maximum of `u` and the one
accumulated from any smaller start. -/
theorem upAfter_max (l : List RailItem) (u u0 h : ℚ) (hu : u0 ≤ u) :
    Sequence.upAfter l u h = max u (Sequence.upAfter l u0 h) := by
  induction l generalizing u u0 h with
  | nil => simp [Sequence.upAfter, hu]
  | cons a t ih =>
    simp only [Sequence.upAfter]
    rw [ih (max u (a.up - h)) (max u0 (a.up - h)) _ (max_le_max hu (le_refl _))]
    have h1 : a.up - h ≤ Sequence.upAfter t (max u0 (a.up - h)) (h + a.height) :=
      le_trans (le_max_right _ _) (upAfter_ge _ _ _)
    rw [max_assoc, max_eq_right h1]

/-- Shifting the height so far shifts the up extent. -/
theorem upAfter_shift (l : List RailItem) (u h : ℚ) :
    Sequence.upAfter l u h = Sequence.upAfter l (u + h) 0 - h := by
  induction l generalizing u h with
  | nil => simp [Sequence.upAfter]
  | cons a t ih =>
    simp only [Sequence.upAfter]
    rw [ih (max u (a.up - h)) (h + a.height), ih (max (u + h) (a.up - 0)) (0 + a.height)]
    have e : max u (a.up - h) + h = max (u + h) a.up := by
      rw [← max_add_add_right, sub_add_cancel]
    have : max u (a.up - h) + (h + a.height) = max (u + h) (a.up - 0) + (0 + a.height) := by
      rw [sub_zero, zero_add, ← add_assoc, e]
    rw [this]
    ring

theorem downAfter_ge (l : List RailItem) (d : ℚ) :
    d - (l.map RailItem.height).sum ≤ Sequence.downAfter l d := by
  induction l generalizing d with
  | nil => simp [Sequence.downAfter]
  | cons a t ih =>
    simp only [Sequence.downAfter, List.map_cons, List.sum_cons]
    have := ih (max (d - a.height) a.down)
    have h1 := le_max_left (d - a.height) a.down
    linarith

/-- The down extent accumulated from `d` is the maximum of what is left of `d`
and the one accumulated from any smaller start. -/
theorem downAfter_max (l : List RailItem) (d d0 : ℚ) (hd : d0 ≤ d) :
    Sequence.downAfter l d =
      max (d - (l.map RailItem.height).sum) (Sequence.downAfter l d0) := by
  induction l generalizing d d0 with
  | nil => simp [Sequence.downAfter, hd]
  | cons a t ih =>
    simp only [Sequence.downAfter, List.map_cons, List.sum_cons]
    rw [ih (max (d - a.height) a.down) (max (d0 - a.height) a.down)
      (max_le_max (by linarith) (le_refl _))]
    have h1 : a.down - (t.map RailItem.height).sum ≤
        Sequence.downAfter t (max (d0 - a.height) a.down) :=
      le_trans (by have := le_max_right (d0 - a.height) a.down; linarith) (downAfter_ge _ _)
    have h2 : max (d - a.height) a.down - (t.map RailItem.height).sum =
        max (d - (a.height + (t.map RailItem.height).sum))
          (a.down - (t.map RailItem.height).sum) := by
      rw [← max_sub_sub_right]; congr 1; ring
    rw [h2, max_assoc, max_eq_right h1]

/-- The down extent of a non-empty list is at least that of its last item. -/
theorem downAfter_last (l : List RailItem) (hne : l ≠ []) (d : ℚ) :
    (l.getLast hne).down ≤ Sequence.downAfter l d := by
  induction l generalizing d with
  | nil => exact absurd rfl hne
  | cons a t ih =>
    cases t with
    | nil => simp [Sequence.downAfter]
    | cons b t2 =>
      simp only [Sequence.downAfter]
      have := ih (by simp) (max (d - a.height) a.down)
      simpa [Sequence.downAfter] using this

/-- C28: for all lists `xs`, `zs` and every non-empty list `ys`, where the
elements of `xs` and `ys` have non-negative heights and the elements of `ys`
non-negative down extents, `Sequence(xs ++ [Sequence(ys)] ++ zs)` has the same
height, up and down as `Sequence(xs ++ ys ++ zs)`. -/
theorem Sequence_nesting (xs ys zs : List RailItem) (hne : ys ≠ [])
    (hx : ∀ i ∈ xs, i.isText = false) (hy : ∀ i ∈ ys, i.isText = false)
    (hz : ∀ i ∈ zs, i.isText = false)
    (hxh : ∀ i ∈ xs, 0 ≤ i.height) (hyh : ∀ i ∈ ys, 0 ≤ i.height)
    (hyd : ∀ i ∈ ys, 0 ≤ i.down) :
    ∃ inner nested flat, Sequence ys = some inner ∧
      Sequence (xs ++ [inner] ++ zs) = some nested ∧
      Sequence (xs ++ ys ++ zs) = some flat ∧
      nested.height = flat.height ∧ nested.up = flat.up ∧ nested.down = flat.down := by
  have hin := Sequence_eq ys hne hy
  have hn1 : xs ++ [RailItem.sequence
      { name := "g"
        width := (ys.map spacedWidth).sum - (if (ys.head hne).needsSpace then 10 else 0) -
          (if (ys.getLast hne).needsSpace then 10 else 0)
        height := (ys.map RailItem.height).sum
        up := Sequence.upAfter ys 0 0
        down := Sequence.downAfter ys 0
        attrs := []
        needsSpace := true } [] ys] ++ zs ≠ [] := by simp
  have hn2 : xs ++ ys ++ zs ≠ [] := by
    intro hc
    simp only [List.append_eq_nil] at hc
    exact hne hc.1.2
  have ht1 : ∀ i ∈ xs ++ [RailItem.sequence
      { name := "g"
        width := (ys.map spacedWidth).sum - (if (ys.head hne).needsSpace then 10 else 0) -
          (if (ys.getLast hne).needsSpace then 10 else 0)
        height := (ys.map RailItem.height).sum
        up := Sequence.upAfter ys 0 0
        down := Sequence.downAfter ys 0
        attrs := []
        needsSpace := true } [] ys] ++ zs, i.isText = false := by
    intro i hi
    simp only [List.mem_append, List.mem_singleton] at hi
    rcases hi with (hi | rfl) | hi
    · exact hx i hi
    · rfl
    · exact hz i hi
  have ht2 : ∀ i ∈ xs ++ ys ++ zs, i.isText = false := by
    intro i hi
    simp only [List.mem_append] at hi
    rcases hi with (hi | hi) | hi
    · exact hx i hi
    · exact hy i hi
    · exact hz i hi
  refine ⟨_, _, _, hin, Sequence_eq _ hn1 ht1, Sequence_eq _ hn2 ht2, ?_, ?_, ?_⟩
  · rw [(width_sequence _ _ _).2.1, (width_sequence _ _ _).2.1]
    simp only [List.map_append, List.sum_append, List.map_cons, List.map_nil, List.sum_cons,
      List.sum_nil, (width_sequence _ _ _).2.1]
    ring
  · rw [(width_sequence _ _ _).2.2.1, (width_sequence _ _ _).2.2.1]
    simp only [upAfter_append, List.map_append, List.sum_append, List.map_cons, List.map_nil,
      List.sum_cons, List.sum_nil, Sequence.upAfter, (width_sequence _ _ _).2.1,
      (width_sequence _ _ _).2.2.1]
    have hH : 0 ≤ (xs.map RailItem.height).sum := by
      apply List.sum_nonneg
      intro v hv
      obtain ⟨i, hi, rfl⟩ := List.mem_map.mp hv
      exact hxh i hi
    have hU := upAfter_ge xs 0 0
    have key : Sequence.upAfter ys (Sequence.upAfter xs 0 0) (0 + (xs.map RailItem.height).sum) =
        max (Sequence.upAfter xs 0 0)
          (Sequence.upAfter ys 0 0 - (0 + (xs.map RailItem.height).sum)) := by
      rw [upAfter_max ys _ (-(0 + (xs.map RailItem.height).sum)) _ (by linarith),
        upAfter_shift ys (-(0 + (xs.map RailItem.height).sum)), neg_add_cancel]
    rw [key]
    congr 2
    ring
  · rw [(width_sequence _ _ _).2.2.2, (width_sequence _ _ _).2.2.2]
    simp only [downAfter_append, Sequence.downAfter, (width_sequence _ _ _).2.1,
      (width_sequence _ _ _).2.2.2]
    have hS : 0 ≤ (ys.map RailItem.height).sum := by
      apply List.sum_nonneg
      intro v hv
      obtain ⟨i, hi, rfl⟩ := List.mem_map.mp hv
      exact hyh i hi
    have key : ∀ D : ℚ, Sequence.downAfter ys D =
        max (D - (ys.map RailItem.height).sum) (Sequence.downAfter ys 0) := by
      intro D
      by_cases hD : 0 ≤ D
      · exact downAfter_max ys D 0 hD
      · have hD' : D ≤ 0 := le_of_lt (not_le.mp hD)
        rw [downAfter_max ys 0 D hD']
        have h1 := downAfter_ge ys D
        have h2 := downAfter_last ys hne D
        have h3 := hyd _ (List.getLast_mem hne)
        rw [max_eq_right (show 0 - (ys.map RailItem.height).sum ≤ Sequence.downAfter ys D by
          linarith), max_eq_right h1]
    rw [key (Sequence.downAfter xs 0)]

/-- Witness of C28: a terminal, then two terminals, alone or as a `Sequence`. -/
theorem Sequence_nesting_witness :
    ∃ inner nested flat,
      Sequence [Terminal defaultConfig "b", Terminal defaultConfig "c"] = some inner ∧
      Sequence ([Terminal defaultConfig "a"] ++ [inner] ++ []) = some nested ∧
      Sequence ([Terminal defaultConfig "a"] ++
        [Terminal defaultConfig "b", Terminal defaultConfig "c"] ++ []) = some flat ∧
      nested.height = flat.height ∧ nested.up = flat.up ∧ nested.down = flat.down :=
  Sequence_nesting [Terminal defaultConfig "a"]
    [Terminal defaultConfig "b", Terminal defaultConfig "c"] [] (by simp) (by decide) (by decide)
    (by decide) (by decide!) (by decide!) (by decide!)

/-- One run of the body of the loop of `sequence.format`. -/
theorem sequence_formatBody_eq (cfg : Config) (n : Nat) (item : RailItem) (i : Nat) (x y : ℚ)
    (hi : item.isText = false) :
    ∃ steps, sequence.formatBody cfg n item i (x, y) = some (steps,
      x + (if item.needsSpace = true ∧ i > 0 then 10 else 0) + item.width +
        (if item.needsSpace = true ∧ (i : Int) < (n : Int) - 1 then 10 else 0),
      y + item.height) := by
  simp only [sequence.formatBody, getHeight_eq hi, getWidth_eq hi,
    getNeedsSpace_eq hi, Option.bind_eq_bind, Option.some_bind, Option.pure_def]
  by_cases h1 : item.needsSpace = true ∧ i > 0 <;>
    by_cases h2 : item.needsSpace = true ∧ (i : Int) < (n : Int) - 1
  · have b1 : (item.needsSpace && decide (i > 0)) = true := by simp [h1.1, h1.2]
    have b2 : (item.needsSpace && decide ((i : Int) < (n : Int) - 1)) = true := by
      simp only [Bool.and_eq_true, decide_eq_true_eq]; exact h2
    rw [if_pos b1, if_pos h1, if_pos h2]
    simp only [b2, if_true]
    exact ⟨_, rfl⟩
  · have b1 : (item.needsSpace && decide (i > 0)) = true := by simp [h1.1, h1.2]
    have b2 : ¬ (item.needsSpace && decide ((i : Int) < (n : Int) - 1)) = true := by
      simp only [Bool.and_eq_true, decide_eq_true_eq]; exact h2
    rw [if_pos b1, if_pos h1, if_neg h2]
    simp only [b2, if_false]
    exact ⟨[Step.add (path.h cfg (newPath cfg x y) 10).toItem, Step.place i (x + 10) y item.width],
      by simp⟩
  · have b1 : ¬ (item.needsSpace && decide (i > 0)) = true := by
      simp only [Bool.and_eq_true, decide_eq_true_eq]; exact h1
    have b2 : (item.needsSpace && decide ((i : Int) < (n : Int) - 1)) = true := by
      simp only [Bool.and_eq_true, decide_eq_true_eq]; exact h2
    rw [if_neg b1, if_neg h1, if_pos h2]
    simp only [b2, if_true]
    exact ⟨[Step.place i x y item.width,
      Step.add (path.h cfg (newPath cfg (x + item.width) (y + item.height)) 10).toItem], by simp⟩
  · have b1 : ¬ (item.needsSpace && decide (i > 0)) = true := by
      simp only [Bool.and_eq_true, decide_eq_true_eq]; exact h1
    have b2 : ¬ (item.needsSpace && decide ((i : Int) < (n : Int) - 1)) = true := by
      simp only [Bool.and_eq_true, decide_eq_true_eq]; exact h2
    rw [if_neg b1, if_neg h1, if_neg h2]
    simp only [b2, if_false]
    exact ⟨[Step.place i x y item.width], by simp⟩

/-- The cursor after the loop of `sequence.format`, run from index `i` on the
rest of the items. -/
theorem sequence_cursor (cfg : Config) (n : Nat) (rest : List RailItem)
    (h : ∀ r ∈ rest, r.isText = false) (i : Nat) (hlen : i + rest.length = n) (x y : ℚ) :
    ∃ steps, forRange (sequence.formatBody cfg n) rest i (x, y) = some (steps,
      x + (rest.map spacedWidth).sum -
        (if i = 0 ∧ rest.head?.map RailItem.needsSpace = some true then 10 else 0) -
        (if rest.getLast?.map RailItem.needsSpace = some true then 10 else 0),
      y + (rest.map RailItem.height).sum) := by
  induction rest generalizing i x y with
  | nil => exact ⟨[], by simp [forRange]⟩
  | cons item rest ih =>
    have hi : item.isText = false := h item (List.mem_cons_self _ _)
    have hr : ∀ r ∈ rest, r.isText = false := fun r hr => h r (List.mem_cons_of_mem _ hr)
    have hlen2 : (i + 1) + rest.length = n := by simp at hlen; omega
    have hlast : ((i : Int) < (n : Int) - 1) ↔ rest ≠ [] := by
      rw [← List.length_pos]; omega
    obtain ⟨s1, hs1⟩ := sequence_formatBody_eq cfg n item i x y hi
    obtain ⟨tail, htail⟩ := ih hr (i + 1) hlen2
      (x + (if item.needsSpace = true ∧ i > 0 then 10 else 0) + item.width +
        (if item.needsSpace = true ∧ (i : Int) < (n : Int) - 1 then 10 else 0))
      (y + item.height)
    refine ⟨s1 ++ tail, ?_⟩
    simp only [forRange, hs1, htail, Option.bind_eq_bind, Option.some_bind, Option.pure_def]
    have hne1 : ¬ (i + 1 = 0 ∧ rest.head?.map RailItem.needsSpace = some true) := by omega
    rw [if_neg hne1]
    simp only [List.map_cons, List.sum_cons, List.head?_cons, Option.map_some', Option.some.injEq,
      spacedWidth]
    cases rest with
    | nil =>
      have hl : ¬ ((i : Int) < (n : Int) - 1) := by rw [hlast]; simp
      by_cases hn : item.needsSpace = true <;> by_cases h0 : i = 0
      · have hn1 : ¬ 1 < n := by simp at hlen; omega
        simp [hn, hn1, h0]; ring
      · have hp : i > 0 := by omega
        simp [hn, hl, hp, h0]; ring
      · simp [hn, hl, h0]
      · simp [hn, hl, h0]
    | cons b t =>
      have hl : (i : Int) < (n : Int) - 1 := by rw [hlast]; simp
      by_cases hn : item.needsSpace = true <;> by_cases h0 : i = 0
      · have hn1 : 1 < n := by simp at hlen; omega
        simp [hn, hn1, h0, spacedWidth]
        constructor <;> ring
      · have hp : i > 0 := by omega
        simp [hn, hl, hp, h0, spacedWidth]
        constructor <;> ring
      · simp [hn, hl, h0, spacedWidth]
        constructor <;> ring
      · simp [hn, hl, h0, spacedWidth]
        constructor <;> ring

/-- C26 as stated fails in `float64`.  With `ConfigCharacterAdvance = 6.3`, the
sequence `Sequence(Terminal("a"))` is `2^-48` narrower than the terminal.
Placed at `x = 0` with its own width, its left gap is 0; the cursor ends at
the width of the terminal, and the right gap rail starts at the width of the
sequence, `2^-48` before the cursor. -/
theorem sequence_cursor_rounding_counterexample :
    Sequence.width64 [(Terminal.width64 configAdvance63 "a", true)] =
      Terminal.width64 configAdvance63 "a" - 1 / 2 ^ 48 ∧
    determineGaps64 configAdvance63
      (Sequence.width64 [(Terminal.width64 configAdvance63 "a", true)])
      (Sequence.width64 [(Terminal.width64 configAdvance63 "a", true)]) = (0, 0) ∧
    sequence.cursor64 1 [(Terminal.width64 configAdvance63 "a", true)] 0 (roundFloat64 (0 + 0)) =
      Terminal.width64 configAdvance63 "a" ∧
    roundFloat64 (roundFloat64 (0 + 0) +
      Sequence.width64 [(Terminal.width64 configAdvance63 "a", true)]) =
      Terminal.width64 configAdvance63 "a" - 1 / 2 ^ 48 := by
  decide!

/-- C26, amended: under a configuration on which the `float64` arithmetic of
the metrics is exact (its distances are integers), for every non-empty list of
elements, the sequence built from it and placed at `(x, y)` with allotted width
`W` starts its right gap rail at `(x + leftGap + width, y + height)`, and the
cursor threaded through the children by `sequence.format` ends exactly at that
point.  On such a configuration the `float64` computation is the exact one for
a terminal of exact width: the terminal and the sequence made of it have the
same width, and the cursor ends where the right gap rail starts. -/
theorem sequence_cursor_end (cfg : Config) (hx : cfg.exact64 = true) (items : List RailItem)
    (hne : items ≠ []) (h : ∀ i ∈ items, i.isText = false) (x y W : ℚ) :
    (∃ di steps, Sequence items = some (.sequence di [] items) ∧
      sequence.steps cfg di items x y W = some
        (Step.add ((newPath cfg x y).h cfg (determineGaps cfg W di.width).1).toItem ::
          Step.add ((newPath cfg (x + (determineGaps cfg W di.width).1 + di.width)
            (y + di.height)).h cfg (determineGaps cfg W di.width).2).toItem :: steps,
          x + (determineGaps cfg W di.width).1 + di.width, y + di.height)) ∧
    (∀ text : String, exact64 (Terminal cfg text).width = true →
      Terminal.width64 cfg text = (Terminal cfg text).width ∧
      Sequence.width64 [(Terminal.width64 cfg text, true)] = (Terminal cfg text).width ∧
      ∀ x0 : ℚ, sequence.cursor64 1 [(Terminal.width64 cfg text, true)] 0 x0 =
        roundFloat64 (x0 + Sequence.width64 [(Terminal.width64 cfg text, true)])) := by
  refine ⟨?_, ?_⟩
  · obtain ⟨steps, hs⟩ := sequence_cursor cfg items.length items h 0 (by simp)
      (x + (determineGaps cfg W ((items.map spacedWidth).sum -
        (if (items.head hne).needsSpace then 10 else 0) -
        (if (items.getLast hne).needsSpace then 10 else 0))).1) y
    have e1 : (if (0 = 0 ∧ items.head?.map RailItem.needsSpace = some true) then (10 : ℚ) else 0) =
        (if (items.head hne).needsSpace then 10 else 0) := by
      rw [List.head?_eq_head hne]; simp
    have e2 : (if items.getLast?.map RailItem.needsSpace = some true then (10 : ℚ) else 0) =
        (if (items.getLast hne).needsSpace then 10 else 0) := by
      rw [List.getLast?_eq_getLast _ hne]; simp
    rw [e1, e2] at hs
    refine ⟨_, steps, Sequence_eq items hne h, ?_⟩
    simp only [sequence.steps, hs, Option.bind_eq_bind, Option.some_bind, Option.pure_def]
    congr 2
    congr 1
    ring
  · intro text hw
    have e1 := Terminal_width64_exact cfg hx text hw
    have e2 : Sequence.width64 [(Terminal.width64 cfg text, true)] = (Terminal cfg text).width := by
      rw [e1]; exact Sequence_width64_single _ hw
    refine ⟨e1, e2, ?_⟩
    intro x0
    rw [e2, e1]
    simp [sequence.cursor64]

/-- Witness of C26: the default configuration; a terminal, `Skip()` and a
terminal, placed at `(3, 4)` with the allotted width 100. -/
theorem sequence_cursor_end_witness :
    ∃ di steps, Sequence [Terminal defaultConfig "a", Skip, Terminal defaultConfig "b"] =
        some (.sequence di [] [Terminal defaultConfig "a", Skip, Terminal defaultConfig "b"]) ∧
      sequence.steps defaultConfig di [Terminal defaultConfig "a", Skip, Terminal defaultConfig "b"]
        3 4 100 = some
        (Step.add ((newPath defaultConfig 3 4).h defaultConfig
            (determineGaps defaultConfig 100 di.width).1).toItem ::
          Step.add ((newPath defaultConfig (3 + (determineGaps defaultConfig 100 di.width).1 + di.width)
            (4 + di.height)).h defaultConfig (determineGaps defaultConfig 100 di.width).2).toItem :: steps,
          3 + (determineGaps defaultConfig 100 di.width).1 + di.width, 4 + di.height) :=
  (sequence_cursor_end defaultConfig (by decide!)
    [Terminal defaultConfig "a", Skip, Terminal defaultConfig "b"]
    (by simp) (by
      intro i hi
      simp only [List.mem_cons, List.mem_singleton, List.not_mem_nil, or_false] at hi
      rcases hi with rfl | rfl | rfl <;> rfl) 3 4 100).1

/-! ## The element after placement -/

/-- The method `format` returns its receiver: the text of a leaf is the one it
was built with. -/
theorem format_label (cfg : Config) (r r' : RailItem) (x y w : ℚ)
    (h : format cfg r x y w = some r') : r'.label = r.label := by
  cases r <;> simp only [format, Option.bind_eq_bind, Option.bind_eq_some, Option.pure_def,
    Option.some.injEq, Prod.exists, reduceCtorEq] at h
  all_goals first
    | (subst h; rfl)
    | (obtain ⟨_, _, _, _, _, _, _, _, rfl⟩ := h; rfl)
    | skip
  obtain ⟨s, _, h⟩ := h
  split at h <;> simp only [Option.bind_eq_some, Option.some.injEq] at h <;>
    obtain ⟨_, _, h⟩ := h <;> split at h <;>
    simp only [Option.bind_eq_some, Option.some.injEq] at h <;>
    obtain ⟨_, _, _, _, rfl⟩ := h <;> rfl

/-- The `format` calls on the items of a slice keep the order of the items. -/
theorem formatItems_label (cfg : Config) (args : Nat → Option (ℚ × ℚ × ℚ)) (l l' : List RailItem)
    (i : Nat) (h : formatItems cfg args l i = some l') :
    l'.map RailItem.label = l.map RailItem.label := by
  induction l generalizing i l' with
  | nil =>
    simp only [formatItems, Option.some.injEq] at h
    subst h; rfl
  | cons item rest ih =>
    rw [formatItems] at h
    cases ha : args i with
    | none =>
      rw [ha] at h
      simp only [Option.bind_eq_bind, Option.bind_eq_some, Option.pure_def, Option.some_bind,
        Option.some.injEq] at h
      obtain ⟨rest', hr, rfl⟩ := h
      simp only [List.map_cons, ih rest' (i + 1) hr]
    | some p =>
      rw [ha] at h
      simp only [Option.bind_eq_bind, Option.bind_eq_some, Option.pure_def,
        Option.some.injEq] at h
      obtain ⟨item', hi, rest', hr, rfl⟩ := h
      simp only [List.map_cons, format_label cfg _ _ _ _ _ hi, ih rest' (i + 1) hr]

theorem reverseAbove_label (d : Nat) (placed items : List RailItem)
    (h : placed.map RailItem.label = items.map RailItem.label) :
    (reverseAbove d placed).map RailItem.label =
      ((items.take d).reverse ++ items.drop d).map RailItem.label := by
  simp only [reverseAbove, List.map_append, List.map_reverse, List.map_take, List.map_drop, h]

/-- C21: `format` on a choice or on a multiple choice built from valid branches
returns the element with the metrics it was built with, but with the branches
above the default `d` in reversed order: the texts of its branches are those of
`items[d-1], .., items[0], items[d], ..`, not those of `items`. -/
theorem format_reverses_above (cfg : Config) (d : Int) (t : MultipleChoiceType)
    (items : List RailItem) (c : RailItem)
    (hc : Choice cfg d items = some c ∨ MultipleChoice cfg d t items = some c)
    (hv : validList items = true) (x y w : ℚ) :
    ∃ r, format cfg c x y w = some r ∧ r.base = c.base ∧
      r.items.map RailItem.label =
        ((items.take d.toNat).reverse ++ items.drop d.toNat).map RailItem.label := by
  rcases hc with hc | hc
  · obtain ⟨h0, h1, di, rfl⟩ := Choice_inv cfg d items c hc
    obtain ⟨r, hr⟩ := format_total cfg (.choice di [] d items)
      (by simp only [valid, Bool.and_eq_true, decide_eq_true_eq]; exact ⟨⟨h0, h1⟩, hv⟩) x y w
    refine ⟨r, hr, ?_⟩
    rw [format_choice_placement] at hr
    simp only [Option.bind_eq_some, Option.map_eq_some'] at hr
    obtain ⟨steps, -, placed, hp, added, -, rfl⟩ := hr
    exact ⟨rfl, reverseAbove_label _ _ _ (formatItems_label cfg _ _ _ _ hp)⟩
  · obtain ⟨h0, h1, di, iw, rfl⟩ := MultipleChoice_inv cfg d t items c hc
    obtain ⟨r, hr⟩ := format_total cfg (.multipleChoice di [] d t items iw)
      (by simp only [valid, Bool.and_eq_true, decide_eq_true_eq]; exact ⟨⟨h0, h1⟩, hv⟩) x y w
    refine ⟨r, hr, ?_⟩
    rw [format_multipleChoice_placement] at hr
    simp only [Option.bind_eq_some, Option.map_eq_some'] at hr
    obtain ⟨steps, -, placed, hp, added, -, rfl⟩ := hr
    exact ⟨rfl, reverseAbove_label _ _ _ (formatItems_label cfg _ _ _ _ hp)⟩

/-- Witness of C21: after `format`, the branches of
`Choice(2, Terminal("a"), Terminal("b"), Terminal("c"))` are `b`, `a`, `c`. -/
theorem format_reverses_above_witness :
    ∃ c r, Choice defaultConfig 2
        [Terminal defaultConfig "a", Terminal defaultConfig "b", Terminal defaultConfig "c"] = some c ∧
      format defaultConfig c 0 0 100 = some r ∧ r.base = c.base ∧
      c.items.map RailItem.label = ["a", "b", "c"] ∧
      r.items.map RailItem.label = ["b", "a", "c"] := by
  obtain ⟨di, hdi⟩ := Choice_some defaultConfig 2
    [Terminal defaultConfig "a", Terminal defaultConfig "b", Terminal defaultConfig "c"]
    (by decide) (by decide) (by decide)
  obtain ⟨r, hr, hb, hl⟩ := format_reverses_above defaultConfig 2 MultipleChoiceAny
    [Terminal defaultConfig "a", Terminal defaultConfig "b", Terminal defaultConfig "c"] _
    (Or.inl hdi) rfl 0 0 100
  exact ⟨_, r, hdi, hr, hb, rfl, hl⟩

/-! ## Two divergences on concrete elements -/

/-- C22: under the default configuration (`R = 10`, `V = 8`), the element
`Optional(Stack(Terminal("a"), Terminal("b")))` is built without a panic and
has width 108, height 40, up 20 and down `-29`: `Choice` subtracts the height
of the default branch (40) from the down extent of the last branch (11), also
when the default is the last branch. -/
theorem Optional_Stack_down_negative :
    0 ≤ defaultConfig.ConfigArcRadius ∧ 0 ≤ defaultConfig.ConfigVerticalSeparation ∧
    (Stack defaultConfig [Terminal defaultConfig "a", Terminal defaultConfig "b"]).map
      (fun s => (s.width, s.height, s.up, s.down)) = some (68, 40, 11, 11) ∧
    ((Stack defaultConfig [Terminal defaultConfig "a", Terminal defaultConfig "b"]).bind
      fun s => Optional defaultConfig s []).map
      (fun r => (r.width, r.height, r.up, r.down)) = some (108, 40, 20, -29) ∧
    ((Stack defaultConfig [Terminal defaultConfig "a", Terminal defaultConfig "b"]).bind
      fun s => Choice defaultConfig 0 [s]).map RailItem.down = some (-29) := by
  decide!

/-- C29: under the default configuration, `OptionalSequence(Terminal("a"),
Terminal("b"))` has width 136.  Placed at `(0, 0)` with that width, its items
stand at `x = 20` and `x = 68`, each 28 wide; the last rail of the main line
starts at `x = 96` and is 20 long, and the bypass of the second item ends at
`x = 116` as well, while the right gap rail starts at `x = 136`: the 20 units
between 116 and 136 are not drawn. -/
theorem OptionalSequence_hole :
    (OptionalSequence defaultConfig [Terminal defaultConfig "a", Terminal defaultConfig "b"]).map
      RailItem.width = some 136 ∧
    ((OptionalSequence defaultConfig [Terminal defaultConfig "a", Terminal defaultConfig "b"]).bind
      fun r => (optionalSequence.steps defaultConfig (r.base.getD (newDiagramItem "g" [])) r.items
        0 0 136).map fun s => (placeArgs s.1 0, placeArgs s.1 1)) =
      some (some (20, 0, 28), some (68, 0, 28)) ∧
    ((OptionalSequence defaultConfig [Terminal defaultConfig "a", Terminal defaultConfig "b"]).bind
      fun r => format defaultConfig r 0 0 136).map RailItem.pathData =
      some ["M0 0h0", "M136 0h0",
        "M0 0a10 10 0 0 0 10 -10v0a10 10 0 0 1 10 -10h28a10 10 0 0 1 10 10v0a10 10 0 0 0 10 10",
        "M0 0h20", "M48 0h20", "M96 0h20",
        "M48 0a10 10 0 0 1 10 10v0a10 10 0 0 0 10 10h28a10 10 0 0 0 10 -10v0a10 10 0 0 1 10 -10"] := by
  decide!

/-! ## The widths handed down by placement -/

theorem placeArgs_mem (steps : List Step) (i : Nat) (x y w : ℚ)
    (h : placeArgs steps i = some (x, y, w)) : Step.place i x y w ∈ steps := by
  induction steps with
  | nil => simp [placeArgs] at h
  | cons s rest ih =>
    cases s with
    | add c =>
      simp only [placeArgs] at h
      exact List.mem_cons_of_mem _ (ih h)
    | place j x' y' w' =>
      simp only [placeArgs] at h
      by_cases hj : j = i
      · rw [if_pos hj] at h
        simp only [Option.some.injEq, Prod.mk.injEq] at h
        obtain ⟨rfl, rfl, rfl⟩ := h
        subst hj
        exact List.mem_cons_self _ _
      · rw [if_neg hj] at h
        exact List.mem_cons_of_mem _ (ih h)

/-- The steps of a loop place an item only as a run of the body does. -/
theorem forRange_places {σ : Type} (body : RailItem → Nat → σ → Option (List Step × σ))
    (R : RailItem → Prop) (P : RailItem → Nat → Nat → ℚ → Prop)
    (hbody : ∀ item j s res, R item → body item j s = some res →
      ∀ i x y w, Step.place i x y w ∈ res.1 → P item j i w)
    (rest : List RailItem) (hR : ∀ r ∈ rest, R r) (i0 : Nat) (s : σ) (res : List Step × σ)
    (h : forRange body rest i0 s = some res) :
    ∀ i x y w, Step.place i x y w ∈ res.1 →
      ∃ k, k < rest.length ∧ P (itemAt rest k) (i0 + k) i w := by
  induction rest generalizing i0 s res with
  | nil =>
    simp only [forRange, Option.some.injEq] at h
    subst h
    intro i x y w hm
    simp at hm
  | cons item rest ih =>
    simp only [forRange, Option.bind_eq_bind, Option.bind_eq_some, Option.pure_def,
      Option.some.injEq, Prod.exists] at h
    obtain ⟨st, s1, hb, tl, s2, ht, rfl⟩ := h
    intro i x y w hm
    rcases List.mem_append.mp hm with hm | hm
    · exact ⟨0, by simp, hbody item i0 s _ (hR _ (List.mem_cons_self _ _)) hb i x y w hm⟩
    · obtain ⟨k, hk, hP⟩ := ih (fun r hr => hR r (List.mem_cons_of_mem _ hr)) (i0 + 1) s1 _ ht
        i x y w hm
      refine ⟨k + 1, by simp; omega, ?_⟩
      have e : i0 + 1 + k = i0 + (k + 1) := by omega
      rw [e] at hP
      exact hP

theorem fitsItems_of (cfg : Config) (args : Nat → Option (ℚ × ℚ × ℚ)) (l : List RailItem)
    (i : Nat)
    (hw : ∀ k, k < l.length → ∀ x y w, args (i + k) = some (x, y, w) → (itemAt l k).width ≤ w)
    (hf : ∀ item ∈ l, ∀ x y w, fits cfg item x y w = true) :
    fitsItems cfg args l i = true := by
  induction l generalizing i with
  | nil => rfl
  | cons item rest ih =>
    rw [fitsItems, Bool.and_eq_true]
    constructor
    · cases ha : args i with
      | none => rfl
      | some p =>
        obtain ⟨x, y, w⟩ := p
        simp only [Bool.and_eq_true, decide_eq_true_eq]
        exact ⟨hw 0 (by simp) x y w ha, hf item (List.mem_cons_self _ _) x y w⟩
    · refine ih (i + 1) ?_ (fun it hit => hf it (List.mem_cons_of_mem _ hit))
      intro k hk x y w ha
      have e : i + 1 + k = i + (k + 1) := by omega
      rw [e] at ha
      exact hw (k + 1) (by simp; omega) x y w ha

theorem sequence_formatBody_places (cfg : Config) (n : Nat) (item : RailItem) (j : Nat)
    (c : ℚ × ℚ) (res : List Step × (ℚ × ℚ)) (hi : item.isText = false)
    (h : sequence.formatBody cfg n item j c = some res) :
    ∀ i x y w, Step.place i x y w ∈ res.1 → i = j ∧ w = item.width := by
  obtain ⟨x, y⟩ := c
  simp only [sequence.formatBody, getHeight_eq hi, getWidth_eq hi, getNeedsSpace_eq hi,
    Option.bind_eq_bind, Option.some_bind, Option.pure_def, Option.some.injEq] at h
  subst h
  intro i x' y' w hm
  by_cases hn : item.needsSpace = true <;> by_cases h0 : j > 0 <;>
    by_cases hl : (j : Int) < (n : Int) - 1 <;> simp [hn, h0, hl] at hm <;> exact ⟨hm.1, hm.2.2.2⟩

theorem diagram_formatBody_places (cfg : Config) (item : RailItem) (j : Nat)
    (c : ℚ × ℚ) (res : List Step × (ℚ × ℚ)) (hi : item.isText = false)
    (h : diagram.formatBody cfg item j c = some res) :
    ∀ i x y w, Step.place i x y w ∈ res.1 → i = j ∧ w = item.width := by
  obtain ⟨x, y⟩ := c
  simp only [diagram.formatBody, getHeight_eq hi, getWidth_eq hi,
    Option.bind_eq_bind, Option.pure_def] at h
  cases hn : item.getNeedsSpace with
  | none => simp [hn] at h
  | some b =>
    simp only [hn, Option.some_bind, Option.some.injEq] at h
    subst h
    intro i x' y' w hm
    cases b <;> simp at hm <;> exact ⟨hm.1, hm.2.2.2⟩

theorem stack_formatBody_places (cfg : Config) (items : List RailItem) (xi iw : ℚ)
    (item : RailItem) (j : Nat) (c : ℚ × ℚ) (res : List Step × (ℚ × ℚ))
    (h : stack.formatBody cfg items xi iw item j c = some res) :
    ∀ i x y w, Step.place i x y w ∈ res.1 → w = iw := by
  obtain ⟨x, y⟩ := c
  simp only [stack.formatBody, Option.bind_eq_bind, Option.pure_def, Option.bind_eq_some] at h
  obtain ⟨ht, -, h⟩ := h
  split at h
  · simp only [Option.bind_eq_some, Option.some.injEq] at h
    obtain ⟨_, -, _, -, _, -, _, -, rfl⟩ := h
    intro i x' y' w hm
    simp at hm
    exact hm.2.2.2
  · simp only [Option.some.injEq] at h
    subst h
    intro i x' y' w hm
    simp at hm
    exact hm.2.2.2

theorem optionalSequence_formatBody_places (cfg : Config) (u : ℚ) (last : Int)
    (item : RailItem) (j : Nat) (c : ℚ × ℚ) (res : List Step × (ℚ × ℚ))
    (hi : item.isText = false)
    (h : optionalSequence.formatBody cfg u last item j c = some res) :
    ∀ i x y w, Step.place i x y w ∈ res.1 → i = j ∧ w = item.width := by
  obtain ⟨x, y⟩ := c
  simp only [optionalSequence.formatBody, getHeight_eq hi, getWidth_eq hi, getNeedsSpace_eq hi,
    Option.bind_eq_bind, Option.pure_def, Option.some_bind] at h
  split at h
  · simp only [Option.bind_eq_some, Option.some.injEq] at h
    obtain ⟨_, -, rfl⟩ := h
    intro i x' y' w hm
    simp at hm
    exact ⟨hm.1, hm.2.2.2⟩
  · split at h
    · simp only [Option.bind_eq_some, Option.some.injEq] at h
      obtain ⟨_, -, _, -, rfl⟩ := h
      intro i x' y' w hm
      simp at hm
      exact ⟨hm.1, hm.2.2.2⟩
    · simp only [Option.bind_eq_some, Option.some.injEq] at h
      obtain ⟨_, -, rfl⟩ := h
      intro i x' y' w hm
      simp at hm
      exact ⟨hm.1, hm.2.2.2⟩

theorem choice_aboveBody_places (cfg : Config) (x y iw : ℚ) (dflt : RailItem)
    (above : List RailItem) (item : RailItem) (j : Nat) (s : ℚ) (res : List Step × ℚ)
    (h : choice.aboveBody cfg x y iw dflt above item j s = some res) :
    ∀ i x y w, Step.place i x y w ∈ res.1 → w = iw := by
  simp only [choice.aboveBody, Option.bind_eq_bind, Option.pure_def, Option.bind_eq_some,
    Option.some.injEq] at h
  obtain ⟨_, -, _, -, h⟩ := h
  split at h <;> simp only [Option.bind_eq_some, Option.some_bind, Option.some.injEq] at h <;>
    repeat (obtain ⟨_, -, h⟩ := h)
  all_goals
    try subst h
    intro i x' y' w hm
    simp at hm
    exact hm.2.2.2

theorem choice_belowBody_places (cfg : Config) (x y iw : ℚ) (dflt : RailItem)
    (below : List RailItem) (first : Nat) (item : RailItem) (j : Nat) (s : ℚ)
    (res : List Step × ℚ)
    (h : choice.belowBody cfg x y iw dflt below first item j s = some res) :
    ∀ i x y w, Step.place i x y w ∈ res.1 → w = iw := by
  simp only [choice.belowBody, Option.bind_eq_bind, Option.pure_def, Option.bind_eq_some,
    Option.some.injEq] at h
  obtain ⟨_, -, _, -, h⟩ := h
  split at h <;> simp only [Option.bind_eq_some, Option.some_bind, Option.some.injEq] at h <;>
    repeat (obtain ⟨_, -, h⟩ := h)
  all_goals
    try subst h
    intro i x' y' w hm
    simp at hm
    exact hm.2.2.2

theorem multipleChoice_aboveBody_places (cfg : Config) (x y iw : ℚ) (dflt : RailItem)
    (above : List RailItem) (item : RailItem) (j : Nat) (s : ℚ) (res : List Step × ℚ)
    (h : multipleChoice.aboveBody cfg x y iw dflt above item j s = some res) :
    ∀ i x y w, Step.place i x y w ∈ res.1 → w = iw := by
  simp only [multipleChoice.aboveBody, Option.bind_eq_bind, Option.pure_def, Option.bind_eq_some,
    Option.some.injEq] at h
  obtain ⟨_, -, _, -, h⟩ := h
  split at h <;> simp only [Option.bind_eq_some, Option.some_bind, Option.some.injEq] at h <;>
    repeat (obtain ⟨_, -, h⟩ := h)
  all_goals
    try subst h
    intro i x' y' w hm
    simp at hm
    exact hm.2.2.2

theorem multipleChoice_belowBody_places (cfg : Config) (x y iw : ℚ) (dflt : RailItem)
    (below : List RailItem) (first : Nat) (item : RailItem) (j : Nat) (s : ℚ)
    (res : List Step × ℚ)
    (h : multipleChoice.belowBody cfg x y iw dflt below first item j s = some res) :
    ∀ i x y w, Step.place i x y w ∈ res.1 → w = iw := by
  simp only [multipleChoice.belowBody, Option.bind_eq_bind, Option.pure_def, Option.bind_eq_some,
    Option.some.injEq] at h
  obtain ⟨_, -, _, -, h⟩ := h
  split at h <;> simp only [Option.bind_eq_some, Option.some_bind, Option.some.injEq] at h <;>
    repeat (obtain ⟨_, -, h⟩ := h)
  all_goals
    try subst h
    intro i x' y' w hm
    simp at hm
    exact hm.2.2.2

theorem sequence_steps_places (cfg : Config) (self : diagramItem) (items : List RailItem)
    (hi : ∀ r ∈ items, r.isText = false) (x y width : ℚ) (res : List Step × ℚ × ℚ)
    (h : sequence.steps cfg self items x y width = some res) :
    ∀ i x y w, Step.place i x y w ∈ res.1 → i < items.length ∧ w = (itemAt items i).width := by
  simp only [sequence.steps, Option.bind_eq_bind, Option.pure_def, Option.bind_eq_some,
    Option.some.injEq, Prod.exists] at h
  obtain ⟨tail, x', y', ht, rfl⟩ := h
  intro i x0 y0 w hm
  simp only [List.mem_cons, reduceCtorEq, false_or] at hm
  obtain ⟨k, hk, rfl, hw⟩ := forRange_places _ (fun r => r.isText = false)
    (fun item j i w => i = j ∧ w = item.width)
    (fun item j s res hr hb => sequence_formatBody_places cfg _ item j s res hr hb)
    items hi 0 _ _ ht i x0 y0 w hm
  simp only [Nat.zero_add]
  exact ⟨hk, hw⟩

theorem optionalSequence_steps_places (cfg : Config) (self : diagramItem)
    (items : List RailItem)
    (hi : ∀ r ∈ items, r.isText = false) (x y width : ℚ) (res : List Step × ℚ × ℚ)
    (h : optionalSequence.steps cfg self items x y width = some res) :
    ∀ i x y w, Step.place i x y w ∈ res.1 → i < items.length ∧ w = (itemAt items i).width := by
  simp only [optionalSequence.steps, Option.bind_eq_bind, Option.pure_def, Option.bind_eq_some,
    Option.some.injEq, Prod.exists] at h
  obtain ⟨tail, x', y', ht, rfl⟩ := h
  intro i x0 y0 w hm
  simp only [List.mem_cons, reduceCtorEq, false_or] at hm
  obtain ⟨k, hk, rfl, hw⟩ := forRange_places _ (fun r => r.isText = false)
    (fun item j i w => i = j ∧ w = item.width)
    (fun item j s res hr hb => optionalSequence_formatBody_places cfg _ _ item j s res hr hb)
    items hi 0 _ _ ht i x0 y0 w hm
  simp only [Nat.zero_add]
  exact ⟨hk, hw⟩

theorem diagram_steps_places (cfg : Config) (items : List RailItem)
    (hi : ∀ r ∈ items, r.isText = false) (c : ℚ × ℚ) (res : List Step × ℚ × ℚ)
    (h : forRange (diagram.formatBody cfg) items 0 c = some res) :
    ∀ i x y w, Step.place i x y w ∈ res.1 → i < items.length ∧ w = (itemAt items i).width := by
  intro i x0 y0 w hm
  obtain ⟨k, hk, rfl, hw⟩ := forRange_places _ (fun r => r.isText = false)
    (fun item j i w => i = j ∧ w = item.width)
    (fun item j s res hr hb => diagram_formatBody_places cfg item j s res hr hb)
    items hi 0 _ _ h i x0 y0 w hm
  simp only [Nat.zero_add]
  exact ⟨hk, hw⟩

theorem stack_steps_places (cfg : Config) (self : diagramItem) (items : List RailItem)
    (x y width : ℚ) (res : List Step × ℚ × ℚ)
    (h : stack.steps cfg self items x y width = some res) :
    ∀ i x y w, Step.place i x y w ∈ res.1 →
      w = if items.length > 1 then self.width - cfg.ConfigArcRadius * 2 else self.width := by
  simp only [stack.steps, Option.bind_eq_bind, Option.pure_def, Option.bind_eq_some,
    Option.some.injEq, Prod.exists] at h
  obtain ⟨s2, x', y', ht, rfl⟩ := h
  intro i x0 y0 w hm
  have key := forRange_places _ (fun _ => True) (fun _ _ _ w => w =
      if items.length > 1 then self.width - cfg.ConfigArcRadius * 2 else self.width)
    (fun item j s res _ hb => by
      have := stack_formatBody_places cfg _ _ _ item j s res hb
      intro i x y w hm
      rw [this i x y w hm]
      split <;> rfl)
    items (fun _ _ => trivial) 0 _ _ ht i x0 y0 w
  by_cases hl : items.length > 1
  · simp only [hl, if_true, List.mem_append, List.mem_cons, List.mem_singleton, reduceCtorEq,
      List.not_mem_nil, or_false, false_or] at hm key ⊢
    obtain ⟨k, -, hw⟩ := key hm
    exact hw
  · simp only [hl, if_false, List.mem_append, List.mem_cons, List.mem_singleton, reduceCtorEq,
      List.not_mem_nil, or_false, false_or] at hm key ⊢
    obtain ⟨k, -, hw⟩ := key hm
    exact hw

theorem choice_steps_places (cfg : Config) (self : diagramItem) (d : Int)
    (items : List RailItem) (x y width : ℚ) (steps : List Step)
    (h : choice.steps cfg self d items x y width = some steps) :
    ∀ i x y w, Step.place i x y w ∈ steps → w = self.width - cfg.ConfigArcRadius * 4 := by
  simp only [choice.steps, Option.bind_eq_bind, Option.pure_def, Option.bind_eq_some,
    Option.some.injEq, Prod.exists] at h
  obtain ⟨dflt, -, dA, -, sa, dA2, hsa, dB, -, sb, dB2, hsb, rfl⟩ := h
  intro i x0 y0 w hm
  have ka := forRange_places _ (fun _ => True)
    (fun _ _ _ w => w = self.width - cfg.ConfigArcRadius * 4)
    (fun item j s res _ hb => choice_aboveBody_places cfg _ _ _ _ _ item j s res hb)
    _ (fun _ _ => trivial) 0 _ _ hsa i x0 y0 w
  have kb := forRange_places _ (fun _ => True)
    (fun _ _ _ w => w = self.width - cfg.ConfigArcRadius * 4)
    (fun item j s res _ hb => choice_belowBody_places cfg _ _ _ _ _ _ item j s res hb)
    _ (fun _ _ => trivial) 0 _ _ hsb i x0 y0 w
  simp only [List.mem_append, List.mem_cons, List.mem_singleton, reduceCtorEq,
    List.not_mem_nil, or_false, false_or, Step.place.injEq] at hm
  rcases hm with (hm | hm) | hm
  · obtain ⟨k, -, hw⟩ := ka hm
    exact hw
  · exact hm.2.2.2
  · obtain ⟨k, -, hw⟩ := kb hm
    exact hw

theorem multipleChoice_steps_places (cfg : Config) (self : diagramItem) (d : Int) (t : String)
    (items : List RailItem) (iw x y width : ℚ) (steps : List Step)
    (h : multipleChoice.steps cfg self d t items iw x y width = some steps) :
    ∀ i x y w, Step.place i x y w ∈ steps → w = iw := by
  simp only [multipleChoice.steps, Option.bind_eq_bind, Option.pure_def, Option.bind_eq_some,
    Option.some.injEq, Prod.exists] at h
  obtain ⟨dflt, -, dA, -, sa, dA2, hsa, dB, -, sb, dB2, hsb, rfl⟩ := h
  intro i x0 y0 w hm
  have ka := forRange_places _ (fun _ => True) (fun _ _ _ w => w = iw)
    (fun item j s res _ hb => multipleChoice_aboveBody_places cfg _ _ _ _ _ item j s res hb)
    _ (fun _ _ => trivial) 0 _ _ hsa i x0 y0 w
  have kb := forRange_places _ (fun _ => True) (fun _ _ _ w => w = iw)
    (fun item j s res _ hb => multipleChoice_belowBody_places cfg _ _ _ _ _ _ item j s res hb)
    _ (fun _ _ => trivial) 0 _ _ hsb i x0 y0 w
  simp only [List.mem_append, List.mem_cons, List.mem_singleton, reduceCtorEq,
    List.not_mem_nil, or_false, false_or, Step.place.injEq] at hm
  rcases hm with ((hm | hm) | hm)
  · obtain ⟨k, -, hw⟩ := ka hm
    exact hw
  · exact hm.2.2.2
  · obtain ⟨k, -, hw⟩ := kb hm
    exact hw

theorem oneOrMore_steps_places (cfg : Config) (self : diagramItem) (item rep : RailItem)
    (x y width : ℚ) (steps : List Step)
    (h : oneOrMore.steps cfg self item rep x y width = some steps) :
    ∀ i x y w, Step.place i x y w ∈ steps → w = self.width - cfg.ConfigArcRadius * 2 := by
  simp only [oneOrMore.steps, Option.bind_eq_bind, Option.pure_def, Option.bind_eq_some,
    Option.some.injEq, Prod.exists] at h
  obtain ⟨_, -, _, -, _, -, _, -, _, -, rfl⟩ := h
  intro i x0 y0 w hm
  simp only [List.mem_cons, List.mem_singleton, reduceCtorEq, List.not_mem_nil, or_false,
    false_or, Step.place.injEq] at hm
  rcases hm with hm | hm
  · exact hm.2.2.2
  · exact hm.2.2.2

theorem fits_sequence (cfg : Config) (di : diagramItem) (ch items : List RailItem)
    (hi : ∀ r ∈ items, r.isText = false)
    (hf : ∀ item ∈ items, ∀ x y w, fits cfg item x y w = true) (x y w : ℚ) :
    fits cfg (.sequence di ch items) x y w = true := by
  rw [fits]
  cases hs : sequence.steps cfg di items x y w with
  | none => rfl
  | some res =>
    obtain ⟨steps, x', y'⟩ := res
    refine fitsItems_of cfg _ items 0 ?_ hf
    intro k hk x0 y0 w0 ha
    rw [Nat.zero_add] at ha
    exact le_of_eq (sequence_steps_places cfg di items hi x y w _ hs k x0 y0 w0
      (placeArgs_mem _ _ _ _ _ ha)).2.symm

theorem fits_optionalSequence (cfg : Config) (di : diagramItem) (ch items : List RailItem)
    (hi : ∀ r ∈ items, r.isText = false)
    (hf : ∀ item ∈ items, ∀ x y w, fits cfg item x y w = true) (x y w : ℚ) :
    fits cfg (.optionalSequence di ch items) x y w = true := by
  rw [fits]
  cases hs : optionalSequence.steps cfg di items x y w with
  | none => rfl
  | some res =>
    obtain ⟨steps, x', y'⟩ := res
    refine fitsItems_of cfg _ items 0 ?_ hf
    intro k hk x0 y0 w0 ha
    rw [Nat.zero_add] at ha
    exact le_of_eq (optionalSequence_steps_places cfg di items hi x y w _ hs k x0 y0 w0
      (placeArgs_mem _ _ _ _ _ ha)).2.symm

theorem fits_stack (cfg : Config) (items : List RailItem) (r : RailItem)
    (hr : Stack cfg items = some r)
    (hi : ∀ r ∈ items, r.isText = false)
    (hf : ∀ item ∈ items, ∀ x y w, fits cfg item x y w = true) (x y w : ℚ) :
    fits cfg r x y w = true := by
  obtain ⟨hne, -⟩ := Stack_inv cfg items r hr
  rw [Stack_eq cfg items hne hi] at hr
  simp only [Option.some.injEq] at hr
  subst hr
  rw [fits]
  split
  · rename_i steps x' y' hs
    refine fitsItems_of cfg _ items 0 ?_ hf
    intro k hk x0 y0 w0 ha
    rw [Nat.zero_add] at ha
    have hw := stack_steps_places cfg _ items x y w _ hs k x0 y0 w0 (placeArgs_mem _ _ _ _ _ ha)
    have hm := (Stack_maxSpaced_spec items 0).2.1 _ (itemAt_mem items k hk)
    have hsw : (itemAt items k).width ≤ spacedWidth (itemAt items k) := by
      unfold spacedWidth
      split <;> linarith
    rw [hw]
    by_cases hl : 1 < items.length
    · simp only [gt_iff_lt, hl, if_true]
      linarith
    · simp only [gt_iff_lt, hl, if_false]
      linarith
  · rfl

theorem fits_choice (cfg : Config) (d : Int) (items : List RailItem) (r : RailItem)
    (hr : Choice cfg d items = some r)
    (hi : ∀ r ∈ items, r.isText = false)
    (hf : ∀ item ∈ items, ∀ x y w, fits cfg item x y w = true) (x y w : ℚ) :
    fits cfg r x y w = true := by
  obtain ⟨h0, h1, -⟩ := Choice_inv cfg d items r hr
  obtain ⟨n, rfl⟩ : ∃ n : Nat, d = n := ⟨d.toNat, by omega⟩
  rw [Choice_eq cfg n items hi (by omega)] at hr
  simp only [Option.some.injEq] at hr
  subst hr
  rw [fits]
  split
  · rename_i steps hs
    refine fitsItems_of cfg _ items 0 ?_ hf
    intro k hk x0 y0 w0 ha
    have hw := choice_steps_places cfg _ _ items x y w _ hs _ x0 y0 w0 (placeArgs_mem _ _ _ _ _ ha)
    have hm := (maxWidth_spec items).2.1 _ (itemAt_mem items k hk)
    rw [hw]
    dsimp only
    linarith
  · rfl

theorem fits_multipleChoice (cfg : Config) (d : Int) (t : MultipleChoiceType)
    (items : List RailItem) (r : RailItem)
    (hr : MultipleChoice cfg d t items = some r)
    (hi : ∀ r ∈ items, r.isText = false)
    (hf : ∀ item ∈ items, ∀ x y w, fits cfg item x y w = true) (x y w : ℚ) :
    fits cfg r x y w = true := by
  obtain ⟨h0, h1, -⟩ := MultipleChoice_inv cfg d t items r hr
  obtain ⟨n, rfl⟩ : ∃ n : Nat, d = n := ⟨d.toNat, by omega⟩
  rw [MultipleChoice_eq cfg n t items hi (by omega)] at hr
  simp only [Option.some.injEq] at hr
  subst hr
  rw [fits]
  split
  · rename_i steps hs
    refine fitsItems_of cfg _ items 0 ?_ hf
    intro k hk x0 y0 w0 ha
    have hw := multipleChoice_steps_places cfg _ _ _ items _ x y w _ hs _ x0 y0 w0
      (placeArgs_mem _ _ _ _ _ ha)
    have hm := (maxWidth_spec items).2.1 _ (itemAt_mem items k hk)
    rw [hw]
    exact hm
  · rfl

theorem OneOrMore_width (cfg : Config) (item : RailItem) (options : List OneOrMoreOption)
    (r : RailItem) (h : OneOrMore cfg item options = some r) :
    ∃ di rep, r = .oneOrMore di [] item rep ∧
      di.width = max item.width rep.width + cfg.ConfigArcRadius * 2 ∧
      (rep = Skip ∨ ∃ o ∈ options, o.repeat_ = some (some rep)) := by
  obtain ⟨di, rep, hr, hrep⟩ := OneOrMore_inv cfg item options r h
  refine ⟨di, rep, hr, ?_, hrep⟩
  subst hr
  simp only [OneOrMore, Option.bind_eq_bind, Option.bind_eq_some, Option.pure_def,
    Option.some.injEq] at h
  obtain ⟨w1, hw1, w2, hw2, _, -, _, -, _, -, _, -, _, -, _, -, h⟩ := h
  simp only [RailItem.oneOrMore.injEq] at h
  obtain ⟨hdi, -, -, hrep2⟩ := h
  rw [← hdi]
  simp only [RailItem.width, hw1, Option.getD_some]
  rw [← hrep2, hw2, Option.getD_some]

theorem fits_oneOrMore (cfg : Config) (item : RailItem) (options : List OneOrMoreOption)
    (r : RailItem) (hr : OneOrMore cfg item options = some r)
    (hf : ∀ x y w, fits cfg item x y w = true)
    (hfr : ∀ o ∈ options, ∀ rep, o.repeat_ = some (some rep) → ∀ x y w, fits cfg rep x y w = true)
    (x y w : ℚ) : fits cfg r x y w = true := by
  obtain ⟨di, rep, rfl, hw, hrep⟩ := OneOrMore_width cfg item options r hr
  have hfrep : ∀ x y w, fits cfg rep x y w = true := by
    rcases hrep with rfl | ⟨o, ho, hoe⟩
    · intro x y w; rfl
    · exact hfr o ho rep hoe
  rw [fits]
  split
  · rename_i steps hs
    have hp := oneOrMore_steps_places cfg di item rep x y w steps hs
    rw [Bool.and_eq_true]
    constructor
    · split
      · rename_i x0 y0 w0 ha
        simp only [Bool.and_eq_true, decide_eq_true_eq]
        refine ⟨?_, hf _ _ _⟩
        rw [hp _ _ _ _ (placeArgs_mem _ _ _ _ _ ha), hw]
        have := le_max_left item.width rep.width
        linarith
      · rfl
    · split
      · rename_i x0 y0 w0 ha
        simp only [Bool.and_eq_true, decide_eq_true_eq]
        refine ⟨?_, hfrep _ _ _⟩
        rw [hp _ _ _ _ (placeArgs_mem _ _ _ _ _ ha), hw]
        have := le_max_right item.width rep.width
        linarith
      · rfl
  · rfl

theorem determineGaps_nonneg (cfg : Config) (outer inner : ℚ) (h : inner ≤ outer) :
    0 ≤ (determineGaps cfg outer inner).1 ∧ 0 ≤ (determineGaps cfg outer inner).2 := by
  have hd : 0 ≤ outer - inner := by linarith
  have ht : 0 ≤ (toInt (outer - inner)).tdiv 2 := by
    apply Int.tdiv_nonneg _ (by norm_num)
    unfold toInt
    exact Int.tdiv_nonneg (Rat.num_nonneg.mpr hd) (by exact_mod_cast Nat.zero_le _)
  unfold determineGaps
  dsimp only
  split
  · exact ⟨le_refl _, hd⟩
  · split
    · exact ⟨hd, le_refl _⟩
    · have hq : (0 : ℚ) ≤ (((toInt (outer - inner)).tdiv 2 : Int) : ℚ) := by exact_mod_cast ht
      exact ⟨hq, hq⟩

/-- Every element built with the public constructors hands a sufficient width
down when it is placed. -/
theorem Built_fits {cfg : Config} {r : RailItem} (h : Built cfg r) :
    ∀ x y w, fits cfg r x y w = true := by
  induction h with
  | terminal text => intro x y w; rfl
  | nonTerminal text => intro x y w; rfl
  | text text => intro x y w; rfl
  | comment text => intro x y w; rfl
  | skip => intro x y w; rfl
  | style css => intro x y w; rfl
  | sequence items r hb hr ih =>
    obtain ⟨-, di, rfl⟩ := Sequence_inv items r hr
    exact fits_sequence cfg di [] items (fun i hi => valid_notText i (Built_valid (hb i hi))) ih
  | stack items r hb hr ih =>
    exact fits_stack cfg items r hr (fun i hi => valid_notText i (Built_valid (hb i hi))) ih
  | optionalSequence items r hb hr ih =>
    rcases OptionalSequence_inv cfg items r hr with ⟨di, rfl⟩ | ⟨di, rfl⟩
    · exact fits_sequence cfg di [] items (fun i hi => valid_notText i (Built_valid (hb i hi))) ih
    · exact fits_optionalSequence cfg di [] items
        (fun i hi => valid_notText i (Built_valid (hb i hi))) ih
  | choice d items r hb hr ih =>
    exact fits_choice cfg d items r hr (fun i hi => valid_notText i (Built_valid (hb i hi))) ih
  | multipleChoice d t items r hb hr ih =>
    exact fits_multipleChoice cfg d t items r hr
      (fun i hi => valid_notText i (Built_valid (hb i hi))) ih
  | optional item options r hb hr ih =>
    unfold Optional at hr
    refine fits_choice cfg _ [Skip, item] r hr ?_ ?_
    · intro i hi
      simp only [List.mem_cons, List.mem_singleton, List.not_mem_nil, or_false] at hi
      rcases hi with rfl | rfl
      · rfl
      · exact valid_notText _ (Built_valid hb)
    · intro i hi
      simp only [List.mem_cons, List.mem_singleton, List.not_mem_nil, or_false] at hi
      rcases hi with rfl | rfl
      · intro x y w; rfl
      · exact ih
  | oneOrMore item options r hb hbr hr ih ihr =>
    exact fits_oneOrMore cfg item options r hr ih ihr
  | zeroOrMore item options r hb hbr hr ih ihr =>
    simp only [ZeroOrMore, Option.bind_eq_bind, Option.bind_eq_some] at hr
    obtain ⟨o, ho, hr⟩ := hr
    have hfo : ∀ x y w, fits cfg o x y w = true := by
      refine fits_oneOrMore cfg item _ o ho ih ?_
      intro o' ho' rep hoe
      simp only [List.mem_singleton] at ho'
      subst ho'
      simp only [OneOrMoreRepeat, Option.some.injEq] at hoe
      rcases lastSet_spec ZeroOrMoreOption.repeat_ options none with hn | ⟨o2, ho2, hoe2⟩
      · rw [hn] at hoe; exact absurd hoe (by simp)
      · rw [hoe] at hoe2
        exact ihr o2 ho2 rep hoe2
    obtain ⟨di', rep, rfl, -⟩ := OneOrMore_inv cfg item _ o ho
    unfold Optional at hr
    refine fits_choice cfg _ [Skip, _] r hr ?_ ?_
    · intro i hi
      simp only [List.mem_cons, List.mem_singleton, List.not_mem_nil, or_false] at hi
      rcases hi with rfl | rfl <;> rfl
    · intro i hi
      simp only [List.mem_cons, List.mem_singleton, List.not_mem_nil, or_false] at hi
      rcases hi with rfl | rfl
      · intro x y w; rfl
      · exact hfo

/-- C25 as stated fails in `float64`.  With `ConfigArcRadius = 7.7`, the
terminal `a` is 28 wide and `Choice(0, Terminal("a"))` has the width
`28 + 30.8`, rounded; `choice.format` takes `30.8` off again and hands the
terminal the inner width `28 - 2^-48`, below its width, and with the alignment
`left` the right gap returned by `determineGaps` is `-2^-48`.  With
`ConfigCharacterAdvance = 6.3` (and the arc radius 10) the terminal `a` is
`26.3` wide, rounded, and the inner width handed to it is `2^-48` less. -/
theorem placement_width_rounding_counterexample :
    (Terminal configArcRadius77 "a").width = 28 ∧
    maxWidth [Terminal configArcRadius77 "a"] = 28 ∧
    widthWithArcs64 configArcRadius77 4 (maxWidth [Terminal configArcRadius77 "a"]) =
      4137682157646643 / 70368744177664 ∧
    innerWidth64 configArcRadius77 4
      (widthWithArcs64 configArcRadius77 4 (maxWidth [Terminal configArcRadius77 "a"])) =
      28 - 1 / 2 ^ 48 ∧
    determineGaps64 configArcRadius77 (28 - 1 / 2 ^ 48) 28 = (0, -(1 / 2 ^ 48)) ∧
    Terminal.width64 configAdvance63 "a" = 7402791887490253 / 281474976710656 ∧
    innerWidth64 configAdvance63 4
      (widthWithArcs64 configAdvance63 4 (Terminal.width64 configAdvance63 "a")) =
      Terminal.width64 configAdvance63 "a" - 1 / 2 ^ 48 := by
  decide!

/-- C25, amended: under a configuration on which the `float64` arithmetic of the
metrics is exact (its distances are integers), for
every diagram of elements built with the public constructors, `Diagram` and
`diagram.format` return, and every `format` call made while the diagram is
placed, at any depth, receives a width that is at least the width of the
element it is made on; neither gap returned by `determineGaps` is negative
then.  On such a configuration the `float64` computation is the exact one:
the inner width that `choice.format`, `stack.format` and `oneOrMore.format`
compute by taking the margin of arcs off again is the maximum that the
constructor started from, and `determineGaps` takes the difference without
rounding. -/
theorem placement_widths_fit (cfg : Config) (items : List RailItem)
    (h : ∀ i ∈ items, Built cfg i) (hx : cfg.exact64 = true) :
    (∃ d, Diagram cfg items = some d ∧ (∀ x y w, ∃ d', d.format cfg x y w = some d') ∧
      diagram.fits cfg d = true) ∧
    (∀ r, Built cfg r → ∀ x y w, fits cfg r x y w = true) ∧
    (∀ outer inner : ℚ, inner ≤ outer →
      0 ≤ (determineGaps cfg outer inner).1 ∧ 0 ≤ (determineGaps cfg outer inner).2) ∧
    (∀ w : ℚ, exact64 w = true →
      innerWidth64 cfg 4 (widthWithArcs64 cfg 4 w) = w ∧
      innerWidth64 cfg 2 (widthWithArcs64 cfg 2 w) = w) ∧
    (∀ outer inner : ℚ, exact64 outer = true → exact64 inner = true →
      determineGaps64 cfg outer inner = determineGaps cfg outer inner) := by
  have hv : ∀ i ∈ items, valid i = true := fun i hi => Built_valid (h i hi)
  have hvl := Diagram_items_valid cfg items hv
  refine ⟨⟨_, Diagram_eq cfg items (fun i hi => valid_notText i (hv i hi)), ?_, ?_⟩,
    fun r hr => Built_fits hr, determineGaps_nonneg cfg,
    fun w hw => ⟨innerWidth64_exact cfg 4 w (exact64_arcs cfg hx).2.2 hw,
      innerWidth64_exact cfg 2 w (exact64_arcs cfg hx).2.1 hw⟩,
    determineGaps64_exact cfg⟩
  · intro x y w
    exact diagram_format_some cfg _ hvl x y w
  · unfold diagram.fits
    dsimp only
    split
    · rename_i steps x' y' hs
      refine fitsItems_of cfg _ _ 0 ?_ ?_
      · intro k hk x0 y0 w0 ha
        rw [Nat.zero_add] at ha
        exact le_of_eq (diagram_steps_places cfg _ (validList_notText _ hvl) _ _ hs k x0 y0 w0
          (placeArgs_mem _ _ _ _ _ ha)).2.symm
      · intro r hr
        rw [Diagram_items_eq] at hr
        simp only [List.mem_append, List.mem_cons, List.mem_singleton, List.not_mem_nil,
          or_false] at hr
        rcases hr with (hr | hr | hr) | hr
        · split at hr
          · rw [List.mem_singleton.mp hr]; intro x y w; rfl
          · simp at hr
        · rw [hr]; intro x y w; rfl
        · exact Built_fits (h r hr)
        · rw [hr]; intro x y w; rfl
    · rfl

/-- Witness of C25: `Diagram(Terminal("a"), Comment("b"))` under the default
configuration, whose distances are integers. -/
theorem placement_widths_fit_witness :
    (∃ d, Diagram defaultConfig [Terminal defaultConfig "a", Comment "b"] = some d ∧
      (∀ x y w, ∃ d', d.format defaultConfig x y w = some d') ∧
      diagram.fits defaultConfig d = true) ∧
    (∀ r, Built defaultConfig r → ∀ x y w, fits defaultConfig r x y w = true) ∧
    (∀ outer inner : ℚ, inner ≤ outer →
      0 ≤ (determineGaps defaultConfig outer inner).1 ∧
      0 ≤ (determineGaps defaultConfig outer inner).2) ∧
    (∀ w : ℚ, exact64 w = true →
      innerWidth64 defaultConfig 4 (widthWithArcs64 defaultConfig 4 w) = w ∧
      innerWidth64 defaultConfig 2 (widthWithArcs64 defaultConfig 2 w) = w) ∧
    (∀ outer inner : ℚ, exact64 outer = true → exact64 inner = true →
      determineGaps64 defaultConfig outer inner = determineGaps defaultConfig outer inner) :=
  placement_widths_fit defaultConfig [Terminal defaultConfig "a", Comment "b"] (by
    intro i hi
    simp only [List.mem_cons, List.mem_singleton, List.not_mem_nil, or_false] at hi
    rcases hi with rfl | rfl
    · exact Built.terminal "a"
    · exact Built.comment "b") (by decide!)

/-! ## The connectors of a stack -/

theorem penPath_arc_eq (cfg : Config) (pp : penPath) (sweep : String) :
    pp.arc cfg sweep = (path.arcParams cfg sweep).map fun a =>
      { p := pp.p.arcTo cfg a.1 a.2.1 a.2.2, dx := pp.dx + a.1, dy := pp.dy + a.2.1 } := by
  unfold penPath.arc
  cases path.arcParams cfg sweep with
  | none => rfl
  | some a => rfl

theorem arcParams_ne (cfg : Config) :
    path.arcParams cfg "ne" = some (cfg.ConfigArcRadius, cfg.ConfigArcRadius, 1) := rfl

theorem arcParams_es (cfg : Config) :
    path.arcParams cfg "es" = some (cfg.ConfigArcRadius * (-1), cfg.ConfigArcRadius, 1) := rfl

theorem arcParams_nw (cfg : Config) :
    path.arcParams cfg "nw" = some (cfg.ConfigArcRadius * (-1), cfg.ConfigArcRadius, 0) := rfl

theorem arcParams_ws (cfg : Config) :
    path.arcParams cfg "ws" = some (cfg.ConfigArcRadius, cfg.ConfigArcRadius, 0) := rfl

/-- The connector after row `i` of a stack: the path that `stack.connector`
builds, and the displacement of its pen. -/
theorem stack_connectorPen_eq (cfg : Config) (items : List RailItem)
    (h : ∀ r ∈ items, r.isText = false) (iw : ℚ) (hiw : 0 ≤ iw) (i : Nat)
    (hlt : i + 1 < items.length) (x y : ℚ) :
    ∃ pp, stack.connectorPen cfg items iw (itemAt items i) i x y = some pp ∧
      stack.connector cfg items iw (itemAt items i) i x y = some pp.p ∧
      pp.dx = -iw ∧
      pp.dy = max (2 * cfg.ConfigArcRadius) ((itemAt items i).down + cfg.ConfigVerticalSeparation) +
        max (2 * cfg.ConfigArcRadius) ((itemAt items (i + 1)).up + cfg.ConfigVerticalSeparation) := by
  have hi := h _ (itemAt_mem items i (by omega))
  have hn := itemAt_idx items (i + 1) hlt
  have hn' : idx items ((i : Int) + 1) = some (itemAt items (i + 1)) := by
    rw [← hn]; congr 1
  have hnt := h _ (itemAt_mem items (i + 1) hlt)
  simp only [stack.connectorPen, stack.connector, penPath_arc_eq, arcParams_ne, arcParams_es,
    arcParams_nw, arcParams_ws, arc_ne, arc_es, arc_nw, arc_ws, getDown_eq hi, hn',
    getUp_eq hnt, Option.bind_eq_bind, Option.some_bind, Option.pure_def, Option.map_some']
  refine ⟨_, rfl, rfl, ?_, ?_⟩
  · simp only [penPath.down, penPath.left, penPath.v, penPath.h, newPenPath, max_eq_right hiw]
    ring
  · simp only [penPath.down, penPath.left, penPath.v, penPath.h, newPenPath]
    have e : ∀ a : ℚ, max 0 (max 0 (a - 2 * cfg.ConfigArcRadius)) + 2 * cfg.ConfigArcRadius =
        max (2 * cfg.ConfigArcRadius) a := by
      intro a
      rw [max_eq_right (le_max_left _ _), ← max_add_add_right, zero_add, sub_add_cancel]
    have e1 := e ((itemAt items i).down + cfg.ConfigVerticalSeparation)
    have e2 := e ((itemAt items (i + 1)).up + cfg.ConfigVerticalSeparation)
    rw [mul_comm cfg.ConfigArcRadius 2]
    linarith

/-- One run of the body of the loop of `stack.format` on a row that is not the
last one. -/
theorem stack_formatBody_row (cfg : Config) (items : List RailItem)
    (h : ∀ r ∈ items, r.isText = false) (x0 iw : ℚ) (i : Nat) (hlt : i + 1 < items.length)
    (x y : ℚ) (p : path)
    (hp : stack.connector cfg items iw (itemAt items i) i (x + iw) (y + (itemAt items i).height) =
      some p) :
    stack.formatBody cfg items x0 iw (itemAt items i) i (x, y) =
      some ([Step.place i x y iw, Step.add p.toItem],
        (x0 + cfg.ConfigArcRadius, y + (itemAt items i).height +
          Stack.between cfg (itemAt items i, itemAt items (i + 1)))) := by
  have hi := h _ (itemAt_mem items i (by omega))
  have hn := itemAt_idx items (i + 1) hlt
  have hn' : idx items ((i : Int) + 1) = some (itemAt items (i + 1)) := by
    rw [← hn]; congr 1
  have hnt := h _ (itemAt_mem items (i + 1) hlt)
  have hl : (i : Int) ≠ (items.length : Int) - 1 := by omega
  simp only [stack.formatBody, getHeight_eq hi, getDown_eq hi, hn', getUp_eq hnt, hp,
    Option.bind_eq_bind, Option.some_bind, Option.pure_def, if_pos hl, Stack.between,
    mul_comm cfg.ConfigArcRadius 2,
    max_comm (2 * cfg.ConfigArcRadius) ((itemAt items i).down + cfg.ConfigVerticalSeparation),
    max_comm (2 * cfg.ConfigArcRadius) ((itemAt items (i + 1)).up + cfg.ConfigVerticalSeparation)]

/-- The cursor after the loop of `stack.format`, run from row `i`. -/
theorem stack_cursor (cfg : Config) (items : List RailItem)
    (h : ∀ r ∈ items, r.isText = false) (x0 iw : ℚ) (rest : List RailItem) (i : Nat)
    (hrest : items.drop i = rest) (hne : rest ≠ []) (y : ℚ) :
    ∃ steps, forRange (stack.formatBody cfg items x0 iw) rest i (x0 + cfg.ConfigArcRadius, y) =
      some (steps, x0 + cfg.ConfigArcRadius + iw,
        y + (rest.map RailItem.height).sum + ((rest.zip rest.tail).map (Stack.between cfg)).sum) := by
  induction rest generalizing i y with
  | nil => exact absurd rfl hne
  | cons item rest ih =>
    obtain ⟨hlt, hitem, hdrop⟩ := itemAt_drop items i item rest hrest
    subst hitem
    have hi := h _ (itemAt_mem items i hlt)
    cases rest with
    | nil =>
      have hlen : items.length ≤ i + 1 := by
        by_contra hc
        have := List.drop_eq_nil_iff.mp hdrop
        omega
      have hl : ¬ (i : Int) ≠ (items.length : Int) - 1 := by omega
      refine ⟨[Step.place i (x0 + cfg.ConfigArcRadius) y iw], ?_⟩
      simp only [forRange, stack.formatBody, getHeight_eq hi, Option.bind_eq_bind,
        Option.some_bind, Option.pure_def, if_neg hl, List.append_nil, List.map_cons,
        List.map_nil, List.sum_cons, List.sum_nil, List.tail_cons, List.zip_nil_right, add_zero]
    | cons b t =>
      obtain ⟨hlt2, hb, -⟩ := itemAt_drop items (i + 1) b t hdrop
      obtain ⟨p, hp⟩ := stack_connector_some cfg items h iw (itemAt items i) hi i hlt2
        (x0 + cfg.ConfigArcRadius + iw) (y + (itemAt items i).height)
      obtain ⟨tail, htail⟩ := ih (i + 1) hdrop (by simp)
        (y + (itemAt items i).height + Stack.between cfg (itemAt items i, itemAt items (i + 1)))
      refine ⟨[Step.place i (x0 + cfg.ConfigArcRadius) y iw, Step.add p.toItem] ++ tail, ?_⟩
      rw [forRange, stack_formatBody_row cfg items h x0 iw i hlt2 _ _ p hp]
      simp only [Option.bind_eq_bind, Option.some_bind, Option.pure_def, htail]
      rw [hb]
      simp only [List.map_cons, List.sum_cons, List.tail_cons, List.zip_cons_cons]
      congr 3
      ring

/-- C27 as stated fails in `float64`.  With `ConfigArcRadius = 7.7`, the stack
`Stack(Terminal("a"), Terminal("b"))` has the inner width 48.  With the
gap-adjusted origin `x = 20`, the rows are placed at `20 + 7.7`, rounded; the
connector after the first row starts at that origin plus 48, rounded, its pen
moves by `(-48, 38)`, and it ends `2^-48` to the right of the origin of the
second row. -/
theorem stack_connector_rounding_counterexample :
    Stack.maxSpaced [Terminal configArcRadius77 "a", Terminal configArcRadius77 "b"] 0 = 48 ∧
    innerWidth64 configArcRadius77 2 (widthWithArcs64 configArcRadius77 2 48) = 48 ∧
    stack.rowOrigin64 configArcRadius77 20 = 7796856854885171 / 281474976710656 ∧
    (stack.connectorPen configArcRadius77
      [Terminal configArcRadius77 "a", Terminal configArcRadius77 "b"] 48
      (Terminal configArcRadius77 "a") 0 (stack.connectorStart64 configArcRadius77 20 48) 0).map
        (fun pp => (pp.dx, pp.dy)) = some (-48, 38) ∧
    stack.connectorStart64 configArcRadius77 20 48 + -48 =
      stack.rowOrigin64 configArcRadius77 20 + 1 / 2 ^ 48 := by
  decide!

/-- C27, amended: under a configuration on which the `float64` arithmetic of
the metrics is exact (its distances are integers), for every stack of at least
two rows, placed with its gap-adjusted origin at `x0`: the row `i` that is not
the last one is placed at the cursor `(x0 + R, y0)` with the inner width
`width - 2R`; the connector drawn after it starts at the end of the row, and
the displacement of its pen is
`(-innerWidth, max(2R, down_i + V) + max(2R, up_{i+1} + V))`; the cursor of the
next row is the point where the connector ends.  The cursor after the last
row and the closing rail is `(x + leftGap + width, y + height)`.  On such a
configuration the `float64` computation is the exact one for an exact origin
and inner width: the connector, started at the origin of the rows plus the
inner width, ends on the origin of the rows. -/
theorem stack_connector_displacement (cfg : Config) (hx : cfg.exact64 = true)
    (items : List RailItem) (h2 : 2 ≤ items.length) (h : ∀ r ∈ items, r.isText = false) :
    (∃ di, Stack cfg items = some (.stack di [] items) ∧
      (∀ i, i + 1 < items.length → ∀ x0 y0 : ℚ, ∃ pp,
        stack.connectorPen cfg items (di.width - cfg.ConfigArcRadius * 2) (itemAt items i) i
          (x0 + cfg.ConfigArcRadius + (di.width - cfg.ConfigArcRadius * 2))
          (y0 + (itemAt items i).height) = some pp ∧
        pp.dx = -(di.width - cfg.ConfigArcRadius * 2) ∧
        pp.dy = max (2 * cfg.ConfigArcRadius)
            ((itemAt items i).down + cfg.ConfigVerticalSeparation) +
          max (2 * cfg.ConfigArcRadius)
            ((itemAt items (i + 1)).up + cfg.ConfigVerticalSeparation) ∧
        stack.formatBody cfg items x0 (di.width - cfg.ConfigArcRadius * 2) (itemAt items i) i
            (x0 + cfg.ConfigArcRadius, y0) =
          some ([Step.place i (x0 + cfg.ConfigArcRadius) y0 (di.width - cfg.ConfigArcRadius * 2),
              Step.add pp.p.toItem],
            (x0 + cfg.ConfigArcRadius + (di.width - cfg.ConfigArcRadius * 2) + pp.dx,
              y0 + (itemAt items i).height + pp.dy))) ∧
      ∀ x y W : ℚ, ∃ steps, stack.steps cfg di items x y W =
        some (steps, x + (determineGaps cfg W di.width).1 + di.width, y + di.height)) ∧
    (∀ x0 iw : ℚ, exact64 x0 = true → exact64 (x0 + cfg.ConfigArcRadius) = true →
      exact64 iw = true →
      stack.connectorStart64 cfg x0 iw + -iw = stack.rowOrigin64 cfg x0) := by
  refine ⟨?_, ?_⟩
  · have hne : items ≠ [] := by
      rintro rfl
      simp at h2
    have hl : 1 < items.length := by omega
    refine ⟨_, Stack_eq cfg items hne h, ?_, ?_⟩
    · intro i hi x0 y0
      dsimp only
      rw [if_pos hl]
      have hiw : Stack.maxSpaced items 0 + cfg.ConfigArcRadius * 2 - cfg.ConfigArcRadius * 2 =
          Stack.maxSpaced items 0 := by ring
      rw [hiw]
      obtain ⟨pp, h1, h2', h3, h4⟩ := stack_connectorPen_eq cfg items h (Stack.maxSpaced items 0)
        (Stack_maxSpaced_spec items 0).1 i hi (x0 + cfg.ConfigArcRadius + Stack.maxSpaced items 0)
        (y0 + (itemAt items i).height)
      refine ⟨pp, h1, h3, h4, ?_⟩
      rw [stack_formatBody_row cfg items h x0 _ i hi _ _ pp.p h2', h3, h4]
      simp only [Stack.between]
      congr 3
      ring
    · intro x y W
      dsimp only
      rw [if_pos hl]
      obtain ⟨tail, ht⟩ := stack_cursor cfg items h
        (x + (determineGaps cfg W (Stack.maxSpaced items 0 + cfg.ConfigArcRadius * 2)).1)
        (Stack.maxSpaced items 0 + cfg.ConfigArcRadius * 2 - cfg.ConfigArcRadius * 2)
        items 0 rfl hne y
      have hl' : items.length > 1 := hl
      simp only [stack.steps, Option.bind_eq_bind, Option.pure_def, if_pos hl', ht,
        Option.some_bind]
      have key : ∀ (A : List Step) (a b a' b' : ℚ), a = a' → b = b' →
          ∃ steps, (some (A, a, b) : Option (List Step × ℚ × ℚ)) = some (steps, a', b') :=
        fun A a b a' b' e1 e2 => ⟨A, by rw [e1, e2]⟩
      apply key
      · ring
      · ring
  · intro x0 iw h0 h1 hiw
    rw [← sub_eq_add_neg]
    exact stack_connectorStart64_exact cfg hx x0 iw h0 h1 hiw

/-- Witness of C27: the default configuration and
`Stack(Terminal("a"), Terminal("b"))`. -/
theorem stack_connector_displacement_witness :
    ∃ di, Stack defaultConfig [Terminal defaultConfig "a", Terminal defaultConfig "b"] =
        some (.stack di [] [Terminal defaultConfig "a", Terminal defaultConfig "b"]) ∧
      (∀ i, i + 1 < [Terminal defaultConfig "a", Terminal defaultConfig "b"].length →
        ∀ x0 y0 : ℚ, ∃ pp,
        stack.connectorPen defaultConfig [Terminal defaultConfig "a", Terminal defaultConfig "b"]
          (di.width - defaultConfig.ConfigArcRadius * 2)
          (itemAt [Terminal defaultConfig "a", Terminal defaultConfig "b"] i) i
          (x0 + defaultConfig.ConfigArcRadius + (di.width - defaultConfig.ConfigArcRadius * 2))
          (y0 + (itemAt [Terminal defaultConfig "a", Terminal defaultConfig "b"] i).height) =
            some pp ∧
        pp.dx = -(di.width - defaultConfig.ConfigArcRadius * 2) ∧
        pp.dy = max (2 * defaultConfig.ConfigArcRadius)
            ((itemAt [Terminal defaultConfig "a", Terminal defaultConfig "b"] i).down +
              defaultConfig.ConfigVerticalSeparation) +
          max (2 * defaultConfig.ConfigArcRadius)
            ((itemAt [Terminal defaultConfig "a", Terminal defaultConfig "b"] (i + 1)).up +
              defaultConfig.ConfigVerticalSeparation) ∧
        stack.formatBody defaultConfig [Terminal defaultConfig "a", Terminal defaultConfig "b"] x0
            (di.width - defaultConfig.ConfigArcRadius * 2)
            (itemAt [Terminal defaultConfig "a", Terminal defaultConfig "b"] i) i
            (x0 + defaultConfig.ConfigArcRadius, y0) =
          some ([Step.place i (x0 + defaultConfig.ConfigArcRadius) y0
                (di.width - defaultConfig.ConfigArcRadius * 2),
              Step.add pp.p.toItem],
            (x0 + defaultConfig.ConfigArcRadius +
                (di.width - defaultConfig.ConfigArcRadius * 2) + pp.dx,
              y0 + (itemAt [Terminal defaultConfig "a", Terminal defaultConfig "b"] i).height +
                pp.dy))) ∧
      ∀ x y W : ℚ, ∃ steps, stack.steps defaultConfig di
          [Terminal defaultConfig "a", Terminal defaultConfig "b"] x y W =
        some (steps, x + (determineGaps defaultConfig W di.width).1 + di.width, y + di.height) :=
  (stack_connector_displacement defaultConfig (by decide!)
    [Terminal defaultConfig "a", Terminal defaultConfig "b"] (by decide) (by decide)).1

end Railroad
